import Mathlib

/-!
Ethereal (C++ port): board, FEN and move packing.

A shallow embedding of `src/src/board.cpp`, `src/src/board.h` and `src/src/move.h`.

Conventions of the embedding:

* a C++ array is a function from its index (`Nat`), an assignment `a[i] = v` is `upd a i v`;
* `uint64_t` bitboards and hash keys are `Nat`; only `|`, `&`, `^` and shifts by less than 64
  are applied to them, none of which leaves the 64-bit range;
* `int` is `Int`; the running score `psqtmat`, a sum of table entries, is reduced to the
  32-bit two's complement range after each addition (`toInt32`), the other `int` values are
  counters and square indices that stay far inside the range;
* `std::string` is `List Char`, and `s[i]` past the end reads the terminating NUL;
* a failed `assert`, an exception thrown by `std::stoi` and a call the C++ leaves undefined
  are the three kinds of `Fault`; a function that can meet one returns `Except Fault`.
-/

namespace Ethereal

/-! ## Constants and helpers of `types.h` and `bitboards.h` -/

/-- Modelled from the spec: `types.h` is not among the sources. The colour index of White. -/
def WHITE : Nat := 0

/-- Modelled from the spec: `types.h` is not among the sources. The colour index of Black. -/
def BLACK : Nat := 1

/-- Modelled from the spec: `types.h` is not among the sources. Number of colours. -/
def COLOUR_NB : Nat := 2

/-- Modelled from the spec: `types.h` is not among the sources. Piece type pawn. -/
def PAWN : Nat := 0

/-- Modelled from the spec: `types.h` is not among the sources. Piece type knight. -/
def KNIGHT : Nat := 1

/-- Modelled from the spec: `types.h` is not among the sources. Piece type bishop. -/
def BISHOP : Nat := 2

/-- Modelled from the spec: `types.h` is not among the sources. Piece type rook. -/
def ROOK : Nat := 3

/-- Modelled from the spec: `types.h` is not among the sources. Piece type queen. -/
def QUEEN : Nat := 4

/-- Modelled from the spec: `types.h` is not among the sources. Piece type king. -/
def KING : Nat := 5

/-- Modelled from the spec: `types.h` is not among the sources. Number of piece types. -/
def PIECE_NB : Nat := 6

/-- Modelled from the spec: `types.h` is not among the sources. Number of squares. -/
def SQUARE_NB : Nat := 64

/-- Modelled from the spec: `types.h` is not among the sources. The mailbox value of an empty
square; its type part is 6 and its colour part is 2, the spare slots of `pieces[8]` and
`colours[3]` in `Board`. -/
def EMPTY : Nat := 26

/-- Modelled from the spec: `types.h` is not among the sources. A tagged piece (type+colour):
four codes per type, the colour in the low part (the black code is the white code plus one,
and the piece-square tables of `psqt.c` have 32 rows). -/
def makePiece (type colour : Nat) : Nat := type * 4 + colour

/-- Modelled from the spec: `types.h` is not among the sources. Type part of a tagged piece. -/
def pieceType (piece : Nat) : Nat := piece / 4

/-- Modelled from the spec: `types.h` is not among the sources. Colour part of a tagged piece. -/
def pieceColour (piece : Nat) : Nat := piece % 4

/-- Modelled from the spec: `types.h` is not among the sources. Square index of a rank and file. -/
def square (rank file : Int) : Int := rank * 8 + file

/-- Modelled from the spec: `types.h` is not among the sources. File of a square (C remainder). -/
def fileOf (sq : Int) : Int := Int.tmod sq 8

/-- Modelled from the spec: `types.h` is not among the sources. Rank of a square (C quotient). -/
def rankOf (sq : Int) : Int := Int.tdiv sq 8

/-- Modelled from the spec: `bitboards.h` is not among the sources. All 64 bits set. -/
def allON : Nat := 2 ^ 64 - 1

/-- Modelled from the spec: `bitboards.h` is not among the sources. Squares a1..h1. -/
def RANK_1 : Nat := 0xFF

/-- Modelled from the spec: `bitboards.h` is not among the sources. Squares a8..h8. -/
def RANK_8 : Nat := 0xFF00000000000000

/-- Modelled from the spec: `bitboards.h` is not among the sources. Squares a1..a8. -/
def FILE_A : Nat := 0x0101010101010101

/-- Modelled from the spec: `bitboards.h` is not among the sources. Squares h1..h8. -/
def FILE_H : Nat := 0x8080808080808080

/-- Modelled from the spec: `bitboards.h` is not among the sources. Whether bit `i` is set. -/
def testBit (bb i : Nat) : Bool := Nat.testBit bb i

/-- Modelled from the spec: `bitboards.h` is not among the sources. Sets bit `i`. -/
def setBit (bb i : Nat) : Nat := bb ||| (1 <<< i)

/-- Modelled from the spec: `bitboards.h` is not among the sources. Clears bit `i`. -/
def clearBit (bb i : Nat) : Nat := bb ^^^ (bb &&& (1 <<< i))

/-- Modelled from the spec: `bitboards.h` is not among the sources. Number of set bits of a
64-bit board. -/
def popcount (bb : Nat) : Nat := (List.range 64).countP (fun i => testBit bb i)

/-- Modelled from the spec: `bitboards.h` is not among the sources. More than one bit set. -/
def several (bb : Nat) : Bool := decide (1 < popcount bb)

/-- Modelled from the spec: `bitboards.h` is not among the sources. Index of the lowest set
bit; the empty board has none (the C++ is undefined there). -/
def getlsb (bb : Nat) : Option Nat := (List.range 64).find? (fun i => testBit bb i)

/-- Modelled from the spec: `bitboards.h` is not among the sources. Index of the highest set
bit; the empty board has none (the C++ is undefined there). -/
def getmsb (bb : Nat) : Option Nat := (List.range 64).reverse.find? (fun i => testBit bb i)

/-- Modelled from the spec: `bitboards.h` is not among the sources. Removes the lowest set bit
and returns its index. -/
def poplsb (bb : Nat) : Option (Nat × Nat) := (getlsb bb).map (fun i => (i, clearBit bb i))

/-- Modelled from the spec: `bitboards.h` is not among the sources. Removes the highest set bit
and returns its index. -/
def popmsb (bb : Nat) : Option (Nat × Nat) := (getmsb bb).map (fun i => (i, clearBit bb i))

/-- The value that a 32-bit `int` holds after an addition with mathematical result `x`. -/
def toInt32 (x : Int) : Int := (x + 2147483648) % 4294967296 - 2147483648

/-- Array assignment `a[i] = v`. -/
def upd {α : Type} (a : Nat → α) (i : Nat) (v : α) : Nat → α :=
  fun j => if j = i then v else a j

/-! ## `board.h` -/

/-- The class `Board` of `board.h`. -/
structure Board where
  squares : Nat → Nat
  pieces : Nat → Nat
  colours : Nat → Nat
  history : Nat → Nat
  hash : Nat
  pkhash : Nat
  kingAttackers : Nat
  castleRooks : Nat
  castleMasks : Nat → Nat
  turn : Int
  epSquare : Int
  halfMoveCounter : Int
  fullMoveCounter : Int
  psqtmat : Int
  numMoves : Int
  chess960 : Int

/-- The struct `Undo` of `board.h`. -/
structure Undo where
  hash : Nat
  pkhash : Nat
  kingAttackers : Nat
  castleRooks : Nat
  epSquare : Int
  halfMoveCounter : Int
  psqtmat : Int
  capturePiece : Int

/-- The call operator `Board::operator()`: every byte zeroed, then every mailbox entry set to
`EMPTY`. -/
def Board.clear : Board :=
  { squares := fun _ => EMPTY, pieces := fun _ => 0, colours := fun _ => 0,
    history := fun _ => 0, hash := 0, pkhash := 0, kingAttackers := 0, castleRooks := 0,
    castleMasks := fun _ => 0, turn := 0, epSquare := 0, halfMoveCounter := 0,
    fullMoveCounter := 0, psqtmat := 0, numMoves := 0, chess960 := 0 }

/-- Modelled from the spec: the piece-square table `PSQT`, the Zobrist key tables of
`zobrist.h` and `attackersToKingSquare` of `attacks.h` are not among the sources; they are
taken as parameters. -/
structure Tables where
  PSQT : Nat → Nat → Int
  ZobristKeys : Nat → Nat → Nat
  ZobristEnpassKeys : Nat → Nat
  ZobristCastleKeys : Nat → Nat
  ZobristTurnKey : Nat
  attackersToKingSquare : Board → Nat

/-- What stops a call short of its result. -/
inductive Fault where
  | assertion
  | undefinedCall
  | invalidArgument
  | outOfRange
  deriving DecidableEq

/-! ## `board.cpp`: reading a FEN -/

/-- The array `PieceLabel` of `board.cpp`; it has an entry for each of the two colours. -/
def PieceLabel (colour : Nat) : List Char :=
  if colour = 0 then ['P', 'N', 'B', 'R', 'Q', 'K']
  else if colour = 1 then ['p', 'n', 'b', 'r', 'q', 'k']
  else []

/-- The function `setSquare` of `board.cpp`. -/
def setSquare (T : Tables) (board : Board) (colour piece : Nat) (sq : Int) :
    Except Fault Board :=
  if ¬ (colour < COLOUR_NB) then .error .assertion
  else if ¬ (piece < PIECE_NB) then .error .assertion
  else if ¬ (0 ≤ sq ∧ sq < SQUARE_NB) then .error .assertion
  else
    let s := sq.toNat
    let pc := makePiece piece colour
    .ok { board with
      squares := upd board.squares s pc
      colours := upd board.colours colour (setBit (board.colours colour) s)
      pieces := upd board.pieces piece (setBit (board.pieces piece) s)
      psqtmat := toInt32 (board.psqtmat + T.PSQT pc s)
      hash := board.hash ^^^ T.ZobristKeys pc s
      pkhash := if piece = PAWN ∨ piece = KING then board.pkhash ^^^ T.ZobristKeys pc s
                else board.pkhash }

/-- The C library test `isdigit`. -/
def isdigit (ch : Char) : Bool := decide (48 ≤ ch.toNat ∧ ch.toNat ≤ 57)

/-- The C library test `islower`. -/
def islower (ch : Char) : Bool := decide (97 ≤ ch.toNat ∧ ch.toNat ≤ 122)

/-- The C library search `strchr`, as the offset of the first occurrence. -/
def strchr : List Char → Char → Option Nat
  | [], _ => none
  | c :: cs, ch => if c = ch then some 0 else (strchr cs ch).map (fun k => k + 1)

/-- Modelled from the spec: `parse` is not among the sources. It takes the next
blank-separated field off the front of the FEN text; the result is the field and the rest. -/
def parse (fen : List Char) : List Char × List Char :=
  let s := fen.dropWhile (fun c => c = ' ')
  (s.takeWhile (fun c => c ≠ ' '), s.dropWhile (fun c => c ≠ ' '))

/-- The piece placement loop of `boardFromFEN`. -/
def placementLoop (T : Tables) : List Char → Int → Board → Except Fault Board
  | [], _, board => .ok board
  | ch :: rest, sq, board =>
    if ch.toNat = 0 then .ok board
    else if isdigit ch then placementLoop T rest (sq + (ch.toNat - 48)) board
    else if ch = '/' then placementLoop T rest (sq - 16) board
    else
      let colour : Nat := if islower ch then 1 else 0
      match strchr (PieceLabel colour) ch with
      | some piece =>
        match setSquare T board colour piece sq with
        | .ok b => placementLoop T rest (sq + 1) b
        | .error e => .error e
      | none => placementLoop T rest sq board

/-- Reads a bit index from `getlsb` or `getmsb`. -/
def bitIndex (r : Option Nat) : Except Fault Nat :=
  match r with
  | some i => .ok i
  | none => .error .undefinedCall

/-- The castling rights loop of `boardFromFEN`. -/
def castleLoop (white black rooks : Nat) : List Char → Nat → Except Fault Nat
  | [], castleRooks => .ok castleRooks
  | ch :: rest, castleRooks =>
    if ch.toNat = 0 then .ok castleRooks
    else if ch = 'K' then
      match bitIndex (getmsb (white &&& rooks &&& RANK_1)) with
      | .ok i => castleLoop white black rooks rest (setBit castleRooks i)
      | .error e => .error e
    else if ch = 'Q' then
      match bitIndex (getlsb (white &&& rooks &&& RANK_1)) with
      | .ok i => castleLoop white black rooks rest (setBit castleRooks i)
      | .error e => .error e
    else if ch = 'k' then
      match bitIndex (getmsb (black &&& rooks &&& RANK_8)) with
      | .ok i => castleLoop white black rooks rest (setBit castleRooks i)
      | .error e => .error e
    else if ch = 'q' then
      match bitIndex (getlsb (black &&& rooks &&& RANK_8)) with
      | .ok i => castleLoop white black rooks rest (setBit castleRooks i)
      | .error e => .error e
    else if 65 ≤ ch.toNat ∧ ch.toNat ≤ 72 then
      castleLoop white black rooks rest (setBit castleRooks (0 * 8 + (ch.toNat - 65)))
    else if 97 ≤ ch.toNat ∧ ch.toNat ≤ 104 then
      castleLoop white black rooks rest (setBit castleRooks (7 * 8 + (ch.toNat - 97)))
    else castleLoop white black rooks rest castleRooks

/-- The loop `while (rooks) board.hash ^= ZobristCastleKeys[poplsb(rooks)]`. -/
def castleHashLoop (T : Tables) : Nat → Nat → Nat → Nat
  | 0, _, hash => hash
  | fuel + 1, rooks, hash =>
    match poplsb rooks with
    | some (i, rest) => castleHashLoop T fuel rest (hash ^^^ T.ZobristCastleKeys i)
    | none => hash

/-- The function `stringToSquare` of `board.cpp`. -/
def stringToSquare (str : List Char) : Int :=
  if str.getD 0 (Char.ofNat 0) = '-' then -1
  else square ((str.getD 1 (Char.ofNat 0)).toNat - 49) ((str.getD 0 (Char.ofNat 0)).toNat - 97)

/-- Value of a run of decimal digits, most significant first. -/
def digitsValue : List Char → Nat → Nat
  | [], acc => acc
  | c :: cs, acc => digitsValue cs (acc * 10 + (c.toNat - 48))

/-- The C++ library conversion `std::stoi` in base 10: leading white space and one sign are
skipped, the longest run of digits is read; no digit throws `invalid_argument`, a value that
does not fit `int` throws `out_of_range`. -/
def stoi (str : List Char) : Except Fault Int :=
  let s := str.dropWhile (fun c => c = ' ' ∨ (9 ≤ c.toNat ∧ c.toNat ≤ 13))
  let neg := s.head? = some '-'
  let body := if s.head? = some '-' ∨ s.head? = some '+' then s.drop 1 else s
  let ds := body.takeWhile isdigit
  if ds = [] then .error .invalidArgument
  else
    let v : Int := if neg then -(digitsValue ds 0 : Int) else (digitsValue ds 0 : Int)
    if v < -2147483648 ∨ 2147483647 < v then .error .outOfRange else .ok v

/-- The constant `StandardCastles` of `boardFromFEN`. -/
def StandardCastles : Nat := (1 <<< 0) ||| (1 <<< 7) ||| (1 <<< 56) ||| (1 <<< 63)

/-- The castle mask of one square, as the body of the loop over `castleMasks` computes it. -/
def castleMaskOf (castleRooks white black kings sq : Nat) : Nat :=
  let m0 := allON
  let m1 := if testBit castleRooks sq then clearBit m0 sq else m0
  let m2 := if testBit (white &&& kings) sq then m1 &&& (allON ^^^ white) else m1
  if testBit (black &&& kings) sq then m2 &&& (allON ^^^ black) else m2

/-- The statement `if (board.epSquare != -1) board.hash ^= ZobristEnpassKeys[fileOf(board.epSquare)]`
of `boardFromFEN`. Modelled from the spec: `zobrist.h` is not among the sources; the table
holds one key per file, so it has 8 entries, and a read at an index below 0 or above 7 is
outside the table, which is undefined. The file of a negative square other than -1 is
negative unless the square is a multiple of 8. -/
def enpassHash (T : Tables) (hash : Nat) (epSquare : Int) : Except Fault Nat :=
  if epSquare ≠ -1 then
    if 0 ≤ fileOf epSquare ∧ fileOf epSquare < 8 then
      .ok (hash ^^^ T.ZobristEnpassKeys (fileOf epSquare).toNat)
    else .error .undefinedCall
  else .ok hash

/-- The function `boardFromFEN` of `board.cpp`. Each call `parse(fen, word)` takes the next
field off the text that the calls before it left. The en-passant key is read from its table
before the two counters are converted, so a FEN whose en-passant field gives a square with a
negative file ends in that read, whatever the counters are. -/
def boardFromFEN (T : Tables) (fens : List Char) (chess960 : Int) : Except Fault Board :=
  let word0 := (parse fens).1
  let fen1 := (parse fens).2
  match placementLoop T word0 56 Board.clear with
  | .error e => .error e
  | .ok b0 =>
    let word1 := (parse fen1).1
    let fen2 := (parse fen1).2
    let turn : Int := if word1.getD 0 (Char.ofNat 0) = 'w' then 0 else 1
    let hash1 := if turn = 1 then b0.hash ^^^ T.ZobristTurnKey else b0.hash
    let word2 := (parse fen2).1
    let fen3 := (parse fen2).2
    let rooks := b0.pieces ROOK
    let kings := b0.pieces KING
    let white := b0.colours WHITE
    let black := b0.colours BLACK
    match castleLoop white black rooks word2 b0.castleRooks with
    | .error e => .error e
    | .ok castleRooks =>
      let castleMasks : Nat → Nat := fun sq =>
        if sq < SQUARE_NB then castleMaskOf castleRooks white black kings sq
        else b0.castleMasks sq
      let hash2 := castleHashLoop T 64 castleRooks hash1
      let word3 := (parse fen3).1
      let fen4 := (parse fen3).2
      let epSquare := stringToSquare word3
      match enpassHash T hash2 epSquare with
      | .error e => .error e
      | .ok hash3 =>
        let word4 := (parse fen4).1
        let fen5 := (parse fen4).2
        match stoi word4 with
        | .error e => .error e
        | .ok halfMoveCounter =>
          let word5 := (parse fen5).1
          match stoi word5 with
          | .error e => .error e
          | .ok fullMoveCounter =>
            let b1 : Board :=
              { b0 with
                turn := turn, castleRooks := castleRooks, castleMasks := castleMasks,
                hash := hash3, epSquare := epSquare, halfMoveCounter := halfMoveCounter,
                fullMoveCounter := fullMoveCounter, numMoves := 0 }
            let b2 : Board := { b1 with kingAttackers := T.attackersToKingSquare b1 }
            .ok { b2 with
              chess960 :=
                if chess960 ≠ 0 ∨ (b2.castleRooks &&& (allON ^^^ StandardCastles)) ≠ 0 then 1
                else 0 }

/-! ## `board.cpp`: writing a FEN -/

/-- The assignment `fen[i] = ch` into the caller's buffer; a write past its end is undefined. -/
def put (fen : List Char) (i : Nat) (ch : Char) : Except Fault (List Char) :=
  if i < fen.length then .ok (fen.set i ch) else .error .undefinedCall

/-- Writes the characters of `str` into the buffer from index `i` on. -/
def putAll : List Char → Nat → List Char → Except Fault (List Char)
  | fen, _, [] => .ok fen
  | fen, i, ch :: rest =>
    match put fen i ch with
    | .ok fen1 => putAll fen1 (i + 1) rest
    | .error e => .error e

/-- The function `squareToString` of `board.cpp`, without the terminating NUL. -/
def squareToString (sq : Int) : Except Fault (List Char) :=
  if ¬ (-1 ≤ sq ∧ sq < SQUARE_NB) then .error .assertion
  else if sq = -1 then .ok [Char.ofNat 45]
  else .ok [Char.ofNat ((fileOf sq).toNat + 97), Char.ofNat ((rankOf sq).toNat + 49)]

/-- The conversion `%d` of `sprintf`. -/
def formatInt (v : Int) : List Char :=
  if v < 0 then Char.ofNat 45 :: Nat.toDigits 10 v.natAbs else Nat.toDigits 10 v.natAbs

/-- One square of the placement part of `boardToFEN`: the state is the buffer, the write
index `i` and the run length `cnt` of empty squares. -/
def fenSquare (board : Board) (r f : Nat) (st : List Char × Nat × Nat) :
    Except Fault (List Char × Nat × Nat) :=
  let (fen, i, cnt) := st
  let p := board.squares (r * 8 + f)
  if p ≠ EMPTY then
    match (if cnt ≠ 0 then (put fen i (Char.ofNat (cnt + 48))).map (fun b => (b, i + 1))
           else .ok (fen, i)) with
    | .error e => .error e
    | .ok (fen1, i1) =>
      match (PieceLabel (pieceColour p)).get? (pieceType p) with
      | none => .error .undefinedCall
      | some ch => (put fen1 i1 ch).map (fun b => (b, i1 + 1, 0))
  else .ok (fen, i, cnt + 1)

/-- The inner loop of `boardToFEN` over the files `f, f+1, ..` of rank `r`. -/
def fenFiles (board : Board) (r : Nat) :
    List Nat → List Char × Nat × Nat → Except Fault (List Char × Nat × Nat)
  | [], st => .ok st
  | f :: fs, st =>
    match fenSquare board r f st with
    | .ok st1 => fenFiles board r fs st1
    | .error e => .error e

/-- The outer loop of `boardToFEN` over the ranks, highest first. -/
def fenRanks (board : Board) : List Nat → List Char × Nat → Except Fault (List Char × Nat)
  | [], st => .ok st
  | r :: rs, (fen, i) =>
    match fenFiles board r (List.range 8) (fen, i, 0) with
    | .error e => .error e
    | .ok (fen1, i1, cnt) =>
      match (if cnt ≠ 0 then (put fen1 i1 (Char.ofNat (cnt + 48))).map (fun b => (b, i1 + 1))
             else .ok (fen1, i1)) with
      | .error e => .error e
      | .ok (fen2, i2) =>
        match put fen2 i2 (if r = 0 then ' ' else '/') with
        | .error e => .error e
        | .ok fen3 => fenRanks board rs (fen3, i2 + 1)

/-- The castle rights loops of `boardToFEN`; `base` is `'A'` for White and `'a'` for Black,
`kingSide` and `queenSide` are the two letters of the colour. -/
def fenCastles (board : Board) (base : Nat) (kingSide queenSide : Char) :
    Nat → Nat → List Char × Nat → Except Fault (List Char × Nat)
  | 0, _, st => .ok st
  | fuel + 1, castles, (fen, i) =>
    match popmsb castles with
    | none => .ok (fen, i)
    | some (sq, rest) =>
      if board.chess960 ≠ 0 then
        match put fen i (Char.ofNat (base + (fileOf sq).toNat)) with
        | .ok fen1 => fenCastles board base kingSide queenSide fuel rest (fen1, i + 1)
        | .error e => .error e
      else if testBit FILE_H sq then
        match put fen i kingSide with
        | .ok fen1 => fenCastles board base kingSide queenSide fuel rest (fen1, i + 1)
        | .error e => .error e
      else if testBit FILE_A sq then
        match put fen i queenSide with
        | .ok fen1 => fenCastles board base kingSide queenSide fuel rest (fen1, i + 1)
        | .error e => .error e
      else fenCastles board base kingSide queenSide fuel rest (fen, i)

/-- The function `boardToFEN` of `board.cpp`; `fen` is the caller's buffer and the result is
that buffer after the call. The last statement is `sprintf(&fen[0], ...)`: it writes from
index 0. -/
def boardToFEN (board : Board) (fen : List Char) : Except Fault (List Char) :=
  match fenRanks board [7, 6, 5, 4, 3, 2, 1, 0] (fen, 0) with
  | .error e => .error e
  | .ok (fen1, i1) =>
    match putAll fen1 i1 [if board.turn = 0 then 'w' else 'b', ' '] with
    | .error e => .error e
    | .ok fen2 =>
      match fenCastles board 65 'K' 'Q' 64 (board.colours WHITE &&& board.castleRooks)
              (fen2, i1 + 2) with
      | .error e => .error e
      | .ok (fen3, i3) =>
        match fenCastles board 97 'k' 'q' 64 (board.colours BLACK &&& board.castleRooks)
                (fen3, i3) with
        | .error e => .error e
        | .ok (fen4, i4) =>
          match (if board.castleRooks = 0 then (put fen4 i4 (Char.ofNat 45)) else .ok fen4) with
          | .error e => .error e
          | .ok fen5 =>
            match squareToString board.epSquare with
            | .error e => .error e
            | .ok str =>
              putAll fen5 0
                ([' '] ++ str ++ [' '] ++ formatInt board.halfMoveCounter ++ [' ']
                  ++ formatInt board.fullMoveCounter ++ [Char.ofNat 0])

/-- The text of a buffer read as a C string: the characters before the first NUL. -/
def cString (fen : List Char) : List Char := fen.takeWhile (fun c => c.toNat ≠ 0)

/-! ## `board.cpp`: draws -/

/-- The function `boardDrawnByFiftyMoveRule` of `board.cpp`. -/
def boardDrawnByFiftyMoveRule (board : Board) : Int :=
  if board.halfMoveCounter > 99 then 1 else 0

/-- The loop of `boardDrawnByRepetition`, from index `i` with `reps` matches counted; one unit
of fuel is one pass through the loop body. -/
def repetitionLoop (board : Board) (height : Int) : Nat → Int → Int → Int
  | 0, _, _ => 0
  | fuel + 1, i, reps =>
    if ¬ (i ≥ 0) then 0
    else if i < board.numMoves - board.halfMoveCounter then 0
    else if board.history i.toNat = board.hash then
      if i > board.numMoves - height then 1
      else if reps + 1 = 2 then 1
      else repetitionLoop board height fuel (i - 2) (reps + 1)
    else repetitionLoop board height fuel (i - 2) reps

/-- The function `boardDrawnByRepetition` of `board.cpp`; the loop runs at most
`numMoves / 2` times. -/
def boardDrawnByRepetition (board : Board) (height : Int) : Int :=
  repetitionLoop board height board.numMoves.toNat (board.numMoves - 2) 0

/-- The function `boardDrawnByInsufficientMaterial` of `board.cpp`. -/
def boardDrawnByInsufficientMaterial (board : Board) : Int :=
  if (board.pieces PAWN ||| board.pieces ROOK ||| board.pieces QUEEN) = 0
      ∧ (several (board.colours WHITE) = false ∨ several (board.colours BLACK) = false)
      ∧ (several (board.pieces KNIGHT ||| board.pieces BISHOP) = false
          ∨ (board.pieces BISHOP = 0 ∧ popcount (board.pieces KNIGHT) ≤ 2))
  then 1 else 0

/-- The function `boardIsDrawn` of `board.cpp`. -/
def boardIsDrawn (board : Board) (height : Int) : Int :=
  if boardDrawnByFiftyMoveRule board ≠ 0 ∨ boardDrawnByRepetition board height ≠ 0
      ∨ boardDrawnByInsufficientMaterial board ≠ 0
  then 1 else 0

/-! ## `move.h` -/

def NONE_MOVE : Nat := 0
def NULL_MOVE : Nat := 11
def NORMAL_MOVE : Nat := 0 <<< 12
def CASTLE_MOVE : Nat := 1 <<< 12
def ENPASS_MOVE : Nat := 2 <<< 12
def PROMOTION_MOVE : Nat := 3 <<< 12
def PROMOTE_TO_KNIGHT : Nat := 0 <<< 14
def PROMOTE_TO_BISHOP : Nat := 1 <<< 14
def PROMOTE_TO_ROOK : Nat := 2 <<< 14
def PROMOTE_TO_QUEEN : Nat := 3 <<< 14

/-- The macro `MoveFrom` of `move.h`. -/
def MoveFrom (move : Nat) : Nat := (move >>> 0) &&& 63

/-- The macro `MoveTo` of `move.h`. -/
def MoveTo (move : Nat) : Nat := (move >>> 6) &&& 63

/-- The macro `MoveType` of `move.h`. -/
def MoveType (move : Nat) : Nat := move &&& (3 <<< 12)

/-- The macro `MovePromoType` of `move.h`. -/
def MovePromoType (move : Nat) : Nat := move &&& (3 <<< 14)

/-- The macro `MovePromoPiece` of `move.h`. -/
def MovePromoPiece (move : Nat) : Nat := 1 + (move >>> 14)

/-- The macro `MoveMake` of `move.h`. -/
def MoveMake (src dst flag : Nat) : Nat := src ||| (dst <<< 6) ||| flag

/-- Modelled from the spec: `thread.h` is not among the sources. The per-worker stacks that
`apply` and `revert` index by `height`. -/
structure Thread where
  moveStack : Nat → Nat
  pieceStack : Nat → Nat
  undoStack : Nat → Undo

/-- Modelled from the spec: `move.cpp` is not among the sources. `applyMove`, `revertMove` and
`moveWasLegal` are taken as parameters; `applyMove` fills the undo record it is handed. -/
structure MoveOps where
  applyMove : Board → Nat → Undo → Board × Undo
  revertMove : Board → Nat → Undo → Board
  moveWasLegal : Board → Bool

/-- Modelled from the spec: `move.cpp` is not among the sources. `applyNullMove` toggles the
side to move, clears en-passant and increments `numMoves` without changing material; the
prior hash, en-passant square and halfmove clock go to the undo record, the prior hash
enters the history (so that the entries below `numMoves` stay valid) and the hash follows
the side to move and the en-passant file. -/
def applyNullMove (T : Tables) (board : Board) (undo : Undo) : Board × Undo :=
  let undo1 : Undo :=
    { undo with
      hash := board.hash, epSquare := board.epSquare,
      halfMoveCounter := board.halfMoveCounter }
  let hash1 := board.hash ^^^ T.ZobristTurnKey
  let hash2 :=
    if board.epSquare ≠ -1 then hash1 ^^^ T.ZobristEnpassKeys (fileOf board.epSquare).toNat
    else hash1
  ({ board with
      turn := if board.turn = 0 then 1 else 0
      history := upd board.history board.numMoves.toNat board.hash
      numMoves := board.numMoves + 1
      hash := hash2
      epSquare := -1 },
   undo1)

/-- The function `revertNullMove` of `move.h`. -/
def revertNullMove (board : Board) (undo : Undo) : Board :=
  { board with
    hash := undo.hash
    kingAttackers := 0
    epSquare := undo.epSquare
    halfMoveCounter := undo.halfMoveCounter
    turn := if board.turn = 0 then 1 else 0
    numMoves := board.numMoves - 1 }

/-- The function `apply` of `move.h`; the result is the returned value, the thread and the
board. -/
def apply (ops : MoveOps) (T : Tables) (thread : Thread) (board : Board) (move height : Nat) :
    Int × Thread × Board :=
  if move = NULL_MOVE then
    let thread1 : Thread := { thread with moveStack := upd thread.moveStack height NULL_MOVE }
    let r := applyNullMove T board (thread1.undoStack height)
    (1, { thread1 with undoStack := upd thread1.undoStack height r.2 }, r.1)
  else
    let thread1 : Thread :=
      { thread with
        moveStack := upd thread.moveStack height move
        pieceStack := upd thread.pieceStack height (pieceType (board.squares (MoveFrom move))) }
    let r := ops.applyMove board move (thread1.undoStack height)
    let thread2 : Thread := { thread1 with undoStack := upd thread1.undoStack height r.2 }
    if ops.moveWasLegal r.1 = false then
      (0, thread2, ops.revertMove r.1 move (thread2.undoStack height))
    else (1, thread2, r.1)

/-- The function `revert` of `move.h`. -/
def revert (ops : MoveOps) (thread : Thread) (board : Board) (move height : Nat) : Board :=
  if move = NULL_MOVE then revertNullMove board (thread.undoStack height)
  else ops.revertMove board move (thread.undoStack height)

/-! ## What the claims speak of -/

/-- The `n`-th blank-separated field of a FEN text, as the successive calls of `parse` in
`boardFromFEN` deliver them. -/
def fenField : List Char → Nat → List Char
  | fens, 0 => (parse fens).1
  | fens, n + 1 => fenField (parse fens).2 n

/-- A placement field that describes 8 ranks of exactly 8 squares each, read from rank index
`r` (0 is the eighth rank) with `f` squares of that rank already described: digits and piece
letters only, a `/` after every rank but the last, and each rank adding up to 8. -/
def placementWF : List Char → Nat → Nat → Bool
  | [], r, f => decide (r = 7 ∧ f = 8)
  | ch :: rest, r, f =>
    if ch.toNat = 0 then false
    else if isdigit ch then
      decide (f + (ch.toNat - 48) ≤ 8) && placementWF rest r (f + (ch.toNat - 48))
    else if ch = '/' then decide (f = 8 ∧ r < 7) && placementWF rest (r + 1) 0
    else
      match strchr (PieceLabel (if islower ch then 1 else 0)) ch with
      | some _ => decide (f < 8) && placementWF rest r (f + 1)
      | none => false

/-- The mailbox that a placement field describes: the writes of the placement loop to
`squares`, from square `sq` on. -/
def placementSquares : List Char → Int → (Nat → Nat) → (Nat → Nat)
  | [], _, m => m
  | ch :: rest, sq, m =>
    if ch.toNat = 0 then m
    else if isdigit ch then placementSquares rest (sq + (ch.toNat - 48)) m
    else if ch = '/' then placementSquares rest (sq - 16) m
    else
      match strchr (PieceLabel (if islower ch then 1 else 0)) ch with
      | some piece =>
        placementSquares rest (sq + 1)
          (upd m sq.toNat (makePiece piece (if islower ch then 1 else 0)))
      | none => placementSquares rest sq m

/-- A rook of the colour stands on the rank that starts at square `base`. -/
def hasRook (m : Nat → Nat) (colour base : Nat) : Bool :=
  (List.range 8).any (fun f => decide (m (base + f) = makePiece ROOK colour))

/-- A castling field over the mailbox `m`: `-`, or letters among `KQkq`, `A`..`H`, `a`..`h`,
where `K`, `Q` need a white rook on the first rank and `k`, `q` a black rook on the eighth. -/
def castlingWF (m : Nat → Nat) : List Char → Bool
  | [] => true
  | ch :: rest =>
    (if ch = 'K' ∨ ch = 'Q' then hasRook m WHITE 0
     else if ch = 'k' ∨ ch = 'q' then hasRook m BLACK 56
     else decide (ch = '-' ∨ (65 ≤ ch.toNat ∧ ch.toNat ≤ 72) ∨ (97 ≤ ch.toNat ∧ ch.toNat ≤ 104)))
    && castlingWF m rest

/-- An en-passant field: `-`, or a file letter `a`..`h` followed by a rank digit `1`..`8`. -/
def enpassWF (w : List Char) : Bool :=
  match w with
  | [c] => decide (c = '-')
  | [c, d] => decide (97 ≤ c.toNat ∧ c.toNat ≤ 104 ∧ 49 ≤ d.toNat ∧ d.toNat ≤ 56)
  | _ => false

/-- A move counter field: one to nine decimal digits. -/
def counterWF (w : List Char) : Bool :=
  decide (w ≠ []) && w.all isdigit && decide (w.length ≤ 9)

/-- A well-formed FEN: the placement describes 8 ranks of 8 squares, the castling letters are
backed by rooks, the en-passant field names a square or is `-`, and both counters are
numerals. -/
def fenWF (fens : List Char) : Bool :=
  placementWF (fenField fens 0) 0 0
    && castlingWF (placementSquares (fenField fens 0) 56 (fun _ => EMPTY)) (fenField fens 2)
    && enpassWF (fenField fens 3) && counterWF (fenField fens 4) && counterWF (fenField fens 5)

/-- XOR of `g 0`, ..., `g (n - 1)`. -/
def xorUpTo (g : Nat → Nat) : Nat → Nat
  | 0 => 0
  | n + 1 => xorUpTo g n ^^^ g n

/-- Sum of `g 0`, ..., `g (n - 1)`. -/
def sumUpTo (g : Nat → Int) : Nat → Int
  | 0 => 0
  | n + 1 => sumUpTo g n + g n

/-- XOR of `ZobristKeys[squares[sq]][sq]` over every occupied square. -/
def pieceHash (T : Tables) (squares : Nat → Nat) : Nat :=
  xorUpTo (fun s => if squares s = EMPTY then 0 else T.ZobristKeys (squares s) s) 64

/-- XOR of `ZobristCastleKeys[sq]` over every bit `sq` of `castleRooks`. -/
def castleHash (T : Tables) (castleRooks : Nat) : Nat :=
  xorUpTo (fun s => if testBit castleRooks s then T.ZobristCastleKeys s else 0) 64

/-- The Zobrist fold of a board from scratch: piece placements, the turn key exactly when
Black is to move, the castling rooks, and the en-passant file key exactly when the
en-passant square is not -1. -/
def zobristFold (T : Tables) (board : Board) : Nat :=
  pieceHash T board.squares
    ^^^ (if board.turn = 1 then T.ZobristTurnKey else 0)
    ^^^ castleHash T board.castleRooks
    ^^^ (if board.epSquare ≠ -1 then T.ZobristEnpassKeys (fileOf board.epSquare).toNat else 0)

/-- Sum of `PSQT[squares[sq]][sq]` over every occupied square. -/
def psqtSum (T : Tables) (squares : Nat → Nat) : Int :=
  sumUpTo (fun s => if squares s = EMPTY then 0 else T.PSQT (squares s) s) 64

/-- Position of a square in the order in which a FEN lists the squares (a8 first, h1 last). -/
def scanIndex (s : Nat) : Nat := (7 - s / 8) * 8 + s % 8

/-- The state of the board while the placement loop runs, `k` squares of the FEN order being
described so far: the squares still to come are empty, every mailbox entry is empty or a
piece, each bitboard holds exactly the squares whose mailbox entry has its type or colour,
and hash and material are those of the mailbox. -/
structure PlacementInv (T : Tables) (b : Board) (k : Nat) : Prop where
  fresh : ∀ s, s < 64 → k ≤ scanIndex s → b.squares s = EMPTY
  valid : ∀ s, b.squares s = EMPTY ∨ (s < 64 ∧ ∃ p c, p < 6 ∧ c < 2 ∧ b.squares s = makePiece p c)
  pieces : ∀ p s, p < 6 → (testBit (b.pieces p) s = true ↔ pieceType (b.squares s) = p)
  colours : ∀ c s, c < 2 → (testBit (b.colours c) s = true ↔ pieceColour (b.squares s) = c)
  sparePieces : ∀ p, 6 ≤ p → b.pieces p = 0
  spareColours : ∀ c, 2 ≤ c → b.colours c = 0
  hash : b.hash = pieceHash T b.squares
  psqt : b.psqtmat = toInt32 (psqtSum T b.squares)

/-- The mailbox agrees with the bitboards on square `sq`: the entry is `makePiece(p, c)`
exactly when the bit is set in both `pieces[p]` and `colours[c]`, and `EMPTY` exactly when the
bit is set in no piece bitboard and in neither colour bitboard. -/
def mailboxAgrees (b : Board) (sq : Nat) : Prop :=
  (∀ p c, p < PIECE_NB → c < COLOUR_NB →
    (b.squares sq = makePiece p c ↔
      (testBit (b.pieces p) sq = true ∧ testBit (b.colours c) sq = true)))
  ∧ (b.squares sq = EMPTY ↔
      ((∀ p, p < PIECE_NB → testBit (b.pieces p) sq = false)
        ∧ (∀ c, c < COLOUR_NB → testBit (b.colours c) sq = false)))

/-- A table instance for evaluating the embedding on examples. -/
def sampleTables : Tables :=
  { PSQT := fun p s => (p : Int) * 100 - s
    ZobristKeys := fun p s => 2 ^ 40 + 97 * p + 1000 * s
    ZobristEnpassKeys := fun f => 2 ^ 41 + f
    ZobristCastleKeys := fun s => 2 ^ 42 + s
    ZobristTurnKey := 2 ^ 43
    attackersToKingSquare := fun _ => 0 }

/-- The start position `StartPosition` of `uci.cpp`. -/
def StartPosition : List Char :=
  "rnbqkbnr/pppppppp/8/8/8/8/PPPPPPPP/RNBQKBNR w KQkq - 0 1".toList

/-- The buffer that `printBoard` hands to `boardToFEN`: `string fen(256, 0)`. -/
def printBuffer : List Char := List.replicate 256 (Char.ofNat 0)

/-- Reading a FEN and writing the board back into the buffer of `printBoard`; the result is
the buffer after `boardToFEN`, when both calls return. -/
def fenRoundTrip (T : Tables) (fens : List Char) (chess960 : Int) : Option (List Char) :=
  match boardFromFEN T fens chess960 with
  | .error _ => none
  | .ok board =>
    match boardToFEN board printBuffer with
    | .error _ => none
    | .ok fen => some fen

/-- A stand-in for the functions of `move.cpp`, for evaluating `apply` and `revert` on null
moves, which do not call them. -/
def sampleOps : MoveOps :=
  { applyMove := fun board _ undo => (board, undo)
    revertMove := fun board _ _ => board
    moveWasLegal := fun _ => true }

/-- A thread whose stacks are zeroed. -/
def sampleThread : Thread :=
  { moveStack := fun _ => 0
    pieceStack := fun _ => 0
    undoStack := fun _ =>
      { hash := 0, pkhash := 0, kingAttackers := 0, castleRooks := 0, epSquare := 0,
        halfMoveCounter := 0, psqtmat := 0, capturePiece := 0 } }

/-- The position `4k3/8/8/8/8/8/4r3/4K3 w - - 0 1`: White to move, in check from the rook on
e2, which is the one king attacker. -/
def checkedBoard : Board :=
  { Board.clear with
    squares := fun s =>
      if s = 4 then makePiece KING WHITE else if s = 12 then makePiece ROOK BLACK
      else if s = 60 then makePiece KING BLACK else EMPTY
    pieces := fun p =>
      if p = KING then (1 <<< 4) ||| (1 <<< 60) else if p = ROOK then 1 <<< 12 else 0
    colours := fun c =>
      if c = WHITE then 1 <<< 4 else if c = BLACK then (1 <<< 12) ||| (1 <<< 60) else 0
    castleMasks := fun sq => if sq < 64 then allON else 0
    kingAttackers := 1 <<< 12
    epSquare := -1
    fullMoveCounter := 1 }

/-- The history indices that `boardDrawnByRepetition` is said to look at: `numMoves - 2`,
`numMoves - 4`, ... as long as the index is not negative and not before the last zeroing
move (`numMoves - halfMoveCounter`). -/
def repetitionIndex (board : Board) (i : Int) : Prop :=
  0 ≤ i ∧ i ≤ board.numMoves - 2 ∧ (board.numMoves - i) % 2 = 0
    ∧ board.numMoves - board.halfMoveCounter ≤ i

instance (board : Board) (i : Int) : Decidable (repetitionIndex board i) := by
  unfold repetitionIndex; infer_instance

/-- A scanned history index that holds the current hash. -/
def repetitionAt (board : Board) (i : Int) : Prop :=
  repetitionIndex board i ∧ board.history i.toNat = board.hash

instance (board : Board) (i : Int) : Decidable (repetitionAt board i) := by
  unfold repetitionAt; infer_instance

/-- Number of pieces of colour `c` and type `p`, read off the bitboards. -/
def pieceCount (board : Board) (c p : Nat) : Nat :=
  popcount (board.colours c &&& board.pieces p)

/-- The consistency of the bitboards on one square, given its bit in the two colour boards
and in the six piece boards: not in both colours, in at most one piece board, and in a colour
board exactly when in a piece board. -/
def squareConsistent (w b p0 p1 p2 p3 p4 p5 : Bool) : Bool :=
  !(w && b)
    && decide (p0.toNat + p1.toNat + p2.toNat + p3.toNat + p4.toNat + p5.toNat ≤ 1)
    && ((w || b) == (p0 || p1 || p2 || p3 || p4 || p5))

/-- The bitboards of a board are consistent: they are 64-bit values and every square passes
`squareConsistent`. -/
def bitboardsConsistent (board : Board) : Prop :=
  (∀ c, c < 2 → board.colours c < 2 ^ 64) ∧ (∀ p, p < 6 → board.pieces p < 2 ^ 64)
    ∧ ∀ s, s < 64 →
      squareConsistent (testBit (board.colours WHITE) s) (testBit (board.colours BLACK) s)
        (testBit (board.pieces PAWN) s) (testBit (board.pieces KNIGHT) s)
        (testBit (board.pieces BISHOP) s) (testBit (board.pieces ROOK) s)
        (testBit (board.pieces QUEEN) s) (testBit (board.pieces KING) s) = true

instance (board : Board) : Decidable (bitboardsConsistent board) := by
  unfold bitboardsConsistent; infer_instance

/-- The side `c` has exactly its king and the given numbers of knights and bishops. -/
def sideHas (board : Board) (c knights bishops : Nat) : Prop :=
  pieceCount board c PAWN = 0 ∧ pieceCount board c KNIGHT = knights
    ∧ pieceCount board c BISHOP = bishops ∧ pieceCount board c ROOK = 0
    ∧ pieceCount board c QUEEN = 0 ∧ pieceCount board c KING = 1

instance (board : Board) (c knights bishops : Nat) :
    Decidable (sideHas board c knights bishops) := by
  unfold sideHas; infer_instance

/-- The material is king v king, king+knight v king, king+bishop v king or king+two knights
v king, with either colour as the stronger side. -/
def insufficientMaterial (board : Board) : Prop :=
  (sideHas board WHITE 0 0 ∧ sideHas board BLACK 0 0)
    ∨ (sideHas board WHITE 1 0 ∧ sideHas board BLACK 0 0)
    ∨ (sideHas board WHITE 0 0 ∧ sideHas board BLACK 1 0)
    ∨ (sideHas board WHITE 0 1 ∧ sideHas board BLACK 0 0)
    ∨ (sideHas board WHITE 0 0 ∧ sideHas board BLACK 0 1)
    ∨ (sideHas board WHITE 2 0 ∧ sideHas board BLACK 0 0)
    ∨ (sideHas board WHITE 0 0 ∧ sideHas board BLACK 2 0)

instance (board : Board) : Decidable (insufficientMaterial board) := by
  unfold insufficientMaterial; infer_instance

/-- A board with king and bishop against king: white king e1, white bishop c2, black king
e8. -/
def sampleKBK : Board :=
  { Board.clear with
    pieces := fun p =>
      if p = KING then (1 <<< 4) ||| (1 <<< 60) else if p = BISHOP then 1 <<< 10 else 0
    colours := fun c =>
      if c = WHITE then (1 <<< 4) ||| (1 <<< 10) else if c = BLACK then 1 <<< 60 else 0 }

/-- A board after eight half moves without capture or pawn move, whose hash stands at the
history indices 0 and 4 and nowhere else. -/
def sampleRepeated : Board :=
  { Board.clear with
    hash := 77, numMoves := 8, halfMoveCounter := 8
    history := fun i => if i = 0 ∨ i = 4 then 77 else 100 + i }

/-- A board whose halfmove clock stands at 100. -/
def sampleHundred : Board := { Board.clear with halfMoveCounter := 100 }

/-! ## `uci.cpp`: the score of a report -/

/-- Modelled from the spec: `types.h` and `fathom/tbprobe.h` are not among the sources. The
score constants `MATE` and `MAX_PLY` (both `int`) and the tablebase results `TB_LOSS` and
`TB_WIN` are taken as parameters. -/
structure ScoreConsts where
  MATE : Int
  MAX_PLY : Int
  TB_LOSS : Nat
  TB_WIN : Nat

/-- Modelled from the spec: `types.h` is not among the sources. The lowest score of the band of
mate scores, `MAX_PLY` below `MATE`. -/
def MATE_IN_MAX (K : ScoreConsts) : Int := K.MATE - K.MAX_PLY

/-- Modelled from the spec: `types.h` is not among the sources. The highest score of the band
of mated scores, the negation of `MATE_IN_MAX`. -/
def MATED_IN_MAX (K : ScoreConsts) : Int := K.MAX_PLY - K.MATE

/-- What `uciReport` prints of the score: the clamped value `bounded`, the number printed,
the score type and the bound label. -/
structure ScoreLine where
  bounded : Int
  score : Int
  type : List Char
  bound : List Char

/-- The score part of `uciReport` of `uci.cpp`. The division is the truncating one of C. -/
def uciReportScore (K : ScoreConsts) (alpha beta value : Int) : ScoreLine :=
  let bounded := max alpha (min value beta)
  { bounded := bounded
    score :=
      if bounded ≥ MATE_IN_MAX K then Int.tdiv (K.MATE - bounded + 1) 2
      else if bounded ≤ MATED_IN_MAX K then Int.tdiv (-bounded - K.MATE) 2
      else bounded
    type :=
      if bounded ≥ MATE_IN_MAX K ∨ bounded ≤ MATED_IN_MAX K then "mate".toList else "cp".toList
    bound :=
      if bounded ≥ beta then " lowerbound ".toList
      else if bounded ≤ alpha then " upperbound ".toList
      else " ".toList }

/-- The score that `uciReportTBRoot` of `uci.cpp` computes. `wdl` and `dtz` are `unsigned`, so
both sums are formed in 32-bit unsigned arithmetic and the result is stored into an `int`. -/
def uciReportTBRootScore (K : ScoreConsts) (wdl dtz : Nat) : Int :=
  if wdl = K.TB_LOSS then toInt32 (-K.MATE + K.MAX_PLY + dtz + 1)
  else if wdl = K.TB_WIN then toInt32 (K.MATE - K.MAX_PLY - dtz - 1)
  else 0

/-! ## `uci.cpp`: the limits of a `go` command -/

/-- The C library conversion `atoi`: white space and one sign are skipped and the longest run
of digits is read, no digit gives 0; a value that does not fit `int` is undefined. -/
def atoi (str : List Char) : Except Fault Int :=
  let s := str.dropWhile (fun c => c = ' ' ∨ (9 ≤ c.toNat ∧ c.toNat ≤ 13))
  let neg := s.head? = some '-'
  let body := if s.head? = some '-' ∨ s.head? = some '+' then s.drop 1 else s
  let ds := body.takeWhile isdigit
  let v : Int := if neg then -(digitsValue ds 0 : Int) else (digitsValue ds 0 : Int)
  if v < -2147483648 ∨ 2147483647 < v then .error .undefinedCall else .ok v

/-- The tokens that the calls `strtok(.., " ")` deliver one after the other: the maximal runs
of characters other than the blank; `cur` holds the run being read, last character first. -/
def strtokAll : List Char → List Char → List (List Char)
  | [], cur => if cur = [] then [] else [cur.reverse]
  | c :: cs, cur =>
    if c = ' ' then (if cur = [] then strtokAll cs [] else cur.reverse :: strtokAll cs [])
    else strtokAll cs (c :: cur)

/-- The local variables of `uciGo` that the parsing loop writes, and the global
`IS_PONDERING`. The `double` variables only ever hold values converted from `int`. -/
structure GoVars where
  depth : Int
  infinite : Int
  wtime : Int
  btime : Int
  movetime : Int
  winc : Int
  binc : Int
  mtg : Int
  pondering : Int

/-- The initial values of the local variables of `uciGo`. -/
def GoVars.init : GoVars :=
  { depth := 0, infinite := 0, wtime := 0, btime := 0, movetime := 0, winc := 0, binc := 0,
    mtg := -1, pondering := 0 }

/-- The parsing loop of `uciGo` over the tokens. A keyword with a value takes the next token
through `atoi(strtok(NULL, " "))`; at the end of the text that call gets a null pointer. -/
def goLoop : List (List Char) → GoVars → Except Fault GoVars
  | [], v => .ok v
  | tok :: rest, v =>
    if tok = "wtime".toList then
      match rest with
      | [] => .error .undefinedCall
      | val :: rest1 =>
        match atoi val with
        | .ok n => goLoop rest1 { v with wtime := n }
        | .error e => .error e
    else if tok = "btime".toList then
      match rest with
      | [] => .error .undefinedCall
      | val :: rest1 =>
        match atoi val with
        | .ok n => goLoop rest1 { v with btime := n }
        | .error e => .error e
    else if tok = "winc".toList then
      match rest with
      | [] => .error .undefinedCall
      | val :: rest1 =>
        match atoi val with
        | .ok n => goLoop rest1 { v with winc := n }
        | .error e => .error e
    else if tok = "binc".toList then
      match rest with
      | [] => .error .undefinedCall
      | val :: rest1 =>
        match atoi val with
        | .ok n => goLoop rest1 { v with binc := n }
        | .error e => .error e
    else if tok = "movestogo".toList then
      match rest with
      | [] => .error .undefinedCall
      | val :: rest1 =>
        match atoi val with
        | .ok n => goLoop rest1 { v with mtg := n }
        | .error e => .error e
    else if tok = "depth".toList then
      match rest with
      | [] => .error .undefinedCall
      | val :: rest1 =>
        match atoi val with
        | .ok n => goLoop rest1 { v with depth := n }
        | .error e => .error e
    else if tok = "movetime".toList then
      match rest with
      | [] => .error .undefinedCall
      | val :: rest1 =>
        match atoi val with
        | .ok n => goLoop rest1 { v with movetime := n }
        | .error e => .error e
    else if tok = "infinite".toList then goLoop rest { v with infinite := 1 }
    else if tok = "ponder".toList then goLoop rest { v with pondering := 1 }
    else goLoop rest v

/-- Modelled from the spec: the struct `Limits` is declared in a header that is not among the
sources. These are the fields that `uciGo` fills from the command; `start`, the wall-clock
time of the call, is left out. -/
structure Limits where
  limitedByNone : Int
  limitedByTime : Int
  limitedByDepth : Int
  limitedBySelf : Int
  timeLimit : Int
  depthLimit : Int
  time : Int
  inc : Int
  mtg : Int
  multiPV : Int

/-- The part of `uciGo` of `uci.cpp` that reads the command into `limits`. `BLOCK` is the size
of the buffer the command is copied into, `turn` is `board->turn`, `legalMoves` is
`legalMoveCount(board)`; the result is `limits` and the value of `IS_PONDERING`. -/
def uciGoLimits (BLOCK : Nat) (str : List Char) (turn multiPV legalMoves : Int) :
    Except Fault (Limits × Int) :=
  if ¬ ((cString str).length < BLOCK) then .error .undefinedCall
  else
    match goLoop (strtokAll (cString str) []) GoVars.init with
    | .error e => .error e
    | .ok v =>
      .ok ({ limitedByNone := if v.infinite ≠ 0 then 1 else 0
             limitedByTime := if v.movetime ≠ 0 then 1 else 0
             limitedByDepth := if v.depth ≠ 0 then 1 else 0
             limitedBySelf := if v.depth = 0 ∧ v.movetime = 0 ∧ v.infinite = 0 then 1 else 0
             timeLimit := v.movetime
             depthLimit := v.depth
             time := if turn = 0 then v.wtime else v.btime
             inc := if turn = 0 then v.winc else v.binc
             mtg := if turn = 0 then v.mtg else v.mtg
             multiPV := min multiPV legalMoves },
           v.pondering)

/-! ## `uci.cpp`: the `position` command -/

/-- Modelled from the spec: the move generator and `move.cpp` are not among the sources.
`genAllLegalMoves` gives the legal moves of a board in the order they are written into the
array `moves`, and `moveToString` gives the long-algebraic text of a move. -/
structure MoveGen where
  genAllLegalMoves : Board → List Nat
  moveToString : Nat → Int → List Char

/-- Whether the text `s` begins with `key`. -/
def startsWith : List Char → List Char → Bool
  | _, [] => true
  | [], _ :: _ => false
  | c :: cs, k :: ks => decide (c = k) && startsWith cs ks

/-- The function `strContains` of `uci.cpp`: the offset into `s.c_str()` of the first
occurrence of `key`, as `std::string::find` gives it; `none` is the null pointer. -/
def strContains : List Char → List Char → Option Nat
  | [], key => if startsWith [] key then some 0 else none
  | c :: cs, key =>
    if startsWith (c :: cs) key then some 0 else (strContains cs key).map (fun i => i + 1)

/-- A local array of characters: the address of its first element and its content. -/
structure CharArray where
  address : Nat
  chars : List Char

/-- The comparison `a == b` of two arrays of characters: each operand decays to the pointer to
its first element, and the two pointers are compared. -/
def CharArray.ptrEq (a b : CharArray) : Bool := decide (a.address = b.address)

/-- The addresses of the local arrays `moveStr` and `testStr` of `uciPosition`. The two
objects are alive at the same time, so their addresses differ. -/
structure Locals where
  moveStr : Nat
  testStr : Nat
  distinct : moveStr ≠ testStr

/-- The read `*ptr` with `ptr` at offset `i` of `str.c_str()`: a character of the string, the
terminating NUL at offset `str.length`, and undefined behind that. -/
def charAt (str : List Char) (i : Nat) : Except Fault Char :=
  if i < str.length then .ok (str.getD i (Char.ofNat 0))
  else if i = str.length then .ok (Char.ofNat 0)
  else .error .undefinedCall

/-- The loop `for (int i = 0; i < 5; ++i) moveStr[i] = *ptr++` of `uciPosition`: the five
characters from offset `p` on; the last of the five reads is inside `str.c_str()` when
`p + 4` is at most the offset of the terminator. -/
def readMove (str : List Char) (p : Nat) : Except Fault (List Char) :=
  if p + 4 ≤ str.length then
    .ok ((List.range 5).map (fun i => str.getD (p + i) (Char.ofNat 0)))
  else .error .undefinedCall

/-- The content of `moveStr` after `if (moveStr[4] == ' ') moveStr[4] = 0; moveStr[5] = 0`. -/
def moveText (raw : List Char) : List Char :=
  raw.take 4
    ++ [if raw.getD 4 (Char.ofNat 0) = ' ' then Char.ofNat 0 else raw.getD 4 (Char.ofNat 0)]
    ++ [Char.ofNat 0]

/-- The loop of `uciPosition` over the generated moves: the text of each move is written to
`testStr`, and at the first move with `moveStr==testStr` the move is applied and the loop
is left. -/
def findAndApply (ops : MoveOps) (G : MoveGen) (L : Locals) (moveStr : List Char)
    (undo : Undo) : List Nat → Board → Board
  | [], board => board
  | m :: ms, board =>
    if CharArray.ptrEq { address := L.moveStr, chars := moveStr }
        { address := L.testStr, chars := G.moveToString m board.chess960 } then
      (ops.applyMove board m undo).1
    else findAndApply ops G L moveStr undo ms board

/-- The loop `while (*ptr == ' ') ptr++` of `uciPosition` from offset `p`: the offset of the
first character that is not a blank, which is at most the offset of the terminator; the
first read is undefined when `p` is behind the terminator. -/
def skipBlanks (str : List Char) (p : Nat) : Except Fault Nat :=
  if p ≤ str.length then
    .ok (p + ((str.drop p).takeWhile (fun c => decide (c = ' '))).length)
  else .error .undefinedCall

/-- One pass of the loop of `uciPosition` over the move list, with `ptr` at offset `p`: the
board and the offset after the pass. -/
def positionStep (ops : MoveOps) (G : MoveGen) (L : Locals) (undo : Undo) (str : List Char)
    (p : Nat) (board : Board) : Except Fault (Board × Nat) :=
  match readMove str p with
  | .error e => .error e
  | .ok raw =>
    let b1 := findAndApply ops G L (moveText raw) undo (G.genAllLegalMoves board) board
    let b2 := if b1.halfMoveCounter = 0 then { b1 with numMoves := 0 } else b1
    match skipBlanks str (p + 5) with
    | .error e => .error e
    | .ok p1 => .ok (b2, p1)

/-- The loop `while (ptr != NULL && *ptr != 0)` of `uciPosition`, with a bound on the number
of passes; `none` when the bound is used up. -/
def positionLoop (ops : MoveOps) (G : MoveGen) (L : Locals) (undo : Undo) (str : List Char) :
    Nat → Nat → Board → Option (Except Fault Board)
  | 0, _, _ => none
  | fuel + 1, p, board =>
    match charAt str p with
    | .error e => some (.error e)
    | .ok c =>
      if c = Char.ofNat 0 then some (.ok board)
      else
        match positionStep ops G L undo str p board with
        | .error e => some (.error e)
        | .ok r => positionLoop ops G L undo str fuel r.2 r.1

/-- The first part of `uciPosition`: the board is read from the FEN behind `fen `, else from
`StartPosition` when the command holds `startpos`, else it is left as it is. -/
def uciPositionReset (T : Tables) (str : List Char) (board : Board) (chess960 : Int) :
    Except Fault Board :=
  match strContains str "fen ".toList with
  | some i => boardFromFEN T (cString (str.drop (i + 4))) chess960
  | none =>
    match strContains str "startpos".toList with
    | some _ => boardFromFEN T StartPosition chess960
    | none => .ok board

/-- The function `uciPosition` of `uci.cpp`. `undo` is the content of the local undo record,
which is not initialised. Every pass of the loop moves `ptr` forward, so `str.length + 1`
passes are never used up. -/
def uciPosition (ops : MoveOps) (G : MoveGen) (T : Tables) (L : Locals) (undo : Undo)
    (str : List Char) (board : Board) (chess960 : Int) : Except Fault Board :=
  match uciPositionReset T str board chess960 with
  | .error e => .error e
  | .ok b1 =>
    match strContains str "moves ".toList with
    | none => .ok b1
    | some i =>
      match positionLoop ops G L undo str (str.length + 1) (i + 6) b1 with
      | some r => r
      | none => .error .undefinedCall

/-! ## What the claims on `uci.cpp` speak of -/

/-- An undo record that holds the king attackers of `checkedBoard`. -/
def checkedUndo : Undo :=
  { hash := 0, pkhash := 0, kingAttackers := 1 <<< 12, castleRooks := 0, epSquare := -1,
    halfMoveCounter := 0, psqtmat := 0, capturePiece := 0 }

/-- A sample choice of the score constants: mate at 32000, 128 plies, loss 0 and win 4. -/
def sampleConsts : ScoreConsts := { MATE := 32000, MAX_PLY := 128, TB_LOSS := 0, TB_WIN := 4 }

/-- The keywords of a `go` command that are followed by a value. -/
inductive GoKey where
  | wtime | btime | winc | binc | movestogo | depth | movetime
  deriving DecidableEq

/-- The text of a keyword. -/
def GoKey.keyword : GoKey → List Char
  | .wtime => "wtime".toList
  | .btime => "btime".toList
  | .winc => "winc".toList
  | .binc => "binc".toList
  | .movestogo => "movestogo".toList
  | .depth => "depth".toList
  | .movetime => "movetime".toList

/-- One argument of a `go` command: a keyword with the text of its value and the number the
text denotes, the word `infinite`, the word `ponder`, or any other word. -/
inductive GoArg where
  | valued (key : GoKey) (text : List Char) (value : Int)
  | infinite
  | ponder
  | other (tok : List Char)

/-- The words an argument is made of. -/
def GoArg.tokens : GoArg → List (List Char)
  | .valued k text _ => [k.keyword, text]
  | .infinite => ["infinite".toList]
  | .ponder => ["ponder".toList]
  | .other tok => [tok]

/-- The words of a `go` command that have a meaning. -/
def goWords : List (List Char) :=
  ["wtime".toList, "btime".toList, "winc".toList, "binc".toList, "movestogo".toList,
   "depth".toList, "movetime".toList, "infinite".toList, "ponder".toList]

/-- An argument is well formed when the text of a value denotes the value and fits `int`, and
when any other word is not one of the words with a meaning. -/
def GoArg.wf : GoArg → Bool
  | .valued _ text n =>
    match atoi text with
    | .ok m => decide (m = n)
    | .error _ => false
  | .infinite => true
  | .ponder => true
  | .other tok => decide (tok ∉ goWords)

/-- The value given for a keyword in a `go` command, the last one if it comes more than once;
`none` when the keyword is absent. -/
def valueGiven (k : GoKey) : List GoArg → Option Int
  | [] => none
  | a :: rest =>
    match valueGiven k rest with
    | some n => some n
    | none =>
      match a with
      | .valued k1 _ n => if k1 = k then some n else none
      | _ => none

/-- Whether the word `infinite` is among the arguments. -/
def infiniteGiven : List GoArg → Bool
  | [] => false
  | .infinite :: _ => true
  | _ :: rest => infiniteGiven rest

/-- The local variable of `uciGo` that belongs to a keyword. -/
def GoVars.get (v : GoVars) : GoKey → Int
  | .wtime => v.wtime
  | .btime => v.btime
  | .winc => v.winc
  | .binc => v.binc
  | .movestogo => v.mtg
  | .depth => v.depth
  | .movetime => v.movetime

/-- The effect of one argument on the local variables of `uciGo`. -/
def applyArg (v : GoVars) : GoArg → GoVars
  | .valued .wtime _ n => { v with wtime := n }
  | .valued .btime _ n => { v with btime := n }
  | .valued .winc _ n => { v with winc := n }
  | .valued .binc _ n => { v with binc := n }
  | .valued .movestogo _ n => { v with mtg := n }
  | .valued .depth _ n => { v with depth := n }
  | .valued .movetime _ n => { v with movetime := n }
  | .infinite => { v with infinite := 1 }
  | .ponder => { v with pondering := 1 }
  | .other _ => v

/-- The command `go wtime 1000 btime 2000 winc 10 binc 20 movestogo 30 depth 5`. -/
def sampleGo : List Char := "go wtime 1000 btime 2000 winc 10 binc 20 movestogo 30 depth 5".toList

/-- The arguments of `sampleGo`. -/
def sampleGoArgs : List GoArg :=
  [.other "go".toList, .valued .wtime "1000".toList 1000, .valued .btime "2000".toList 2000,
   .valued .winc "10".toList 10, .valued .binc "20".toList 20,
   .valued .movestogo "30".toList 30, .valued .depth "5".toList 5]

/-- Sample addresses of the two local arrays of `uciPosition`. -/
def sampleLocals : Locals := { moveStr := 0, testStr := 6, distinct := by decide }

/-- A stand-in for the move generator and for `moveToString`: the one move generated is the
pawn move from e2 to e4, and the text of a normal move is the two squares and a NUL. -/
def sampleGen : MoveGen :=
  { genAllLegalMoves := fun _ => [MoveMake 12 28 NORMAL_MOVE]
    moveToString := fun m _ =>
      [Char.ofNat (97 + MoveFrom m % 8), Char.ofNat (49 + MoveFrom m / 8),
       Char.ofNat (97 + MoveTo m % 8), Char.ofNat (49 + MoveTo m / 8), Char.ofNat 0,
       Char.ofNat 0] }

/-- A stand-in for `applyMove` that carries the piece from the source square to the target
square and hands the move to the other side. -/
def pawnOps : MoveOps :=
  { applyMove := fun board m undo =>
      ({ board with
          squares := upd (upd board.squares (MoveTo m) (board.squares (MoveFrom m)))
            (MoveFrom m) EMPTY
          turn := if board.turn = 0 then 1 else 0 }, undo)
    revertMove := fun board _ _ => board
    moveWasLegal := fun _ => true }

/-- The command `position startpos moves e2e4`. -/
def samplePosition : List Char := "position startpos moves e2e4".toList

/-- The command `position startpos moves e2e4` with a blank behind the move. -/
def samplePositionBlank : List Char := "position startpos moves e2e4 ".toList

/-- The command `position startpos moves e2e5 e7e5`. -/
def samplePositionTwo : List Char := "position startpos moves e2e5 e7e5 ".toList

/-- The command `position startpos moves e2e5`, whose one token is the text of no move of the
start position. -/
def samplePositionUnmatched : List Char := "position startpos moves e2e5".toList

/-- The piece on a square of the board that a call returned, `none` when it ended in a
fault. -/
def squareOf (r : Except Fault Board) (sq : Nat) : Option Nat :=
  match r with
  | .ok b => some (b.squares sq)
  | .error _ => none

/-- The side to move of the board that a call returned, `none` when it ended in a fault. -/
def turnOf (r : Except Fault Board) : Option Int :=
  match r with
  | .ok b => some b.turn
  | .error _ => none

/-! ## What the claims on the castling rights speak of -/

/-- A rook of the colour stands on square `s`, by the bitboards. -/
def rookOn (b : Board) (colour s : Nat) : Bool :=
  testBit (b.colours colour) s && testBit (b.pieces ROOK) s

/-- The king of the colour stands on square `s`, by the bitboards. -/
def kingOn (b : Board) (colour s : Nat) : Bool :=
  testBit (b.colours colour) s && testBit (b.pieces KING) s

/-- Square `s` holds the rook of the colour on the highest file of the rank that starts at
square `base`. -/
def highestRook (b : Board) (colour base s : Nat) : Prop :=
  base ≤ s ∧ s < base + 8 ∧ rookOn b colour s = true
    ∧ ∀ t, s < t → t < base + 8 → rookOn b colour t = false

/-- Square `s` holds the rook of the colour on the lowest file of the rank that starts at
square `base`. -/
def lowestRook (b : Board) (colour base s : Nat) : Prop :=
  base ≤ s ∧ s < base + 8 ∧ rookOn b colour s = true
    ∧ ∀ t, base ≤ t → t < s → rookOn b colour t = false

/-- The square that a letter of the castling field stands for: `K` and `Q` the white rook on
the highest and on the lowest file of rank 1, `k` and `q` the same for the black rooks on
rank 8, `A`..`H` the square of that file on rank 1 and `a`..`h` the square of that file on
rank 8; any other character, such as `-`, stands for no square. -/
def castleSquare (b : Board) (ch : Char) (s : Nat) : Prop :=
  (ch = 'K' ∧ highestRook b WHITE 0 s)
  ∨ (ch = 'Q' ∧ lowestRook b WHITE 0 s)
  ∨ (ch = 'k' ∧ highestRook b BLACK 56 s)
  ∨ (ch = 'q' ∧ lowestRook b BLACK 56 s)
  ∨ (65 ≤ ch.toNat ∧ ch.toNat ≤ 72 ∧ s = ch.toNat - 65)
  ∨ (97 ≤ ch.toNat ∧ ch.toNat ≤ 104 ∧ s = 56 + (ch.toNat - 97))

/-- The castling right on square `t` is one that touching square `sq` erases: `t` is `sq`
itself and a castle-rook square, or the white king stands on `sq` and `t` holds a white
piece, or the black king stands on `sq` and `t` holds a black piece. -/
def erasedBy (b : Board) (sq t : Nat) : Prop :=
  (t = sq ∧ testBit b.castleRooks sq = true)
  ∨ (kingOn b WHITE sq = true ∧ testBit (b.colours WHITE) t = true)
  ∨ (kingOn b BLACK sq = true ∧ testBit (b.colours BLACK) t = true)

/-! ## `board.cpp`: material and `perft` -/

/-- The function `boardHasNonPawnMaterial` of `board.cpp`. -/
def boardHasNonPawnMaterial (board : Board) (turn : Nat) : Int :=
  let friendly := board.colours turn
  let kings := board.pieces KING
  let pawns := board.pieces PAWN
  if (friendly &&& (kings ||| pawns)) ≠ friendly then 1 else 0

/-- Modelled from the spec: the move generator is not among the sources. `genAllNoisyMoves` and
`genAllQuietMoves` give the moves they append to the array `moves`, in the order they write
them. -/
structure Generators where
  genAllNoisyMoves : Board → List Nat
  genAllQuietMoves : Board → List Nat

/-- The loop of `perft` over the moves it is handed, last generated move first; `next` is
`perft` at the depth below and gives the count and the board it leaves. The state is the
board, the local undo record and `found`, a `uint64_t`. -/
def perftLoop (ops : MoveOps) (next : Board → Nat × Board) :
    List Nat → Board → Undo → Nat → Nat × Board × Undo
  | [], board, undo, found => (found, board, undo)
  | m :: ms, board, undo, found =>
    let r := ops.applyMove board m undo
    let found1 :=
      if ops.moveWasLegal r.1 = true then (found + (next r.1).1) % 2 ^ 64 else found
    let board1 := if ops.moveWasLegal r.1 = true then (next r.1).2 else r.1
    perftLoop ops next ms (ops.revertMove board1 m r.2) r.2 found1

/-- The function `perft` of `board.cpp` at a depth that is not negative: the count and the
board it leaves. `undo d` is the content of the local undo record, which is not initialised,
in the call at depth `d`. -/
def perft (ops : MoveOps) (G : Generators) (undo : Nat → Undo) : Nat → Board → Nat × Board
  | 0, board => (1, board)
  | d + 1, board =>
    let moves := G.genAllNoisyMoves board ++ G.genAllQuietMoves board
    let r := perftLoop ops (fun b => perft ops G undo d b) moves.reverse board (undo (d + 1)) 0
    (r.1, r.2.1)

/-! ## `uci.cpp`: the `setoption` command -/

/-- The function `strStartsWith` of `uci.cpp`: `s.compare(0, strlen(key), key)` is 0. -/
def strStartsWith (s key : List Char) : Bool := decide (s.take key.length = key)

/-- The scan of both functions `numberIn` for the first offset `i` with `isdigit(c[i])`; the
terminator at offset `s.size()` is no digit. -/
def firstDigit : List Char → Option Nat
  | [] => none
  | ch :: rest => if isdigit ch = true then some 0 else (firstDigit rest).map (fun i => i + 1)

/-- The copy that both functions `numberIn` make into the buffer `n`: a `-` when the character
before the first digit is one, then, by `while (isdigit(*j++=c[i++]))`, the run of digits and
the first character behind it. The result is `none` when the text has no digit, else the
buffer and the offset `j` behind the copy. A first digit at offset 0 makes `c[i-1]` a read
before the text. -/
def numberInCopy (s n : List Char) : Except Fault (Option (List Char × Nat)) :=
  match firstDigit s with
  | none => .ok none
  | some i =>
    if i = 0 then .error .undefinedCall
    else
      let sign : List Char := if s.getD (i - 1) (Char.ofNat 0) = '-' then ['-'] else []
      let run := (s.drop i).takeWhile isdigit
      let text := sign ++ run ++ [s.getD (i + run.length) (Char.ofNat 0)]
      match putAll n 0 text with
      | .error e => .error e
      | .ok n1 => .ok (some (n1, text.length))

/-- The function `int numberIn(string& s)` of `uci.cpp`; `n` is the content of its local
buffer of 9 characters, which is not initialised. -/
def numberIn (s n : List Char) : Except Fault Int :=
  match numberInCopy s n with
  | .error e => .error e
  | .ok none => .ok 0
  | .ok (some r) => atoi r.1

/-- The function `char* numberIn(string& s, char* n)` of `uci.cpp`: whether the pointer
returned is `n` rather than `NULL`, and the buffer `n` after the call. -/
def numberInto (s n : List Char) : Except Fault (Bool × List Char) :=
  match numberInCopy s n with
  | .error e => .error e
  | .ok none => .ok (false, n)
  | .ok (some r) =>
    match put r.1 r.2 (Char.ofNat 0) with
    | .error e => .error e
    | .ok n1 => .ok (true, n1)

/-- The text that a function reads from a buffer it takes as a C string: the characters before
the first NUL; a buffer without NUL is read past its end. -/
def readCString (buf : List Char) : Except Fault (List Char) :=
  if buf.any (fun c => decide (c.toNat = 0)) = true then .ok (cString buf)
  else .error .undefinedCall

/-- What `uciSetOption` sets: the argument of the last `initTT`, the size of the thread pool
last created, `*multiPV`, `MoveOverhead`, the text last handed to `tb_init`,
`TB_PROBE_DEPTH`, which is `unsigned`, and `*chess960`. -/
structure Options where
  hashMB : Int
  nthreads : Int
  multiPV : Int
  MoveOverhead : Int
  syzygyPath : List Char
  TB_PROBE_DEPTH : Nat
  chess960 : Int

/-- The function `uciSetOption` of `uci.cpp`. `n` is the content of the local buffer of each
call of `numberIn` and `ptr` that of the local array `ptr`, neither of which is initialised.
In the branch of `UCI_Chess960` the quotation marks of the source are misplaced; it is read as
the two tests on `true` and `false` that it spells. -/
def uciSetOption (str n ptr : List Char) (o : Options) : Except Fault Options :=
  let r1 : Except Fault Options :=
    if strStartsWith str "setoption name Hash value ".toList = true then
      match numberIn str n with
      | .error e => .error e
      | .ok megabytes => .ok { o with hashMB := megabytes }
    else .ok o
  match r1 with
  | .error e => .error e
  | .ok o1 =>
  let r2 : Except Fault Options :=
    if strStartsWith str "setoption name Threads value ".toList = true then
      match numberIn str n with
      | .error e => .error e
      | .ok nthreads => .ok { o1 with nthreads := nthreads }
    else .ok o1
  match r2 with
  | .error e => .error e
  | .ok o2 =>
  let r3 : Except Fault Options :=
    if strStartsWith str "setoption name MultiPV value ".toList = true then
      match numberIn str n with
      | .error e => .error e
      | .ok v => .ok { o2 with multiPV := v }
    else .ok o2
  match r3 with
  | .error e => .error e
  | .ok o3 =>
  let r4 : Except Fault Options :=
    if strStartsWith str "setoption name MoveOverhead value ".toList = true then
      match numberIn str n with
      | .error e => .error e
      | .ok v => .ok { o3 with MoveOverhead := v }
    else .ok o3
  match r4 with
  | .error e => .error e
  | .ok o4 =>
  let r5 : Except Fault Options :=
    if strStartsWith str "setoption name SyzygyPath value ".toList = true then
      match numberInto str ptr with
      | .error e => .error e
      | .ok r =>
        match readCString r.2 with
        | .error e => .error e
        | .ok path => .ok { o4 with syzygyPath := path }
    else .ok o4
  match r5 with
  | .error e => .error e
  | .ok o5 =>
  let r6 : Except Fault Options :=
    if strStartsWith str "setoption name SyzygyProbeDepth value ".toList = true then
      match numberIn str n with
      | .error e => .error e
      | .ok v => .ok { o5 with TB_PROBE_DEPTH := (v % 4294967296).toNat }
    else .ok o5
  match r6 with
  | .error e => .error e
  | .ok o6 =>
    if strStartsWith str "setoption name UCI_Chess960 value ".toList = true then
      let o7 : Options :=
        if strStartsWith str "setoption name UCI_Chess960 value true".toList = true then
          { o6 with chess960 := 1 }
        else o6
      if strStartsWith str "setoption name UCI_Chess960 value false".toList = true then
        .ok { o7 with chess960 := 0 }
      else .ok o7
    else .ok o6

/-! ## `psqt.c` -/

/-- Modelled from the spec: `piece.h` is not among the sources. The code of the white pawn,
four times its type. -/
def WhitePawn : Nat := 0

/-- Modelled from the spec: `piece.h` is not among the sources. The code of the black pawn,
one above that of the white one. -/
def BlackPawn : Nat := 1

/-- Modelled from the spec: `piece.h` is not among the sources. The code of the white knight,
four times its type. -/
def WhiteKnight : Nat := 4

/-- Modelled from the spec: `piece.h` is not among the sources. The code of the black knight,
one above that of the white one. -/
def BlackKnight : Nat := 5

/-- Modelled from the spec: `piece.h` is not among the sources. The code of the white bishop,
four times its type. -/
def WhiteBishop : Nat := 8

/-- Modelled from the spec: `piece.h` is not among the sources. The code of the black bishop,
one above that of the white one. -/
def BlackBishop : Nat := 9

/-- Modelled from the spec: `piece.h` is not among the sources. The code of the white rook,
four times its type. -/
def WhiteRook : Nat := 12

/-- Modelled from the spec: `piece.h` is not among the sources. The code of the black rook,
one above that of the white one. -/
def BlackRook : Nat := 13

/-- Modelled from the spec: `piece.h` is not among the sources. The code of the white queen,
four times its type. -/
def WhiteQueen : Nat := 16

/-- Modelled from the spec: `piece.h` is not among the sources. The code of the black queen,
one above that of the white one. -/
def BlackQueen : Nat := 17

/-- Modelled from the spec: `piece.h` is not among the sources. The code of the white king,
four times its type. -/
def WhiteKing : Nat := 20

/-- Modelled from the spec: `piece.h` is not among the sources. The code of the black king,
one above that of the white one. -/
def BlackKing : Nat := 21

/-- Modelled from the spec: `evaluate.h` is not among the sources. The six piece values, each
an `int`, are taken as parameters. -/
structure PieceValues where
  PawnValue : Int
  KnightValue : Int
  BishopValue : Int
  RookValue : Int
  QueenValue : Int
  KingValue : Int

/-- The array `InversionTable` of `psqt.c`. -/
def InversionTable : List Nat :=
  [56, 57, 58, 59, 60, 61, 62, 63,
   48, 49, 50, 51, 52, 53, 54, 55,
   40, 41, 42, 43, 44, 45, 46, 47,
   32, 33, 34, 35, 36, 37, 38, 39,
   24, 25, 26, 27, 28, 29, 30, 31,
   16, 17, 18, 19, 20, 21, 22, 23,
   8, 9, 10, 11, 12, 13, 14, 15,
   0, 1, 2, 3, 4, 5, 6, 7]

/-- The array `PawnOpeningMap32` of `psqt.c`. -/
def PawnOpeningMap32 : List Int :=
  [-15, -10, 0, 5,
   -15, -10, 0, 5,
   -15, -10, 0, 15,
   -15, -10, 0, 25,
   -15, -10, 0, 15,
   -15, -10, 0, 5,
   -15, -10, 0, 5,
   -15, -10, 0, 5]

/-- The array `PawnEndgameMap32` of `psqt.c`. -/
def PawnEndgameMap32 : List Int :=
  [0, 0, 0, 0,
   0, 0, 0, 0,
   0, 0, 0, 0,
   0, 0, 0, 0,
   0, 0, 0, 0,
   0, 0, 0, 0,
   0, 0, 0, 0,
   0, 0, 0, 0]

/-- The array `KnightOpeningMap32` of `psqt.c`. -/
def KnightOpeningMap32 : List Int :=
  [-50, -40, -30, -25,
   -35, -25, -15, -10,
   -20, -10, 0, 5,
   -10, 0, 10, 15,
   -5, 5, 15, 20,
   -5, 5, 15, 20,
   -20, -10, 0, 5,
   -135, -25, -15, -10]

/-- The array `KnightEndgameMap32` of `psqt.c`. -/
def KnightEndgameMap32 : List Int :=
  [-40, -30, -20, -15,
   -30, -20, -10, -5,
   -20, -10, 0, 5,
   -15, -5, 5, 10,
   -15, -5, 5, 10,
   -20, -10, 0, 5,
   -30, -20, -10, -5,
   -40, -30, -20, -15]

/-- The array `BishopOpeningMap32` of `psqt.c`. -/
def BishopOpeningMap32 : List Int :=
  [-18, -18, -16, -14,
   -8, 0, -2, 0,
   -6, -2, 4, 2,
   -4, 0, 2, 8,
   -4, 0, 2, 8,
   -6, -2, 4, 2,
   -8, 0, -2, 0,
   -8, -8, -6, -4]

/-- The array `BishopEndgameMap32` of `psqt.c`. -/
def BishopEndgameMap32 : List Int :=
  [-18, -12, -9, -6,
   -12, -6, -3, 0,
   -9, -3, 0, 3,
   -6, 0, 3, 6,
   -6, 0, 3, 6,
   -9, -3, 0, 3,
   -12, -6, -3, 0,
   -18, -12, -9, -6]

/-- The array `RookOpeningMap32` of `psqt.c`. -/
def RookOpeningMap32 : List Int :=
  [-2, -1, 0, 0,
   -2, -1, 0, 0,
   -2, -1, 0, 0,
   -2, -1, 0, 0,
   -2, -1, 0, 0,
   -2, -1, 0, 0,
   -2, -1, 0, 0,
   -2, -1, 0, 0]

/-- The array `RookEndgameMap32` of `psqt.c`. -/
def RookEndgameMap32 : List Int :=
  [0, 0, 0, 0,
   0, 0, 0, 0,
   0, 0, 0, 0,
   0, 0, 0, 0,
   0, 0, 0, 0,
   0, 0, 0, 0,
   0, 0, 0, 0,
   0, 0, 0, 0]

/-- The array `QueenOpeningMap32` of `psqt.c`. -/
def QueenOpeningMap32 : List Int :=
  [-5, -5, -5, -5,
   0, 0, 0, 0,
   0, 0, 0, 0,
   0, 0, 0, 0,
   0, 0, 0, 0,
   0, 0, 0, 0,
   0, 0, 0, 0,
   0, 0, 0, 0]

/-- The array `QueenEndgameMap32` of `psqt.c`. -/
def QueenEndgameMap32 : List Int :=
  [-24, -16, -12, -8,
   -16, -8, -4, 0,
   -12, -4, 0, 4,
   -8, 0, 4, 8,
   -8, 0, 4, 8,
   -12, -4, 0, 4,
   -16, -8, -4, 0,
   -24, -16, -12, -8]

/-- The array `KingOpeningMap32` of `psqt.c`. -/
def KingOpeningMap32 : List Int :=
  [40, 50, 30, 10,
   30, 40, 20, 0,
   10, 20, 0, -20,
   0, 10, -10, -30,
   -10, 0, -20, -40,
   -20, -10, -30, -50,
   -30, -20, -40, -60,
   -40, -30, -50, -70]

/-- The array `KingEndgameMap32` of `psqt.c`. -/
def KingEndgameMap32 : List Int :=
  [-72, -48, -36, -24,
   -48, -24, -12, 0,
   -36, -12, 0, 12,
   -24, 0, 12, 24,
   -24, 0, 12, 24,
   -36, -12, 0, 12,
   -48, -24, -12, 0,
   -72, -48, -36, -24]

/-- The two tables `PSQTopening` and `PSQTendgame` of `psqt.c`. -/
structure PSQTables where
  PSQTopening : Nat → Nat → Int
  PSQTendgame : Nat → Nat → Int

/-- Assignment `tab[i][j] = v`. -/
def upd2 (tab : Nat → Nat → Int) (i j : Nat) (v : Int) : Nat → Nat → Int :=
  fun a b => if a = i ∧ b = j then v else tab a b

/-- The first loop of `initalizePSQT`, which zeroes both tables. -/
def zeroLoop (T : PSQTables) : PSQTables :=
  (List.range 32).foldl
    (fun T1 i =>
      (List.range 64).foldl
        (fun T2 j =>
          { PSQTopening := upd2 T2.PSQTopening i j 0
            PSQTendgame := upd2 T2.PSQTendgame i j 0 })
        T1)
    T

/-- The eight assignments that `initalizePSQT` makes for one piece, one table and one rank:
the files 0 and 7, 1 and 6, 2 and 5, 3 and 4 get the piece value plus the entry of the map;
the sum is an `int`. -/
def fillRank (tab : Nat → Nat → Int) (piece : Nat) (value : Int) (map : List Int)
    (i j : Nat) : Nat → Nat → Int :=
  let t0 := upd2 tab piece (i + 0) (toInt32 (value + map.getD (j + 0) 0))
  let t1 := upd2 t0 piece (i + 7) (toInt32 (value + map.getD (j + 0) 0))
  let t2 := upd2 t1 piece (i + 1) (toInt32 (value + map.getD (j + 1) 0))
  let t3 := upd2 t2 piece (i + 6) (toInt32 (value + map.getD (j + 1) 0))
  let t4 := upd2 t3 piece (i + 2) (toInt32 (value + map.getD (j + 2) 0))
  let t5 := upd2 t4 piece (i + 5) (toInt32 (value + map.getD (j + 2) 0))
  let t6 := upd2 t5 piece (i + 3) (toInt32 (value + map.getD (j + 3) 0))
  upd2 t6 piece (i + 4) (toInt32 (value + map.getD (j + 3) 0))

/-- The body of the second loop of `initalizePSQT` in its pass number `k`, where `i` is `8 * k`
and `j` is `4 * k`. The assignments to one table do not read the other, so those to
`PSQTopening` are put before those to `PSQTendgame`; within a table they keep their order. -/
def whiteBody (V : PieceValues) (T : PSQTables) (k : Nat) : PSQTables :=
  let i := 8 * k
  let j := 4 * k
  { PSQTopening :=
      fillRank (fillRank (fillRank (fillRank (fillRank (fillRank T.PSQTopening
        WhitePawn V.PawnValue PawnOpeningMap32 i j)
        WhiteKnight V.KnightValue KnightOpeningMap32 i j)
        WhiteBishop V.BishopValue BishopOpeningMap32 i j)
        WhiteRook V.RookValue RookOpeningMap32 i j)
        WhiteQueen V.QueenValue QueenOpeningMap32 i j)
        WhiteKing V.KingValue KingOpeningMap32 i j
    PSQTendgame :=
      fillRank (fillRank (fillRank (fillRank (fillRank (fillRank T.PSQTendgame
        WhitePawn V.PawnValue PawnEndgameMap32 i j)
        WhiteKnight V.KnightValue KnightEndgameMap32 i j)
        WhiteBishop V.BishopValue BishopEndgameMap32 i j)
        WhiteRook V.RookValue RookEndgameMap32 i j)
        WhiteQueen V.QueenValue QueenEndgameMap32 i j)
        WhiteKing V.KingValue KingEndgameMap32 i j }

/-- The second loop of `initalizePSQT`: `for(i = 0, j = 0; i < 64; i += 8, j += 4)`. -/
def whiteLoop (V : PieceValues) (T : PSQTables) : PSQTables :=
  (List.range 8).foldl (whiteBody V) T

/-- The inner loop of the third loop of `initalizePSQT` for the row `i`: each entry is the
negated entry of the row below at the inverted square; the negation is that of an `int`. -/
def blackRow (T : PSQTables) (i : Nat) : PSQTables :=
  (List.range 64).foldl
    (fun T1 j =>
      { PSQTopening := upd2 T1.PSQTopening i j
          (toInt32 (-(T1.PSQTopening (i - 1) (InversionTable.getD j 0))))
        PSQTendgame := upd2 T1.PSQTendgame i j
          (toInt32 (-(T1.PSQTendgame (i - 1) (InversionTable.getD j 0)))) })
    T

/-- The third loop of `initalizePSQT`: `for(i = BlackPawn; i <= BlackKing; i+= 4)`. -/
def blackLoop (T : PSQTables) : PSQTables :=
  (List.range ((BlackKing - BlackPawn) / 4 + 1)).foldl
    (fun T1 k => blackRow T1 (BlackPawn + 4 * k)) T

/-- The function `initalizePSQT` of `psqt.c`, from the content `T` of the two tables before
the call. -/
def initalizePSQT (V : PieceValues) (T : PSQTables) : PSQTables :=
  blackLoop (whiteLoop V (zeroLoop T))

/-! ## What the claims on material, mate, `apply` and `perft` speak of -/

/-- The side to move is checkmated: its king is attacked and it has no legal move. -/
def checkmated (G : MoveGen) (board : Board) : Prop :=
  board.kingAttackers ≠ 0 ∧ G.genAllLegalMoves board = []

/-- The position `R5k1/5ppp/8/8/8/8/8/6K1 b - - 100 80`: Black to move is checkmated on the
back rank by the rook on a8, and the half-move clock stands at 100. -/
def matedBoard : Board :=
  { Board.clear with
    squares := fun s =>
      if s = 6 then makePiece KING WHITE else if s = 56 then makePiece ROOK WHITE
      else if s = 62 then makePiece KING BLACK
      else if s = 53 ∨ s = 54 ∨ s = 55 then makePiece PAWN BLACK else EMPTY
    pieces := fun p =>
      if p = KING then (1 <<< 6) ||| (1 <<< 62) else if p = ROOK then 1 <<< 56
      else if p = PAWN then (1 <<< 53) ||| (1 <<< 54) ||| (1 <<< 55) else 0
    colours := fun c =>
      if c = WHITE then (1 <<< 6) ||| (1 <<< 56)
      else if c = BLACK then (1 <<< 62) ||| (1 <<< 53) ||| (1 <<< 54) ||| (1 <<< 55) else 0
    castleMasks := fun sq => if sq < 64 then allON else 0
    kingAttackers := 1 <<< 56
    turn := 1
    epSquare := -1
    halfMoveCounter := 100
    fullMoveCounter := 80 }

/-- A stand-in for the move generator on `matedBoard`, which has no legal move. -/
def matedGen : MoveGen :=
  { genAllLegalMoves := fun _ => []
    moveToString := fun _ _ => [] }

/-- A stand-in for the functions of `move.cpp` in which no move is legal: `applyMove` hands the
move to the other side and keeps the side that was to move in the undo record, `revertMove`
puts that side back. -/
def rejectOps : MoveOps :=
  { applyMove := fun board _ undo => ({ board with turn := if board.turn = 0 then 1 else 0 },
      { undo with epSquare := board.turn })
    revertMove := fun board _ undo => { board with turn := undo.epSquare }
    moveWasLegal := fun _ => false }

/-- A stand-in for the two generators: one noisy move and two quiet moves on every board. -/
def sampleGenerators : Generators :=
  { genAllNoisyMoves := fun _ => [MoveMake 12 21 NORMAL_MOVE]
    genAllQuietMoves := fun _ => [MoveMake 12 20 NORMAL_MOVE, MoveMake 12 28 NORMAL_MOVE] }

/-- The counts of `perft` one depth below, over the moves that `perft` generates on a board and
that pass `moveWasLegal` once applied. -/
def perftTerms (ops : MoveOps) (G : Generators) (undo : Nat → Undo) (d : Nat) (board : Board) :
    List Nat :=
  ((G.genAllNoisyMoves board ++ G.genAllQuietMoves board).filter
      (fun m => ops.moveWasLegal (ops.applyMove board m (undo 0)).1)).map
    (fun m => (perft ops G undo d (ops.applyMove board m (undo 0)).1).1)


/-- Sample piece values: 100, 300, 300, 500, 900 and 0. -/
def sampleValues : PieceValues :=
  { PawnValue := 100, KnightValue := 300, BishopValue := 300, RookValue := 500,
    QueenValue := 900, KingValue := 0 }

/-- Two tables with 7 in every entry, as a content before `initalizePSQT`. -/
def sampleTablesBefore : PSQTables :=
  { PSQTopening := fun _ _ => 7, PSQTendgame := fun _ _ => 7 }

/-! ## What the claims on `setoption` speak of -/

/-- The options of `uciSetOption` that take a number. -/
inductive SpinOption where
  | Hash | Threads | MultiPV | MoveOverhead | SyzygyProbeDepth
  deriving DecidableEq

/-- The text a `setoption` command for the option begins with. -/
def SpinOption.command : SpinOption → List Char
  | .Hash => "setoption name Hash value ".toList
  | .Threads => "setoption name Threads value ".toList
  | .MultiPV => "setoption name MultiPV value ".toList
  | .MoveOverhead => "setoption name MoveOverhead value ".toList
  | .SyzygyProbeDepth => "setoption name SyzygyProbeDepth value ".toList

/-- The settings with the option set to the number `v`; `TB_PROBE_DEPTH` is `unsigned` and
holds `v` modulo `2^32`. -/
def SpinOption.setTo (opt : SpinOption) (v : Int) (o : Options) : Options :=
  match opt with
  | .Hash => { o with hashMB := v }
  | .Threads => { o with nthreads := v }
  | .MultiPV => { o with multiPV := v }
  | .MoveOverhead => { o with MoveOverhead := v }
  | .SyzygyProbeDepth => { o with TB_PROBE_DEPTH := (v % 4294967296).toNat }

/-- The range that the `uci` command declares for the option. -/
def SpinOption.declared (opt : SpinOption) (v : Int) : Prop :=
  match opt with
  | .Hash => 1 ≤ v ∧ v ≤ 65536
  | .Threads => 1 ≤ v ∧ v ≤ 2048
  | .MultiPV => 1 ≤ v ∧ v ≤ 256
  | .MoveOverhead => 0 ≤ v ∧ v ≤ 10000
  | .SyzygyProbeDepth => 0 ≤ v ∧ v ≤ 127

/-- The defaults that the `uci` command declares, with an empty tablebase path. -/
def sampleOptions : Options :=
  { hashMB := 16, nthreads := 1, multiPV := 1, MoveOverhead := 100, syzygyPath := [],
    TB_PROBE_DEPTH := 0, chess960 := 0 }

/-- A content of a buffer of 9 characters before it is written: `?`, `/`, `x` and a NUL. -/
def sampleBuffer : List Char := ['?', '/', 'x', Char.ofNat 0, '?', '?', '?', '?', '?']

/-- The value of `multiPV` after a call of `uciSetOption`, `none` when it ended in a fault. -/
def multiPVOf (r : Except Fault Options) : Option Int :=
  match r with
  | .ok o => some o.multiPV
  | .error _ => none

/-- The text handed to `tb_init` after a call of `uciSetOption`, `none` when it ended in a
fault. -/
def syzygyPathOf (r : Except Fault Options) : Option (List Char) :=
  match r with
  | .ok o => some o.syzygyPath
  | .error _ => none

/-- The command `setoption name SyzygyPath value /home/user/syzygy`. -/
def sampleSyzygy : List Char := "setoption name SyzygyPath value /home/user/syzygy".toList

/-- The command `setoption name SyzygyPath value /tb/syzygy345`. -/
def sampleSyzygyDigits : List Char := "setoption name SyzygyPath value /tb/syzygy345".toList

/-- The command `setoption name MultiPV value 0`. -/
def sampleMultiPV : List Char := "setoption name MultiPV value 0".toList


/-- The command `setoption name MultiPV value abc`. -/
def sampleMultiPVText : List Char := "setoption name MultiPV value abc".toList

/-- The value of the option in the settings. -/
def SpinOption.read (opt : SpinOption) (o : Options) : Int :=
  match opt with
  | .Hash => o.hashMB
  | .Threads => o.nthreads
  | .MultiPV => o.multiPV
  | .MoveOverhead => o.MoveOverhead
  | .SyzygyProbeDepth => o.TB_PROBE_DEPTH

/-! ## `board.cpp`: the reads of the history -/

/-- The indices at which the loop of `boardDrawnByRepetition` reads `board.history`, first
read first; the loop is that of `repetitionLoop`, and `history[i]` is read in every pass that
gets past the two tests on `i`. -/
def repetitionReads (board : Board) (height : Int) : Nat → Int → Int → List Int
  | 0, _, _ => []
  | fuel + 1, i, reps =>
    if ¬ (i ≥ 0) then []
    else if i < board.numMoves - board.halfMoveCounter then []
    else
      i :: (if board.history i.toNat = board.hash then
              (if i > board.numMoves - height then []
               else if reps + 1 = 2 then []
               else repetitionReads board height fuel (i - 2) (reps + 1))
            else repetitionReads board height fuel (i - 2) reps)

/-! ## What the claims on moves and repetitions speak of -/

/-- Number of files between two squares. -/
def fileDistance (a b : Nat) : Nat := Int.natAbs ((a % 8 : Int) - (b % 8 : Int))

/-- Number of ranks between two squares. -/
def rankDistance (a b : Nat) : Nat := Int.natAbs ((a / 8 : Int) - (b / 8 : Int))

/-- A displacement by `df` files and `dr` ranks that some chess piece makes in a move of the
normal type: a king step, a knight step, a rook move along a rank or a file, a bishop move
along a diagonal (a queen makes either of these two), or a pawn step, push or capture. -/
def pieceStep (df dr : Nat) : Prop :=
  (df ≤ 1 ∧ dr ≤ 1 ∧ (df ≠ 0 ∨ dr ≠ 0))
  ∨ (df = 1 ∧ dr = 2) ∨ (df = 2 ∧ dr = 1)
  ∨ (df = 0 ∧ dr ≠ 0) ∨ (df ≠ 0 ∧ dr = 0)
  ∨ (df = dr ∧ df ≠ 0)
  ∨ (df = 0 ∧ (dr = 1 ∨ dr = 2)) ∨ (df = 1 ∧ dr = 1)

instance (df dr : Nat) : Decidable (pieceStep df dr) := by
  unfold pieceStep; infer_instance

/-! ## What the claims on the castle rooks speak of -/

/-- A FEN with both kings on their squares, no rook, and the castling field `A`. -/
def sampleShredder : List Char := "4k3/8/8/8/8/8/8/4K3 w A - 0 1".toList

/-- The castle rooks of the board that a call returned, `none` when it ended in a fault. -/
def castleRooksOf (r : Except Fault Board) : Option Nat :=
  match r with
  | .ok b => some b.castleRooks
  | .error _ => none

/-- Whether a rook of the colour stands on square `s` of the board that a call returned, by
the bitboards; `none` when the call ended in a fault. -/
def rookOnOf (r : Except Fault Board) (colour s : Nat) : Option Bool :=
  match r with
  | .ok b => some (rookOn b colour s)
  | .error _ => none

/-! ## `board.cpp`: the castling field of `boardToFEN` -/

/-- The statements of `boardToFEN` that write the castling field: the castle rights loop of
White, the castle rights loop of Black and the `-` of a board without castle rooks. `st` is
the buffer and the index `i` before these statements, the result is the buffer and the index
behind them. -/
def fenCastleField (board : Board) (st : List Char × Nat) : Except Fault (List Char × Nat) :=
  match fenCastles board 65 'K' 'Q' 64 (board.colours WHITE &&& board.castleRooks) st with
  | .error e => .error e
  | .ok st3 =>
    match fenCastles board 97 'k' 'q' 64 (board.colours BLACK &&& board.castleRooks) st3 with
    | .error e => .error e
    | .ok st4 =>
      if board.castleRooks = 0 then
        match put st4.1 st4.2 (Char.ofNat 45) with
        | .error e => .error e
        | .ok fen5 => .ok (fen5, st4.2 + 1)
      else .ok st4

/-! ## What the claim on the castling field written speaks of -/

/-- Writing a text into the buffer at index `i`, one character after the other; the result is
the buffer and the index behind the text. -/
def writeText (fen : List Char) (i : Nat) (text : List Char) : Except Fault (List Char × Nat) :=
  match putAll fen i text with
  | .ok fen1 => .ok (fen1, i + text.length)
  | .error e => .error e

/-- The set bits of a bitboard below square `n`, highest first. -/
def bitsDown (bb : Nat) : Nat → List Nat
  | 0 => []
  | n + 1 => if testBit bb n then n :: bitsDown bb n else bitsDown bb n

/-- The letter by which a castling field names a castle rook on square `sq`: on a Chess960
board the letter of its file, counted from `base`; otherwise `kingSide` on the h-file,
`queenSide` on the a-file, and no letter on any other file. -/
def castleLetter (board : Board) (base : Nat) (kingSide queenSide : Char) (sq : Nat) :
    Option Char :=
  if board.chess960 ≠ 0 then some (Char.ofNat (base + sq % 8))
  else if sq % 8 = 7 then some kingSide
  else if sq % 8 = 0 then some queenSide
  else none

/-- The castling field of a board: the letters of the castle rooks that stand on a white
piece, highest square first, then the letters of those that stand on a black piece, and `-`
for a board without castle rooks. -/
def castleFieldText (board : Board) : List Char :=
  (bitsDown (board.colours WHITE &&& board.castleRooks) 64).filterMap
      (castleLetter board 65 'K' 'Q')
    ++ (bitsDown (board.colours BLACK &&& board.castleRooks) 64).filterMap
      (castleLetter board 97 'k' 'q')
    ++ (if board.castleRooks = 0 then ['-'] else [])

/-- Number of castle rooks that stand on an empty square. -/
def strandedRooks (board : Board) : Nat :=
  (List.range 64).countP
    (fun s => testBit board.castleRooks s && decide (board.squares s = EMPTY))

/-- What the castling statements of `boardToFEN` make of the buffer `fen` and the index `i`,
for the board that a call returned; `none` when a call ended in a fault. -/
def castleWrittenOf (r : Except Fault Board) (fen : List Char) (i : Nat) :
    Option (List Char × Nat) :=
  match r with
  | .ok b =>
    match fenCastleField b (fen, i) with
    | .ok st => some st
    | .error _ => none
  | .error _ => none

/-- The buffer `fen` after `boardToFEN`, for the board that a call returned; `none` when a call
ended in a fault. -/
def boardToFENOf (r : Except Fault Board) (fen : List Char) : Option (List Char) :=
  match r with
  | .ok b =>
    match boardToFEN b fen with
    | .ok fen1 => some fen1
    | .error _ => none
  | .error _ => none

/-! ## Bit-level helper lemmas -/

theorem testBit_false_of_lt {x i k : Nat} (hx : x < 2 ^ k) (hi : k ≤ i) :
    x.testBit i = false :=
  Nat.testBit_lt_two_pow (Nat.lt_of_lt_of_le hx (Nat.pow_le_pow_right (by decide) hi))

theorem testBit_63 (j : Nat) : Nat.testBit 63 j = decide (j < 6) :=
  Nat.testBit_two_pow_sub_one 6 j

theorem testBit_3 (j : Nat) : Nat.testBit 3 j = decide (j < 2) :=
  Nat.testBit_two_pow_sub_one 2 j

/-- Masking with a shifted constant is shifting the masked field back. -/
theorem and_shiftLeft_eq (m k s : Nat) : m &&& (k <<< s) = ((m >>> s) &&& k) <<< s := by
  apply Nat.eq_of_testBit_eq
  intro i
  simp only [Nat.testBit_and, Nat.testBit_shiftLeft, Nat.testBit_shiftRight]
  by_cases h : s ≤ i
  · have e : s + (i - s) = i := by omega
    simp [h, e]
  · simp [h]

theorem and_63_lt (x : Nat) : x &&& 63 < 64 :=
  Nat.lt_of_le_of_lt Nat.and_le_right (by decide)

theorem and_3_cases (x : Nat) : x &&& 3 = 0 ∨ x &&& 3 = 1 ∨ x &&& 3 = 2 ∨ x &&& 3 = 3 := by
  have h : x &&& 3 < 4 := Nat.lt_of_le_of_lt Nat.and_le_right (by decide)
  omega

/-! ## Folds over the squares -/

theorem xorUpTo_upd (g g' : Nat → Nat) (s0 v : Nat) (h0 : g s0 = 0) (h1 : g' s0 = v)
    (h2 : ∀ s, s ≠ s0 → g' s = g s) (n : Nat) :
    xorUpTo g' n = xorUpTo g n ^^^ (if s0 < n then v else 0) := by
  induction n with
  | zero => simp [xorUpTo]
  | succ n ih =>
    simp only [xorUpTo, ih]
    by_cases hn : n = s0
    · subst hn
      simp [h0, h1]
    · rw [h2 n hn]
      by_cases hlt : s0 < n
      · have hlt' : s0 < n + 1 := by omega
        simp only [hlt, hlt', if_true]
        rw [Nat.xor_assoc, Nat.xor_comm v (g n), ← Nat.xor_assoc]
      · have hlt' : ¬ s0 < n + 1 := by omega
        simp [hlt, hlt']

theorem sumUpTo_upd (g g' : Nat → Int) (s0 : Nat) (v : Int) (h0 : g s0 = 0) (h1 : g' s0 = v)
    (h2 : ∀ s, s ≠ s0 → g' s = g s) (n : Nat) :
    sumUpTo g' n = sumUpTo g n + (if s0 < n then v else 0) := by
  induction n with
  | zero => simp [sumUpTo]
  | succ n ih =>
    simp only [sumUpTo, ih]
    by_cases hn : n = s0
    · subst hn
      simp [h0, h1]
    · rw [h2 n hn]
      by_cases hlt : s0 < n
      · have hlt' : s0 < n + 1 := by omega
        simp only [hlt, hlt', if_true]
        omega
      · have hlt' : ¬ s0 < n + 1 := by omega
        simp [hlt, hlt']

theorem xorUpTo_zero (g : Nat → Nat) (n : Nat) (h : ∀ s, s < n → g s = 0) :
    xorUpTo g n = 0 := by
  induction n with
  | zero => rfl
  | succ n ih =>
    simp [xorUpTo, ih (fun s hs => h s (Nat.lt_succ_of_lt hs)), h n (Nat.lt_succ_self n)]

theorem sumUpTo_zero (g : Nat → Int) (n : Nat) (h : ∀ s, s < n → g s = 0) :
    sumUpTo g n = 0 := by
  induction n with
  | zero => rfl
  | succ n ih =>
    simp [sumUpTo, ih (fun s hs => h s (Nat.lt_succ_of_lt hs)), h n (Nat.lt_succ_self n)]

theorem toInt32_add_left (a v : Int) : toInt32 (toInt32 a + v) = toInt32 (a + v) := by
  unfold toInt32
  omega

theorem toInt32_of_range (a : Int) (h : -2147483648 ≤ a ∧ a < 2147483648) : toInt32 a = a := by
  unfold toInt32
  omega

theorem testBit_setBit (bb i j : Nat) :
    testBit (setBit bb i) j = (testBit bb j || decide (i = j)) := by
  unfold testBit setBit
  rw [Nat.testBit_or, Nat.one_shiftLeft, Nat.testBit_two_pow]

theorem strchr_lt : ∀ (l : List Char) (ch : Char) (k : Nat), strchr l ch = some k → k < l.length
  | [], _, _, h => by simp [strchr] at h
  | c :: cs, ch, k, h => by
    unfold strchr at h
    by_cases hc : c = ch
    · simp only [hc, if_true, Option.some.injEq] at h
      subst h
      simp
    · simp only [hc, if_false, Option.map_eq_some'] at h
      obtain ⟨a, ha, rfl⟩ := h
      have := strchr_lt cs ch a ha
      simp only [List.length_cons]
      omega

theorem pieceLabel_length (c : Nat) : (PieceLabel c).length ≤ 6 := by
  unfold PieceLabel
  split
  · exact Nat.le_refl 6
  · split
    · exact Nat.le_refl 6
    · exact Nat.zero_le 6

theorem makePiece_type (p c : Nat) (hc : c < 4) : pieceType (makePiece p c) = p := by
  unfold pieceType makePiece; omega

theorem makePiece_colour (p c : Nat) (hc : c < 4) : pieceColour (makePiece p c) = c := by
  unfold pieceColour makePiece; omega

theorem makePiece_ne_empty (p c : Nat) (hc : c < 2) : makePiece p c ≠ EMPTY := by
  unfold makePiece EMPTY; omega

/-! ## The placement loop -/

/-- The cleared board satisfies the placement invariant with nothing described yet. -/
theorem placementInv_clear (T : Tables) : PlacementInv T Board.clear 0 where
  fresh := fun _ _ _ => rfl
  valid := fun _ => Or.inl rfl
  pieces := by
    intro p s hp
    simp only [Board.clear, testBit, Nat.zero_testBit]
    constructor
    · intro h; exact absurd h (by simp)
    · intro h; change 26 / 4 = p at h; omega
  colours := by
    intro c s hc
    simp only [Board.clear, testBit, Nat.zero_testBit]
    constructor
    · intro h; exact absurd h (by simp)
    · intro h; change 26 % 4 = c at h; omega
  sparePieces := fun _ _ => rfl
  spareColours := fun _ _ => rfl
  hash := (xorUpTo_zero _ 64 (fun s _ => by simp [Board.clear])).symm
  psqt := by
    have h0 : psqtSum T Board.clear.squares = 0 :=
      sumUpTo_zero _ 64 (fun s _ => by simp [Board.clear])
    rw [h0]
    rfl

/-- The invariant only weakens when more squares count as described. -/
theorem PlacementInv.mono {T : Tables} {b : Board} {k k' : Nat} (h : PlacementInv T b k)
    (hk : k ≤ k') : PlacementInv T b k' :=
  { h with fresh := fun s hs hks => h.fresh s hs (Nat.le_trans hk hks) }

/-- The function `setSquare` on the next square of the FEN order keeps the placement
invariant. -/
theorem setSquare_inv (T : Tables) (b : Board) (k colour piece s0 : Nat)
    (hinv : PlacementInv T b k) (hs : s0 < 64) (hk : scanIndex s0 = k) (hc : colour < 2)
    (hp : piece < 6) :
    ∃ b', setSquare T b colour piece (s0 : Int) = .ok b' ∧ PlacementInv T b' (k + 1)
      ∧ b'.squares = upd b.squares s0 (makePiece piece colour) := by
  have he : b.squares s0 = EMPTY := hinv.fresh s0 hs (by omega)
  have hpc : makePiece piece colour ≠ EMPTY := makePiece_ne_empty piece colour hc
  have hrun : setSquare T b colour piece (s0 : Int) = .ok
      { b with
        squares := upd b.squares s0 (makePiece piece colour)
        colours := upd b.colours colour (setBit (b.colours colour) s0)
        pieces := upd b.pieces piece (setBit (b.pieces piece) s0)
        psqtmat := toInt32 (b.psqtmat + T.PSQT (makePiece piece colour) s0)
        hash := b.hash ^^^ T.ZobristKeys (makePiece piece colour) s0
        pkhash := if piece = PAWN ∨ piece = KING then
            b.pkhash ^^^ T.ZobristKeys (makePiece piece colour) s0
          else b.pkhash } := by
    unfold setSquare
    have h1 : colour < COLOUR_NB := hc
    have h2 : piece < PIECE_NB := hp
    have h3 : (0 : Int) ≤ (s0 : Int) ∧ (s0 : Int) < (SQUARE_NB : Nat) := by
      simp only [SQUARE_NB]; omega
    simp only [h1, h2, h3, not_true_eq_false, if_false, and_self, Int.toNat_ofNat]
  refine ⟨_, hrun, ?_, rfl⟩
  constructor
  · intro s hs' hks
    have hne : s ≠ s0 := by rintro rfl; omega
    simp only [upd, hne, if_false]
    exact hinv.fresh s hs' (by omega)
  · intro s
    by_cases hss : s = s0
    · subst hss
      exact Or.inr ⟨hs, piece, colour, hp, hc, by simp [upd]⟩
    · simp only [upd, hss, if_false]
      exact hinv.valid s
  · intro p s hp'
    simp only [upd]
    by_cases hpp : p = piece
    · subst hpp
      simp only [if_true, testBit_setBit, Bool.or_eq_true, decide_eq_true_eq]
      by_cases hss : s = s0
      · subst hss
        simp [makePiece_type p colour (by omega)]
      · have hss' : ¬ s0 = s := fun h => hss h.symm
        simp only [hss, hss', if_false, or_false]
        exact hinv.pieces p s hp'
    · simp only [hpp, if_false]
      by_cases hss : s = s0
      · subst hss
        simp only [if_true, makePiece_type piece colour (by omega)]
        rw [hinv.pieces p s hp', he]
        simp only [pieceType, EMPTY]
        constructor
        · intro h; omega
        · intro h; exact absurd h.symm hpp
      · simp only [hss, if_false]
        exact hinv.pieces p s hp'
  · intro c s hc'
    simp only [upd]
    by_cases hcc : c = colour
    · subst hcc
      simp only [if_true, testBit_setBit, Bool.or_eq_true, decide_eq_true_eq]
      by_cases hss : s = s0
      · subst hss
        simp [makePiece_colour piece c (by omega)]
      · have hss' : ¬ s0 = s := fun h => hss h.symm
        simp only [hss, hss', if_false, or_false]
        exact hinv.colours c s hc'
    · simp only [hcc, if_false]
      by_cases hss : s = s0
      · subst hss
        simp only [if_true, makePiece_colour piece colour (by omega)]
        rw [hinv.colours c s hc', he]
        simp only [pieceColour, EMPTY]
        constructor
        · intro h; omega
        · intro h; exact absurd h.symm hcc
      · simp only [hss, if_false]
        exact hinv.colours c s hc'
  · intro p hp'
    have hne : p ≠ piece := by omega
    simp only [upd, hne, if_false]
    exact hinv.sparePieces p hp'
  · intro c hc'
    have hne : c ≠ colour := by omega
    simp only [upd, hne, if_false]
    exact hinv.spareColours c hc'
  · show b.hash ^^^ T.ZobristKeys (makePiece piece colour) s0 =
      pieceHash T (upd b.squares s0 (makePiece piece colour))
    unfold pieceHash
    rw [xorUpTo_upd (fun s => if b.squares s = EMPTY then 0 else T.ZobristKeys (b.squares s) s)
      _ s0 (T.ZobristKeys (makePiece piece colour) s0) (by simp [he]) (by simp [upd, hpc])
      (by intro s hne; simp [upd, hne]) 64]
    rw [hinv.hash]
    simp [pieceHash, hs]
  · show toInt32 (b.psqtmat + T.PSQT (makePiece piece colour) s0) =
      toInt32 (psqtSum T (upd b.squares s0 (makePiece piece colour)))
    have hsum : psqtSum T (upd b.squares s0 (makePiece piece colour)) =
        psqtSum T b.squares + T.PSQT (makePiece piece colour) s0 := by
      unfold psqtSum
      rw [sumUpTo_upd (fun s => if b.squares s = EMPTY then 0 else T.PSQT (b.squares s) s)
        _ s0 (T.PSQT (makePiece piece colour) s0) (by simp [he]) (by simp [upd, hpc])
        (by intro s hne; simp [upd, hne]) 64]
      simp [hs]
    rw [hsum, hinv.psqt]
    exact toInt32_add_left _ _

/-- The mailbox after a successful `setSquare`. -/
theorem setSquare_squares (T : Tables) (b b1 : Board) (colour piece : Nat) (sq : Int)
    (h : setSquare T b colour piece sq = .ok b1) :
    b1.squares = upd b.squares sq.toNat (makePiece piece colour) := by
  unfold setSquare at h
  by_cases h1 : ¬ (colour < COLOUR_NB)
  · rw [if_pos h1] at h; cases h
  · rw [if_neg h1] at h
    by_cases h2 : ¬ (piece < PIECE_NB)
    · rw [if_pos h2] at h; cases h
    · rw [if_neg h2] at h
      by_cases h3 : ¬ (0 ≤ sq ∧ sq < SQUARE_NB)
      · rw [if_pos h3] at h; cases h
      · rw [if_neg h3] at h
        cases h
        rfl

/-- On a well-formed placement field the placement loop returns a board, and that board
satisfies the placement invariant with all 64 squares described. -/
theorem placementLoop_wf (T : Tables) :
    ∀ (cs : List Char) (r f : Nat) (b : Board), placementWF cs r f = true → r < 8 → f ≤ 8 →
      PlacementInv T b (8 * r + f) →
      ∃ b', placementLoop T cs ((56 : Int) - 8 * r + f) b = .ok b' ∧ PlacementInv T b' 64
  | [], r, f, b, hwf, _, _, hinv => by
    simp only [placementWF, decide_eq_true_eq] at hwf
    obtain ⟨rfl, rfl⟩ := hwf
    exact ⟨b, rfl, hinv⟩
  | ch :: rest, r, f, b, hwf, hr, hf, hinv => by
    unfold placementWF at hwf
    unfold placementLoop
    by_cases h0 : ch.toNat = 0
    · rw [if_pos h0] at hwf; cases hwf
    · rw [if_neg h0] at hwf ⊢
      by_cases hd : isdigit ch = true
      · rw [if_pos hd] at hwf ⊢
        rw [Bool.and_eq_true, decide_eq_true_eq] at hwf
        have h48 : 48 ≤ ch.toNat := by
          simp only [isdigit, decide_eq_true_eq] at hd; exact hd.1
        have hrec := placementLoop_wf T rest r (f + (ch.toNat - 48)) b hwf.2 hr hwf.1
          (hinv.mono (by omega))
        have e : (56 : Int) - 8 * (r : Int) + ((f + (ch.toNat - 48) : Nat) : Int)
            = (56 : Int) - 8 * r + f + ((ch.toNat : Int) - 48) := by omega
        rw [e] at hrec
        exact hrec
      · rw [if_neg hd] at hwf ⊢
        by_cases hs : ch = '/'
        · rw [if_pos hs] at hwf ⊢
          rw [Bool.and_eq_true, decide_eq_true_eq] at hwf
          obtain ⟨⟨rfl, hr7⟩, hwf'⟩ := hwf
          have hrec := placementLoop_wf T rest (r + 1) 0 b hwf' (by omega) (by omega)
            (hinv.mono (by omega))
          have e : (56 : Int) - 8 * ((r + 1 : Nat) : Int) + ((0 : Nat) : Int)
              = (56 : Int) - 8 * r + ((8 : Nat) : Int) - 16 := by omega
          rw [e] at hrec
          exact hrec
        · rw [if_neg hs] at hwf ⊢
          cases hp : strchr (PieceLabel (if islower ch = true then 1 else 0)) ch with
          | none => rw [hp] at hwf; cases hwf
          | some piece =>
            rw [hp] at hwf
            simp only [Bool.and_eq_true, decide_eq_true_eq] at hwf
            have hpl : piece < 6 :=
              Nat.lt_of_lt_of_le (strchr_lt _ _ _ hp) (pieceLabel_length _)
            have hcl : (if islower ch = true then 1 else 0 : Nat) < 2 := by
              split <;> decide
            have hf8 : f < 8 := hwf.1
            have hsq : (56 : Int) - 8 * (r : Int) + (f : Int) = ((56 - 8 * r + f : Nat) : Int) := by
              omega
            obtain ⟨b1, hb1, hinv1, -⟩ := setSquare_inv T b (8 * r + f)
              (if islower ch = true then 1 else 0) piece (56 - 8 * r + f) hinv (by omega)
              (by unfold scanIndex; omega) hcl hpl
            simp only [hsq, hp, hb1]
            have hrec := placementLoop_wf T rest r (f + 1) b1 hwf.2 hr (by omega) hinv1
            have e : (56 : Int) - 8 * (r : Int) + ((f + 1 : Nat) : Int)
                = ((56 - 8 * r + f : Nat) : Int) + 1 := by omega
            rw [e] at hrec
            exact hrec

/-- The mailbox of the board that the placement loop returns is the one the placement field
describes. -/
theorem placementLoop_squares (T : Tables) :
    ∀ (cs : List Char) (sq : Int) (b b' : Board), placementLoop T cs sq b = .ok b' →
      b'.squares = placementSquares cs sq b.squares
  | [], sq, b, b', h => by
    simp only [placementLoop, Except.ok.injEq] at h
    subst h
    rfl
  | ch :: rest, sq, b, b', h => by
    unfold placementLoop at h
    unfold placementSquares
    by_cases h0 : ch.toNat = 0
    · rw [if_pos h0] at h ⊢
      cases h
      rfl
    · rw [if_neg h0] at h ⊢
      by_cases hd : isdigit ch = true
      · rw [if_pos hd] at h ⊢
        exact placementLoop_squares T rest _ b b' h
      · rw [if_neg hd] at h ⊢
        by_cases hs : ch = '/'
        · rw [if_pos hs] at h ⊢
          exact placementLoop_squares T rest _ b b' h
        · rw [if_neg hs] at h ⊢
          cases hp : strchr (PieceLabel (if islower ch = true then 1 else 0)) ch with
          | none =>
            simp only [hp] at h ⊢
            exact placementLoop_squares T rest _ b b' h
          | some piece =>
            simp only [hp] at h ⊢
            cases hset : setSquare T b (if islower ch = true then 1 else 0) piece sq with
            | error e => rw [hset] at h; cases h
            | ok b1 =>
              simp only [hset] at h
              rw [placementLoop_squares T rest _ b1 b' h, setSquare_squares T b b1 _ _ _ hset]

/-! ## Lowest and highest set bit -/

theorem find_range_some (p : Nat → Bool) :
    ∀ (n i : Nat), (List.range n).find? p = some i →
      i < n ∧ p i = true ∧ ∀ j, j < i → p j = false
  | 0, i, h => by simp at h
  | n + 1, i, h => by
    rw [List.range_succ, List.find?_append] at h
    cases hn : (List.range n).find? p with
    | some k =>
      rw [hn] at h
      simp only [Option.or_some, Option.some.injEq] at h
      subst h
      obtain ⟨a, b, c⟩ := find_range_some p n k hn
      exact ⟨by omega, b, c⟩
    | none =>
      rw [hn] at h
      simp only [Option.none_or] at h
      have hall := List.find?_eq_none.mp hn
      have hpi := List.find?_some h
      have hmem := List.mem_of_find?_eq_some h
      simp only [List.mem_singleton] at hmem
      subst hmem
      refine ⟨by omega, hpi, ?_⟩
      intro j hj
      have := hall j (List.mem_range.mpr hj)
      simpa using this

theorem getlsb_some (bb i : Nat) (h : getlsb bb = some i) :
    i < 64 ∧ testBit bb i = true ∧ ∀ j, j < i → testBit bb j = false :=
  find_range_some (fun i => testBit bb i) 64 i h

theorem getlsb_none (bb : Nat) (h : getlsb bb = none) : ∀ j, j < 64 → testBit bb j = false := by
  intro j hj
  have := List.find?_eq_none.mp h j (List.mem_range.mpr hj)
  simpa using this

theorem getmsb_some (bb i : Nat) (h : getmsb bb = some i) : i < 64 ∧ testBit bb i = true := by
  unfold getmsb at h
  have hmem := List.mem_of_find?_eq_some h
  rw [List.mem_reverse, List.mem_range] at hmem
  exact ⟨hmem, List.find?_some h⟩

theorem getmsb_none (bb : Nat) (h : getmsb bb = none) : ∀ j, j < 64 → testBit bb j = false := by
  intro j hj
  unfold getmsb at h
  have := List.find?_eq_none.mp h j (List.mem_reverse.mpr (List.mem_range.mpr hj))
  simpa using this

theorem testBit_clearBit (bb i j : Nat) :
    testBit (clearBit bb i) j = (testBit bb j && !decide (i = j)) := by
  unfold testBit clearBit
  rw [Nat.testBit_xor, Nat.testBit_and, Nat.one_shiftLeft, Nat.testBit_two_pow]
  cases Nat.testBit bb j <;> cases decide (i = j) <;> rfl

/-! ## The hash of the castling rooks -/

/-- The loop over the castling rooks XORs the key of every set bit below 64 into the hash. -/
theorem castleHashLoop_eq (T : Tables) :
    ∀ (fuel rooks hash : Nat), (∀ j, j < 64 - fuel → testBit rooks j = false) →
      castleHashLoop T fuel rooks hash = hash ^^^ castleHash T rooks
  | 0, rooks, hash, hlow => by
    unfold castleHashLoop castleHash
    rw [xorUpTo_zero _ 64 (fun s hs => by simp [hlow s (by omega)])]
    simp
  | fuel + 1, rooks, hash, hlow => by
    unfold castleHashLoop poplsb
    cases hg : getlsb rooks with
    | none =>
      simp only [Option.map_none']
      unfold castleHash
      rw [xorUpTo_zero _ 64 (fun s hs => by simp [getlsb_none rooks hg s hs])]
      simp
    | some i =>
      obtain ⟨hi, hbit, hmin⟩ := getlsb_some rooks i hg
      simp only [Option.map_some']
      have hge : ¬ i < 64 - (fuel + 1) := by
        intro hlt
        rw [hlow i hlt] at hbit
        cases hbit
      have hlow' : ∀ j, j < 64 - fuel → testBit (clearBit rooks i) j = false := by
        intro j hj
        rw [testBit_clearBit]
        by_cases hji : j < i
        · rw [hmin j hji]; rfl
        · have : i = j := by omega
          simp [this]
      rw [castleHashLoop_eq T fuel (clearBit rooks i) _ hlow']
      have hsplit : castleHash T rooks =
          castleHash T (clearBit rooks i) ^^^ T.ZobristCastleKeys i := by
        unfold castleHash
        rw [xorUpTo_upd
          (fun s => if testBit (clearBit rooks i) s = true then T.ZobristCastleKeys s else 0)
          (fun s => if testBit rooks s = true then T.ZobristCastleKeys s else 0) i
          (T.ZobristCastleKeys i) (by simp [testBit_clearBit]) (by simp [hbit])
          (by
            intro s hne
            have hne' : ¬ i = s := fun h => hne h.symm
            simp [testBit_clearBit, hne']) 64]
        simp [hi]
      rw [hsplit, Nat.xor_assoc, Nat.xor_comm (T.ZobristCastleKeys i)]

/-! ## The castling field -/

theorem getmsb_of_bit (bb s : Nat) (hs : s < 64) (hb : testBit bb s = true) :
    ∃ i, getmsb bb = some i := by
  cases h : getmsb bb with
  | some i => exact ⟨i, rfl⟩
  | none => rw [getmsb_none bb h s hs] at hb; cases hb

theorem getlsb_of_bit (bb s : Nat) (hs : s < 64) (hb : testBit bb s = true) :
    ∃ i, getlsb bb = some i := by
  cases h : getlsb bb with
  | some i => exact ⟨i, rfl⟩
  | none => rw [getlsb_none bb h s hs] at hb; cases hb

/-- The castling loop returns a rook set when every `K`, `Q`, `k`, `q` of the field finds a
rook of its colour on its rank. -/
theorem castleLoop_ok (white black rooks : Nat) (m : Nat → Nat)
    (hw : hasRook m WHITE 0 = true → ∃ s, s < 64 ∧ testBit (white &&& rooks &&& RANK_1) s = true)
    (hb : hasRook m BLACK 56 = true → ∃ s, s < 64 ∧ testBit (black &&& rooks &&& RANK_8) s = true) :
    ∀ (word : List Char) (cr : Nat), castlingWF m word = true →
      ∃ cr', castleLoop white black rooks word cr = .ok cr'
  | [], cr, _ => ⟨cr, rfl⟩
  | ch :: rest, cr, hwf => by
    unfold castlingWF at hwf
    rw [Bool.and_eq_true] at hwf
    obtain ⟨hch, hrest⟩ := hwf
    unfold castleLoop
    by_cases h0 : ch.toNat = 0
    · exact ⟨cr, by rw [if_pos h0]⟩
    · rw [if_neg h0]
      by_cases hK : ch = 'K'
      · rw [if_pos hK]
        rw [if_pos (Or.inl hK)] at hch
        obtain ⟨s, hs, hbit⟩ := hw hch
        obtain ⟨i, hi⟩ := getmsb_of_bit _ s hs hbit
        simp only [hi, bitIndex]
        exact castleLoop_ok white black rooks m hw hb rest _ hrest
      · rw [if_neg hK]
        by_cases hQ : ch = 'Q'
        · rw [if_pos hQ]
          rw [if_pos (Or.inr hQ)] at hch
          obtain ⟨s, hs, hbit⟩ := hw hch
          obtain ⟨i, hi⟩ := getlsb_of_bit _ s hs hbit
          simp only [hi, bitIndex]
          exact castleLoop_ok white black rooks m hw hb rest _ hrest
        · rw [if_neg hQ]
          rw [if_neg (by rintro (h | h); exact hK h; exact hQ h)] at hch
          by_cases hk : ch = 'k'
          · rw [if_pos hk]
            rw [if_pos (Or.inl hk)] at hch
            obtain ⟨s, hs, hbit⟩ := hb hch
            obtain ⟨i, hi⟩ := getmsb_of_bit _ s hs hbit
            simp only [hi, bitIndex]
            exact castleLoop_ok white black rooks m hw hb rest _ hrest
          · rw [if_neg hk]
            by_cases hq : ch = 'q'
            · rw [if_pos hq]
              rw [if_pos (Or.inr hq)] at hch
              obtain ⟨s, hs, hbit⟩ := hb hch
              obtain ⟨i, hi⟩ := getlsb_of_bit _ s hs hbit
              simp only [hi, bitIndex]
              exact castleLoop_ok white black rooks m hw hb rest _ hrest
            · rw [if_neg hq]
              by_cases hA : 65 ≤ ch.toNat ∧ ch.toNat ≤ 72
              · rw [if_pos hA]
                exact castleLoop_ok white black rooks m hw hb rest _ hrest
              · rw [if_neg hA]
                by_cases ha : 97 ≤ ch.toNat ∧ ch.toNat ≤ 104
                · rw [if_pos ha]
                  exact castleLoop_ok white black rooks m hw hb rest _ hrest
                · rw [if_neg ha]
                  exact castleLoop_ok white black rooks m hw hb rest _ hrest

/-! ## The counters -/

theorem digitsValue_lt : ∀ (ds : List Char) (acc : Nat), (∀ c ∈ ds, isdigit c = true) →
    digitsValue ds acc < (acc + 1) * 10 ^ ds.length
  | [], acc, _ => by simp [digitsValue]
  | c :: cs, acc, h => by
    have hc : isdigit c = true := h c (List.mem_cons_self c cs)
    simp only [isdigit, decide_eq_true_eq] at hc
    have ih := digitsValue_lt cs (acc * 10 + (c.toNat - 48))
      (fun x hx => h x (List.mem_cons_of_mem c hx))
    have h1 : acc * 10 + (c.toNat - 48) + 1 ≤ (acc + 1) * 10 := by omega
    have h2 : (acc * 10 + (c.toNat - 48) + 1) * 10 ^ cs.length
        ≤ (acc + 1) * 10 * 10 ^ cs.length := Nat.mul_le_mul_right _ h1
    simp only [digitsValue, List.length_cons, Nat.pow_succ]
    calc digitsValue cs (acc * 10 + (c.toNat - 48))
        < (acc * 10 + (c.toNat - 48) + 1) * 10 ^ cs.length := ih
      _ ≤ (acc + 1) * 10 * 10 ^ cs.length := h2
      _ = (acc + 1) * (10 ^ cs.length * 10) := by ring

/-- The function `std::stoi` accepts a counter field. -/
theorem stoi_counter (w : List Char) (h : counterWF w = true) : ∃ v, stoi w = .ok v := by
  unfold counterWF at h
  simp only [Bool.and_eq_true, decide_eq_true_eq, List.all_eq_true] at h
  obtain ⟨⟨hne, hall⟩, hlen⟩ := h
  cases w with
  | nil => exact absurd rfl hne
  | cons c cs =>
    have hc : isdigit c = true := hall c (List.mem_cons_self c cs)
    have hc' : 48 ≤ c.toNat ∧ c.toNat ≤ 57 := by
      simpa only [isdigit, decide_eq_true_eq] using hc
    have hsp : ¬ (decide (c = ' ' ∨ (9 ≤ c.toNat ∧ c.toNat ≤ 13)) = true) := by
      rw [decide_eq_true_eq]
      rintro (rfl | h)
      · exact absurd hc (by decide)
      · omega
    have hminus : c ≠ '-' := by rintro rfl; exact absurd hc (by decide)
    have hplus : c ≠ '+' := by rintro rfl; exact absurd hc (by decide)
    have htake : List.takeWhile isdigit (c :: cs) = c :: cs :=
      List.takeWhile_eq_self_iff.mpr hall
    have hbound := digitsValue_lt (c :: cs) 0 hall
    have hpow : 10 ^ (c :: cs).length ≤ 10 ^ 9 := Nat.pow_le_pow_right (by decide) hlen
    have hv : digitsValue (c :: cs) 0 < 1000000000 := by
      have : (0 + 1) * 10 ^ (c :: cs).length ≤ 10 ^ 9 := by simpa using hpow
      exact Nat.lt_of_lt_of_le hbound (by simpa using this)
    have hdrop : List.dropWhile
        (fun c : Char => decide (c = ' ' ∨ (9 ≤ c.toNat ∧ c.toNat ≤ 13))) (c :: cs) = c :: cs :=
      List.dropWhile_cons_of_neg hsp
    refine ⟨(digitsValue (c :: cs) 0 : Int), ?_⟩
    unfold stoi
    simp only [hdrop, List.head?_cons, Option.some.injEq, hminus, hplus, or_self, if_false,
      htake]
    rw [if_neg (by simp), if_neg (by omega)]

/-! ## The rooks behind the castling letters -/

theorem testBit_RANK_1 (s : Nat) : testBit RANK_1 s = decide (s < 8) :=
  Nat.testBit_two_pow_sub_one 8 s

theorem testBit_RANK_8 (s : Nat) : testBit RANK_8 s = decide (56 ≤ s ∧ s < 64) := by
  have e : RANK_8 = 255 <<< 56 := by decide
  unfold testBit
  rw [e, Nat.testBit_shiftLeft, show (255 : Nat) = 2 ^ 8 - 1 from rfl,
    Nat.testBit_two_pow_sub_one]
  by_cases h : 56 ≤ s
  · simp only [h, decide_True, Bool.true_and, true_and]
    congr 1
    apply propext
    omega
  · simp [h]

/-- A rook in the mailbox of a board in the final placement state is a bit of the colour and
rook boards. -/
theorem rook_bit (T : Tables) (b : Board) (hinv : PlacementInv T b 64) (colour base : Nat)
    (hc : colour < 2) (h : hasRook b.squares colour base = true) :
    ∃ f, f < 8 ∧ testBit (b.colours colour) (base + f) = true
      ∧ testBit (b.pieces ROOK) (base + f) = true := by
  unfold hasRook at h
  rw [List.any_eq_true] at h
  obtain ⟨f, hf, hsq⟩ := h
  rw [List.mem_range] at hf
  rw [decide_eq_true_eq] at hsq
  refine ⟨f, hf, ?_, ?_⟩
  · rw [hinv.colours colour _ hc, hsq]
    exact makePiece_colour ROOK colour (by omega)
  · rw [hinv.pieces ROOK _ (by decide), hsq]
    exact makePiece_type ROOK colour (by omega)

/-! ## `boardFromFEN` as a whole -/

/-- When `boardFromFEN` returns a board, the placement loop, the castling loop and the two
conversions of the counters have returned, and the board is put together from their
results. -/
theorem fileOf_lt (sq : Int) : fileOf sq < 8 :=
  Int.tmod_lt_of_pos sq (by decide)

theorem fileOf_nonneg (sq : Int) (h : 0 ≤ sq) : 0 ≤ fileOf sq :=
  Int.tmod_nonneg 8 h

/-- The en-passant key enters the hash when the en-passant square is -1 or has a file that is
not negative. -/
theorem enpassHash_ok (T : Tables) (hash : Nat) (epSquare : Int)
    (h : epSquare = -1 ∨ 0 ≤ fileOf epSquare) :
    enpassHash T hash epSquare
      = .ok (if epSquare ≠ -1 then hash ^^^ T.ZobristEnpassKeys (fileOf epSquare).toNat
             else hash) := by
  unfold enpassHash
  by_cases hep : epSquare ≠ -1
  · have hf : 0 ≤ fileOf epSquare := by
      rcases h with h | h
      · exact absurd h hep
      · exact h
    rw [if_pos hep, if_pos hep, if_pos ⟨hf, fileOf_lt epSquare⟩]
  · rw [if_neg hep, if_neg hep]

/-- The read of the en-passant key is outside its table when the en-passant square is not -1
and its file is negative. -/
theorem enpassHash_fault (T : Tables) (hash : Nat) (epSquare : Int)
    (hep : epSquare ≠ -1) (hf : fileOf epSquare < 0) :
    enpassHash T hash epSquare = .error .undefinedCall := by
  unfold enpassHash
  rw [if_pos hep, if_neg (by omega)]

theorem enpassHash_eq (T : Tables) (hash : Nat) (epSquare : Int) (x : Nat)
    (h : enpassHash T hash epSquare = .ok x) :
    x = (if epSquare ≠ -1 then hash ^^^ T.ZobristEnpassKeys (fileOf epSquare).toNat
         else hash) := by
  by_cases hok : epSquare = -1 ∨ 0 ≤ fileOf epSquare
  · rw [enpassHash_ok T hash epSquare hok] at h
    exact (Except.ok.inj h).symm
  · have hep : epSquare ≠ -1 := fun e => hok (Or.inl e)
    have hf : fileOf epSquare < 0 := by
      have : ¬ (0 ≤ fileOf epSquare) := fun e => hok (Or.inr e)
      omega
    rw [enpassHash_fault T hash epSquare hep hf] at h
    cases h

/-- A well-formed en-passant field gives -1 or a square of the board, whose file is not
negative. -/
theorem enpassWF_file (w : List Char) (h : enpassWF w = true) :
    stringToSquare w = -1 ∨ 0 ≤ fileOf (stringToSquare w) := by
  unfold enpassWF at h
  match w, h with
  | [c], h =>
    left
    have hc : c = '-' := of_decide_eq_true h
    rw [hc]
    rfl
  | [c, d], h =>
    right
    have hcd : 97 ≤ c.toNat ∧ c.toNat ≤ 104 ∧ 49 ≤ d.toNat ∧ d.toNat ≤ 56 :=
      of_decide_eq_true h
    have hne : c ≠ '-' := by
      rintro rfl
      exact absurd hcd.1 (by decide)
    apply fileOf_nonneg
    unfold stringToSquare square
    rw [show [c, d].getD 0 (Char.ofNat 0) = c from rfl,
      show [c, d].getD 1 (Char.ofNat 0) = d from rfl, if_neg hne]
    omega

theorem boardFromFEN_ok_elim (T : Tables) (fens : List Char) (chess960 : Int) (b : Board) :
    boardFromFEN T fens chess960 = .ok b →
      ∃ (b0 : Board) (cr : Nat) (hm fm : Int),
        placementLoop T (fenField fens 0) 56 Board.clear = .ok b0
        ∧ castleLoop (b0.colours WHITE) (b0.colours BLACK) (b0.pieces ROOK) (fenField fens 2)
            b0.castleRooks = .ok cr
        ∧ stoi (fenField fens 4) = .ok hm
        ∧ stoi (fenField fens 5) = .ok fm
        ∧ b.squares = b0.squares ∧ b.pieces = b0.pieces ∧ b.colours = b0.colours
        ∧ b.history = b0.history ∧ b.pkhash = b0.pkhash ∧ b.psqtmat = b0.psqtmat
        ∧ b.turn = (if (fenField fens 1).getD 0 (Char.ofNat 0) = 'w' then 0 else 1)
        ∧ b.castleRooks = cr
        ∧ b.castleMasks = (fun sq =>
            if sq < SQUARE_NB then
              castleMaskOf cr (b0.colours WHITE) (b0.colours BLACK) (b0.pieces KING) sq
            else b0.castleMasks sq)
        ∧ b.epSquare = stringToSquare (fenField fens 3)
        ∧ b.hash =
            (if stringToSquare (fenField fens 3) ≠ -1 then
              castleHashLoop T 64 cr
                  (if (if (fenField fens 1).getD 0 (Char.ofNat 0) = 'w' then (0 : Int) else 1) = 1
                    then b0.hash ^^^ T.ZobristTurnKey else b0.hash)
                ^^^ T.ZobristEnpassKeys (fileOf (stringToSquare (fenField fens 3))).toNat
            else
              castleHashLoop T 64 cr
                  (if (if (fenField fens 1).getD 0 (Char.ofNat 0) = 'w' then (0 : Int) else 1) = 1
                    then b0.hash ^^^ T.ZobristTurnKey else b0.hash))
        ∧ b.halfMoveCounter = hm ∧ b.fullMoveCounter = fm ∧ b.numMoves = 0
        ∧ b.chess960 =
            (if chess960 ≠ 0 ∨ (cr &&& (allON ^^^ StandardCastles)) ≠ 0 then 1 else 0)
        ∧ b.kingAttackers = T.attackersToKingSquare
            { b with kingAttackers := b0.kingAttackers, chess960 := b0.chess960 } := by
  unfold boardFromFEN
  simp only [fenField]
  · intro h
    cases h0 : placementLoop T (parse fens).1 56 Board.clear with
    | error e => simp [h0] at h
    | ok b0 =>
      simp only [h0] at h
      cases h1 : castleLoop (b0.colours WHITE) (b0.colours BLACK) (b0.pieces ROOK)
          (parse (parse (parse fens).2).2).1 b0.castleRooks with
      | error e => simp [h1] at h
      | ok cr =>
        simp only [h1] at h
        split at h
        · cases h
        · rename_i hash3 he
          have ehash := enpassHash_eq T _ _ hash3 he
          clear he
          cases h2 : stoi (parse (parse (parse (parse (parse fens).2).2).2).2).1 with
          | error e => simp [h2] at h
          | ok hm =>
            simp only [h2] at h
            cases h3 : stoi (parse (parse (parse (parse (parse (parse fens).2).2).2).2).2).1 with
            | error e => simp [h3] at h
            | ok fm =>
              simp only [h3, Except.ok.injEq] at h
              subst h
              exact ⟨b0, cr, hm, fm, rfl, h1, rfl, rfl, rfl, rfl, rfl, rfl, rfl, rfl, rfl, rfl,
                rfl, rfl, ehash, rfl, rfl, rfl, rfl, rfl⟩

/-- The function `boardFromFEN` returns a board when the placement loop, the castling loop and
the two conversions of the counters return and the en-passant key is read inside its table. -/
theorem boardFromFEN_ok_intro (T : Tables) (fens : List Char) (chess960 : Int) (b0 : Board)
    (cr : Nat) (hm fm : Int)
    (h0 : placementLoop T (fenField fens 0) 56 Board.clear = .ok b0)
    (h1 : castleLoop (b0.colours WHITE) (b0.colours BLACK) (b0.pieces ROOK) (fenField fens 2)
      b0.castleRooks = .ok cr)
    (hep : stringToSquare (fenField fens 3) = -1 ∨ 0 ≤ fileOf (stringToSquare (fenField fens 3)))
    (h2 : stoi (fenField fens 4) = .ok hm) (h3 : stoi (fenField fens 5) = .ok fm) :
    ∃ b, boardFromFEN T fens chess960 = .ok b := by
  unfold boardFromFEN
  simp only [fenField] at h0 h1 h2 h3 hep
  simp only [h0, h1, h2, h3, enpassHash_ok T _ _ hep]
  exact ⟨_, rfl⟩

/-- On a well-formed FEN `boardFromFEN` returns a board; the board comes from a placement
loop that ended in the final placement state. -/
theorem boardFromFEN_wf (T : Tables) (fens : List Char) (chess960 : Int)
    (hwf : fenWF fens = true) :
    ∃ b, boardFromFEN T fens chess960 = .ok b := by
  unfold fenWF at hwf
  simp only [Bool.and_eq_true] at hwf
  obtain ⟨⟨⟨⟨hpl, hcs⟩, hen⟩, hhm⟩, hfm⟩ := hwf
  obtain ⟨b0, h0, hinv⟩ := placementLoop_wf T (fenField fens 0) 0 0 Board.clear hpl (by decide)
    (by decide) (placementInv_clear T)
  have h0' : placementLoop T (fenField fens 0) 56 Board.clear = .ok b0 := by
    simpa using h0
  have hsq : b0.squares = placementSquares (fenField fens 0) 56 (fun _ => EMPTY) :=
    placementLoop_squares T _ _ _ _ h0'
  rw [← hsq] at hcs
  obtain ⟨cr, h1⟩ := castleLoop_ok (b0.colours WHITE) (b0.colours BLACK) (b0.pieces ROOK)
    b0.squares
    (by
      intro h
      obtain ⟨f, hf, hA, hB⟩ := rook_bit T b0 hinv WHITE 0 (by decide) h
      refine ⟨0 + f, by omega, ?_⟩
      have hR : testBit RANK_1 (0 + f) = true := by rw [testBit_RANK_1]; simp; omega
      unfold testBit at hA hB hR ⊢
      rw [Nat.testBit_and, Nat.testBit_and, hA, hB, hR]
      rfl)
    (by
      intro h
      obtain ⟨f, hf, hA, hB⟩ := rook_bit T b0 hinv BLACK 56 (by decide) h
      refine ⟨56 + f, by omega, ?_⟩
      have hR : testBit RANK_8 (56 + f) = true := by rw [testBit_RANK_8]; simp; omega
      unfold testBit at hA hB hR ⊢
      rw [Nat.testBit_and, Nat.testBit_and, hA, hB, hR]
      rfl)
    (fenField fens 2) b0.castleRooks hcs
  obtain ⟨hm, h2⟩ := stoi_counter _ hhm
  obtain ⟨fm, h3⟩ := stoi_counter _ hfm
  exact boardFromFEN_ok_intro T fens chess960 b0 cr hm fm h0' h1 (enpassWF_file _ hen) h2 h3

/-- The board that `boardFromFEN` returns for a placement field of 8 ranks of 8 squares has
the mailbox, bitboards, hash and material of a placement loop that ended in the final
placement state. -/
theorem boardFromFEN_placement (T : Tables) (fens : List Char) (chess960 : Int) (b : Board)
    (hpl : placementWF (fenField fens 0) 0 0 = true)
    (h : boardFromFEN T fens chess960 = .ok b) :
    ∃ b0, PlacementInv T b0 64 ∧ b.squares = b0.squares ∧ b.pieces = b0.pieces
      ∧ b.colours = b0.colours ∧ b.psqtmat = b0.psqtmat
      ∧ b.hash =
          (if b.epSquare ≠ -1 then
            castleHashLoop T 64 b.castleRooks
                (if b.turn = 1 then b0.hash ^^^ T.ZobristTurnKey else b0.hash)
              ^^^ T.ZobristEnpassKeys (fileOf b.epSquare).toNat
          else
            castleHashLoop T 64 b.castleRooks
                (if b.turn = 1 then b0.hash ^^^ T.ZobristTurnKey else b0.hash)) := by
  obtain ⟨b0, cr, hm, fm, h0, -, -, -, e1, e2, e3, -, -, e6, e7, e8, -, e10, e11, -⟩ :=
    boardFromFEN_ok_elim T fens chess960 b h
  obtain ⟨b0', h0', hinv⟩ := placementLoop_wf T (fenField fens 0) 0 0 Board.clear hpl
    (by decide) (by decide) (placementInv_clear T)
  have h0'' : placementLoop T (fenField fens 0) 56 Board.clear = .ok b0' := by
    simpa using h0'
  rw [h0] at h0''
  cases h0''
  refine ⟨b0, hinv, e1, e2, e3, e6, ?_⟩
  rw [e11, e10, e8, e7]

/-! ## The FEN round trip -/

set_option maxRecDepth 100000 in
/-- C1, at the start position: `boardToFEN` first writes the placement, the turn and the
castling letters into the buffer and then prints the last three fields at index 0, over
them. Read as a C string the buffer is " - 0 1", and its first 56 characters are not the
start position FEN that was read. -/
theorem fenRoundTrip_startpos :
    (fenRoundTrip sampleTables StartPosition 0).map cString = some " - 0 1".toList
    ∧ (fenRoundTrip sampleTables StartPosition 0).map (List.take StartPosition.length)
        ≠ some StartPosition
    ∧ (fenRoundTrip sampleTables StartPosition 0).map (fun fen => (fen.drop 7).take 37)
        = some "r/pppppppp/8/8/8/8/PPPPPPPP/RNBQKBNR ".toList := by
  decide

/-! ## `apply` followed by `revert` -/

/-- C2, as the code has it. When `apply` returns 1 for `NULL_MOVE`, the following `revert`
restores every field of the board except two: `kingAttackers` is left at 0, and the history
entry at index `numMoves`, outside the valid entries, holds the hash of the position; so a
board without king attackers comes back identical but for that entry. When `apply` returns 1
for another move, `revert` hands `revertMove` the board and the undo record that `applyMove`
produced, so the board comes back identical whenever `revertMove` undoes `applyMove` there. -/
theorem apply_revert (ops : MoveOps) (T : Tables) (thread : Thread) (board : Board)
    (move height : Nat) (hturn : board.turn = 0 ∨ board.turn = 1)
    (h : (apply ops T thread board move height).1 = 1) :
    (move = NULL_MOVE →
      revert ops (apply ops T thread board move height).2.1
          (apply ops T thread board move height).2.2 move height
        = { board with
            kingAttackers := 0
            history := upd board.history board.numMoves.toNat board.hash })
    ∧ (move = NULL_MOVE → board.kingAttackers = 0 →
      revert ops (apply ops T thread board move height).2.1
          (apply ops T thread board move height).2.2 move height
        = { board with history := upd board.history board.numMoves.toNat board.hash })
    ∧ (move ≠ NULL_MOVE →
      revert ops (apply ops T thread board move height).2.1
          (apply ops T thread board move height).2.2 move height
        = ops.revertMove (ops.applyMove board move (thread.undoStack height)).1 move
            (ops.applyMove board move (thread.undoStack height)).2)
    ∧ (move ≠ NULL_MOVE →
      ops.revertMove (ops.applyMove board move (thread.undoStack height)).1 move
          (ops.applyMove board move (thread.undoStack height)).2 = board →
      revert ops (apply ops T thread board move height).2.1
          (apply ops T thread board move height).2.2 move height = board) := by
  have hnull : move = NULL_MOVE →
      revert ops (apply ops T thread board move height).2.1
          (apply ops T thread board move height).2.2 move height
        = { board with
            kingAttackers := 0
            history := upd board.history board.numMoves.toNat board.hash } := by
    intro hm
    subst hm
    have hnum : board.numMoves + 1 - 1 = board.numMoves := by omega
    have ht : (if (if board.turn = 0 then (1 : Int) else 0) = 0 then (1 : Int) else 0)
        = board.turn := by
      rcases hturn with h0 | h1
      · rw [h0]; rfl
      · rw [h1]; rfl
    simp only [apply, revert, if_true, applyNullMove, revertNullMove, upd, hnum, ht]
  have hother : move ≠ NULL_MOVE →
      revert ops (apply ops T thread board move height).2.1
          (apply ops T thread board move height).2.2 move height
        = ops.revertMove (ops.applyMove board move (thread.undoStack height)).1 move
            (ops.applyMove board move (thread.undoStack height)).2 := by
    intro hm
    unfold apply at h ⊢
    rw [if_neg hm] at h ⊢
    cases hl : ops.moveWasLegal (ops.applyMove board move (thread.undoStack height)).1 with
    | false =>
      simp only [hl, if_true] at h
      exact absurd h (by decide)
    | true =>
      simp [hl, revert, hm, upd]
  refine ⟨hnull, ?_, hother, ?_⟩
  · intro hm hk
    rw [hnull hm, ← hk]
  · intro hm hinv
    rw [hother hm, hinv]

/-- A null move on the cleared board at height 3: `apply` returns 1 and `revert` gives the
board back with the hash entered at history index 0. -/
theorem apply_revert_witness :
    (apply sampleOps sampleTables sampleThread Board.clear NULL_MOVE 3).1 = 1
    ∧ (NULL_MOVE = NULL_MOVE → Board.clear.kingAttackers = 0 →
      revert sampleOps (apply sampleOps sampleTables sampleThread Board.clear NULL_MOVE 3).2.1
          (apply sampleOps sampleTables sampleThread Board.clear NULL_MOVE 3).2.2 NULL_MOVE 3
        = { Board.clear with
            history := upd Board.clear.history Board.clear.numMoves.toNat Board.clear.hash }) :=
  ⟨by decide,
    (apply_revert sampleOps sampleTables sampleThread Board.clear NULL_MOVE 3 (Or.inl rfl)
      (by decide)).2.1⟩

/-- C2 fails on the code for a null move made in check: `apply` returns 1, and the board that
`revert` leaves has no king attackers, so it differs from the board before `apply`. -/
theorem apply_revert_null_in_check :
    (apply sampleOps sampleTables sampleThread checkedBoard NULL_MOVE 0).1 = 1
    ∧ revert sampleOps (apply sampleOps sampleTables sampleThread checkedBoard NULL_MOVE 0).2.1
        (apply sampleOps sampleTables sampleThread checkedBoard NULL_MOVE 0).2.2 NULL_MOVE 0
      ≠ checkedBoard
    ∧ (revert sampleOps (apply sampleOps sampleTables sampleThread checkedBoard NULL_MOVE 0).2.1
        (apply sampleOps sampleTables sampleThread checkedBoard NULL_MOVE 0).2.2 NULL_MOVE
        0).kingAttackers = 0
    ∧ checkedBoard.kingAttackers = 4096 := by
  refine ⟨by decide, ?_, by decide, by decide⟩
  intro h
  have hk := congrArg Board.kingAttackers h
  revert hk
  decide

/-! ## Hash, material and mailbox after `boardFromFEN` -/

/-- C3: after `boardFromFEN` on a well-formed FEN, `board.hash` is the XOR of
`ZobristKeys[squares[sq]][sq]` over every occupied square, XORed with `ZobristTurnKey` exactly
when Black is to move, with `ZobristCastleKeys[sq]` for every bit `sq` of `castleRooks`, and
with `ZobristEnpassKeys[fileOf(epSquare)]` exactly when `epSquare` is not -1; and on such a
FEN `boardFromFEN` does return a board. -/
theorem boardFromFEN_hash (T : Tables) (fens : List Char) (chess960 : Int)
    (hwf : fenWF fens = true) :
    ∃ b, boardFromFEN T fens chess960 = .ok b ∧ b.hash = zobristFold T b := by
  obtain ⟨b, hb⟩ := boardFromFEN_wf T fens chess960 hwf
  have hpl : placementWF (fenField fens 0) 0 0 = true := by
    unfold fenWF at hwf
    simp only [Bool.and_eq_true] at hwf
    exact hwf.1.1.1.1
  obtain ⟨b0, hinv, e1, -, -, -, ehash⟩ := boardFromFEN_placement T fens chess960 b hpl hb
  refine ⟨b, hb, ?_⟩
  rw [ehash]
  unfold zobristFold
  rw [castleHashLoop_eq T 64 b.castleRooks _ (fun j hj => absurd hj (by omega)), hinv.hash, e1]
  by_cases hep : b.epSquare ≠ -1
  · rw [if_pos hep, if_pos hep]
    by_cases ht : b.turn = 1
    · rw [if_pos ht, if_pos ht]
    · rw [if_neg ht, if_neg ht, Nat.xor_zero]
  · rw [if_neg hep, if_neg hep, Nat.xor_zero]
    by_cases ht : b.turn = 1
    · rw [if_pos ht, if_pos ht]
    · rw [if_neg ht, if_neg ht, Nat.xor_zero]

/-- At the start position: the FEN is well-formed, a board is returned and its hash is the
Zobrist fold. -/
theorem boardFromFEN_hash_witness :
    fenWF StartPosition = true
    ∧ ∃ b, boardFromFEN sampleTables StartPosition 0 = .ok b
        ∧ b.hash = zobristFold sampleTables b :=
  ⟨by decide, boardFromFEN_hash sampleTables StartPosition 0 (by decide)⟩

/-- C4: after `boardFromFEN` on a well-formed FEN, `board.psqtmat` is the sum of
`PSQT[squares[sq]][sq]` over all occupied squares, as a 32-bit `int` holds it (so it is that
sum whenever the sum fits an `int`), and it is 0 when no square is occupied; and on such a FEN
`boardFromFEN` does return a board. -/
theorem boardFromFEN_psqtmat (T : Tables) (fens : List Char) (chess960 : Int)
    (hwf : fenWF fens = true) :
    ∃ b, boardFromFEN T fens chess960 = .ok b
      ∧ b.psqtmat = toInt32 (psqtSum T b.squares)
      ∧ (-2147483648 ≤ psqtSum T b.squares ∧ psqtSum T b.squares < 2147483648 →
          b.psqtmat = psqtSum T b.squares)
      ∧ ((∀ sq, sq < 64 → b.squares sq = EMPTY) → b.psqtmat = 0) := by
  obtain ⟨b, hb⟩ := boardFromFEN_wf T fens chess960 hwf
  have hpl : placementWF (fenField fens 0) 0 0 = true := by
    unfold fenWF at hwf
    simp only [Bool.and_eq_true] at hwf
    exact hwf.1.1.1.1
  obtain ⟨b0, hinv, e1, -, -, epsqt, -⟩ := boardFromFEN_placement T fens chess960 b hpl hb
  have hsum : b.psqtmat = toInt32 (psqtSum T b.squares) := by rw [epsqt, hinv.psqt, e1]
  refine ⟨b, hb, hsum, ?_, ?_⟩
  · intro hrange
    rw [hsum]
    exact toInt32_of_range _ hrange
  · intro hempty
    have h0 : psqtSum T b.squares = 0 :=
      sumUpTo_zero _ 64 (fun s hs => by simp [hempty s hs])
    rw [hsum, h0]
    rfl

/-- At a position after 1.e4 e5: the FEN is well-formed, a board is returned and its material
is the sum over the occupied squares. -/
theorem boardFromFEN_psqtmat_witness :
    fenWF "rnbqkbnr/pppp1ppp/8/4p3/4P3/8/PPPP1PPP/RNBQKBNR w KQkq e6 0 2".toList = true
    ∧ ∃ b, boardFromFEN sampleTables
          "rnbqkbnr/pppp1ppp/8/4p3/4P3/8/PPPP1PPP/RNBQKBNR w KQkq e6 0 2".toList 0 = .ok b
        ∧ b.psqtmat = toInt32 (psqtSum sampleTables b.squares)
        ∧ (-2147483648 ≤ psqtSum sampleTables b.squares
            ∧ psqtSum sampleTables b.squares < 2147483648 →
          b.psqtmat = psqtSum sampleTables b.squares)
        ∧ ((∀ sq, sq < 64 → b.squares sq = EMPTY) → b.psqtmat = 0) :=
  ⟨by decide, boardFromFEN_psqtmat sampleTables _ 0 (by decide)⟩

/-- In the final placement state the mailbox agrees with the bitboards on every square. -/
theorem PlacementInv.agrees {T : Tables} {b0 : Board} (hinv : PlacementInv T b0 64)
    (b : Board) (e1 : b.squares = b0.squares) (e2 : b.pieces = b0.pieces)
    (e3 : b.colours = b0.colours) (sq : Nat) : mailboxAgrees b sq := by
  unfold mailboxAgrees
  rw [e1, e2, e3]
  constructor
  · intro p c hp hc
    have hc2 : c < 2 := hc
    rw [hinv.pieces p sq hp, hinv.colours c sq hc2]
    unfold pieceType pieceColour makePiece
    constructor
    · intro h; omega
    · intro h; omega
  · constructor
    · intro he
      constructor
      · intro p hp
        have := hinv.pieces p sq hp
        rw [he] at this
        cases hb : testBit (b0.pieces p) sq with
        | false => rfl
        | true =>
          have h6 := this.mp hb
          change 26 / 4 = p at h6
          have hp6 : p < 6 := hp
          omega
      · intro c hc
        have hc2 : c < 2 := hc
        have := hinv.colours c sq hc2
        rw [he] at this
        cases hb : testBit (b0.colours c) sq with
        | false => rfl
        | true =>
          have h2 := this.mp hb
          change 26 % 4 = c at h2
          omega
    · rintro ⟨hp, -⟩
      rcases hinv.valid sq with he | ⟨-, p, c, hp6, hc2, hpc⟩
      · exact he
      · have h1 := (hinv.pieces p sq hp6).mpr (by rw [hpc]; exact makePiece_type p c (by omega))
        rw [hp p hp6] at h1
        cases h1

/-- C5: after `boardFromFEN` on a FEN whose placement field describes 8 ranks of exactly 8
squares each, the mailbox agrees with the bitboards on every square: `squares[sq]` is
`makePiece(p, c)` exactly when bit `sq` is set in both `pieces[p]` and `colours[c]`, and
`EMPTY` exactly when bit `sq` is set in no piece bitboard and in neither colour bitboard; and
when the other fields are well-formed too, `boardFromFEN` does return a board. -/
theorem boardFromFEN_mailbox (T : Tables) (fens : List Char) (chess960 : Int)
    (hpl : placementWF (fenField fens 0) 0 0 = true) :
    (∀ b, boardFromFEN T fens chess960 = .ok b → ∀ sq, sq < SQUARE_NB → mailboxAgrees b sq)
    ∧ (fenWF fens = true → ∃ b, boardFromFEN T fens chess960 = .ok b) := by
  constructor
  · intro b hb sq _
    obtain ⟨b0, hinv, e1, e2, e3, -, -⟩ := boardFromFEN_placement T fens chess960 b hpl hb
    exact hinv.agrees b e1 e2 e3 sq
  · exact boardFromFEN_wf T fens chess960

/-- At a position with few pieces and Black to move: the placement field has 8 ranks of 8
squares, and the mailbox of the board returned agrees with its bitboards. -/
theorem boardFromFEN_mailbox_witness :
    placementWF (fenField "6k1/6pp/8/8/8/8/6PP/R6K b - - 3 40".toList 0) 0 0 = true
    ∧ (∀ b, boardFromFEN sampleTables "6k1/6pp/8/8/8/8/6PP/R6K b - - 3 40".toList 1 = .ok b →
        ∀ sq, sq < SQUARE_NB → mailboxAgrees b sq)
    ∧ (fenWF "6k1/6pp/8/8/8/8/6PP/R6K b - - 3 40".toList = true →
        ∃ b, boardFromFEN sampleTables "6k1/6pp/8/8/8/8/6PP/R6K b - - 3 40".toList 1 = .ok b) :=
  ⟨by decide, boardFromFEN_mailbox sampleTables _ 1 (by decide)⟩

/-! ## Malformed FENs -/

/-- Packing with the two flag fields given by their two-bit values. -/
theorem moveMake_fields (src dst ty pr : Nat) (hf : src < 64) (hd : dst < 64) (ht : ty < 4)
    (hp : pr < 4) :
    MoveMake src dst ((ty <<< 12) ||| (pr <<< 14)) < 2 ^ 16
    ∧ MoveFrom (MoveMake src dst ((ty <<< 12) ||| (pr <<< 14))) = src
    ∧ MoveTo (MoveMake src dst ((ty <<< 12) ||| (pr <<< 14))) = dst
    ∧ MoveType (MoveMake src dst ((ty <<< 12) ||| (pr <<< 14))) = ty <<< 12
    ∧ MovePromoType (MoveMake src dst ((ty <<< 12) ||| (pr <<< 14))) = pr <<< 14 := by
  have bf : ∀ j, 6 ≤ j → src.testBit j = false := fun j hj => testBit_false_of_lt (k := 6) hf hj
  have bd : ∀ j, 6 ≤ j → dst.testBit j = false := fun j hj => testBit_false_of_lt (k := 6) hd hj
  have bt : ∀ j, 2 ≤ j → ty.testBit j = false := fun j hj => testBit_false_of_lt (k := 2) ht hj
  have bp : ∀ j, 2 ≤ j → pr.testBit j = false := fun j hj => testBit_false_of_lt (k := 2) hp hj
  refine ⟨?_, ?_, ?_, ?_, ?_⟩
  · apply Nat.lt_pow_two_of_testBit
    intro i hi
    simp only [MoveMake, Nat.testBit_or, Nat.testBit_shiftLeft]
    simp [bf i (by omega), bd (i - 6) (by omega), bt (i - 12) (by omega),
      bp (i - 14) (by omega)]
  all_goals
    apply Nat.eq_of_testBit_eq
    intro i
    simp only [MoveMake, MoveFrom, MoveTo, MoveType, MovePromoType, Nat.testBit_or,
      Nat.testBit_and, Nat.testBit_shiftLeft, Nat.testBit_shiftRight, testBit_63, testBit_3]
    rcases Nat.lt_or_ge i 16 with hi | hi
    · interval_cases i <;> simp [bf, bd, bt, bp]
    · simp [bf i (by omega), bf (6 + i) (by omega), bd (i - 6) (by omega), bd i (by omega),
        bt (i - 12) (by omega), bp (i - 14) (by omega), bt (6 + i - 12) (by omega),
        bp (6 + i - 14) (by omega)]

/-- Unpacking a 16-bit value and packing the parts again gives the value back. -/
theorem moveMake_unpack (m : Nat) (h : m < 2 ^ 16) :
    MoveMake (MoveFrom m) (MoveTo m) (MoveType m ||| MovePromoType m) = m := by
  apply Nat.eq_of_testBit_eq
  intro i
  simp only [MoveMake, MoveFrom, MoveTo, MoveType, MovePromoType, Nat.testBit_or,
    Nat.testBit_and, Nat.testBit_shiftLeft, Nat.testBit_shiftRight, testBit_63, testBit_3]
  rcases Nat.lt_or_ge i 16 with hi | hi
  · interval_cases i <;> simp
  · have h1 : m.testBit i = false := testBit_false_of_lt h hi
    simp only [h1, Bool.false_and, Bool.or_false, Bool.false_or]
    simp
    omega

/-! ## Move packing -/

/-- C7: move packing is a bijection onto the 16-bit values. For squares below 64, a type flag
among the four type constants and a promotion flag among the four promotion constants, the
packed move is below 2^16 and each of the four accessors returns the part that went in; and
every 16-bit value unpacks into parts of that kind which pack into the same value again. -/
theorem move_packing_bijection :
    (∀ src dst ty pr : Nat, src < 64 → dst < 64 →
      (ty = NORMAL_MOVE ∨ ty = CASTLE_MOVE ∨ ty = ENPASS_MOVE ∨ ty = PROMOTION_MOVE) →
      (pr = PROMOTE_TO_KNIGHT ∨ pr = PROMOTE_TO_BISHOP ∨ pr = PROMOTE_TO_ROOK
        ∨ pr = PROMOTE_TO_QUEEN) →
      MoveMake src dst (ty ||| pr) < 2 ^ 16
      ∧ MoveFrom (MoveMake src dst (ty ||| pr)) = src
      ∧ MoveTo (MoveMake src dst (ty ||| pr)) = dst
      ∧ MoveType (MoveMake src dst (ty ||| pr)) = ty
      ∧ MovePromoType (MoveMake src dst (ty ||| pr)) = pr)
    ∧ (∀ m : Nat, m < 2 ^ 16 →
      MoveFrom m < 64 ∧ MoveTo m < 64
      ∧ (MoveType m = NORMAL_MOVE ∨ MoveType m = CASTLE_MOVE ∨ MoveType m = ENPASS_MOVE
          ∨ MoveType m = PROMOTION_MOVE)
      ∧ (MovePromoType m = PROMOTE_TO_KNIGHT ∨ MovePromoType m = PROMOTE_TO_BISHOP
          ∨ MovePromoType m = PROMOTE_TO_ROOK ∨ MovePromoType m = PROMOTE_TO_QUEEN)
      ∧ MoveMake (MoveFrom m) (MoveTo m) (MoveType m ||| MovePromoType m) = m) := by
  constructor
  · intro src dst ty pr hs hd hty hpr
    have key : ∃ t p : Nat, t < 4 ∧ p < 4 ∧ ty = t <<< 12 ∧ pr = p <<< 14 := by
      rcases hty with h | h | h | h <;> rcases hpr with h' | h' | h' | h'
      · exact ⟨0, 0, by decide, by decide, h, h'⟩
      · exact ⟨0, 1, by decide, by decide, h, h'⟩
      · exact ⟨0, 2, by decide, by decide, h, h'⟩
      · exact ⟨0, 3, by decide, by decide, h, h'⟩
      · exact ⟨1, 0, by decide, by decide, h, h'⟩
      · exact ⟨1, 1, by decide, by decide, h, h'⟩
      · exact ⟨1, 2, by decide, by decide, h, h'⟩
      · exact ⟨1, 3, by decide, by decide, h, h'⟩
      · exact ⟨2, 0, by decide, by decide, h, h'⟩
      · exact ⟨2, 1, by decide, by decide, h, h'⟩
      · exact ⟨2, 2, by decide, by decide, h, h'⟩
      · exact ⟨2, 3, by decide, by decide, h, h'⟩
      · exact ⟨3, 0, by decide, by decide, h, h'⟩
      · exact ⟨3, 1, by decide, by decide, h, h'⟩
      · exact ⟨3, 2, by decide, by decide, h, h'⟩
      · exact ⟨3, 3, by decide, by decide, h, h'⟩
    obtain ⟨t, p, ht, hp, rfl, rfl⟩ := key
    exact moveMake_fields src dst t p hs hd ht hp
  · intro m hm
    refine ⟨and_63_lt _, and_63_lt _, ?_, ?_, moveMake_unpack m hm⟩
    · have e : MoveType m = ((m >>> 12) &&& 3) <<< 12 := and_shiftLeft_eq m 3 12
      rcases and_3_cases (m >>> 12) with h | h | h | h <;> rw [h] at e
      · exact Or.inl e
      · exact Or.inr (Or.inl e)
      · exact Or.inr (Or.inr (Or.inl e))
      · exact Or.inr (Or.inr (Or.inr e))
    · have e : MovePromoType m = ((m >>> 14) &&& 3) <<< 14 := and_shiftLeft_eq m 3 14
      rcases and_3_cases (m >>> 14) with h | h | h | h <;> rw [h] at e
      · exact Or.inl e
      · exact Or.inr (Or.inl e)
      · exact Or.inr (Or.inr (Or.inl e))
      · exact Or.inr (Or.inr (Or.inr e))

/-- The castling move from e1 (4) to h1 (7), and the queen promotion from a7 (48) to a8 (56),
unpack into what was packed. -/
theorem move_packing_bijection_witness :
    (MoveMake 4 7 (CASTLE_MOVE ||| PROMOTE_TO_KNIGHT) < 2 ^ 16
      ∧ MoveFrom (MoveMake 4 7 (CASTLE_MOVE ||| PROMOTE_TO_KNIGHT)) = 4
      ∧ MoveTo (MoveMake 4 7 (CASTLE_MOVE ||| PROMOTE_TO_KNIGHT)) = 7
      ∧ MoveType (MoveMake 4 7 (CASTLE_MOVE ||| PROMOTE_TO_KNIGHT)) = CASTLE_MOVE
      ∧ MovePromoType (MoveMake 4 7 (CASTLE_MOVE ||| PROMOTE_TO_KNIGHT)) = PROMOTE_TO_KNIGHT)
    ∧ MoveMake (MoveFrom 64048) (MoveTo 64048) (MoveType 64048 ||| MovePromoType 64048)
        = 64048 :=
  ⟨move_packing_bijection.1 4 7 CASTLE_MOVE PROMOTE_TO_KNIGHT (by decide) (by decide)
      (Or.inr (Or.inl rfl)) (Or.inl rfl),
    (move_packing_bijection.2 64048 (by decide)).2.2.2.2⟩

/-! ## Draw by repetition -/

/-- The loop entered with one match already counted stops with 1 at the next match. -/
theorem repetitionLoop_one (board : Board) (height : Int) :
    ∀ (fuel : Nat) (i : Int), i < 2 * (fuel : Int) →
      (repetitionLoop board height fuel i 1 ≠ 0 ↔
        ∃ m : Int, 0 ≤ m ∧ m ≤ i ∧ (i - m) % 2 = 0
          ∧ board.numMoves - board.halfMoveCounter ≤ m
          ∧ board.history m.toNat = board.hash) := by
  intro fuel
  induction fuel with
  | zero =>
    intro i hi
    simp only [repetitionLoop]
    constructor
    · intro h; exact absurd rfl h
    · rintro ⟨m, h0, h1, -⟩; omega
  | succ k ih =>
    intro i hi
    have hi2 : i - 2 < 2 * (k : Int) := by push_cast at hi; omega
    unfold repetitionLoop
    by_cases h0 : i ≥ 0
    · by_cases h1 : i < board.numMoves - board.halfMoveCounter
      · simp only [h0, h1, not_true_eq_false, if_false, if_true]
        constructor
        · intro h; exact absurd rfl h
        · rintro ⟨m, _, hm1, _, hm3, -⟩; omega
      · by_cases h2 : board.history i.toNat = board.hash
        · have hres : (if i > board.numMoves - height then (1 : Int)
              else if (1 : Int) + 1 = 2 then 1
              else repetitionLoop board height k (i - 2) (1 + 1)) = 1 := by
            by_cases h3 : i > board.numMoves - height <;> simp [h3]
          simp only [h0, h1, h2, not_true_eq_false, if_false, if_true, hres]
          constructor
          · intro _; exact ⟨i, h0, le_refl i, by simp, by omega, h2⟩
          · intro _; decide
        · simp only [h0, h1, h2, not_true_eq_false, if_false]
          rw [ih (i - 2) hi2]
          constructor
          · rintro ⟨m, a, b, c, d, e⟩
            exact ⟨m, a, by omega, by omega, d, e⟩
          · rintro ⟨m, a, b, c, d, e⟩
            have hne : m ≠ i := fun hmi => h2 (hmi ▸ e)
            exact ⟨m, a, by omega, by omega, d, e⟩
    · simp only [h0, not_false_eq_true, if_true]
      constructor
      · intro h; exact absurd rfl h
      · rintro ⟨m, a, b, -⟩; omega

/-- The loop entered with no match counted stops with 1 at a match above the search root or at
the second match. -/
theorem repetitionLoop_zero (board : Board) (height : Int) :
    ∀ (fuel : Nat) (i : Int), i < 2 * (fuel : Int) →
      (repetitionLoop board height fuel i 0 ≠ 0 ↔
        (∃ m : Int, 0 ≤ m ∧ m ≤ i ∧ (i - m) % 2 = 0
          ∧ board.numMoves - board.halfMoveCounter ≤ m
          ∧ board.history m.toNat = board.hash ∧ m > board.numMoves - height)
        ∨ (∃ m₁ m₂ : Int, m₁ ≠ m₂
          ∧ (0 ≤ m₁ ∧ m₁ ≤ i ∧ (i - m₁) % 2 = 0
              ∧ board.numMoves - board.halfMoveCounter ≤ m₁
              ∧ board.history m₁.toNat = board.hash)
          ∧ (0 ≤ m₂ ∧ m₂ ≤ i ∧ (i - m₂) % 2 = 0
              ∧ board.numMoves - board.halfMoveCounter ≤ m₂
              ∧ board.history m₂.toNat = board.hash))) := by
  intro fuel
  induction fuel with
  | zero =>
    intro i hi
    simp only [repetitionLoop]
    constructor
    · intro h; exact absurd rfl h
    · rintro (⟨m, h0, h1, -⟩ | ⟨m₁, m₂, -, ⟨h0, h1, -⟩, -⟩) <;> omega
  | succ k ih =>
    intro i hi
    have hi2 : i - 2 < 2 * (k : Int) := by push_cast at hi; omega
    unfold repetitionLoop
    by_cases h0 : i ≥ 0
    · by_cases h1 : i < board.numMoves - board.halfMoveCounter
      · simp only [h0, h1, not_true_eq_false, if_false, if_true]
        constructor
        · intro h; exact absurd rfl h
        · rintro (⟨m, _, hm1, _, hm3, -⟩ | ⟨m₁, m₂, -, ⟨_, hm1, _, hm3, -⟩, -⟩) <;> omega
      · by_cases h2 : board.history i.toNat = board.hash
        · by_cases h3 : i > board.numMoves - height
          · simp only [h0, h1, h2, h3, not_true_eq_false, if_false, if_true]
            constructor
            · intro _; exact Or.inl ⟨i, h0, le_refl i, by simp, by omega, h2, h3⟩
            · intro _; decide
          · have h4 : ¬ ((0 : Int) + 1 = 2) := by decide
            simp only [h0, h1, h2, h3, h4, not_true_eq_false, if_false, if_true]
            rw [show ((0 : Int) + 1) = 1 from rfl, repetitionLoop_one board height k (i - 2) hi2]
            constructor
            · rintro ⟨m, a, b, c, d, e⟩
              exact Or.inr ⟨i, m, by omega, ⟨h0, le_refl i, by simp, by omega, h2⟩,
                ⟨a, by omega, by omega, d, e⟩⟩
            · rintro (⟨m, a, b, c, d, e, f⟩ | ⟨m₁, m₂, hne, ⟨a, b, c, d, e⟩, ⟨a', b', c', d', e'⟩⟩)
              · omega
              · by_cases hm : m₁ = i
                · exact ⟨m₂, a', by omega, by omega, d', e'⟩
                · exact ⟨m₁, a, by omega, by omega, d, e⟩
        · simp only [h0, h1, h2, not_true_eq_false, if_false]
          rw [ih (i - 2) hi2]
          constructor
          · rintro (⟨m, a, b, c, d, e, f⟩ | ⟨m₁, m₂, hne, ⟨a, b, c, d, e⟩, ⟨a', b', c', d', e'⟩⟩)
            · exact Or.inl ⟨m, a, by omega, by omega, d, e, f⟩
            · exact Or.inr ⟨m₁, m₂, hne, ⟨a, by omega, by omega, d, e⟩,
                ⟨a', by omega, by omega, d', e'⟩⟩
          · rintro (⟨m, a, b, c, d, e, f⟩ | ⟨m₁, m₂, hne, ⟨a, b, c, d, e⟩, ⟨a', b', c', d', e'⟩⟩)
            · have hm : m ≠ i := fun hmi => h2 (hmi ▸ e)
              exact Or.inl ⟨m, a, by omega, by omega, d, e, f⟩
            · have hm₁ : m₁ ≠ i := fun hmi => h2 (hmi ▸ e)
              have hm₂ : m₂ ≠ i := fun hmi => h2 (hmi ▸ e')
              exact Or.inr ⟨m₁, m₂, hne, ⟨a, by omega, by omega, d, e⟩,
                ⟨a', by omega, by omega, d', e'⟩⟩
    · simp only [h0, not_false_eq_true, if_true]
      constructor
      · intro h; exact absurd rfl h
      · rintro (⟨m, a, b, -⟩ | ⟨m₁, m₂, -, ⟨a, b, -⟩, -⟩) <;> omega

/-- The result of `boardDrawnByRepetition` in terms of the scanned history indices that hold
the current hash. -/
theorem repetition_drawn_iff (board : Board) (height : Int) :
    boardDrawnByRepetition board height ≠ 0 ↔
      (∃ i : Int, repetitionAt board i ∧ i > board.numMoves - height)
      ∨ (∃ i j : Int, i ≠ j ∧ repetitionAt board i ∧ repetitionAt board j) := by
  have hfuel : board.numMoves - 2 < 2 * ((board.numMoves.toNat : Nat) : Int) := by omega
  unfold boardDrawnByRepetition
  rw [repetitionLoop_zero board height _ _ hfuel]
  unfold repetitionAt repetitionIndex
  constructor
  · rintro (⟨m, a, b, c, d, e, f⟩ | ⟨m₁, m₂, hne, ⟨a, b, c, d, e⟩, ⟨a', b', c', d', e'⟩⟩)
    · exact Or.inl ⟨m, ⟨⟨a, b, by omega, d⟩, e⟩, f⟩
    · exact Or.inr ⟨m₁, m₂, hne, ⟨⟨a, b, by omega, d⟩, e⟩, ⟨⟨a', b', by omega, d'⟩, e'⟩⟩
  · rintro (⟨m, ⟨⟨a, b, c, d⟩, e⟩, f⟩ | ⟨m₁, m₂, hne, ⟨⟨a, b, c, d⟩, e⟩, ⟨⟨a', b', c', d'⟩, e'⟩⟩)
    · exact Or.inl ⟨m, a, b, by omega, d, e, f⟩
    · exact Or.inr ⟨m₁, m₂, hne, ⟨a, b, by omega, d, e⟩, ⟨a', b', by omega, d', e'⟩⟩

/-- C8: `boardDrawnByRepetition(board, height)` is non-zero exactly when, among the history
indices `numMoves - 2, numMoves - 4, ...` that are not negative and not below
`numMoves - halfMoveCounter`, one holding the current hash lies above `numMoves - height`
(twofold after the search root) or two of them hold the current hash (threefold). In
particular with `numMoves = halfMoveCounter = 8` and `history[0] = history[4] = hash`, as after
g1f3 g8f6 f3g1 f6g8 played twice from the start position, the result is non-zero at height 0. -/
theorem boardDrawnByRepetition_iff (board : Board) (height : Int) :
    (boardDrawnByRepetition board height ≠ 0 ↔
      (∃ i : Int, repetitionAt board i ∧ i > board.numMoves - height)
      ∨ (∃ i j : Int, i ≠ j ∧ repetitionAt board i ∧ repetitionAt board j))
    ∧ (board.numMoves = 8 → board.halfMoveCounter = 8 → board.history 0 = board.hash →
        board.history 4 = board.hash → boardDrawnByRepetition board 0 ≠ 0) := by
  refine ⟨repetition_drawn_iff board height, ?_⟩
  intro hn hc h0 h4
  rw [repetition_drawn_iff board 0]
  refine Or.inr ⟨0, 4, by decide, ⟨⟨?_, ?_, ?_, ?_⟩, h0⟩, ⟨⟨?_, ?_, ?_, ?_⟩, h4⟩⟩ <;>
    simp [hn, hc]

/-- On a board with `numMoves = halfMoveCounter = 8` whose hash stands at the history indices
0 and 4, the result is non-zero at height 0. -/
theorem boardDrawnByRepetition_iff_witness :
    sampleRepeated.numMoves = 8 ∧ sampleRepeated.halfMoveCounter = 8
    ∧ sampleRepeated.history 0 = sampleRepeated.hash
    ∧ sampleRepeated.history 4 = sampleRepeated.hash
    ∧ boardDrawnByRepetition sampleRepeated 0 ≠ 0 :=
  ⟨rfl, rfl, rfl, rfl, (boardDrawnByRepetition_iff sampleRepeated 0).2 rfl rfl rfl rfl⟩

/-! ## Counting bits -/

theorem countP_split2 (l : List Nat) (P Q R : Nat → Bool)
    (h : ∀ s ∈ l, (if P s then 1 else 0 : Nat) = (if Q s then 1 else 0) + (if R s then 1 else 0)) :
    l.countP P = l.countP Q + l.countP R := by
  induction l with
  | nil => rfl
  | cons a t ih =>
    have h1 := h a (List.mem_cons_self a t)
    have h2 := ih (fun s hs => h s (List.mem_cons_of_mem a hs))
    simp only [List.countP_cons]
    omega

theorem countP_split6 (l : List Nat) (P Q0 Q1 Q2 Q3 Q4 Q5 : Nat → Bool)
    (h : ∀ s ∈ l, (if P s then 1 else 0 : Nat) =
      (if Q0 s then 1 else 0) + (if Q1 s then 1 else 0) + (if Q2 s then 1 else 0)
        + (if Q3 s then 1 else 0) + (if Q4 s then 1 else 0) + (if Q5 s then 1 else 0)) :
    l.countP P = l.countP Q0 + l.countP Q1 + l.countP Q2 + l.countP Q3 + l.countP Q4
      + l.countP Q5 := by
  induction l with
  | nil => rfl
  | cons a t ih =>
    have h1 := h a (List.mem_cons_self a t)
    have h2 := ih (fun s hs => h s (List.mem_cons_of_mem a hs))
    simp only [List.countP_cons]
    omega

theorem countP_split3 (l : List Nat) (P Q0 Q1 Q2 : Nat → Bool)
    (h : ∀ s ∈ l, (if P s then 1 else 0 : Nat) =
      (if Q0 s then 1 else 0) + (if Q1 s then 1 else 0) + (if Q2 s then 1 else 0)) :
    l.countP P = l.countP Q0 + l.countP Q1 + l.countP Q2 := by
  induction l with
  | nil => rfl
  | cons a t ih =>
    have h1 := h a (List.mem_cons_self a t)
    have h2 := ih (fun s hs => h s (List.mem_cons_of_mem a hs))
    simp only [List.countP_cons]
    omega

theorem popcount_eq_zero_iff (bb : Nat) (h : bb < 2 ^ 64) : popcount bb = 0 ↔ bb = 0 := by
  constructor
  · intro h0
    apply Nat.eq_of_testBit_eq
    intro i
    rw [Nat.zero_testBit]
    by_cases hi : i < 64
    · unfold popcount at h0
      rw [List.countP_eq_zero] at h0
      have := h0 i (List.mem_range.mpr hi)
      simpa [testBit] using this
    · exact testBit_false_of_lt h (by omega)
  · intro h0
    subst h0
    unfold popcount
    rw [List.countP_eq_zero]
    intro i _
    simp [testBit]

theorem popcount_and (a b : Nat) :
    popcount (a &&& b) = (List.range 64).countP (fun s => testBit a s && testBit b s) := by
  unfold popcount testBit
  congr 1
  funext s
  exact Nat.testBit_and a b s

theorem popcount_or (a b : Nat) :
    popcount (a ||| b) = (List.range 64).countP (fun s => testBit a s || testBit b s) := by
  unfold popcount testBit
  congr 1
  funext s
  exact Nat.testBit_or a b s

/-! ## Draw by insufficient material -/

/-- The bit counts the code of `boardDrawnByInsufficientMaterial` looks at, in terms of the
twelve piece counts of a consistent board. -/
theorem consistent_counts (board : Board) (hc : bitboardsConsistent board) :
    popcount (board.colours WHITE) =
        pieceCount board WHITE PAWN + pieceCount board WHITE KNIGHT
          + pieceCount board WHITE BISHOP + pieceCount board WHITE ROOK
          + pieceCount board WHITE QUEEN + pieceCount board WHITE KING
    ∧ popcount (board.colours BLACK) =
        pieceCount board BLACK PAWN + pieceCount board BLACK KNIGHT
          + pieceCount board BLACK BISHOP + pieceCount board BLACK ROOK
          + pieceCount board BLACK QUEEN + pieceCount board BLACK KING
    ∧ (∀ p, p < 6 → popcount (board.pieces p) = pieceCount board WHITE p + pieceCount board BLACK p)
    ∧ popcount (board.pieces KNIGHT ||| board.pieces BISHOP) =
        popcount (board.pieces KNIGHT) + popcount (board.pieces BISHOP)
    ∧ popcount (board.pieces PAWN ||| board.pieces ROOK ||| board.pieces QUEEN) =
        popcount (board.pieces PAWN) + popcount (board.pieces ROOK)
          + popcount (board.pieces QUEEN) := by
  obtain ⟨-, -, hs⟩ := hc
  have bash : ∀ w b p0 p1 p2 p3 p4 p5 : Bool, squareConsistent w b p0 p1 p2 p3 p4 p5 = true →
      ((if w then 1 else 0 : Nat) = (if (w && p0) then 1 else 0) + (if (w && p1) then 1 else 0)
        + (if (w && p2) then 1 else 0) + (if (w && p3) then 1 else 0)
        + (if (w && p4) then 1 else 0) + (if (w && p5) then 1 else 0))
      ∧ ((if b then 1 else 0 : Nat) = (if (b && p0) then 1 else 0) + (if (b && p1) then 1 else 0)
        + (if (b && p2) then 1 else 0) + (if (b && p3) then 1 else 0)
        + (if (b && p4) then 1 else 0) + (if (b && p5) then 1 else 0))
      ∧ ((if p0 then 1 else 0 : Nat) = (if (w && p0) then 1 else 0) + (if (b && p0) then 1 else 0))
      ∧ ((if p1 then 1 else 0 : Nat) = (if (w && p1) then 1 else 0) + (if (b && p1) then 1 else 0))
      ∧ ((if p2 then 1 else 0 : Nat) = (if (w && p2) then 1 else 0) + (if (b && p2) then 1 else 0))
      ∧ ((if p3 then 1 else 0 : Nat) = (if (w && p3) then 1 else 0) + (if (b && p3) then 1 else 0))
      ∧ ((if p4 then 1 else 0 : Nat) = (if (w && p4) then 1 else 0) + (if (b && p4) then 1 else 0))
      ∧ ((if p5 then 1 else 0 : Nat) = (if (w && p5) then 1 else 0) + (if (b && p5) then 1 else 0))
      ∧ ((if (p1 || p2) then 1 else 0 : Nat) = (if p1 then 1 else 0) + (if p2 then 1 else 0))
      ∧ ((if (p0 || p3 || p4) then 1 else 0 : Nat) =
          (if p0 then 1 else 0) + (if p3 then 1 else 0) + (if p4 then 1 else 0)) := by
    decide
  have at_sq := fun s (h : s ∈ List.range 64) => bash _ _ _ _ _ _ _ _ (hs s (List.mem_range.mp h))
  refine ⟨?_, ?_, ?_, ?_, ?_⟩
  · simp only [pieceCount, popcount_and]
    exact countP_split6 _ _ _ _ _ _ _ _ (fun s h => (at_sq s h).1)
  · simp only [pieceCount, popcount_and]
    exact countP_split6 _ _ _ _ _ _ _ _ (fun s h => (at_sq s h).2.1)
  · intro p hp
    simp only [pieceCount, popcount_and]
    have hp' : p = PAWN ∨ p = KNIGHT ∨ p = BISHOP ∨ p = ROOK ∨ p = QUEEN ∨ p = KING := by
      simp only [PAWN, KNIGHT, BISHOP, ROOK, QUEEN, KING]; omega
    rcases hp' with h | h | h | h | h | h <;> subst h
    · exact countP_split2 _ _ _ _ (fun s h => (at_sq s h).2.2.1)
    · exact countP_split2 _ _ _ _ (fun s h => (at_sq s h).2.2.2.1)
    · exact countP_split2 _ _ _ _ (fun s h => (at_sq s h).2.2.2.2.1)
    · exact countP_split2 _ _ _ _ (fun s h => (at_sq s h).2.2.2.2.2.1)
    · exact countP_split2 _ _ _ _ (fun s h => (at_sq s h).2.2.2.2.2.2.1)
    · exact countP_split2 _ _ _ _ (fun s h => (at_sq s h).2.2.2.2.2.2.2.1)
  · rw [popcount_or]
    exact countP_split2 _ _ _ _ (fun s h => (at_sq s h).2.2.2.2.2.2.2.2.1)
  · have e : popcount (board.pieces PAWN ||| board.pieces ROOK ||| board.pieces QUEEN) =
        (List.range 64).countP (fun s => testBit (board.pieces PAWN) s
          || testBit (board.pieces ROOK) s || testBit (board.pieces QUEEN) s) := by
      unfold popcount testBit
      congr 1
      funext s
      rw [Nat.testBit_or, Nat.testBit_or]
    rw [e]
    exact countP_split3 _ _ _ _ _ (fun s h => (at_sq s h).2.2.2.2.2.2.2.2.2)

/-- The arithmetic of the material test, on the twelve piece counts. -/
theorem material_arith (wP wN wB wR wQ wK bP bN bB bR bQ bK : Nat) (hwK : wK = 1)
    (hbK : bK = 1) :
    ((wP + bP) + (wR + bR) + (wQ + bQ) = 0
      ∧ (¬ 1 < wP + wN + wB + wR + wQ + wK ∨ ¬ 1 < bP + bN + bB + bR + bQ + bK)
      ∧ (¬ 1 < (wN + bN) + (wB + bB) ∨ ((wB + bB) = 0 ∧ wN + bN ≤ 2)))
    ↔ (((wP = 0 ∧ wN = 0 ∧ wB = 0 ∧ wR = 0 ∧ wQ = 0 ∧ wK = 1)
          ∧ (bP = 0 ∧ bN = 0 ∧ bB = 0 ∧ bR = 0 ∧ bQ = 0 ∧ bK = 1))
      ∨ ((wP = 0 ∧ wN = 1 ∧ wB = 0 ∧ wR = 0 ∧ wQ = 0 ∧ wK = 1)
          ∧ (bP = 0 ∧ bN = 0 ∧ bB = 0 ∧ bR = 0 ∧ bQ = 0 ∧ bK = 1))
      ∨ ((wP = 0 ∧ wN = 0 ∧ wB = 0 ∧ wR = 0 ∧ wQ = 0 ∧ wK = 1)
          ∧ (bP = 0 ∧ bN = 1 ∧ bB = 0 ∧ bR = 0 ∧ bQ = 0 ∧ bK = 1))
      ∨ ((wP = 0 ∧ wN = 0 ∧ wB = 1 ∧ wR = 0 ∧ wQ = 0 ∧ wK = 1)
          ∧ (bP = 0 ∧ bN = 0 ∧ bB = 0 ∧ bR = 0 ∧ bQ = 0 ∧ bK = 1))
      ∨ ((wP = 0 ∧ wN = 0 ∧ wB = 0 ∧ wR = 0 ∧ wQ = 0 ∧ wK = 1)
          ∧ (bP = 0 ∧ bN = 0 ∧ bB = 1 ∧ bR = 0 ∧ bQ = 0 ∧ bK = 1))
      ∨ ((wP = 0 ∧ wN = 2 ∧ wB = 0 ∧ wR = 0 ∧ wQ = 0 ∧ wK = 1)
          ∧ (bP = 0 ∧ bN = 0 ∧ bB = 0 ∧ bR = 0 ∧ bQ = 0 ∧ bK = 1))
      ∨ ((wP = 0 ∧ wN = 0 ∧ wB = 0 ∧ wR = 0 ∧ wQ = 0 ∧ wK = 1)
          ∧ (bP = 0 ∧ bN = 2 ∧ bB = 0 ∧ bR = 0 ∧ bQ = 0 ∧ bK = 1))) := by
  subst hwK hbK
  constructor
  · rintro ⟨h1, h2, h3⟩
    obtain rfl : wP = 0 := by omega
    obtain rfl : bP = 0 := by omega
    obtain rfl : wR = 0 := by omega
    obtain rfl : bR = 0 := by omega
    obtain rfl : wQ = 0 := by omega
    obtain rfl : bQ = 0 := by omega
    simp only [true_and, and_true]
    rcases (show (wN = 0 ∧ wB = 0) ∨ (bN = 0 ∧ bB = 0) by omega) with ⟨rfl, rfl⟩ | ⟨rfl, rfl⟩
    · have a2 : bN ≤ 2 := by omega
      have a4 : bB ≤ 1 := by omega
      interval_cases bN <;> interval_cases bB <;>
        first
        | (exfalso; omega)
        | simp
    · have a2 : wN ≤ 2 := by omega
      have a4 : wB ≤ 1 := by omega
      interval_cases wN <;> interval_cases wB <;>
        first
        | (exfalso; omega)
        | simp
  · rintro (h | h | h | h | h | h | h) <;>
      obtain ⟨⟨rfl, rfl, rfl, rfl, rfl, -⟩, ⟨rfl, rfl, rfl, rfl, rfl, -⟩⟩ := h <;> simp

/-- C9: on a board whose bitboards are consistent and where each side has exactly one king,
`boardDrawnByInsufficientMaterial` is non-zero exactly when the material is king v king,
king+knight v king, king+bishop v king or king+two knights v king, with either colour as the
stronger side; it is 0 whenever a pawn, rook or queen is on the board, and for king+knight v
king+knight. -/
theorem boardDrawnByInsufficientMaterial_iff (board : Board)
    (hc : bitboardsConsistent board)
    (hwk : pieceCount board WHITE KING = 1) (hbk : pieceCount board BLACK KING = 1) :
    (boardDrawnByInsufficientMaterial board ≠ 0 ↔ insufficientMaterial board)
    ∧ (board.pieces PAWN ≠ 0 ∨ board.pieces ROOK ≠ 0 ∨ board.pieces QUEEN ≠ 0 →
        boardDrawnByInsufficientMaterial board = 0)
    ∧ (sideHas board WHITE 1 0 ∧ sideHas board BLACK 1 0 →
        boardDrawnByInsufficientMaterial board = 0) := by
  obtain ⟨hW, hB, hP, hNB, hPRQ⟩ := consistent_counts board hc
  have bP := hc.2.1 PAWN (by decide)
  have bR := hc.2.1 ROOK (by decide)
  have bQ := hc.2.1 QUEEN (by decide)
  have bB := hc.2.1 BISHOP (by decide)
  have zPRQ : (board.pieces PAWN ||| board.pieces ROOK ||| board.pieces QUEEN) = 0 ↔
      popcount (board.pieces PAWN) + popcount (board.pieces ROOK)
        + popcount (board.pieces QUEEN) = 0 := by
    rw [← hPRQ]
    exact (popcount_eq_zero_iff _ (Nat.or_lt_two_pow (Nat.or_lt_two_pow bP bR) bQ)).symm
  have zB : board.pieces BISHOP = 0 ↔ popcount (board.pieces BISHOP) = 0 :=
    (popcount_eq_zero_iff _ bB).symm
  have hPp := hP PAWN (by decide)
  have hPn := hP KNIGHT (by decide)
  have hPb := hP BISHOP (by decide)
  have hPr := hP ROOK (by decide)
  have hPq := hP QUEEN (by decide)
  have code : boardDrawnByInsufficientMaterial board ≠ 0 ↔
      (popcount (board.pieces PAWN) + popcount (board.pieces ROOK)
          + popcount (board.pieces QUEEN) = 0)
      ∧ (¬ 1 < popcount (board.colours WHITE) ∨ ¬ 1 < popcount (board.colours BLACK))
      ∧ (¬ 1 < popcount (board.pieces KNIGHT) + popcount (board.pieces BISHOP)
          ∨ (popcount (board.pieces BISHOP) = 0 ∧ popcount (board.pieces KNIGHT) ≤ 2)) := by
    rw [← zPRQ, ← zB, ← hNB]
    unfold boardDrawnByInsufficientMaterial several
    simp only [decide_eq_false_iff_not]
    split
    · rename_i h; simp only [h]; simp
    · rename_i h; simp only [h]; simp
  have zero_iff : boardDrawnByInsufficientMaterial board = 0 ↔
      ¬ (boardDrawnByInsufficientMaterial board ≠ 0) := by
    constructor
    · intro h h'; exact h' h
    · intro h; exact not_not.mp h
  refine ⟨?_, ?_, ?_⟩
  · rw [hPp, hPr, hPq, hW, hB, hPn, hPb] at code
    exact code.trans (material_arith _ _ _ _ _ _ _ _ _ _ _ _ hwk hbk)
  · intro h
    rw [zero_iff, code]
    have : popcount (board.pieces PAWN) + popcount (board.pieces ROOK)
        + popcount (board.pieces QUEEN) ≠ 0 := by
      intro h0'
      have h0 := zPRQ.mpr h0'
      have t : ∀ i, (board.pieces PAWN ||| board.pieces ROOK ||| board.pieces QUEEN).testBit i
          = false := by
        intro i; rw [h0]; exact Nat.zero_testBit i
      simp only [Nat.testBit_or, Bool.or_eq_false_iff] at t
      rcases h with h | h | h
      · exact h (Nat.eq_of_testBit_eq (fun i => by rw [(t i).1.1, Nat.zero_testBit]))
      · exact h (Nat.eq_of_testBit_eq (fun i => by rw [(t i).1.2, Nat.zero_testBit]))
      · exact h (Nat.eq_of_testBit_eq (fun i => by rw [(t i).2, Nat.zero_testBit]))
    intro hh
    exact this hh.1
  · intro h
    rw [zero_iff, code]
    obtain ⟨⟨w0, w1, w2, w3, w4, w5⟩, ⟨b0, b1, b2, b3, b4, b5⟩⟩ := h
    rw [hPp, hPr, hPq, hW, hB, hPn, hPb, w0, w1, w2, w3, w4, w5, b0, b1, b2, b3, b4, b5]
    decide

/-- With king and bishop against king the bitboards are consistent, each side has one king,
and the material test gives a draw. -/
theorem boardDrawnByInsufficientMaterial_iff_witness :
    bitboardsConsistent sampleKBK ∧ pieceCount sampleKBK WHITE KING = 1
    ∧ pieceCount sampleKBK BLACK KING = 1
    ∧ (boardDrawnByInsufficientMaterial sampleKBK ≠ 0 ↔ insufficientMaterial sampleKBK) :=
  ⟨by decide, by decide, by decide,
    (boardDrawnByInsufficientMaterial_iff sampleKBK (by decide) (by decide) (by decide)).1⟩

/-! ## Draw by any rule -/

theorem boardDrawnByFiftyMoveRule_ne_zero (board : Board) :
    boardDrawnByFiftyMoveRule board ≠ 0 ↔ board.halfMoveCounter > 99 := by
  unfold boardDrawnByFiftyMoveRule
  split <;> simp_all

theorem boardIsDrawn_ne_zero (board : Board) (height : Int) :
    boardIsDrawn board height ≠ 0 ↔
      board.halfMoveCounter > 99 ∨ boardDrawnByRepetition board height ≠ 0
        ∨ boardDrawnByInsufficientMaterial board ≠ 0 := by
  rw [← boardDrawnByFiftyMoveRule_ne_zero]
  unfold boardIsDrawn
  split
  · rename_i h; simp only [ne_eq, one_ne_zero, not_false_eq_true, true_iff]; exact h
  · rename_i h; simp only [ne_eq, not_true_eq_false, false_iff]; exact h

/-- C10: `boardIsDrawn(board, height)` is non-zero exactly when the halfmove clock is above
99, or `boardDrawnByRepetition(board, height)` is non-zero, or
`boardDrawnByInsufficientMaterial(board)` is non-zero; a halfmove clock of 99 alone is not a
draw and a halfmove clock of 100 always is. -/
theorem boardIsDrawn_iff (board : Board) (height : Int) :
    (boardIsDrawn board height ≠ 0 ↔
      board.halfMoveCounter > 99 ∨ boardDrawnByRepetition board height ≠ 0
        ∨ boardDrawnByInsufficientMaterial board ≠ 0)
    ∧ (board.halfMoveCounter = 99 → boardDrawnByRepetition board height = 0 →
        boardDrawnByInsufficientMaterial board = 0 → boardIsDrawn board height = 0)
    ∧ (board.halfMoveCounter = 100 → boardIsDrawn board height ≠ 0) := by
  refine ⟨boardIsDrawn_ne_zero board height, ?_, ?_⟩
  · intro h99 hrep hins
    by_contra hne
    rcases (boardIsDrawn_ne_zero board height).mp hne with h | h | h
    · omega
    · exact h hrep
    · exact h hins
  · intro h100
    exact (boardIsDrawn_ne_zero board height).mpr (Or.inl (by omega))

/-- A halfmove clock of 100 is a draw at any height. -/
theorem boardIsDrawn_iff_witness :
    sampleHundred.halfMoveCounter = 100 ∧ boardIsDrawn sampleHundred 0 ≠ 0 :=
  ⟨rfl, (boardIsDrawn_iff sampleHundred 0).2.2 rfl⟩

/-! ## `revertNullMove` -/

/-- C11 fails on the code for the king attackers: the undo record holds the attacker on e2,
and the board that `revertNullMove` leaves holds none. -/
theorem revertNullMove_drops_kingAttackers :
    checkedUndo.kingAttackers = 4096
    ∧ (revertNullMove checkedBoard checkedUndo).kingAttackers = 0
    ∧ (revertNullMove checkedBoard checkedUndo).kingAttackers ≠ checkedUndo.kingAttackers := by
  refine ⟨by decide, by decide, by decide⟩

/-- C11 (amended): `revertNullMove` sets the hash, the en-passant square and the half-move
clock to the values held in the undo record, sets the king attackers to zero whatever the
undo record holds, toggles the side to move, decrements `numMoves` by one and leaves every
other field as it was. -/
theorem revertNullMove_fields (board : Board) (undo : Undo) :
    (revertNullMove board undo).hash = undo.hash
    ∧ (revertNullMove board undo).epSquare = undo.epSquare
    ∧ (revertNullMove board undo).halfMoveCounter = undo.halfMoveCounter
    ∧ (revertNullMove board undo).kingAttackers = 0
    ∧ (revertNullMove board undo).turn = (if board.turn = 0 then 1 else 0)
    ∧ (revertNullMove board undo).numMoves = board.numMoves - 1
    ∧ (revertNullMove board undo).squares = board.squares
    ∧ (revertNullMove board undo).pieces = board.pieces
    ∧ (revertNullMove board undo).colours = board.colours
    ∧ (revertNullMove board undo).history = board.history
    ∧ (revertNullMove board undo).pkhash = board.pkhash
    ∧ (revertNullMove board undo).castleRooks = board.castleRooks
    ∧ (revertNullMove board undo).castleMasks = board.castleMasks
    ∧ (revertNullMove board undo).fullMoveCounter = board.fullMoveCounter
    ∧ (revertNullMove board undo).psqtmat = board.psqtmat
    ∧ (revertNullMove board undo).chess960 = board.chess960 :=
  ⟨rfl, rfl, rfl, rfl, rfl, rfl, rfl, rfl, rfl, rfl, rfl, rfl, rfl, rfl, rfl, rfl⟩

/-! ## The score of a report -/

theorem tdiv_two_of_nonneg (a : Int) (h : 0 ≤ a) : Int.tdiv a 2 = a / 2 :=
  Int.tdiv_eq_ediv h (by decide)

theorem tdiv_two_neg (a : Int) (h : 0 ≤ a) : Int.tdiv (-a) 2 = -(a / 2) := by
  rw [Int.neg_tdiv, tdiv_two_of_nonneg a h]

/-- C17: `uciReport` prints the type `mate` exactly when the clamped score is at least
`MATE_IN_MAX` or at most `MATED_IN_MAX`, and otherwise `cp` with the clamped score itself;
a clamped score `MATE - p` with `p` odd, `1 ≤ p ≤ MAX_PLY`, prints `mate (p+1)/2`, so
`MATE - 1` prints `mate 1`, and a clamped score `-MATE + p` with `p` even, `0 ≤ p ≤ MAX_PLY`,
prints `mate -(p/2)`. -/
theorem uciReport_score (K : ScoreConsts) (hK : K.MAX_PLY < K.MATE)
    (alpha beta value : Int) :
    (uciReportScore K alpha beta value).bounded = max alpha (min value beta)
    ∧ ((uciReportScore K alpha beta value).type = "mate".toList
        ↔ (uciReportScore K alpha beta value).bounded ≥ MATE_IN_MAX K
          ∨ (uciReportScore K alpha beta value).bounded ≤ MATED_IN_MAX K)
    ∧ (¬ ((uciReportScore K alpha beta value).bounded ≥ MATE_IN_MAX K
          ∨ (uciReportScore K alpha beta value).bounded ≤ MATED_IN_MAX K)
        → (uciReportScore K alpha beta value).type = "cp".toList
          ∧ (uciReportScore K alpha beta value).score
              = (uciReportScore K alpha beta value).bounded)
    ∧ (∀ p : Int, 1 ≤ p → p ≤ K.MAX_PLY → p % 2 = 1 →
        (uciReportScore K alpha beta value).bounded = K.MATE - p →
        (uciReportScore K alpha beta value).type = "mate".toList
        ∧ (uciReportScore K alpha beta value).score = (p + 1) / 2)
    ∧ (1 ≤ K.MAX_PLY → (uciReportScore K alpha beta value).bounded = K.MATE - 1 →
        (uciReportScore K alpha beta value).type = "mate".toList
        ∧ (uciReportScore K alpha beta value).score = 1)
    ∧ (∀ p : Int, 0 ≤ p → p ≤ K.MAX_PLY → p % 2 = 0 →
        (uciReportScore K alpha beta value).bounded = -K.MATE + p →
        (uciReportScore K alpha beta value).type = "mate".toList
        ∧ (uciReportScore K alpha beta value).score = -(p / 2)) := by
  have hne : "mate".toList ≠ "cp".toList := by decide
  refine ⟨rfl, ?_, ?_, ?_, ?_, ?_⟩
  · unfold uciReportScore
    dsimp only
    by_cases h : max alpha (min value beta) ≥ MATE_IN_MAX K
        ∨ max alpha (min value beta) ≤ MATED_IN_MAX K
    · rw [if_pos h]
      exact ⟨fun _ => h, fun _ => rfl⟩
    · rw [if_neg h]
      exact ⟨fun e => absurd e hne.symm, fun e => absurd e h⟩
  · intro h
    unfold uciReportScore at h ⊢
    dsimp only at h ⊢
    rw [if_neg h, if_neg (fun h1 => h (Or.inl h1)), if_neg (fun h1 => h (Or.inr h1))]
    exact ⟨rfl, rfl⟩
  · intro p h1 h2 h3 hb
    unfold uciReportScore at hb ⊢
    dsimp only at hb ⊢
    rw [hb]
    have hin : K.MATE - p ≥ MATE_IN_MAX K := by unfold MATE_IN_MAX; omega
    rw [if_pos hin, if_pos (Or.inl hin)]
    refine ⟨rfl, ?_⟩
    rw [tdiv_two_of_nonneg _ (by omega)]
    omega
  · intro h1 hb
    unfold uciReportScore at hb ⊢
    dsimp only at hb ⊢
    rw [hb]
    have hin : K.MATE - 1 ≥ MATE_IN_MAX K := by unfold MATE_IN_MAX; omega
    rw [if_pos hin, if_pos (Or.inl hin)]
    refine ⟨rfl, ?_⟩
    rw [tdiv_two_of_nonneg _ (by omega)]
    omega
  · intro p h1 h2 h3 hb
    unfold uciReportScore at hb ⊢
    dsimp only at hb ⊢
    rw [hb]
    have hout : ¬ (-K.MATE + p ≥ MATE_IN_MAX K) := by unfold MATE_IN_MAX; omega
    have hin : -K.MATE + p ≤ MATED_IN_MAX K := by unfold MATED_IN_MAX; omega
    rw [if_neg hout, if_pos hin, if_pos (Or.inr hin)]
    refine ⟨rfl, ?_⟩
    have e : -(-K.MATE + p) - K.MATE = -p := by omega
    rw [e, tdiv_two_neg p h1]

/-- Witness of C17 at the sample constants: a search value of 31999 inside the window prints
`mate 1`. -/
theorem uciReport_score_witness :
    sampleConsts.MAX_PLY < sampleConsts.MATE
    ∧ (uciReportScore sampleConsts (-32000) 32000 31999).type = "mate".toList
    ∧ (uciReportScore sampleConsts (-32000) 32000 31999).score = 1 :=
  ⟨by decide,
    (uciReport_score sampleConsts (by decide) (-32000) 32000 31999).2.2.2.2.1
      (by decide) (by decide)⟩

/-- C18 fails on the code at the largest `unsigned` distance: the sum wraps around and the
score of a tablebase win is `MATE - MAX_PLY` itself, not below it, and above the score at
distance 0. -/
theorem uciReportTBRoot_wraps :
    uciReportTBRootScore sampleConsts sampleConsts.TB_WIN 4294967295
      = sampleConsts.MATE - sampleConsts.MAX_PLY
    ∧ ¬ (uciReportTBRootScore sampleConsts sampleConsts.TB_WIN 4294967295
          < sampleConsts.MATE - sampleConsts.MAX_PLY)
    ∧ uciReportTBRootScore sampleConsts sampleConsts.TB_WIN 0
        < uciReportTBRootScore sampleConsts sampleConsts.TB_WIN 4294967295 := by
  refine ⟨by decide, by decide, by decide⟩

/-- C18 (amended): with `0 ≤ MAX_PLY < MATE < 2^31` and `TB_LOSS ≠ TB_WIN`, for every distance
`dtz` below `2^31` the score that `uciReportTBRoot` prints is `MATE - MAX_PLY - dtz - 1` for a
tablebase win, the exact negation of that for a tablebase loss and 0 for every other result;
the win score is strictly below `MATE - MAX_PLY` and strictly decreasing in `dtz`. -/
theorem uciReportTBRoot_score (K : ScoreConsts) (h0 : 0 ≤ K.MAX_PLY)
    (hK : K.MAX_PLY < K.MATE) (hM : K.MATE < 2147483648) (hne : K.TB_LOSS ≠ K.TB_WIN)
    (dtz : Nat) (hd : dtz < 2147483648) :
    uciReportTBRootScore K K.TB_WIN dtz = K.MATE - K.MAX_PLY - dtz - 1
    ∧ uciReportTBRootScore K K.TB_LOSS dtz = -(K.MATE - K.MAX_PLY - dtz - 1)
    ∧ uciReportTBRootScore K K.TB_LOSS dtz = -uciReportTBRootScore K K.TB_WIN dtz
    ∧ (∀ wdl, wdl ≠ K.TB_WIN → wdl ≠ K.TB_LOSS → uciReportTBRootScore K wdl dtz = 0)
    ∧ uciReportTBRootScore K K.TB_WIN dtz < K.MATE - K.MAX_PLY
    ∧ (∀ d, d < dtz →
        uciReportTBRootScore K K.TB_WIN dtz < uciReportTBRootScore K K.TB_WIN d) := by
  have hw : ∀ d : Nat, d < 2147483648 →
      uciReportTBRootScore K K.TB_WIN d = K.MATE - K.MAX_PLY - d - 1 := by
    intro d hd1
    unfold uciReportTBRootScore
    rw [if_neg (fun h => hne h.symm), if_pos rfl]
    exact toInt32_of_range _ (by omega)
  have hl : uciReportTBRootScore K K.TB_LOSS dtz = -(K.MATE - K.MAX_PLY - dtz - 1) := by
    unfold uciReportTBRootScore
    rw [if_pos rfl, toInt32_of_range _ (by omega)]
    omega
  refine ⟨hw dtz hd, hl, ?_, ?_, ?_, ?_⟩
  · rw [hl, hw dtz hd]
  · intro wdl h1 h2
    unfold uciReportTBRootScore
    rw [if_neg h2, if_neg h1]
  · rw [hw dtz hd]
    omega
  · intro d hlt
    rw [hw dtz hd, hw d (by omega)]
    omega

/-- Witness of C18 at the sample constants and distance 3: the win score is 31868. -/
theorem uciReportTBRoot_score_witness :
    uciReportTBRootScore sampleConsts sampleConsts.TB_WIN 3 = 32000 - 128 - 3 - 1 :=
  (uciReportTBRoot_score sampleConsts (by decide) (by decide) (by decide) (by decide) 3
    (by decide)).1

/-! ## The limits of a `go` command -/

theorem goLoop_valued (k : GoKey) (text : List Char) (n : Int) (rest : List (List Char))
    (v : GoVars) (h : atoi text = .ok n) :
    goLoop (k.keyword :: text :: rest) v = goLoop rest (applyArg v (.valued k text n)) := by
  cases k <;> simp [goLoop, GoKey.keyword, applyArg, h]

theorem goLoop_other (tok : List Char) (rest : List (List Char)) (v : GoVars)
    (h : tok ∉ goWords) : goLoop (tok :: rest) v = goLoop rest v := by
  simp only [goWords, List.mem_cons, List.mem_singleton, not_or, List.not_mem_nil,
    or_false] at h
  obtain ⟨h1, h2, h3, h4, h5, h6, h7, h8, h9⟩ := h
  rw [goLoop.eq_def]
  dsimp only
  rw [if_neg h1, if_neg h2, if_neg h3, if_neg h4, if_neg h5, if_neg h6, if_neg h7,
    if_neg h8, if_neg h9]

theorem goLoop_args (args : List GoArg) :
    ∀ (rest : List (List Char)) (v : GoVars), (∀ a ∈ args, GoArg.wf a = true) →
      goLoop (args.flatMap GoArg.tokens ++ rest) v = goLoop rest (args.foldl applyArg v) := by
  induction args with
  | nil => intro rest v _; rfl
  | cons a as ih =>
    intro rest v hwf
    have ha := hwf a (List.mem_cons_self _ _)
    have has : ∀ b ∈ as, GoArg.wf b = true := fun b hb => hwf b (List.mem_cons_of_mem _ hb)
    rw [List.foldl_cons]
    cases a with
    | valued k text n =>
      have hat : atoi text = .ok n := by
        have ha1 : (match atoi text with
            | .ok m => decide (m = n)
            | .error _ => false) = true := ha
        cases hx : atoi text with
        | error e => rw [hx] at ha1; exact absurd ha1 (by simp)
        | ok m => rw [hx] at ha1; rw [of_decide_eq_true ha1]
      show goLoop (k.keyword :: text :: (as.flatMap GoArg.tokens ++ rest)) v = _
      rw [goLoop_valued k text n _ v hat]
      exact ih rest _ has
    | infinite =>
      show goLoop ("infinite".toList :: (as.flatMap GoArg.tokens ++ rest)) v = _
      rw [goLoop.eq_def]
      dsimp only [applyArg]
      rw [if_neg (by decide), if_neg (by decide), if_neg (by decide), if_neg (by decide),
        if_neg (by decide), if_neg (by decide), if_neg (by decide), if_pos rfl]
      exact ih rest _ has
    | ponder =>
      show goLoop ("ponder".toList :: (as.flatMap GoArg.tokens ++ rest)) v = _
      rw [goLoop.eq_def]
      dsimp only [applyArg]
      rw [if_neg (by decide), if_neg (by decide), if_neg (by decide), if_neg (by decide),
        if_neg (by decide), if_neg (by decide), if_neg (by decide), if_neg (by decide),
        if_pos rfl]
      exact ih rest _ has
    | other tok =>
      have hn : tok ∉ goWords := by
        have ha1 : decide (tok ∉ goWords) = true := ha
        exact of_decide_eq_true ha1
      show goLoop (tok :: (as.flatMap GoArg.tokens ++ rest)) v = _
      rw [goLoop_other tok _ v hn]
      exact ih rest _ has

theorem valueGiven_cons (k : GoKey) (a : GoArg) (rest : List GoArg) :
    valueGiven k (a :: rest)
      = match valueGiven k rest with
        | some n => some n
        | none =>
          match a with
          | .valued k1 _ n => if k1 = k then some n else none
          | _ => none := rfl

theorem foldl_applyArg_get (k : GoKey) (args : List GoArg) :
    ∀ v : GoVars, (args.foldl applyArg v).get k = (valueGiven k args).getD (v.get k) := by
  induction args with
  | nil => intro v; rfl
  | cons a as ih =>
    intro v
    rw [List.foldl_cons, ih, valueGiven_cons]
    cases hg : valueGiven k as with
    | some n => rfl
    | none =>
      cases a with
      | valued k1 text n => cases k1 <;> cases k <;> simp [applyArg, GoVars.get]
      | infinite => rfl
      | ponder => rfl
      | other tok => rfl

theorem foldl_applyArg_infinite (args : List GoArg) :
    ∀ v : GoVars, (args.foldl applyArg v).infinite
      = if infiniteGiven args = true then 1 else v.infinite := by
  induction args with
  | nil => intro v; rfl
  | cons a as ih =>
    intro v
    rw [List.foldl_cons, ih]
    cases a with
    | valued k1 text n => cases k1 <;> simp [applyArg, infiniteGiven]
    | infinite => simp [applyArg, infiniteGiven]
    | ponder => simp [applyArg, infiniteGiven]
    | other tok => simp [applyArg, infiniteGiven]

theorem flag_ne_zero (p : Prop) [Decidable p] : (if p then (1 : Int) else 0) ≠ 0 ↔ p := by
  by_cases h : p
  · rw [if_pos h]; exact ⟨fun _ => h, fun _ => by decide⟩
  · rw [if_neg h]; exact ⟨fun e => absurd rfl e, fun e => absurd e h⟩

theorem getD_ne_zero (o : Option Int) : o.getD 0 ≠ 0 ↔ ∃ n, o = some n ∧ n ≠ 0 := by
  cases o with
  | none => exact ⟨fun e => absurd rfl e, fun ⟨n, e, _⟩ => by cases e⟩
  | some m =>
    exact ⟨fun e => ⟨m, rfl, e⟩, fun ⟨n, e, hn⟩ => by cases e; exact hn⟩

theorem uciGoLimits_ok (BLOCK : Nat) (str : List Char) (turn multiPV legalMoves : Int)
    (args : List GoArg) (hlen : (cString str).length < BLOCK)
    (htok : strtokAll (cString str) [] = args.flatMap GoArg.tokens)
    (hwf : ∀ a ∈ args, GoArg.wf a = true) :
    ∃ lim pond, uciGoLimits BLOCK str turn multiPV legalMoves = .ok (lim, pond)
      ∧ lim.limitedByNone = (if infiniteGiven args = true then 1 else 0)
      ∧ lim.limitedByTime = (if (valueGiven .movetime args).getD 0 ≠ 0 then 1 else 0)
      ∧ lim.limitedByDepth = (if (valueGiven .depth args).getD 0 ≠ 0 then 1 else 0)
      ∧ lim.limitedBySelf
          = (if (valueGiven .depth args).getD 0 = 0 ∧ (valueGiven .movetime args).getD 0 = 0
                ∧ infiniteGiven args = false then 1 else 0)
      ∧ lim.timeLimit = (valueGiven .movetime args).getD 0
      ∧ lim.depthLimit = (valueGiven .depth args).getD 0
      ∧ lim.time = (if turn = 0 then (valueGiven .wtime args).getD 0
                    else (valueGiven .btime args).getD 0)
      ∧ lim.inc = (if turn = 0 then (valueGiven .winc args).getD 0
                   else (valueGiven .binc args).getD 0)
      ∧ lim.mtg = (valueGiven .movestogo args).getD (-1) := by
  have hloop : goLoop (strtokAll (cString str) []) GoVars.init
      = .ok (args.foldl applyArg GoVars.init) := by
    have h := goLoop_args args [] GoVars.init hwf
    rw [List.append_nil] at h
    rw [htok, h]
    rfl
  have hget : ∀ k, (args.foldl applyArg GoVars.init).get k
      = (valueGiven k args).getD (GoVars.init.get k) :=
    fun k => foldl_applyArg_get k args GoVars.init
  have hdepth := hget .depth
  have hmovetime := hget .movetime
  have hwtime := hget .wtime
  have hbtime := hget .btime
  have hwinc := hget .winc
  have hbinc := hget .binc
  have hmtg := hget .movestogo
  have hinf := foldl_applyArg_infinite args GoVars.init
  simp only [GoVars.get] at hdepth hmovetime hwtime hbtime hwinc hbinc hmtg
  have hi0 : GoVars.init.infinite = 0 := rfl
  have hd0 : GoVars.init.depth = 0 := rfl
  have hm0 : GoVars.init.movetime = 0 := rfl
  have hw0 : GoVars.init.wtime = 0 := rfl
  have hb0 : GoVars.init.btime = 0 := rfl
  have hwi0 : GoVars.init.winc = 0 := rfl
  have hbi0 : GoVars.init.binc = 0 := rfl
  have hg0 : GoVars.init.mtg = -1 := rfl
  rw [hd0] at hdepth
  rw [hm0] at hmovetime
  rw [hw0] at hwtime
  rw [hb0] at hbtime
  rw [hwi0] at hwinc
  rw [hbi0] at hbinc
  rw [hg0] at hmtg
  rw [hi0] at hinf
  have hinf0 : (args.foldl applyArg GoVars.init).infinite ≠ 0 ↔ infiniteGiven args = true := by
    rw [hinf]
    exact flag_ne_zero _
  refine ⟨?_, ?_, ?_, ?_, ?_, ?_, ?_, ?_, ?_, ?_, ?_, ?_⟩
  rotate_left 2
  · unfold uciGoLimits
    rw [if_neg (not_not.mpr hlen), hloop]
    exact rfl
  · show (if (args.foldl applyArg GoVars.init).infinite ≠ 0 then (1 : Int) else 0) = _
    by_cases h : infiniteGiven args = true
    · rw [if_pos (hinf0.mpr h), if_pos h]
    · rw [if_neg (fun e => h (hinf0.mp e)), if_neg h]
  · show (if (args.foldl applyArg GoVars.init).movetime ≠ 0 then (1 : Int) else 0) = _
    rw [hmovetime]
  · show (if (args.foldl applyArg GoVars.init).depth ≠ 0 then (1 : Int) else 0) = _
    rw [hdepth]
  · show (if (args.foldl applyArg GoVars.init).depth = 0
        ∧ (args.foldl applyArg GoVars.init).movetime = 0
        ∧ (args.foldl applyArg GoVars.init).infinite = 0 then (1 : Int) else 0) = _
    rw [hdepth, hmovetime]
    have e : (args.foldl applyArg GoVars.init).infinite = 0 ↔ infiniteGiven args = false := by
      rw [← not_iff_not, Bool.not_eq_false]
      exact hinf0
    simp only [e]
  · exact hmovetime
  · exact hdepth
  · show (if turn = 0 then (args.foldl applyArg GoVars.init).wtime
        else (args.foldl applyArg GoVars.init).btime) = _
    rw [hwtime, hbtime]
  · show (if turn = 0 then (args.foldl applyArg GoVars.init).winc
        else (args.foldl applyArg GoVars.init).binc) = _
    rw [hwinc, hbinc]
  · show (if turn = 0 then (args.foldl applyArg GoVars.init).mtg
        else (args.foldl applyArg GoVars.init).mtg) = _
    rw [ite_self, hmtg]

/-- C19: for a `go` command made of well-formed arguments, `uciGo` sets `limitedByDepth`
exactly when a non-zero depth is given, `limitedByTime` exactly when a non-zero movetime is
given, `limitedByNone` exactly when `infinite` is given and `limitedBySelf` exactly when none
of the three others is set; so at least one flag is set and `limitedBySelf` is never set
together with another flag. -/
theorem uciGo_limitedBy (BLOCK : Nat) (str : List Char) (turn multiPV legalMoves : Int)
    (args : List GoArg) (hlen : (cString str).length < BLOCK)
    (htok : strtokAll (cString str) [] = args.flatMap GoArg.tokens)
    (hwf : ∀ a ∈ args, GoArg.wf a = true) :
    ∃ lim pond, uciGoLimits BLOCK str turn multiPV legalMoves = .ok (lim, pond)
      ∧ (lim.limitedByDepth ≠ 0 ↔ ∃ n, valueGiven .depth args = some n ∧ n ≠ 0)
      ∧ (lim.limitedByTime ≠ 0 ↔ ∃ n, valueGiven .movetime args = some n ∧ n ≠ 0)
      ∧ (lim.limitedByNone ≠ 0 ↔ infiniteGiven args = true)
      ∧ (lim.limitedBySelf ≠ 0
          ↔ lim.limitedByDepth = 0 ∧ lim.limitedByTime = 0 ∧ lim.limitedByNone = 0)
      ∧ (lim.limitedByDepth ≠ 0 ∨ lim.limitedByTime ≠ 0 ∨ lim.limitedByNone ≠ 0
          ∨ lim.limitedBySelf ≠ 0)
      ∧ (lim.limitedBySelf ≠ 0
          → lim.limitedByDepth = 0 ∧ lim.limitedByTime = 0 ∧ lim.limitedByNone = 0) := by
  obtain ⟨lim, pond, h, hn, ht, hd, hs, _⟩ :=
    uciGoLimits_ok BLOCK str turn multiPV legalMoves args hlen htok hwf
  have hD : lim.limitedByDepth ≠ 0 ↔ (valueGiven .depth args).getD 0 ≠ 0 := by
    rw [hd]; exact flag_ne_zero _
  have hT : lim.limitedByTime ≠ 0 ↔ (valueGiven .movetime args).getD 0 ≠ 0 := by
    rw [ht]; exact flag_ne_zero _
  have hN : lim.limitedByNone ≠ 0 ↔ infiniteGiven args = true := by
    rw [hn]; exact flag_ne_zero _
  have hS : lim.limitedBySelf ≠ 0
      ↔ lim.limitedByDepth = 0 ∧ lim.limitedByTime = 0 ∧ lim.limitedByNone = 0 := by
    have eD : lim.limitedByDepth = 0 ↔ (valueGiven .depth args).getD 0 = 0 := by
      rw [← not_iff_not]; exact hD
    have eT : lim.limitedByTime = 0 ↔ (valueGiven .movetime args).getD 0 = 0 := by
      rw [← not_iff_not]; exact hT
    have eN : lim.limitedByNone = 0 ↔ infiniteGiven args = false := by
      rw [← not_iff_not, Bool.not_eq_false]; exact hN
    rw [hs, flag_ne_zero, eD, eT, eN]
  refine ⟨lim, pond, h, ?_, ?_, hN, hS, ?_, hS.mp⟩
  · rw [hD]; exact getD_ne_zero _
  · rw [hT]; exact getD_ne_zero _
  · by_cases h1 : lim.limitedByDepth = 0
    · by_cases h2 : lim.limitedByTime = 0
      · by_cases h3 : lim.limitedByNone = 0
        · exact Or.inr (Or.inr (Or.inr (hS.mpr ⟨h1, h2, h3⟩)))
        · exact Or.inr (Or.inr (Or.inl h3))
      · exact Or.inr (Or.inl h2)
    · exact Or.inl h1

set_option maxRecDepth 100000 in
/-- Witness of C19 at `go wtime 1000 btime 2000 winc 10 binc 20 movestogo 30 depth 5`: the
search is limited by depth and not by itself. -/
theorem uciGo_limitedBy_witness :
    (cString sampleGo).length < 256
    ∧ strtokAll (cString sampleGo) [] = sampleGoArgs.flatMap GoArg.tokens
    ∧ (∀ a ∈ sampleGoArgs, GoArg.wf a = true)
    ∧ ∃ lim pond, uciGoLimits 256 sampleGo 0 1 20 = .ok (lim, pond)
        ∧ lim.limitedByDepth ≠ 0 ∧ lim.limitedBySelf = 0 := by
  have h1 : (cString sampleGo).length < 256 := by decide
  have h2 : strtokAll (cString sampleGo) [] = sampleGoArgs.flatMap GoArg.tokens := by decide
  have h3 : ∀ a ∈ sampleGoArgs, GoArg.wf a = true := by decide
  obtain ⟨lim, pond, h, hd, _, _, hs, _, _⟩ := uciGo_limitedBy 256 sampleGo 0 1 20 sampleGoArgs
    h1 h2 h3
  have hdep : lim.limitedByDepth ≠ 0 := hd.mpr ⟨5, by decide, by decide⟩
  refine ⟨h1, h2, h3, lim, pond, h, hdep, ?_⟩
  by_contra hne
  exact hdep (hs.mp hne).1

/-- C20: for a `go` command made of well-formed arguments, `limits.time` is the given `wtime`
and `limits.inc` the given `winc` when White is to move, and the given `btime` and `binc` when
Black is to move; `limits.mtg` is the given `movestogo`, or -1 when it is absent;
`limits.timeLimit` is the given `movetime` and `limits.depthLimit` the given `depth`, each 0
when absent. -/
theorem uciGo_values (BLOCK : Nat) (str : List Char) (turn multiPV legalMoves : Int)
    (args : List GoArg) (hlen : (cString str).length < BLOCK)
    (htok : strtokAll (cString str) [] = args.flatMap GoArg.tokens)
    (hwf : ∀ a ∈ args, GoArg.wf a = true) :
    ∃ lim pond, uciGoLimits BLOCK str turn multiPV legalMoves = .ok (lim, pond)
      ∧ (turn = (WHITE : Nat) →
          lim.time = (valueGiven .wtime args).getD 0 ∧ lim.inc = (valueGiven .winc args).getD 0)
      ∧ (turn = (BLACK : Nat) →
          lim.time = (valueGiven .btime args).getD 0 ∧ lim.inc = (valueGiven .binc args).getD 0)
      ∧ lim.mtg = (valueGiven .movestogo args).getD (-1)
      ∧ lim.timeLimit = (valueGiven .movetime args).getD 0
      ∧ lim.depthLimit = (valueGiven .depth args).getD 0 := by
  obtain ⟨lim, pond, h, _, _, _, _, htl, hdl, htime, hinc, hmtg⟩ :=
    uciGoLimits_ok BLOCK str turn multiPV legalMoves args hlen htok hwf
  refine ⟨lim, pond, h, ?_, ?_, hmtg, htl, hdl⟩
  · intro hw
    have hw0 : turn = 0 := by rw [hw]; rfl
    rw [htime, hinc, if_pos hw0, if_pos hw0]
    exact ⟨rfl, rfl⟩
  · intro hb
    have hb0 : ¬ turn = 0 := by rw [hb]; decide
    rw [htime, hinc, if_neg hb0, if_neg hb0]
    exact ⟨rfl, rfl⟩

set_option maxRecDepth 100000 in
/-- Witness of C20 at `go wtime 1000 btime 2000 winc 10 binc 20 movestogo 30 depth 5` with
Black to move: 2000 on the clock, increment 20, 30 moves to go, depth 5 and no movetime. -/
theorem uciGo_values_witness :
    (cString sampleGo).length < 256
    ∧ strtokAll (cString sampleGo) [] = sampleGoArgs.flatMap GoArg.tokens
    ∧ (∀ a ∈ sampleGoArgs, GoArg.wf a = true)
    ∧ ∃ lim pond, uciGoLimits 256 sampleGo 1 1 20 = .ok (lim, pond)
        ∧ lim.time = 2000 ∧ lim.inc = 20 ∧ lim.mtg = 30 ∧ lim.timeLimit = 0
        ∧ lim.depthLimit = 5 := by
  have h1 : (cString sampleGo).length < 256 := by decide
  have h2 : strtokAll (cString sampleGo) [] = sampleGoArgs.flatMap GoArg.tokens := by decide
  have h3 : ∀ a ∈ sampleGoArgs, GoArg.wf a = true := by decide
  obtain ⟨lim, pond, h, _, hb, hm, ht, hd⟩ := uciGo_values 256 sampleGo 1 1 20 sampleGoArgs
    h1 h2 h3
  have hb1 := hb rfl
  refine ⟨h1, h2, h3, lim, pond, h, ?_, ?_, ?_, ?_, ?_⟩
  · rw [hb1.1]; decide
  · rw [hb1.2]; decide
  · rw [hm]; decide
  · rw [ht]; decide
  · rw [hd]; decide

/-! ## The `position` command -/

theorem findAndApply_eq (ops : MoveOps) (G : MoveGen) (L : Locals) (moveStr : List Char)
    (undo : Undo) (moves : List Nat) (board : Board) :
    findAndApply ops G L moveStr undo moves board = board := by
  induction moves with
  | nil => rfl
  | cons m ms ih =>
    have hne : CharArray.ptrEq { address := L.moveStr, chars := moveStr }
        { address := L.testStr, chars := G.moveToString m board.chess960 } = false :=
      decide_eq_false L.distinct
    rw [findAndApply, hne]
    exact ih

theorem takeWhile_blank_spec (l : List Char) :
    (l.takeWhile (fun c => decide (c = ' '))).length ≤ l.length
    ∧ (∀ j, j < (l.takeWhile (fun c => decide (c = ' '))).length →
        l.getD j (Char.ofNat 0) = ' ')
    ∧ l.getD (l.takeWhile (fun c => decide (c = ' '))).length (Char.ofNat 0) ≠ ' ' := by
  induction l with
  | nil => exact ⟨Nat.le_refl _, fun j hj => absurd hj (Nat.not_lt_zero _), by decide⟩
  | cons c cs ih =>
    by_cases hc : c = ' '
    · have e : (c :: cs).takeWhile (fun c => decide (c = ' '))
          = c :: cs.takeWhile (fun c => decide (c = ' ')) := by
        rw [List.takeWhile_cons, if_pos (decide_eq_true hc)]
      rw [e]
      refine ⟨Nat.succ_le_succ ih.1, ?_, ?_⟩
      · intro j hj
        cases j with
        | zero => exact hc
        | succ j => exact ih.2.1 j (Nat.lt_of_succ_lt_succ hj)
      · exact ih.2.2
    · have e : (c :: cs).takeWhile (fun c => decide (c = ' ')) = [] := by
        rw [List.takeWhile_cons, if_neg (by simpa using hc)]
      rw [e]
      exact ⟨Nat.zero_le _, fun j hj => absurd hj (Nat.not_lt_zero _), hc⟩

theorem getD_drop_eq (l : List Char) (q j : Nat) (d : Char) :
    (l.drop q).getD j d = l.getD (q + j) d := by
  simp [List.getD_eq_getElem?_getD, List.getElem?_drop]

theorem skipBlanks_spec (str : List Char) (q : Nat) (hq : q ≤ str.length) :
    ∃ p1, skipBlanks str q = .ok p1 ∧ q ≤ p1 ∧ p1 ≤ str.length
      ∧ (∀ i, q ≤ i → i < p1 → str.getD i (Char.ofNat 0) = ' ')
      ∧ str.getD p1 (Char.ofNat 0) ≠ ' ' := by
  obtain ⟨h1, h2, h3⟩ := takeWhile_blank_spec (str.drop q)
  refine ⟨q + ((str.drop q).takeWhile (fun c => decide (c = ' '))).length, ?_, ?_, ?_, ?_, ?_⟩
  · unfold skipBlanks
    rw [if_pos hq]
  · omega
  · rw [List.length_drop] at h1
    omega
  · intro i hi1 hi2
    have := h2 (i - q) (by omega)
    rw [getD_drop_eq] at this
    rwa [show q + (i - q) = i by omega] at this
  · rw [getD_drop_eq] at h3
    exact h3

theorem positionStep_ok (ops : MoveOps) (G : MoveGen) (L : Locals) (undo : Undo)
    (str : List Char) (p : Nat) (board : Board) (hp : p + 5 ≤ str.length) :
    ∃ p1, positionStep ops G L undo str p board
        = .ok (if board.halfMoveCounter = 0 then { board with numMoves := 0 } else board, p1)
      ∧ p + 5 ≤ p1 ∧ p1 ≤ str.length
      ∧ (∀ i, p + 5 ≤ i → i < p1 → str.getD i (Char.ofNat 0) = ' ')
      ∧ str.getD p1 (Char.ofNat 0) ≠ ' ' := by
  obtain ⟨p1, hs, h1, h2, h3, h4⟩ := skipBlanks_spec str (p + 5) hp
  refine ⟨p1, ?_, h1, h2, h3, h4⟩
  unfold positionStep readMove
  rw [if_pos (by omega)]
  dsimp only
  rw [hs, findAndApply_eq]

theorem positionStep_cases (ops : MoveOps) (G : MoveGen) (L : Locals) (undo : Undo)
    (str : List Char) (p : Nat) (board : Board) (r : Board × Nat)
    (h : positionStep ops G L undo str p board = .ok r) :
    r.1 = (if board.halfMoveCounter = 0 then { board with numMoves := 0 } else board)
    ∧ p + 5 ≤ r.2 ∧ r.2 ≤ str.length := by
  by_cases hp : p + 5 ≤ str.length
  · obtain ⟨p1, hs, h1, h2, _⟩ := positionStep_ok ops G L undo str p board hp
    rw [hs] at h
    cases h
    exact ⟨rfl, h1, h2⟩
  · exfalso
    unfold positionStep readMove skipBlanks at h
    by_cases h4 : p + 4 ≤ str.length
    · rw [if_pos h4] at h
      dsimp only at h
      rw [if_neg hp] at h
      cases h
    · rw [if_neg h4] at h
      cases h

theorem positionLoop_total (ops : MoveOps) (G : MoveGen) (L : Locals) (undo : Undo)
    (str : List Char) :
    ∀ (fuel p : Nat) (board : Board), p ≤ str.length → str.length + 1 ≤ fuel + p →
      ∃ r, positionLoop ops G L undo str fuel p board = some r := by
  intro fuel
  induction fuel with
  | zero => intro p board h1 h2; omega
  | succ fuel ih =>
    intro p board h1 h2
    rw [positionLoop]
    cases hc : charAt str p with
    | error e => exact ⟨_, rfl⟩
    | ok c =>
      dsimp only
      by_cases h0 : c = Char.ofNat 0
      · rw [if_pos h0]; exact ⟨_, rfl⟩
      · rw [if_neg h0]
        cases hs : positionStep ops G L undo str p board with
        | error e => exact ⟨_, rfl⟩
        | ok r =>
          dsimp only
          obtain ⟨_, h3, h4⟩ := positionStep_cases ops G L undo str p board r hs
          exact ih r.2 r.1 h4 (by omega)

theorem positionLoop_board (ops : MoveOps) (G : MoveGen) (L : Locals) (undo : Undo)
    (str : List Char) :
    ∀ (fuel p : Nat) (board b1 : Board),
      positionLoop ops G L undo str fuel p board = some (.ok b1) →
      b1 = board ∨ b1 = { board with numMoves := 0 } := by
  intro fuel
  induction fuel with
  | zero => intro p board b1 h; rw [positionLoop] at h; cases h
  | succ fuel ih =>
    intro p board b1 h
    rw [positionLoop] at h
    cases hc : charAt str p with
    | error e => rw [hc] at h; cases h
    | ok c =>
      rw [hc] at h
      dsimp only at h
      by_cases h0 : c = Char.ofNat 0
      · rw [if_pos h0] at h
        cases h
        exact Or.inl rfl
      · rw [if_neg h0] at h
        cases hs : positionStep ops G L undo str p board with
        | error e => rw [hs] at h; cases h
        | ok r =>
          rw [hs] at h
          dsimp only at h
          obtain ⟨hr, _, _⟩ := positionStep_cases ops G L undo str p board r hs
          have := ih r.2 r.1 b1 h
          rw [hr] at this
          by_cases hz : board.halfMoveCounter = 0
          · rw [if_pos hz] at this
            rcases this with e | e
            · exact Or.inr e
            · exact Or.inr e
          · rw [if_neg hz] at this
            exact this

/-- One pass of the loop of `uciPosition` over a token that has at least one more character of
the command behind it, such as a blank: whatever the token is, no move is applied, the pass
ends without a fault, the board keeps every field but `numMoves`, which is reset when the
half-move clock is 0, and the cursor stands on the first character behind the token that is
not a blank, where the loop goes on with the next token. A last token of four characters is
not of this kind. -/
theorem uciPosition_unmatched_token (ops : MoveOps) (G : MoveGen) (L : Locals) (undo : Undo)
    (str : List Char) (p : Nat) (board : Board) (hp : p + 5 ≤ str.length) :
    ∃ p1, positionStep ops G L undo str p board
        = .ok (if board.halfMoveCounter = 0 then { board with numMoves := 0 } else board, p1)
      ∧ p + 5 ≤ p1 ∧ p1 ≤ str.length
      ∧ (∀ i, p + 5 ≤ i → i < p1 → str.getD i (Char.ofNat 0) = ' ')
      ∧ str.getD p1 (Char.ofNat 0) ≠ ' '
      ∧ (board.numMoves = 0 →
          positionStep ops G L undo str p board = .ok (board, p1))
      ∧ (∀ fuel, str.getD p (Char.ofNat 0) ≠ Char.ofNat 0 →
          positionLoop ops G L undo str (fuel + 1) p board
            = positionLoop ops G L undo str fuel p1
                (if board.halfMoveCounter = 0 then { board with numMoves := 0 } else board)) := by
  obtain ⟨p1, hs, h1, h2, h3, h4⟩ := positionStep_ok ops G L undo str p board hp
  refine ⟨p1, hs, h1, h2, h3, h4, ?_, ?_⟩
  · intro hn
    rw [hs]
    have e : { board with numMoves := 0 } = board := by
      cases board
      simp only [Board.mk.injEq, true_and, and_true] at hn ⊢
      exact hn.symm
    rw [e, ite_self]
  · intro fuel hne
    have hc : charAt str p = .ok (str.getD p (Char.ofNat 0)) := by
      unfold charAt
      rw [if_pos (by omega)]
    rw [positionLoop, hc]
    dsimp only
    rw [if_neg hne, hs]

/-- At `position startpos moves e2e5 e7e5`, with a blank behind each token: the token `e2e5`
at offset 24 is the text of no generated move, the pass returns the board it was given and the
cursor is behind the token. -/
theorem uciPosition_unmatched_token_witness :
    24 + 5 ≤ samplePositionTwo.length
    ∧ ∃ p1, positionStep pawnOps sampleGen sampleLocals checkedUndo samplePositionTwo 24
          Board.clear = .ok (Board.clear, p1)
        ∧ 24 + 5 ≤ p1 := by
  have h0 : 24 + 5 ≤ samplePositionTwo.length := by decide
  obtain ⟨p1, _, h1, _, _, _, h5, _⟩ := uciPosition_unmatched_token pawnOps sampleGen
    sampleLocals checkedUndo samplePositionTwo 24 Board.clear h0
  exact ⟨h0, p1, h5 rfl, h1⟩

set_option maxRecDepth 100000 in
/-- C16 fails on the code: in `position startpos moves e2e5` the token `e2e5` is the text of no
move of the start position and it is the last token of the command, as a controller sends it.
No move is applied in the pass over it, but the pass copies the terminator at offset 28 as the
fifth character and leaves the cursor at offset 29, so the loop that skips the blanks reads
behind the terminator, which is undefined: the call neither ends without an error nor goes on
with a next token, whatever the move generator and `applyMove` are. -/
theorem uciPosition_unmatched_last_token (ops : MoveOps) (G : MoveGen) (L : Locals)
    (undo : Undo) (board : Board) :
    samplePositionUnmatched.length = 28
    ∧ readMove samplePositionUnmatched 24 = .ok ['e', '2', 'e', '5', Char.ofNat 0]
    ∧ moveText ['e', '2', 'e', '5', Char.ofNat 0]
        = ['e', '2', 'e', '5', Char.ofNat 0, Char.ofNat 0]
    ∧ (sampleGen.genAllLegalMoves board).map (fun m => sampleGen.moveToString m 0)
        = [['e', '2', 'e', '4', Char.ofNat 0, Char.ofNat 0]]
    ∧ (∀ b1 : Board,
        findAndApply ops G L (moveText ['e', '2', 'e', '5', Char.ofNat 0]) undo
          (G.genAllLegalMoves b1) b1 = b1)
    ∧ charAt samplePositionUnmatched (24 + 5) = .error .undefinedCall
    ∧ skipBlanks samplePositionUnmatched (24 + 5) = .error .undefinedCall
    ∧ (∀ b1 : Board,
        positionStep ops G L undo samplePositionUnmatched 24 b1 = .error .undefinedCall)
    ∧ uciPosition ops G sampleTables L undo samplePositionUnmatched board 0
        = .error .undefinedCall := by
  have hlen : samplePositionUnmatched.length = 28 := by decide
  have hs : ∀ b1, positionStep ops G L undo samplePositionUnmatched 24 b1
      = .error .undefinedCall := by
    intro b1
    unfold positionStep readMove skipBlanks
    rw [if_pos (by rw [hlen]), if_neg (by rw [hlen]; decide)]
  refine ⟨hlen, by rfl, by rfl, by rfl, ?_, by rfl, by rfl, hs, ?_⟩
  · intro b1
    exact findAndApply_eq ops G L _ undo _ b1
  · have hsq : squareOf (boardFromFEN sampleTables StartPosition 0) 12
        = some (makePiece PAWN WHITE) := by decide
    have h1 : strContains samplePositionUnmatched "fen ".toList = none := by decide
    have h2 : strContains samplePositionUnmatched "startpos".toList = some 9 := by decide
    have h3 : strContains samplePositionUnmatched "moves ".toList = some 18 := by decide
    unfold uciPosition uciPositionReset
    rw [h1, h2, h3]
    dsimp only
    cases hb : boardFromFEN sampleTables StartPosition 0 with
    | error e =>
      rw [hb] at hsq
      cases hsq
    | ok b1 =>
      dsimp only
      have hc : charAt samplePositionUnmatched 24 = .ok 'e' := by rfl
      rw [hlen]
      show (match positionLoop ops G L undo samplePositionUnmatched (28 + 1) (18 + 6) b1 with
        | some r => r
        | none => .error .undefinedCall) = _
      rw [positionLoop, hc]
      dsimp only
      rw [if_neg (by decide), hs b1]

theorem positionLoop_step (ops : MoveOps) (G : MoveGen) (L : Locals) (undo : Undo)
    (str : List Char) (fuel p : Nat) (board : Board) (c : Char) (r : Board × Nat)
    (hc : charAt str p = .ok c) (h0 : c ≠ Char.ofNat 0)
    (hs : positionStep ops G L undo str p board = .ok r) :
    positionLoop ops G L undo str (fuel + 1) p board
      = positionLoop ops G L undo str fuel r.2 r.1 := by
  rw [positionLoop, hc]
  dsimp only
  rw [if_neg h0, hs]

theorem positionLoop_end (ops : MoveOps) (G : MoveGen) (L : Locals) (undo : Undo)
    (str : List Char) (fuel p : Nat) (board : Board)
    (hc : charAt str p = .ok (Char.ofNat 0)) :
    positionLoop ops G L undo str (fuel + 1) p board = some (.ok board) := by
  rw [positionLoop, hc]
  dsimp only
  rw [if_pos rfl]

theorem board_numMoves_zero (board : Board) (h : board.numMoves = 0) :
    (if board.halfMoveCounter = 0 then { board with numMoves := 0 } else board) = board := by
  have e : { board with numMoves := 0 } = board := by
    cases board
    simp only [Board.mk.injEq, true_and, and_true] at h ⊢
    exact h.symm
  rw [e, ite_self]

set_option maxRecDepth 100000 in
/-- C15 fails on the code: `moveStr==testStr` compares the addresses of two arrays, which
differ, so no move is ever applied. After `position startpos moves e2e4` followed by a blank
the board is the start position itself, with the pawn on e2, e4 empty and White to move,
whatever the move generator and `applyMove` are; without the blank the loop reads behind the
terminator of the command. -/
theorem uciPosition_applies_no_move (ops : MoveOps) (G : MoveGen) (L : Locals) (undo : Undo)
    (board : Board) :
    uciPosition ops G sampleTables L undo samplePositionBlank board 0
      = boardFromFEN sampleTables StartPosition 0
    ∧ squareOf (boardFromFEN sampleTables StartPosition 0) 12 = some (makePiece PAWN WHITE)
    ∧ squareOf (boardFromFEN sampleTables StartPosition 0) 28 = some EMPTY
    ∧ turnOf (boardFromFEN sampleTables StartPosition 0) = some 0
    ∧ MoveMake 12 28 NORMAL_MOVE ∈ sampleGen.genAllLegalMoves board
    ∧ sampleGen.moveToString (MoveMake 12 28 NORMAL_MOVE) 0
        = "e2e4".toList ++ [Char.ofNat 0, Char.ofNat 0]
    ∧ uciPosition ops G sampleTables L undo samplePosition board 0 = .error .undefinedCall := by
  have hsq : squareOf (boardFromFEN sampleTables StartPosition 0) 12
      = some (makePiece PAWN WHITE) := by decide
  refine ⟨?_, hsq, by decide, by decide, List.mem_cons_self _ _, by decide, ?_⟩
  · have h1 : strContains samplePositionBlank "fen ".toList = none := by decide
    have h2 : strContains samplePositionBlank "startpos".toList = some 9 := by decide
    have h3 : strContains samplePositionBlank "moves ".toList = some 18 := by decide
    have hlen : samplePositionBlank.length = 29 := by decide
    unfold uciPosition uciPositionReset
    rw [h1, h2, h3]
    dsimp only
    cases hb : boardFromFEN sampleTables StartPosition 0 with
    | error e => rfl
    | ok b1 =>
      dsimp only
      obtain ⟨_, _, _, _, _, _, _, _, _, _, _, _, _, _, _, _, _, _, _, _, _, hnum, _⟩ :=
        boardFromFEN_ok_elim sampleTables StartPosition 0 b1 hb
      obtain ⟨p1, hs, hp1, hp2, _, _⟩ :=
        positionStep_ok ops G L undo samplePositionBlank 24 b1 (by rw [hlen])
      rw [board_numMoves_zero b1 hnum] at hs
      have hp : p1 = 29 := by rw [hlen] at hp2; omega
      rw [hp] at hs
      have hc : charAt samplePositionBlank 24 = .ok 'e' := by rfl
      have hc2 : charAt samplePositionBlank 29 = .ok (Char.ofNat 0) := by rfl
      rw [hlen, positionLoop_step ops G L undo samplePositionBlank 29 24 b1 'e' (b1, 29) hc
        (by decide) hs]
      dsimp only
      rw [positionLoop_end ops G L undo samplePositionBlank 28 29 b1 hc2]
  · have h1 : strContains samplePosition "fen ".toList = none := by decide
    have h2 : strContains samplePosition "startpos".toList = some 9 := by decide
    have h3 : strContains samplePosition "moves ".toList = some 18 := by decide
    have hlen : samplePosition.length = 28 := by decide
    unfold uciPosition uciPositionReset
    rw [h1, h2, h3]
    dsimp only
    cases hb : boardFromFEN sampleTables StartPosition 0 with
    | error e =>
      rw [hb] at hsq
      cases hsq
    | ok b1 =>
      dsimp only
      have hc : charAt samplePosition 24 = .ok 'e' := by rfl
      have hs : positionStep ops G L undo samplePosition 24 b1 = .error .undefinedCall := by
        unfold positionStep readMove skipBlanks
        rw [if_pos (by rw [hlen]), if_neg (by rw [hlen]; decide)]
      rw [hlen]
      show (match positionLoop ops G L undo samplePosition (28 + 1) (18 + 6) b1 with
        | some r => r
        | none => .error .undefinedCall) = _
      rw [positionLoop, hc]
      dsimp only
      rw [if_neg (by decide), hs]

/-! ## The castling rights after `boardFromFEN` -/

theorem find_range_reverse_some (p : Nat → Bool) :
    ∀ (n i : Nat), (List.range n).reverse.find? p = some i →
      i < n ∧ p i = true ∧ ∀ j, i < j → j < n → p j = false
  | 0, i, h => by simp at h
  | n + 1, i, h => by
    rw [List.range_succ, List.reverse_append, List.reverse_singleton, List.singleton_append,
      List.find?_cons] at h
    cases hp : p n with
    | true =>
      rw [hp] at h
      cases h
      exact ⟨Nat.lt_succ_self _, hp, fun j h1 h2 => by omega⟩
    | false =>
      rw [hp] at h
      obtain ⟨a, b, c⟩ := find_range_reverse_some p n i h
      refine ⟨by omega, b, ?_⟩
      intro j h1 h2
      by_cases hj : j = n
      · rw [hj]; exact hp
      · exact c j h1 (by omega)

theorem getmsb_max (bb i : Nat) (h : getmsb bb = some i) :
    ∀ j, i < j → j < 64 → testBit bb j = false :=
  (find_range_reverse_some (fun i => testBit bb i) 64 i h).2.2

theorem testBit_and3 (a b c j : Nat) :
    testBit (a &&& b &&& c) j = (testBit a j && testBit b j && testBit c j) := by
  unfold testBit
  rw [Nat.testBit_and, Nat.testBit_and]

theorem rank1_bit (b : Board) (colour j : Nat) :
    testBit (b.colours colour &&& b.pieces ROOK &&& RANK_1) j
      = (rookOn b colour j && decide (j < 8)) := by
  rw [testBit_and3, testBit_RANK_1]
  rfl

theorem rank8_bit (b : Board) (colour j : Nat) :
    testBit (b.colours colour &&& b.pieces ROOK &&& RANK_8) j
      = (rookOn b colour j && decide (56 ≤ j ∧ j < 64)) := by
  rw [testBit_and3, testBit_RANK_8]
  rfl

theorem getmsb_rank1 (b : Board) (colour i : Nat)
    (h : getmsb (b.colours colour &&& b.pieces ROOK &&& RANK_1) = some i) :
    highestRook b colour 0 i := by
  obtain ⟨h1, h2⟩ := getmsb_some _ i h
  have h3 := getmsb_max _ i h
  rw [rank1_bit, Bool.and_eq_true, decide_eq_true_eq] at h2
  refine ⟨Nat.zero_le _, by omega, h2.1, ?_⟩
  intro t ht1 ht2
  have := h3 t ht1 (by omega)
  rw [rank1_bit, decide_eq_true (show t < 8 by omega), Bool.and_true] at this
  exact this

theorem getlsb_rank1 (b : Board) (colour i : Nat)
    (h : getlsb (b.colours colour &&& b.pieces ROOK &&& RANK_1) = some i) :
    lowestRook b colour 0 i := by
  obtain ⟨h1, h2, h3⟩ := getlsb_some _ i h
  rw [rank1_bit, Bool.and_eq_true, decide_eq_true_eq] at h2
  refine ⟨Nat.zero_le _, by omega, h2.1, ?_⟩
  intro t _ ht2
  have := h3 t ht2
  rw [rank1_bit, decide_eq_true (show t < 8 by omega), Bool.and_true] at this
  exact this

theorem getmsb_rank8 (b : Board) (colour i : Nat)
    (h : getmsb (b.colours colour &&& b.pieces ROOK &&& RANK_8) = some i) :
    highestRook b colour 56 i := by
  obtain ⟨h1, h2⟩ := getmsb_some _ i h
  have h3 := getmsb_max _ i h
  rw [rank8_bit, Bool.and_eq_true, decide_eq_true_eq] at h2
  refine ⟨h2.2.1, by omega, h2.1, ?_⟩
  intro t ht1 ht2
  have := h3 t ht1 (by omega)
  rw [rank8_bit, decide_eq_true (show 56 ≤ t ∧ t < 64 by omega), Bool.and_true] at this
  exact this

theorem getlsb_rank8 (b : Board) (colour i : Nat)
    (h : getlsb (b.colours colour &&& b.pieces ROOK &&& RANK_8) = some i) :
    lowestRook b colour 56 i := by
  obtain ⟨h1, h2, h3⟩ := getlsb_some _ i h
  rw [rank8_bit, Bool.and_eq_true, decide_eq_true_eq] at h2
  refine ⟨h2.2.1, by omega, h2.1, ?_⟩
  intro t ht1 ht2
  have := h3 t ht2
  rw [rank8_bit, decide_eq_true (show 56 ≤ t ∧ t < 64 by omega), Bool.and_true] at this
  exact this

theorem highestRook_unique (b : Board) (colour base s i : Nat)
    (hs : highestRook b colour base s) (hi : highestRook b colour base i) : i = s := by
  obtain ⟨_, s2, s3, s4⟩ := hs
  obtain ⟨_, i2, i3, i4⟩ := hi
  by_contra hne
  rcases Nat.lt_or_gt_of_ne hne with hlt | hgt
  · have := i4 s hlt s2
    rw [this] at s3
    cases s3
  · have := s4 i hgt i2
    rw [this] at i3
    cases i3

theorem lowestRook_unique (b : Board) (colour base s i : Nat)
    (hs : lowestRook b colour base s) (hi : lowestRook b colour base i) : i = s := by
  obtain ⟨s1, _, s3, s4⟩ := hs
  obtain ⟨i1, _, i3, i4⟩ := hi
  by_contra hne
  rcases Nat.lt_or_gt_of_ne hne with hlt | hgt
  · have := s4 i i1 hlt
    rw [this] at i3
    cases i3
  · have := i4 s s1 hgt
    rw [this] at s3
    cases s3

theorem setBit_iff (cr i s : Nat) :
    testBit (setBit cr i) s = true ↔ testBit cr s = true ∨ i = s := by
  rw [testBit_setBit, Bool.or_eq_true, decide_eq_true_eq]

theorem castleSquare_K (b : Board) (s : Nat) :
    castleSquare b 'K' s ↔ highestRook b WHITE 0 s := by
  unfold castleSquare
  constructor
  · rintro (h | h | h | h | h | h)
    · exact h.2
    · exact absurd h.1 (by decide)
    · exact absurd h.1 (by decide)
    · exact absurd h.1 (by decide)
    · exact absurd h.2.1 (by decide)
    · exact absurd h.1 (by decide)
  · intro h
    exact Or.inl ⟨rfl, h⟩

theorem castleSquare_Q (b : Board) (s : Nat) :
    castleSquare b 'Q' s ↔ lowestRook b WHITE 0 s := by
  unfold castleSquare
  constructor
  · rintro (h | h | h | h | h | h)
    · exact absurd h.1 (by decide)
    · exact h.2
    · exact absurd h.1 (by decide)
    · exact absurd h.1 (by decide)
    · exact absurd h.2.1 (by decide)
    · exact absurd h.1 (by decide)
  · intro h
    exact Or.inr (Or.inl ⟨rfl, h⟩)

theorem castleSquare_k (b : Board) (s : Nat) :
    castleSquare b 'k' s ↔ highestRook b BLACK 56 s := by
  unfold castleSquare
  constructor
  · rintro (h | h | h | h | h | h)
    · exact absurd h.1 (by decide)
    · exact absurd h.1 (by decide)
    · exact h.2
    · exact absurd h.1 (by decide)
    · exact absurd h.2.1 (by decide)
    · exact absurd h.2.1 (by decide)
  · intro h
    exact Or.inr (Or.inr (Or.inl ⟨rfl, h⟩))

theorem castleSquare_q (b : Board) (s : Nat) :
    castleSquare b 'q' s ↔ lowestRook b BLACK 56 s := by
  unfold castleSquare
  constructor
  · rintro (h | h | h | h | h | h)
    · exact absurd h.1 (by decide)
    · exact absurd h.1 (by decide)
    · exact absurd h.1 (by decide)
    · exact h.2
    · exact absurd h.2.1 (by decide)
    · exact absurd h.2.1 (by decide)
  · intro h
    exact Or.inr (Or.inr (Or.inr (Or.inl ⟨rfl, h⟩)))

theorem castleSquare_upper (b : Board) (ch : Char) (s : Nat)
    (hK : ch ≠ 'K') (hQ : ch ≠ 'Q') (hk : ch ≠ 'k') (hq : ch ≠ 'q')
    (hA : 65 ≤ ch.toNat ∧ ch.toNat ≤ 72) :
    castleSquare b ch s ↔ 0 * 8 + (ch.toNat - 65) = s := by
  unfold castleSquare
  constructor
  · rintro (h | h | h | h | h | h)
    · exact absurd h.1 hK
    · exact absurd h.1 hQ
    · exact absurd h.1 hk
    · exact absurd h.1 hq
    · omega
    · omega
  · intro h
    exact Or.inr (Or.inr (Or.inr (Or.inr (Or.inl ⟨hA.1, hA.2, by omega⟩))))

theorem castleSquare_lower (b : Board) (ch : Char) (s : Nat)
    (hK : ch ≠ 'K') (hQ : ch ≠ 'Q') (hk : ch ≠ 'k') (hq : ch ≠ 'q')
    (ha : 97 ≤ ch.toNat ∧ ch.toNat ≤ 104) :
    castleSquare b ch s ↔ 7 * 8 + (ch.toNat - 97) = s := by
  unfold castleSquare
  constructor
  · rintro (h | h | h | h | h | h)
    · exact absurd h.1 hK
    · exact absurd h.1 hQ
    · exact absurd h.1 hk
    · exact absurd h.1 hq
    · omega
    · omega
  · intro h
    exact Or.inr (Or.inr (Or.inr (Or.inr (Or.inr ⟨ha.1, ha.2, by omega⟩))))

theorem castleSquare_other (b : Board) (ch : Char) (s : Nat)
    (hK : ch ≠ 'K') (hQ : ch ≠ 'Q') (hk : ch ≠ 'k') (hq : ch ≠ 'q')
    (hA : ¬ (65 ≤ ch.toNat ∧ ch.toNat ≤ 72)) (ha : ¬ (97 ≤ ch.toNat ∧ ch.toNat ≤ 104)) :
    ¬ castleSquare b ch s := by
  unfold castleSquare
  rintro (h | h | h | h | h | h)
  · exact hK h.1
  · exact hQ h.1
  · exact hk h.1
  · exact hq h.1
  · exact hA ⟨h.1, h.2.1⟩
  · exact ha ⟨h.1, h.2.1⟩

/-- One letter of the castling field: the loop goes on with a rook set that holds the bits it
held before and the square the letter stands for. -/
theorem castleLoop_cons (b : Board) (ch : Char) (rest : List Char) (cr cr1 : Nat)
    (h0 : ch.toNat ≠ 0)
    (h : castleLoop (b.colours WHITE) (b.colours BLACK) (b.pieces ROOK) (ch :: rest) cr
      = .ok cr1) :
    ∃ cr0, castleLoop (b.colours WHITE) (b.colours BLACK) (b.pieces ROOK) rest cr0 = .ok cr1
      ∧ ∀ s, testBit cr0 s = true ↔ testBit cr s = true ∨ castleSquare b ch s := by
  rw [castleLoop, if_neg h0] at h
  by_cases hK : ch = 'K'
  · rw [if_pos hK] at h
    cases hi : getmsb (b.colours WHITE &&& b.pieces ROOK &&& RANK_1) with
    | none => rw [hi] at h; cases h
    | some i =>
      rw [hi] at h
      refine ⟨_, h, fun s => ?_⟩
      rw [setBit_iff, hK, castleSquare_K]
      have hr := getmsb_rank1 b WHITE i hi
      exact or_congr Iff.rfl
        ⟨fun e => e ▸ hr, fun hs => highestRook_unique b WHITE 0 s i hs hr⟩
  · rw [if_neg hK] at h
    by_cases hQ : ch = 'Q'
    · rw [if_pos hQ] at h
      cases hi : getlsb (b.colours WHITE &&& b.pieces ROOK &&& RANK_1) with
      | none => rw [hi] at h; cases h
      | some i =>
        rw [hi] at h
        refine ⟨_, h, fun s => ?_⟩
        rw [setBit_iff, hQ, castleSquare_Q]
        have hr := getlsb_rank1 b WHITE i hi
        exact or_congr Iff.rfl
          ⟨fun e => e ▸ hr, fun hs => lowestRook_unique b WHITE 0 s i hs hr⟩
    · rw [if_neg hQ] at h
      by_cases hk : ch = 'k'
      · rw [if_pos hk] at h
        cases hi : getmsb (b.colours BLACK &&& b.pieces ROOK &&& RANK_8) with
        | none => rw [hi] at h; cases h
        | some i =>
          rw [hi] at h
          refine ⟨_, h, fun s => ?_⟩
          rw [setBit_iff, hk, castleSquare_k]
          have hr := getmsb_rank8 b BLACK i hi
          exact or_congr Iff.rfl
            ⟨fun e => e ▸ hr, fun hs => highestRook_unique b BLACK 56 s i hs hr⟩
      · rw [if_neg hk] at h
        by_cases hq : ch = 'q'
        · rw [if_pos hq] at h
          cases hi : getlsb (b.colours BLACK &&& b.pieces ROOK &&& RANK_8) with
          | none => rw [hi] at h; cases h
          | some i =>
            rw [hi] at h
            refine ⟨_, h, fun s => ?_⟩
            rw [setBit_iff, hq, castleSquare_q]
            have hr := getlsb_rank8 b BLACK i hi
            exact or_congr Iff.rfl
              ⟨fun e => e ▸ hr, fun hs => lowestRook_unique b BLACK 56 s i hs hr⟩
        · rw [if_neg hq] at h
          by_cases hA : 65 ≤ ch.toNat ∧ ch.toNat ≤ 72
          · rw [if_pos hA] at h
            refine ⟨_, h, fun s => ?_⟩
            rw [setBit_iff, castleSquare_upper b ch s hK hQ hk hq hA]
          · rw [if_neg hA] at h
            by_cases ha : 97 ≤ ch.toNat ∧ ch.toNat ≤ 104
            · rw [if_pos ha] at h
              refine ⟨_, h, fun s => ?_⟩
              rw [setBit_iff, castleSquare_lower b ch s hK hQ hk hq ha]
            · rw [if_neg ha] at h
              refine ⟨_, h, fun s => ?_⟩
              exact ⟨Or.inl, fun e => e.elim id
                (fun e1 => absurd e1 (castleSquare_other b ch s hK hQ hk hq hA ha))⟩

theorem cString_cons (ch : Char) (rest : List Char) :
    cString (ch :: rest) = if ch.toNat = 0 then [] else ch :: cString rest := by
  unfold cString
  rw [List.takeWhile_cons]
  by_cases h : ch.toNat = 0
  · rw [if_pos h, if_neg (by simpa using h)]
  · rw [if_neg h, if_pos (by simpa using h)]

/-- The rook set that the castling loop returns holds the bits it was started with and the
squares that the letters of the field stand for, and no other bit. -/
theorem castleLoop_bits (b : Board) :
    ∀ (word : List Char) (cr cr1 : Nat),
      castleLoop (b.colours WHITE) (b.colours BLACK) (b.pieces ROOK) word cr = .ok cr1 →
      ∀ s, testBit cr1 s = true
        ↔ testBit cr s = true ∨ ∃ ch, ch ∈ cString word ∧ castleSquare b ch s
  | [], cr, cr1, h, s => by
    rw [castleLoop] at h
    cases h
    exact ⟨Or.inl, fun e => e.elim id (fun ⟨ch, hm, _⟩ => by cases hm)⟩
  | ch :: rest, cr, cr1, h, s => by
    by_cases h0 : ch.toNat = 0
    · rw [castleLoop, if_pos h0] at h
      cases h
      rw [cString_cons, if_pos h0]
      exact ⟨Or.inl, fun e => e.elim id (fun ⟨ch, hm, _⟩ => by cases hm)⟩
    · obtain ⟨cr0, hrest, hbits⟩ := castleLoop_cons b ch rest cr cr1 h0 h
      rw [castleLoop_bits b rest cr0 cr1 hrest s, hbits s, cString_cons, if_neg h0]
      constructor
      · rintro ((h1 | h1) | ⟨c, hc, h1⟩)
        · exact Or.inl h1
        · exact Or.inr ⟨ch, List.mem_cons_self _ _, h1⟩
        · exact Or.inr ⟨c, List.mem_cons_of_mem _ hc, h1⟩
      · rintro (h1 | ⟨c, hc, h1⟩)
        · exact Or.inl (Or.inl h1)
        · rcases List.mem_cons.mp hc with e | e
          · exact Or.inl (Or.inr (e ▸ h1))
          · exact Or.inr ⟨c, e, h1⟩

theorem castleSquare_lt (b : Board) (ch : Char) (s : Nat) (h : castleSquare b ch s) :
    s < 64 := by
  unfold castleSquare highestRook lowestRook at h
  rcases h with h | h | h | h | h | h <;> omega

theorem setSquare_castleRooks (T : Tables) (board b1 : Board) (colour piece : Nat) (sq : Int)
    (h : setSquare T board colour piece sq = .ok b1) : b1.castleRooks = board.castleRooks := by
  unfold setSquare at h
  split at h
  · cases h
  · split at h
    · cases h
    · split at h
      · cases h
      · cases h
        rfl

theorem placementLoop_castleRooks (T : Tables) :
    ∀ (word : List Char) (sq : Int) (board b1 : Board),
      placementLoop T word sq board = .ok b1 → b1.castleRooks = board.castleRooks
  | [], sq, board, b1, h => by
    rw [placementLoop] at h
    cases h
    rfl
  | ch :: rest, sq, board, b1, h => by
    rw [placementLoop] at h
    split at h
    · cases h; rfl
    · split at h
      · exact placementLoop_castleRooks T rest _ board b1 h
      · split at h
        · exact placementLoop_castleRooks T rest _ board b1 h
        · dsimp only at h
          split at h
          · split at h
            · rename_i b2 hset
              rw [placementLoop_castleRooks T rest _ b2 b1 h]
              exact setSquare_castleRooks T board b2 _ _ _ hset
            · cases h
          · exact placementLoop_castleRooks T rest _ board b1 h

/-- The castling rights of a board that `boardFromFEN` returned: exactly the squares that the
letters of the castling field stand for. -/
theorem boardFromFEN_castle_bits (T : Tables) (fens : List Char) (chess960 : Int) (b : Board)
    (h : boardFromFEN T fens chess960 = .ok b) :
    ∀ s, testBit b.castleRooks s = true
      ↔ ∃ ch, ch ∈ cString (fenField fens 2) ∧ castleSquare b ch s := by
  obtain ⟨b0, cr, hm, fm, h0, h1, -, -, -, e2, e3, -, -, -, -, e8, -⟩ :=
    boardFromFEN_ok_elim T fens chess960 b h
  have hz : b0.castleRooks = 0 := by
    rw [placementLoop_castleRooks T _ _ _ b0 h0]
    rfl
  rw [hz, ← e2, ← e3] at h1
  intro s
  rw [e8, castleLoop_bits b _ 0 cr h1 s]
  constructor
  · rintro (h2 | h2)
    · exact absurd h2 (by simp [testBit])
    · exact h2
  · exact Or.inr

theorem testBit_allON (t : Nat) : testBit allON t = decide (t < 64) :=
  Nat.testBit_two_pow_sub_one 64 t

theorem testBit_not_standard (s : Nat) :
    testBit (allON ^^^ StandardCastles) s
      = decide (s < 64 ∧ s ≠ 0 ∧ s ≠ 7 ∧ s ≠ 56 ∧ s ≠ 63) := by
  by_cases h : s < 64
  · interval_cases s <;> decide
  · rw [decide_eq_false (fun e => h e.1)]
    have hlt : allON ^^^ StandardCastles < 2 ^ 64 := by decide
    exact testBit_false_of_lt hlt (by omega)

theorem and_ne_zero_iff (a m : Nat) :
    a &&& m ≠ 0 ↔ ∃ s, testBit a s = true ∧ testBit m s = true := by
  constructor
  · intro h
    obtain ⟨i, hi⟩ := Nat.ne_zero_implies_bit_true h
    rw [Nat.testBit_and, Bool.and_eq_true] at hi
    exact ⟨i, hi.1, hi.2⟩
  · rintro ⟨s, h1, h2⟩ h0
    have : Nat.testBit (a &&& m) s = true := by
      rw [Nat.testBit_and, Bool.and_eq_true]
      exact ⟨h1, h2⟩
    rw [h0] at this
    simp at this

theorem testBit_castleMaskOf (cr white black kings sq t : Nat) (ht : t < 64) :
    testBit (castleMaskOf cr white black kings sq) t
      = (!(testBit cr sq && decide (sq = t))
          && !(testBit (white &&& kings) sq && testBit white t)
          && !(testBit (black &&& kings) sq && testBit black t)) := by
  have hall : Nat.testBit allON t = true := by
    have := testBit_allON t
    rw [decide_eq_true ht] at this
    exact this
  have hc : Nat.testBit (clearBit allON sq) t = !decide (sq = t) := by
    have := testBit_clearBit allON sq t
    unfold testBit at this
    rw [this, hall, Bool.true_and]
  unfold castleMaskOf
  dsimp only
  generalize testBit cr sq = c1
  generalize testBit (white &&& kings) sq = c2
  generalize testBit (black &&& kings) sq = c3
  cases c1 <;> cases c2 <;> cases c3
    <;> simp [testBit, Nat.testBit_and, Nat.testBit_xor, hall, hc]
theorem boardFromFEN_castle_lt (T : Tables) (fens : List Char) (chess960 : Int) (b : Board)
    (h : boardFromFEN T fens chess960 = .ok b) (s : Nat)
    (hs : testBit b.castleRooks s = true) : s < 64 := by
  obtain ⟨ch, _, hsq⟩ := (boardFromFEN_castle_bits T fens chess960 b h s).mp hs
  exact castleSquare_lt b ch s hsq

/-- C12: after `boardFromFEN` on a well-formed FEN, `castleRooks` holds exactly the squares
that the letters of the castling field stand for and no other bit: for `K` the white rook on
the highest file of rank 1, for `Q` the white rook on the lowest file of rank 1, for `k` and
`q` the same of the black rooks on rank 8, for `A`..`H` the rank-1 square of that file, for
`a`..`h` the rank-8 square of that file; the field `-` sets nothing. -/
theorem boardFromFEN_castleRooks (T : Tables) (fens : List Char) (chess960 : Int)
    (hwf : fenWF fens = true) :
    ∃ b, boardFromFEN T fens chess960 = .ok b
      ∧ (∀ s, testBit b.castleRooks s = true
          ↔ ∃ ch, ch ∈ cString (fenField fens 2) ∧ castleSquare b ch s)
      ∧ (∀ ch s, castleSquare b ch s
          ↔ (ch = 'K' ∧ highestRook b WHITE 0 s) ∨ (ch = 'Q' ∧ lowestRook b WHITE 0 s)
            ∨ (ch = 'k' ∧ highestRook b BLACK 56 s) ∨ (ch = 'q' ∧ lowestRook b BLACK 56 s)
            ∨ (65 ≤ ch.toNat ∧ ch.toNat ≤ 72 ∧ s = ch.toNat - 65)
            ∨ (97 ≤ ch.toNat ∧ ch.toNat ≤ 104 ∧ s = 56 + (ch.toNat - 97)))
      ∧ (cString (fenField fens 2) = ['-'] → b.castleRooks = 0) := by
  obtain ⟨b, hb⟩ := boardFromFEN_wf T fens chess960 hwf
  have hbits := boardFromFEN_castle_bits T fens chess960 b hb
  refine ⟨b, hb, hbits, fun ch s => Iff.rfl, ?_⟩
  intro hdash
  apply Nat.eq_of_testBit_eq
  intro s
  rw [Nat.zero_testBit]
  cases hs : Nat.testBit b.castleRooks s with
  | false => rfl
  | true =>
    exfalso
    obtain ⟨ch, hm, hsq⟩ := (hbits s).mp hs
    rw [hdash, List.mem_singleton] at hm
    rw [hm] at hsq
    exact castleSquare_other b '-' s (by decide) (by decide) (by decide) (by decide)
      (by decide) (by decide) hsq

set_option maxRecDepth 100000 in
/-- Witness of C12 at the start position, whose castling field is `KQkq`. -/
theorem boardFromFEN_castleRooks_witness :
    fenWF StartPosition = true
    ∧ ∃ b, boardFromFEN sampleTables StartPosition 0 = .ok b
        ∧ ∀ s, testBit b.castleRooks s = true
          ↔ ∃ ch, ch ∈ cString (fenField StartPosition 2) ∧ castleSquare b ch s := by
  have hwf : fenWF StartPosition = true := by decide
  obtain ⟨b, hb, hbits, _⟩ := boardFromFEN_castleRooks sampleTables StartPosition 0 hwf
  exact ⟨hwf, b, hb, hbits⟩

/-- C13: after `boardFromFEN` on a well-formed FEN, `board.chess960` is non-zero exactly when
the `chess960` argument is non-zero or `castleRooks` holds a square other than a1, h1, a8 and
h8. -/
theorem boardFromFEN_chess960 (T : Tables) (fens : List Char) (chess960 : Int)
    (hwf : fenWF fens = true) :
    ∃ b, boardFromFEN T fens chess960 = .ok b
      ∧ (b.chess960 ≠ 0
          ↔ chess960 ≠ 0
            ∨ ∃ s, testBit b.castleRooks s = true ∧ s ≠ 0 ∧ s ≠ 7 ∧ s ≠ 56 ∧ s ≠ 63) := by
  obtain ⟨b, hb⟩ := boardFromFEN_wf T fens chess960 hwf
  refine ⟨b, hb, ?_⟩
  obtain ⟨b0, cr, hm, fm, -, -, -, -, -, -, -, -, -, -, -, e8, -, -, -, -, -, -, e15, -⟩ :=
    boardFromFEN_ok_elim T fens chess960 b hb
  have hmask : (cr &&& (allON ^^^ StandardCastles)) ≠ 0
      ↔ ∃ s, testBit b.castleRooks s = true ∧ s ≠ 0 ∧ s ≠ 7 ∧ s ≠ 56 ∧ s ≠ 63 := by
    rw [and_ne_zero_iff, e8]
    constructor
    · rintro ⟨s, h1, h2⟩
      rw [testBit_not_standard, decide_eq_true_eq] at h2
      exact ⟨s, h1, h2.2⟩
    · rintro ⟨s, h1, h2⟩
      have hlt : s < 64 := boardFromFEN_castle_lt T fens chess960 b hb s (e8 ▸ h1)
      exact ⟨s, h1, by rw [testBit_not_standard, decide_eq_true_eq]; exact ⟨hlt, h2⟩⟩
  rw [e15, ← hmask]
  exact flag_ne_zero _

set_option maxRecDepth 100000 in
/-- Witness of C13 at the start position with the `chess960` argument 0. -/
theorem boardFromFEN_chess960_witness :
    fenWF StartPosition = true
    ∧ ∃ b, boardFromFEN sampleTables StartPosition 0 = .ok b
        ∧ (b.chess960 ≠ 0
            ↔ (0 : Int) ≠ 0
              ∨ ∃ s, testBit b.castleRooks s = true ∧ s ≠ 0 ∧ s ≠ 7 ∧ s ≠ 56 ∧ s ≠ 63) :=
  ⟨by decide, boardFromFEN_chess960 sampleTables StartPosition 0 (by decide)⟩

/-- C14: after `boardFromFEN` on a well-formed FEN, for every square `sq` the value
`castleRooks & castleMasks[sq]` is `castleRooks` with exactly these bits erased: the bit `sq`
itself when `sq` is a castle-rook square, every castle rook of White when the white king
stands on `sq`, every castle rook of Black when the black king stands on `sq`; and it is
`castleRooks` itself when `sq` is none of these. -/
theorem boardFromFEN_castleMasks (T : Tables) (fens : List Char) (chess960 : Int)
    (hwf : fenWF fens = true) :
    ∃ b, boardFromFEN T fens chess960 = .ok b
      ∧ ∀ sq, sq < 64 →
        (∀ t, testBit (b.castleRooks &&& b.castleMasks sq) t = true
          ↔ testBit b.castleRooks t = true ∧ ¬ erasedBy b sq t)
        ∧ (testBit b.castleRooks sq = false → kingOn b WHITE sq = false →
            kingOn b BLACK sq = false → b.castleRooks &&& b.castleMasks sq = b.castleRooks) := by
  obtain ⟨b, hb⟩ := boardFromFEN_wf T fens chess960 hwf
  refine ⟨b, hb, ?_⟩
  obtain ⟨b0, cr, hm, fm, -, -, -, -, -, e2, e3, -, -, -, -, e8, e9, -⟩ :=
    boardFromFEN_ok_elim T fens chess960 b hb
  intro sq hsq
  have hmask : b.castleMasks sq
      = castleMaskOf b.castleRooks (b.colours WHITE) (b.colours BLACK) (b.pieces KING) sq := by
    rw [e9, e8, e2, e3]
    exact if_pos hsq
  have hbit : ∀ t, testBit (b.castleRooks &&& b.castleMasks sq) t = true
      ↔ testBit b.castleRooks t = true ∧ ¬ erasedBy b sq t := by
    intro t
    have hand : testBit (b.castleRooks &&& b.castleMasks sq) t
        = (testBit b.castleRooks t && testBit (b.castleMasks sq) t) := by
      unfold testBit
      rw [Nat.testBit_and]
    have hkw : testBit (b.colours WHITE &&& b.pieces KING) sq = kingOn b WHITE sq := by
      unfold kingOn testBit
      rw [Nat.testBit_and]
    have hkb : testBit (b.colours BLACK &&& b.pieces KING) sq = kingOn b BLACK sq := by
      unfold kingOn testBit
      rw [Nat.testBit_and]
    rw [hand, Bool.and_eq_true]
    constructor
    · rintro ⟨h1, h2⟩
      have hlt : t < 64 := boardFromFEN_castle_lt T fens chess960 b hb t h1
      rw [hmask, testBit_castleMaskOf _ _ _ _ _ _ hlt, hkw, hkb] at h2
      simp only [Bool.and_eq_true, Bool.not_eq_true', Bool.and_eq_false_iff,
        decide_eq_true_eq, decide_eq_false_iff_not] at h2
      refine ⟨h1, ?_⟩
      unfold erasedBy
      rintro (⟨e1, e2⟩ | ⟨e1, e2⟩ | ⟨e1, e2⟩)
      · rcases h2.1.1 with h | h
        · rw [h] at e2; cases e2
        · exact h e1.symm
      · rcases h2.1.2 with h | h
        · rw [h] at e1; cases e1
        · rw [h] at e2; cases e2
      · rcases h2.2 with h | h
        · rw [h] at e1; cases e1
        · rw [h] at e2; cases e2
    · rintro ⟨h1, h2⟩
      have hlt : t < 64 := boardFromFEN_castle_lt T fens chess960 b hb t h1
      refine ⟨h1, ?_⟩
      rw [hmask, testBit_castleMaskOf _ _ _ _ _ _ hlt, hkw, hkb]
      unfold erasedBy at h2
      simp only [not_or, not_and, Bool.not_eq_true] at h2
      obtain ⟨n1, n2, n3⟩ := h2
      simp only [Bool.and_eq_true, Bool.not_eq_true', Bool.and_eq_false_iff,
        decide_eq_true_eq, decide_eq_false_iff_not]
      refine ⟨⟨?_, ?_⟩, ?_⟩
      · by_cases e : sq = t
        · exact Or.inl (n1 e.symm)
        · exact Or.inr e
      · cases hk : kingOn b WHITE sq with
        | false => exact Or.inl rfl
        | true => exact Or.inr (n2 hk)
      · cases hk : kingOn b BLACK sq with
        | false => exact Or.inl rfl
        | true => exact Or.inr (n3 hk)
  refine ⟨hbit, ?_⟩
  intro n1 n2 n3
  apply Nat.eq_of_testBit_eq
  intro t
  have := hbit t
  unfold testBit at this
  cases hc : Nat.testBit b.castleRooks t with
  | false =>
    rw [Nat.testBit_and, hc, Bool.false_and]
  | true =>
    apply this.mpr
    refine ⟨hc, ?_⟩
    unfold erasedBy
    rintro (⟨_, e2⟩ | ⟨e1, _⟩ | ⟨e1, _⟩)
    · rw [n1] at e2; cases e2
    · rw [n2] at e1; cases e1
    · rw [n3] at e1; cases e1

set_option maxRecDepth 100000 in
/-- Witness of C14 at the start position and the square e1, where the white king stands. -/
theorem boardFromFEN_castleMasks_witness :
    fenWF StartPosition = true
    ∧ ∃ b, boardFromFEN sampleTables StartPosition 0 = .ok b
        ∧ ∀ t, testBit (b.castleRooks &&& b.castleMasks 4) t = true
          ↔ testBit b.castleRooks t = true ∧ ¬ erasedBy b 4 t := by
  have hwf : fenWF StartPosition = true := by decide
  obtain ⟨b, hb, h⟩ := boardFromFEN_castleMasks sampleTables StartPosition 0 hwf
  exact ⟨hwf, b, hb, (h 4 (by decide)).1⟩

/-! ## Squares and their names -/

/-- C23: for every `sq` from -1 to 63, `squareToString(sq)` returns and `stringToSquare` of
its text is `sq`; the text of -1 is `-`, and the text of a square from 0 on is the file letter
`'a' + fileOf(sq)` followed by the rank digit `'1' + rankOf(sq)`. -/
theorem squareToString_roundTrip (sq : Int) (h1 : -1 ≤ sq) (h2 : sq ≤ 63) :
    ∃ s, squareToString sq = .ok s ∧ stringToSquare s = sq
      ∧ (sq = -1 → s = ['-'])
      ∧ (0 ≤ sq →
          s = [Char.ofNat (97 + (fileOf sq).toNat), Char.ofNat (49 + (rankOf sq).toNat)]) := by
  interval_cases sq <;> exact ⟨_, rfl, by decide, by decide, by decide⟩

/-- Witness of C23 at the square e4, which is 28: its text is `e4`. -/
theorem squareToString_roundTrip_witness :
    (-1 : Int) ≤ 28 ∧ (28 : Int) ≤ 63
    ∧ ∃ s, squareToString 28 = .ok s ∧ stringToSquare s = 28 ∧ s = ['e', '4'] := by
  obtain ⟨s, h1, h2, _, h4⟩ := squareToString_roundTrip 28 (by decide) (by decide)
  exact ⟨by decide, by decide, s, h1, h2, (h4 (by decide)).trans (by decide)⟩

/-! ## Material other than pawns -/

theorem boardHasNonPawnMaterial_eq_zero (board : Board) (turn : Nat) :
    boardHasNonPawnMaterial board turn = 0
      ↔ ∀ s, testBit (board.colours turn) s = true →
          testBit (board.pieces KING) s = true ∨ testBit (board.pieces PAWN) s = true := by
  unfold boardHasNonPawnMaterial
  dsimp only
  constructor
  · intro h s hs
    by_cases he : (board.colours turn &&& (board.pieces KING ||| board.pieces PAWN))
        = board.colours turn
    · have := congrArg (fun x => Nat.testBit x s) he
      simp only [Nat.testBit_and, Nat.testBit_or] at this
      unfold testBit at hs ⊢
      rw [hs, Bool.true_and, Bool.or_eq_true] at this
      exact this
    · rw [if_pos he] at h
      cases h
  · intro h
    rw [if_neg]
    rw [not_not]
    apply Nat.eq_of_testBit_eq
    intro s
    rw [Nat.testBit_and, Nat.testBit_or]
    cases hs : Nat.testBit (board.colours turn) s with
    | false => rfl
    | true =>
      have := h s hs
      unfold testBit at this
      rw [Bool.true_and, Bool.or_eq_true]
      exact this

theorem squareConsistent_piece (w b p0 p1 p2 p3 p4 p5 : Bool)
    (h : squareConsistent w b p0 p1 p2 p3 p4 p5 = true) (hc : (w || b) = true) :
    ((p5 = true ∨ p0 = true) ↔ ¬ (p1 = true ∨ p2 = true ∨ p3 = true ∨ p4 = true)) := by
  revert h hc
  revert w b p0 p1 p2 p3 p4 p5
  decide

/-- C24: on a board with consistent bitboards, `boardHasNonPawnMaterial(board, turn)` returns
0 exactly when every square occupied by the colour `turn` holds a king or a pawn, and it
returns a non-zero value exactly when some square occupied by that colour holds a knight, a
bishop, a rook or a queen. -/
theorem boardHasNonPawnMaterial_iff (board : Board) (turn : Nat)
    (hc : bitboardsConsistent board) (ht : turn < 2) :
    (boardHasNonPawnMaterial board turn = 0
      ↔ ∀ s, testBit (board.colours turn) s = true →
          testBit (board.pieces KING) s = true ∨ testBit (board.pieces PAWN) s = true)
    ∧ (boardHasNonPawnMaterial board turn ≠ 0
      ↔ ∃ s, testBit (board.colours turn) s = true
          ∧ (testBit (board.pieces KNIGHT) s = true ∨ testBit (board.pieces BISHOP) s = true
            ∨ testBit (board.pieces ROOK) s = true ∨ testBit (board.pieces QUEEN) s = true))
    ∧ (boardHasNonPawnMaterial board turn = 0 ∨ boardHasNonPawnMaterial board turn = 1) := by
  have hz := boardHasNonPawnMaterial_eq_zero board turn
  have hsq : ∀ s, testBit (board.colours turn) s = true →
      ((testBit (board.pieces KING) s = true ∨ testBit (board.pieces PAWN) s = true)
        ↔ ¬ (testBit (board.pieces KNIGHT) s = true ∨ testBit (board.pieces BISHOP) s = true
            ∨ testBit (board.pieces ROOK) s = true ∨ testBit (board.pieces QUEEN) s = true)) := by
    intro s hs
    have hlt : s < 64 := by
      by_contra hge
      have := testBit_false_of_lt (hc.1 turn ht) (Nat.le_of_not_lt hge)
      unfold testBit at hs
      rw [this] at hs
      cases hs
    have hcol : (testBit (board.colours WHITE) s || testBit (board.colours BLACK) s) = true := by
      have : turn = 0 ∨ turn = 1 := by omega
      rcases this with e | e
      · rw [e] at hs
        rw [show WHITE = 0 from rfl, hs, Bool.true_or]
      · rw [e] at hs
        rw [show BLACK = 1 from rfl, hs, Bool.or_true]
    exact squareConsistent_piece _ _ _ _ _ _ _ _ (hc.2.2 s hlt) hcol
  refine ⟨hz, ?_, ?_⟩
  · rw [Ne, hz]
    constructor
    · intro h
      by_contra hno
      apply h
      intro s hs
      rw [hsq s hs]
      intro hp
      exact hno ⟨s, hs, hp⟩
    · rintro ⟨s, hs, hp⟩ h
      exact (hsq s hs).mp (h s hs) hp
  · unfold boardHasNonPawnMaterial
    dsimp only
    split
    · exact Or.inr rfl
    · exact Or.inl rfl

/-- Witness of C24 at king and bishop against king: White has material other than pawns, Black
has none. -/
theorem boardHasNonPawnMaterial_iff_witness :
    bitboardsConsistent sampleKBK ∧ WHITE < 2
    ∧ boardHasNonPawnMaterial sampleKBK WHITE ≠ 0 := by
  have hc : bitboardsConsistent sampleKBK := by decide
  refine ⟨hc, by decide, ?_⟩
  exact (boardHasNonPawnMaterial_iff sampleKBK WHITE hc (by decide)).2.1.mpr
    ⟨10, by decide, Or.inr (Or.inl (by decide))⟩

/-! ## Mate and the fifty-move rule -/

/-- C26 fails on the code: `boardIsDrawn` makes no test for mate. On the board of
`R5k1/5ppp/8/8/8/8/8/6K1 b - - 100 80`, where Black to move is checkmated,
`boardDrawnByFiftyMoveRule` returns 1 for the half-move clock of 100 and `boardIsDrawn`
returns 1, though there is neither a repetition nor insufficient material. -/
theorem boardIsDrawn_when_mated :
    checkmated matedGen matedBoard
    ∧ matedBoard.halfMoveCounter = 100
    ∧ boardDrawnByFiftyMoveRule matedBoard = 1
    ∧ boardDrawnByRepetition matedBoard 0 = 0
    ∧ boardDrawnByInsufficientMaterial matedBoard = 0
    ∧ boardIsDrawn matedBoard 0 = 1 := by
  refine ⟨⟨by decide, rfl⟩, rfl, by decide, by decide, by decide, by decide⟩

/-! ## The function `apply` -/

/-- C27: `apply` returns 0 exactly when the move is not `NULL_MOVE` and `moveWasLegal` is false
on the board after `applyMove`, and 1 otherwise. On 0 the board is the one that `revertMove`
makes of the applied board and the undo record of `applyMove`, which is the board before the
call when `revertMove` undoes `applyMove`; on 1 the board is the applied one, for `NULL_MOVE`
that of `applyNullMove` without any test. For a move other than `NULL_MOVE`,
`moveStack[height]` is the move and `pieceStack[height]` the type of the piece on
`MoveFrom(move)` before the move, accepted or not. -/
theorem apply_returns (ops : MoveOps) (T : Tables) (thread : Thread) (board : Board)
    (move height : Nat)
    (hrev : ∀ b m u, ops.revertMove (ops.applyMove b m u).1 m (ops.applyMove b m u).2 = b) :
    ((apply ops T thread board move height).1 = 0
      ↔ move ≠ NULL_MOVE
        ∧ ops.moveWasLegal (ops.applyMove board move (thread.undoStack height)).1 = false)
    ∧ ((apply ops T thread board move height).1 = 0
        ∨ (apply ops T thread board move height).1 = 1)
    ∧ ((apply ops T thread board move height).1 = 0 →
        (apply ops T thread board move height).2.2
          = ops.revertMove (ops.applyMove board move (thread.undoStack height)).1 move
              (ops.applyMove board move (thread.undoStack height)).2
        ∧ (apply ops T thread board move height).2.2 = board)
    ∧ ((apply ops T thread board move height).1 = 1 → move ≠ NULL_MOVE →
        (apply ops T thread board move height).2.2
          = (ops.applyMove board move (thread.undoStack height)).1)
    ∧ (move = NULL_MOVE →
        (apply ops T thread board move height).1 = 1
        ∧ (apply ops T thread board move height).2.2
            = (applyNullMove T board (thread.undoStack height)).1)
    ∧ (move ≠ NULL_MOVE →
        (apply ops T thread board move height).2.1.moveStack height = move
        ∧ (apply ops T thread board move height).2.1.pieceStack height
            = pieceType (board.squares (MoveFrom move))) := by
  have hupd : ∀ {α : Type} (a : Nat → α) (i : Nat) (v : α), upd a i v i = v := by
    intro α a i v
    unfold upd
    rw [if_pos rfl]
  have h10 : ¬ ((1 : Int) = 0) := by decide
  have h01 : ¬ ((0 : Int) = 1) := by decide
  by_cases hn : move = NULL_MOVE
  · have e : apply ops T thread board move height
        = (1, { thread with
                moveStack := upd thread.moveStack height NULL_MOVE
                undoStack := upd thread.undoStack height
                  (applyNullMove T board (thread.undoStack height)).2 },
            (applyNullMove T board (thread.undoStack height)).1) := by
      unfold apply
      rw [if_pos hn]
    rw [e]
    refine ⟨⟨fun h => absurd h h10, fun h => absurd hn h.1⟩, Or.inr rfl,
      fun h => absurd h h10, fun _ h => absurd hn h, fun _ => ⟨rfl, rfl⟩,
      fun h => absurd hn h⟩
  · by_cases hl : ops.moveWasLegal (ops.applyMove board move (thread.undoStack height)).1 = false
    · have e : apply ops T thread board move height
          = (0, { thread with
                  moveStack := upd thread.moveStack height move
                  pieceStack := upd thread.pieceStack height
                    (pieceType (board.squares (MoveFrom move)))
                  undoStack := upd thread.undoStack height
                    (ops.applyMove board move (thread.undoStack height)).2 },
              ops.revertMove (ops.applyMove board move (thread.undoStack height)).1 move
                (ops.applyMove board move (thread.undoStack height)).2) := by
        unfold apply
        rw [if_neg hn]
        dsimp only
        rw [if_pos hl, hupd]
      rw [e]
      refine ⟨⟨fun _ => ⟨hn, hl⟩, fun _ => rfl⟩, Or.inl rfl, fun _ => ⟨rfl, hrev _ _ _⟩,
        fun h => absurd h h01, fun h => absurd h hn, fun _ => ⟨hupd _ _ _, hupd _ _ _⟩⟩
    · have e : apply ops T thread board move height
          = (1, { thread with
                  moveStack := upd thread.moveStack height move
                  pieceStack := upd thread.pieceStack height
                    (pieceType (board.squares (MoveFrom move)))
                  undoStack := upd thread.undoStack height
                    (ops.applyMove board move (thread.undoStack height)).2 },
              (ops.applyMove board move (thread.undoStack height)).1) := by
        unfold apply
        rw [if_neg hn]
        dsimp only
        rw [if_neg hl]
      rw [e]
      refine ⟨⟨fun h => absurd h h10, fun h => absurd h.2 hl⟩, Or.inr rfl,
        fun h => absurd h h10, fun _ _ => rfl, fun h => absurd h hn,
        fun _ => ⟨hupd _ _ _, hupd _ _ _⟩⟩

/-- Witness of C27 with a stand-in in which no move is legal: the pawn move from e2 to e4 is
rejected and the board is the one before the call. -/
theorem apply_returns_witness :
    (∀ b m u, rejectOps.revertMove (rejectOps.applyMove b m u).1 m (rejectOps.applyMove b m u).2
      = b)
    ∧ (apply rejectOps sampleTables sampleThread Board.clear (MoveMake 12 28 NORMAL_MOVE) 3).1
        = 0
    ∧ (apply rejectOps sampleTables sampleThread Board.clear (MoveMake 12 28 NORMAL_MOVE)
        3).2.2 = Board.clear := by
  have hrev : ∀ b m u,
      rejectOps.revertMove (rejectOps.applyMove b m u).1 m (rejectOps.applyMove b m u).2
        = b := by
    intro b m u
    rfl
  have h := apply_returns rejectOps sampleTables sampleThread Board.clear
    (MoveMake 12 28 NORMAL_MOVE) 3 hrev
  have h0 : (apply rejectOps sampleTables sampleThread Board.clear
      (MoveMake 12 28 NORMAL_MOVE) 3).1 = 0 := h.1.mpr ⟨by decide, rfl⟩
  exact ⟨hrev, h0, (h.2.2.1 h0).2⟩

/-! ## The bound of a report -/

/-- C29: after every pass of the loop of `uciPosition` over a move token that ends without a
fault, a half-move clock of 0 comes with a history count of 0, whether or not a move was
applied; and `boardFromFEN`, with which `uciPosition` resets the board, leaves the history
count 0. -/
theorem uciPosition_history_reset (ops : MoveOps) (G : MoveGen) (L : Locals) (undo : Undo)
    (str : List Char) (p : Nat) (board : Board) (r : Board × Nat)
    (h : positionStep ops G L undo str p board = .ok r) :
    (r.1.halfMoveCounter = 0 → r.1.numMoves = 0)
    ∧ (∀ (T : Tables) (fens : List Char) (chess960 : Int) (b : Board),
        boardFromFEN T fens chess960 = .ok b → b.numMoves = 0) := by
  constructor
  · unfold positionStep at h
    cases hr : readMove str p with
    | error e => rw [hr] at h; cases h
    | ok raw =>
      rw [hr] at h
      dsimp only at h
      cases hs : skipBlanks str (p + 5) with
      | error e => rw [hs] at h; cases h
      | ok p1 =>
        rw [hs] at h
        cases h
        dsimp only
        by_cases hz : (findAndApply ops G L (moveText raw) undo (G.genAllLegalMoves board)
            board).halfMoveCounter = 0
        · rw [if_pos hz]
          intro _
          rfl
        · rw [if_neg hz]
          intro h0
          exact absurd h0 hz
  · intro T fens chess960 b hb
    obtain ⟨_, _, _, _, _, _, _, _, _, _, _, _, _, _, _, _, _, _, _, _, _, hnum, _⟩ :=
      boardFromFEN_ok_elim T fens chess960 b hb
    exact hnum

/-- Witness of C29 at `position startpos moves e2e5 e7e5`, in the pass over the first token
from offset 24 on. -/
theorem uciPosition_history_reset_witness :
    ∃ r, positionStep pawnOps sampleGen sampleLocals checkedUndo samplePositionTwo 24
        Board.clear = .ok r
      ∧ (r.1.halfMoveCounter = 0 → r.1.numMoves = 0) := by
  obtain ⟨p1, hs, _⟩ := positionStep_ok pawnOps sampleGen sampleLocals checkedUndo
    samplePositionTwo 24 Board.clear (by decide)
  exact ⟨_, hs, (uciPosition_history_reset pawnOps sampleGen sampleLocals checkedUndo
    samplePositionTwo 24 Board.clear _ hs).1⟩

/-! ## The function `perft` -/

theorem perftLoop_spec (ops : MoveOps) (next : Board → Nat × Board) (u0 : Undo) (board : Board)
    (hrev : ∀ b m u, ops.revertMove (ops.applyMove b m u).1 m (ops.applyMove b m u).2 = b)
    (hundo : ∀ b m u u1, (ops.applyMove b m u).1 = (ops.applyMove b m u1).1)
    (hnext : ∀ b, (next b).2 = b) :
    ∀ (ms : List Nat) (undo : Undo) (found : Nat), found < 2 ^ 64 →
      (perftLoop ops next ms board undo found).1
        = (found + ((ms.filter (fun m => ops.moveWasLegal (ops.applyMove board m u0).1)).map
            (fun m => (next (ops.applyMove board m u0).1).1)).sum) % 2 ^ 64
      ∧ (perftLoop ops next ms board undo found).2.1 = board
  | [], undo, found, hf => by
    rw [perftLoop]
    exact ⟨by rw [List.filter_nil, List.map_nil, List.sum_nil, Nat.add_zero,
      Nat.mod_eq_of_lt hf], rfl⟩
  | m :: ms, undo, found, hf => by
    rw [perftLoop]
    have ha : (ops.applyMove board m undo).1 = (ops.applyMove board m u0).1 := hundo _ _ _ _
    by_cases hl : ops.moveWasLegal (ops.applyMove board m u0).1 = true
    · have hl1 : ops.moveWasLegal (ops.applyMove board m undo).1 = true := by rw [ha]; exact hl
      rw [if_pos hl1, if_pos hl1, hnext, hrev]
      obtain ⟨h1, h2⟩ := perftLoop_spec ops next u0 board hrev hundo hnext ms
        (ops.applyMove board m undo).2
        ((found + (next (ops.applyMove board m undo).1).1) % 2 ^ 64)
        (Nat.mod_lt _ (by decide))
      refine ⟨?_, h2⟩
      rw [h1, List.filter_cons, if_pos hl, List.map_cons, List.sum_cons, ha, Nat.mod_add_mod,
        Nat.add_assoc]
    · have hl1 : ¬ ops.moveWasLegal (ops.applyMove board m undo).1 = true := by rw [ha]; exact hl
      rw [if_neg hl1, if_neg hl1, hrev]
      obtain ⟨h1, h2⟩ := perftLoop_spec ops next u0 board hrev hundo hnext ms
        (ops.applyMove board m undo).2 found hf
      refine ⟨?_, h2⟩
      rw [h1, List.filter_cons, if_neg hl]

theorem perft_board (ops : MoveOps) (G : Generators) (undo : Nat → Undo)
    (hrev : ∀ b m u, ops.revertMove (ops.applyMove b m u).1 m (ops.applyMove b m u).2 = b)
    (hundo : ∀ b m u u1, (ops.applyMove b m u).1 = (ops.applyMove b m u1).1) :
    ∀ (d : Nat) (board : Board), (perft ops G undo d board).2 = board
  | 0, board => rfl
  | d + 1, board => by
    rw [perft]
    exact (perftLoop_spec ops (fun b => perft ops G undo d b) (undo 0) board hrev hundo
      (fun b => perft_board ops G undo hrev hundo d b) _ _ 0 (by decide)).2

theorem perft_succ (ops : MoveOps) (G : Generators) (undo : Nat → Undo)
    (hrev : ∀ b m u, ops.revertMove (ops.applyMove b m u).1 m (ops.applyMove b m u).2 = b)
    (hundo : ∀ b m u u1, (ops.applyMove b m u).1 = (ops.applyMove b m u1).1)
    (d : Nat) (board : Board) :
    (perft ops G undo (d + 1) board).1 = (perftTerms ops G undo d board).sum % 2 ^ 64 := by
  rw [perft]
  dsimp only
  rw [(perftLoop_spec ops (fun b => perft ops G undo d b) (undo 0) board hrev hundo
    (fun b => perft_board ops G undo hrev hundo d b) _ _ 0 (by decide)).1]
  unfold perftTerms
  rw [Nat.zero_add, List.filter_reverse, List.map_reverse, List.sum_reverse]

/-- C25: `perft(board, 0)` is 1 for every board. For every depth `d + 1`, when `revertMove`
undoes `applyMove` and the board that `applyMove` leaves does not depend on the content of
the undo record it is handed, `perft(board, d + 1)` is the sum, as a `uint64_t` holds it, of
`perft(position after m, d)` over every move `m` that `genAllNoisyMoves` followed by
`genAllQuietMoves` produce and whose application passes `moveWasLegal`, so it is that sum
whenever the sum is below `2^64`; and at every depth `perft`, a total function of the depth,
returns with the board as it received it. -/
theorem perft_spec (ops : MoveOps) (G : Generators) (undo : Nat → Undo)
    (hrev : ∀ b m u, ops.revertMove (ops.applyMove b m u).1 m (ops.applyMove b m u).2 = b)
    (hundo : ∀ b m u u1, (ops.applyMove b m u).1 = (ops.applyMove b m u1).1)
    (d : Nat) (board : Board) :
    (perft ops G undo 0 board).1 = 1
    ∧ (perft ops G undo (d + 1) board).1 = (perftTerms ops G undo d board).sum % 2 ^ 64
    ∧ ((perftTerms ops G undo d board).sum < 2 ^ 64 →
        (perft ops G undo (d + 1) board).1 = (perftTerms ops G undo d board).sum)
    ∧ (perftTerms ops G undo d board
        = ((G.genAllNoisyMoves board ++ G.genAllQuietMoves board).filter
            (fun m => ops.moveWasLegal (ops.applyMove board m (undo 0)).1)).map
          (fun m => (perft ops G undo d (ops.applyMove board m (undo 0)).1).1))
    ∧ (perft ops G undo d board).2 = board
    ∧ (perft ops G undo (d + 1) board).2 = board := by
  have hs := perft_succ ops G undo hrev hundo d board
  refine ⟨rfl, hs, ?_, rfl, perft_board ops G undo hrev hundo d board,
    perft_board ops G undo hrev hundo (d + 1) board⟩
  intro hlt
  rw [hs, Nat.mod_eq_of_lt hlt]

/-- Witness of C25 with three moves generated on every board and all of them legal: at depth
2 the count is 9 and the board is returned as it was. -/
theorem perft_spec_witness :
    (∀ b m u, sampleOps.revertMove (sampleOps.applyMove b m u).1 m (sampleOps.applyMove b m u).2
      = b)
    ∧ (∀ b m u u1, (sampleOps.applyMove b m u).1 = (sampleOps.applyMove b m u1).1)
    ∧ (perft sampleOps sampleGenerators (fun _ => checkedUndo) 2 Board.clear).1 = 9
    ∧ (perft sampleOps sampleGenerators (fun _ => checkedUndo) 2 Board.clear).2 = Board.clear := by
  have hrev : ∀ b m u,
      sampleOps.revertMove (sampleOps.applyMove b m u).1 m (sampleOps.applyMove b m u).2
        = b := fun _ _ _ => rfl
  have hundo : ∀ b m u u1, (sampleOps.applyMove b m u).1 = (sampleOps.applyMove b m u1).1 :=
    fun _ _ _ _ => rfl
  have h := perft_spec sampleOps sampleGenerators (fun _ => checkedUndo) hrev hundo 1
    Board.clear
  exact ⟨hrev, hundo, h.2.1.trans (by decide), h.2.2.2.2.2⟩

/-! ## The piece-square tables -/

theorem foldl_range_succ {α : Type} (f : α → Nat → α) (a : α) (n : Nat) :
    (List.range (n + 1)).foldl f a = f ((List.range n).foldl f a) n := by
  rw [List.range_succ, List.foldl_append]
  rfl

theorem upd2_eq (tab : Nat → Nat → Int) (i j : Nat) (v : Int) (a b : Nat) :
    upd2 tab i j v a b = if a = i ∧ b = j then v else tab a b := rfl

theorem zeroRow_spec (i : Nat) (T : PSQTables) :
    ∀ n a b,
      ((List.range n).foldl
          (fun (T2 : PSQTables) j =>
            ({ PSQTopening := upd2 T2.PSQTopening i j 0
               PSQTendgame := upd2 T2.PSQTendgame i j 0 } : PSQTables)) T).PSQTopening a b
        = (if a = i ∧ b < n then 0 else T.PSQTopening a b)
      ∧ ((List.range n).foldl
          (fun (T2 : PSQTables) j =>
            ({ PSQTopening := upd2 T2.PSQTopening i j 0
               PSQTendgame := upd2 T2.PSQTendgame i j 0 } : PSQTables)) T).PSQTendgame a b
        = (if a = i ∧ b < n then 0 else T.PSQTendgame a b)
  | 0, a, b => by
    constructor <;> rw [if_neg (by omega)] <;> rfl
  | n + 1, a, b => by
    have ih := zeroRow_spec i T n a b
    rw [foldl_range_succ]
    generalize (List.range n).foldl _ T = F at ih ⊢
    dsimp only
    rw [upd2_eq, upd2_eq, ih.1, ih.2]
    constructor
    · by_cases h1 : a = i ∧ b = n
      · rw [if_pos h1, if_pos (by omega)]
      · rw [if_neg h1]
        by_cases h2 : a = i ∧ b < n
        · rw [if_pos h2, if_pos (by omega)]
        · rw [if_neg h2, if_neg (by omega)]
    · by_cases h1 : a = i ∧ b = n
      · rw [if_pos h1, if_pos (by omega)]
      · rw [if_neg h1]
        by_cases h2 : a = i ∧ b < n
        · rw [if_pos h2, if_pos (by omega)]
        · rw [if_neg h2, if_neg (by omega)]

theorem zeroRows_spec (T : PSQTables) :
    ∀ n a b,
      ((List.range n).foldl
          (fun (T1 : PSQTables) i =>
            (List.range 64).foldl
              (fun (T2 : PSQTables) j =>
                ({ PSQTopening := upd2 T2.PSQTopening i j 0
                   PSQTendgame := upd2 T2.PSQTendgame i j 0 } : PSQTables)) T1) T).PSQTopening a b
        = (if a < n ∧ b < 64 then 0 else T.PSQTopening a b)
      ∧ ((List.range n).foldl
          (fun (T1 : PSQTables) i =>
            (List.range 64).foldl
              (fun (T2 : PSQTables) j =>
                ({ PSQTopening := upd2 T2.PSQTopening i j 0
                   PSQTendgame := upd2 T2.PSQTendgame i j 0 } : PSQTables)) T1) T).PSQTendgame a b
        = (if a < n ∧ b < 64 then 0 else T.PSQTendgame a b)
  | 0, a, b => by
    constructor <;> rw [if_neg (by omega)] <;> rfl
  | n + 1, a, b => by
    have ih := zeroRows_spec T n a b
    rw [foldl_range_succ]
    generalize (List.range n).foldl _ T = F at ih ⊢
    rw [(zeroRow_spec n F 64 a b).1, (zeroRow_spec n F 64 a b).2, ih.1, ih.2]
    constructor
    · by_cases h1 : a = n ∧ b < 64
      · rw [if_pos h1, if_pos (by omega)]
      · rw [if_neg h1]
        by_cases h2 : a < n ∧ b < 64
        · rw [if_pos h2, if_pos (by omega)]
        · rw [if_neg h2, if_neg (by omega)]
    · by_cases h1 : a = n ∧ b < 64
      · rw [if_pos h1, if_pos (by omega)]
      · rw [if_neg h1]
        by_cases h2 : a < n ∧ b < 64
        · rw [if_pos h2, if_pos (by omega)]
        · rw [if_neg h2, if_neg (by omega)]

theorem zeroLoop_spec (T : PSQTables) (a b : Nat) (ha : a < 32) (hb : b < 64) :
    (zeroLoop T).PSQTopening a b = 0 ∧ (zeroLoop T).PSQTendgame a b = 0 := by
  unfold zeroLoop
  rw [(zeroRows_spec T 32 a b).1, (zeroRows_spec T 32 a b).2, if_pos ⟨ha, hb⟩,
    if_pos ⟨ha, hb⟩]
  exact ⟨rfl, rfl⟩

theorem fillRank_frame (tab : Nat → Nat → Int) (piece : Nat) (value : Int) (map : List Int)
    (i j a b : Nat) (h : a ≠ piece) : fillRank tab piece value map i j a b = tab a b := by
  unfold fillRank
  simp only [upd2_eq, h, false_and, if_false]

/-- A row that is not the code of a white piece. -/
theorem whiteBody_frame (V : PieceValues) (T : PSQTables) (k a b : Nat)
    (h : a % 4 ≠ 0 ∨ 24 ≤ a) :
    (whiteBody V T k).PSQTopening a b = T.PSQTopening a b
    ∧ (whiteBody V T k).PSQTendgame a b = T.PSQTendgame a b := by
  have h0 : a ≠ WhitePawn := by unfold WhitePawn; omega
  have h1 : a ≠ WhiteKnight := by unfold WhiteKnight; omega
  have h2 : a ≠ WhiteBishop := by unfold WhiteBishop; omega
  have h3 : a ≠ WhiteRook := by unfold WhiteRook; omega
  have h4 : a ≠ WhiteQueen := by unfold WhiteQueen; omega
  have h5 : a ≠ WhiteKing := by unfold WhiteKing; omega
  unfold whiteBody
  dsimp only
  constructor
  · rw [fillRank_frame _ _ _ _ _ _ _ _ h5, fillRank_frame _ _ _ _ _ _ _ _ h4,
      fillRank_frame _ _ _ _ _ _ _ _ h3, fillRank_frame _ _ _ _ _ _ _ _ h2,
      fillRank_frame _ _ _ _ _ _ _ _ h1, fillRank_frame _ _ _ _ _ _ _ _ h0]
  · rw [fillRank_frame _ _ _ _ _ _ _ _ h5, fillRank_frame _ _ _ _ _ _ _ _ h4,
      fillRank_frame _ _ _ _ _ _ _ _ h3, fillRank_frame _ _ _ _ _ _ _ _ h2,
      fillRank_frame _ _ _ _ _ _ _ _ h1, fillRank_frame _ _ _ _ _ _ _ _ h0]

theorem whiteLoop_frame (V : PieceValues) (T : PSQTables) (a b : Nat)
    (h : a % 4 ≠ 0 ∨ 24 ≤ a) :
    (whiteLoop V T).PSQTopening a b = T.PSQTopening a b
    ∧ (whiteLoop V T).PSQTendgame a b = T.PSQTendgame a b := by
  have hn : ∀ n, ((List.range n).foldl (whiteBody V) T).PSQTopening a b = T.PSQTopening a b
      ∧ ((List.range n).foldl (whiteBody V) T).PSQTendgame a b = T.PSQTendgame a b := by
    intro n
    induction n with
    | zero => exact ⟨rfl, rfl⟩
    | succ n ih =>
      rw [foldl_range_succ, (whiteBody_frame V _ n a b h).1, (whiteBody_frame V _ n a b h).2]
      exact ih
  exact hn 8

theorem blackRow_spec (i : Nat) (hi : 1 ≤ i) (T : PSQTables) :
    ∀ n a b,
      ((List.range n).foldl
          (fun (T1 : PSQTables) j =>
            ({ PSQTopening := upd2 T1.PSQTopening i j
                 (toInt32 (-(T1.PSQTopening (i - 1) (InversionTable.getD j 0))))
               PSQTendgame := upd2 T1.PSQTendgame i j
                 (toInt32 (-(T1.PSQTendgame (i - 1) (InversionTable.getD j 0)))) }
              : PSQTables)) T).PSQTopening a b
        = (if a = i ∧ b < n then toInt32 (-(T.PSQTopening (i - 1) (InversionTable.getD b 0)))
           else T.PSQTopening a b)
      ∧ ((List.range n).foldl
          (fun (T1 : PSQTables) j =>
            ({ PSQTopening := upd2 T1.PSQTopening i j
                 (toInt32 (-(T1.PSQTopening (i - 1) (InversionTable.getD j 0))))
               PSQTendgame := upd2 T1.PSQTendgame i j
                 (toInt32 (-(T1.PSQTendgame (i - 1) (InversionTable.getD j 0)))) }
              : PSQTables)) T).PSQTendgame a b
        = (if a = i ∧ b < n then toInt32 (-(T.PSQTendgame (i - 1) (InversionTable.getD b 0)))
           else T.PSQTendgame a b)
  | 0, a, b => by
    constructor <;> rw [if_neg (by omega)] <;> rfl
  | n + 1, a, b => by
    have ih := blackRow_spec i hi T n a b
    have ih1 := blackRow_spec i hi T n (i - 1) (InversionTable.getD n 0)
    rw [if_neg (by omega), if_neg (by omega)] at ih1
    rw [foldl_range_succ]
    generalize (List.range n).foldl _ T = F at ih ih1 ⊢
    dsimp only
    rw [upd2_eq, upd2_eq, ih.1, ih.2, ih1.1, ih1.2]
    constructor
    · by_cases h1 : a = i ∧ b = n
      · rw [if_pos h1, if_pos (by omega), h1.2]
      · rw [if_neg h1]
        by_cases h2 : a = i ∧ b < n
        · rw [if_pos h2, if_pos (by omega)]
        · rw [if_neg h2, if_neg (by omega)]
    · by_cases h1 : a = i ∧ b = n
      · rw [if_pos h1, if_pos (by omega), h1.2]
      · rw [if_neg h1]
        by_cases h2 : a = i ∧ b < n
        · rw [if_pos h2, if_pos (by omega)]
        · rw [if_neg h2, if_neg (by omega)]

theorem blackRows_spec (T : PSQTables) :
    ∀ n a b,
      ((List.range n).foldl (fun (T1 : PSQTables) k => blackRow T1 (BlackPawn + 4 * k))
          T).PSQTopening a b
        = (if a % 4 = 1 ∧ a / 4 < n ∧ b < 64 then
             toInt32 (-(T.PSQTopening (a - 1) (InversionTable.getD b 0)))
           else T.PSQTopening a b)
      ∧ ((List.range n).foldl (fun (T1 : PSQTables) k => blackRow T1 (BlackPawn + 4 * k))
          T).PSQTendgame a b
        = (if a % 4 = 1 ∧ a / 4 < n ∧ b < 64 then
             toInt32 (-(T.PSQTendgame (a - 1) (InversionTable.getD b 0)))
           else T.PSQTendgame a b)
  | 0, a, b => by
    constructor <;> rw [if_neg (by omega)] <;> rfl
  | n + 1, a, b => by
    have hbp : BlackPawn + 4 * n = 4 * n + 1 := by unfold BlackPawn; omega
    have ih := blackRows_spec T n a b
    have ih1 := blackRows_spec T n (4 * n + 1 - 1) (InversionTable.getD b 0)
    rw [if_neg (by omega), if_neg (by omega)] at ih1
    rw [foldl_range_succ]
    generalize (List.range n).foldl _ T = F at ih ih1 ⊢
    unfold blackRow
    rw [hbp, (blackRow_spec (4 * n + 1) (by omega) F 64 a b).1,
      (blackRow_spec (4 * n + 1) (by omega) F 64 a b).2, ih.1, ih.2, ih1.1, ih1.2]
    constructor
    · by_cases h1 : a = 4 * n + 1 ∧ b < 64
      · rw [if_pos h1, if_pos (by omega), h1.1]
      · rw [if_neg h1]
        by_cases h2 : a % 4 = 1 ∧ a / 4 < n ∧ b < 64
        · rw [if_pos h2, if_pos (by omega)]
        · rw [if_neg h2, if_neg (by omega)]
    · by_cases h1 : a = 4 * n + 1 ∧ b < 64
      · rw [if_pos h1, if_pos (by omega), h1.1]
      · rw [if_neg h1]
        by_cases h2 : a % 4 = 1 ∧ a / 4 < n ∧ b < 64
        · rw [if_pos h2, if_pos (by omega)]
        · rw [if_neg h2, if_neg (by omega)]

theorem blackLoop_spec (T : PSQTables) (a b : Nat) :
    (blackLoop T).PSQTopening a b
      = (if a % 4 = 1 ∧ a / 4 < 6 ∧ b < 64 then
           toInt32 (-(T.PSQTopening (a - 1) (InversionTable.getD b 0)))
         else T.PSQTopening a b)
    ∧ (blackLoop T).PSQTendgame a b
      = (if a % 4 = 1 ∧ a / 4 < 6 ∧ b < 64 then
           toInt32 (-(T.PSQTendgame (a - 1) (InversionTable.getD b 0)))
         else T.PSQTendgame a b) := by
  have e : (BlackKing - BlackPawn) / 4 + 1 = 6 := by decide
  unfold blackLoop
  rw [e]
  exact blackRows_spec T 6 a b

theorem toInt32_range (x : Int) : -2147483648 ≤ toInt32 x ∧ toInt32 x < 2147483648 := by
  unfold toInt32
  omega

theorem fillRank_range (tab : Nat → Nat → Int) (piece : Nat) (value : Int) (map : List Int)
    (i j a b : Nat)
    (h : (-2147483648 ≤ tab a b ∧ tab a b < 2147483648) ∨ (a = piece ∧ i ≤ b ∧ b < i + 8)) :
    -2147483648 ≤ fillRank tab piece value map i j a b
      ∧ fillRank tab piece value map i j a b < 2147483648 := by
  unfold fillRank
  simp only [upd2_eq]
  split_ifs <;> first
    | exact toInt32_range _
    | (rcases h with h | h
       · exact h
       · exfalso; omega)

theorem whiteBody_range (V : PieceValues) (T : PSQTables) (k a b : Nat)
    (ha : a % 4 = 0 ∧ a < 24)
    (hO : (-2147483648 ≤ T.PSQTopening a b ∧ T.PSQTopening a b < 2147483648)
      ∨ (8 * k ≤ b ∧ b < 8 * k + 8))
    (hE : (-2147483648 ≤ T.PSQTendgame a b ∧ T.PSQTendgame a b < 2147483648)
      ∨ (8 * k ≤ b ∧ b < 8 * k + 8)) :
    (-2147483648 ≤ (whiteBody V T k).PSQTopening a b
      ∧ (whiteBody V T k).PSQTopening a b < 2147483648)
    ∧ (-2147483648 ≤ (whiteBody V T k).PSQTendgame a b
      ∧ (whiteBody V T k).PSQTendgame a b < 2147483648) := by
  have hrow : a = WhitePawn ∨ a = WhiteKnight ∨ a = WhiteBishop ∨ a = WhiteRook
      ∨ a = WhiteQueen ∨ a = WhiteKing := by
    unfold WhitePawn WhiteKnight WhiteBishop WhiteRook WhiteQueen WhiteKing
    omega
  have step : ∀ (tab : Nat → Nat → Int) (piece : Nat) (value : Int) (map : List Int)
      (N : Prop),
      ((-2147483648 ≤ tab a b ∧ tab a b < 2147483648)
        ∨ (N ∧ 8 * k ≤ b ∧ b < 8 * k + 8)) →
      ((-2147483648 ≤ fillRank tab piece value map (8 * k) (4 * k) a b
          ∧ fillRank tab piece value map (8 * k) (4 * k) a b < 2147483648)
        ∨ ((N ∧ a ≠ piece) ∧ 8 * k ≤ b ∧ b < 8 * k + 8)) := by
    intro tab piece value map N h
    by_cases hp : a = piece
    · exact Or.inl (fillRank_range tab piece value map _ _ a b
        (h.elim Or.inl (fun hb => Or.inr ⟨hp, hb.2⟩)))
    · rcases h with h | h
      · exact Or.inl (fillRank_range tab piece value map _ _ a b (Or.inl h))
      · exact Or.inr ⟨⟨h.1, hp⟩, h.2⟩
  have chain : ∀ (tab : Nat → Nat → Int) (m0 m1 m2 m3 m4 m5 : List Int),
      ((-2147483648 ≤ tab a b ∧ tab a b < 2147483648) ∨ (8 * k ≤ b ∧ b < 8 * k + 8)) →
      (-2147483648 ≤
          fillRank (fillRank (fillRank (fillRank (fillRank (fillRank tab
            WhitePawn V.PawnValue m0 (8 * k) (4 * k))
            WhiteKnight V.KnightValue m1 (8 * k) (4 * k))
            WhiteBishop V.BishopValue m2 (8 * k) (4 * k))
            WhiteRook V.RookValue m3 (8 * k) (4 * k))
            WhiteQueen V.QueenValue m4 (8 * k) (4 * k))
            WhiteKing V.KingValue m5 (8 * k) (4 * k) a b
        ∧ fillRank (fillRank (fillRank (fillRank (fillRank (fillRank tab
            WhitePawn V.PawnValue m0 (8 * k) (4 * k))
            WhiteKnight V.KnightValue m1 (8 * k) (4 * k))
            WhiteBishop V.BishopValue m2 (8 * k) (4 * k))
            WhiteRook V.RookValue m3 (8 * k) (4 * k))
            WhiteQueen V.QueenValue m4 (8 * k) (4 * k))
            WhiteKing V.KingValue m5 (8 * k) (4 * k) a b < 2147483648) := by
    intro tab m0 m1 m2 m3 m4 m5 h
    have s0 := step tab WhitePawn V.PawnValue m0 True (h.elim Or.inl (fun w => Or.inr ⟨trivial, w⟩))
    have s1 := step _ WhiteKnight V.KnightValue m1 _ s0
    have s2 := step _ WhiteBishop V.BishopValue m2 _ s1
    have s3 := step _ WhiteRook V.RookValue m3 _ s2
    have s4 := step _ WhiteQueen V.QueenValue m4 _ s3
    have s5 := step _ WhiteKing V.KingValue m5 _ s4
    rcases s5 with h5 | h5
    · exact h5
    · exfalso
      obtain ⟨⟨⟨⟨⟨⟨⟨_, n0⟩, n1⟩, n2⟩, n3⟩, n4⟩, n5⟩, _⟩ := h5
      rcases hrow with e | e | e | e | e | e
      · exact n0 e
      · exact n1 e
      · exact n2 e
      · exact n3 e
      · exact n4 e
      · exact n5 e
  exact ⟨chain T.PSQTopening _ _ _ _ _ _ hO, chain T.PSQTendgame _ _ _ _ _ _ hE⟩


theorem whiteLoop_range (V : PieceValues) (T : PSQTables) (a b : Nat)
    (ha : a % 4 = 0 ∧ a < 24) (hb : b < 64) :
    (-2147483648 ≤ (whiteLoop V T).PSQTopening a b
      ∧ (whiteLoop V T).PSQTopening a b < 2147483648)
    ∧ (-2147483648 ≤ (whiteLoop V T).PSQTendgame a b
      ∧ (whiteLoop V T).PSQTendgame a b < 2147483648) := by
  have hn : ∀ n, b < 8 * n →
      (-2147483648 ≤ ((List.range n).foldl (whiteBody V) T).PSQTopening a b
        ∧ ((List.range n).foldl (whiteBody V) T).PSQTopening a b < 2147483648)
      ∧ (-2147483648 ≤ ((List.range n).foldl (whiteBody V) T).PSQTendgame a b
        ∧ ((List.range n).foldl (whiteBody V) T).PSQTendgame a b < 2147483648) := by
    intro n
    induction n with
    | zero => intro h; omega
    | succ n ih =>
      intro h
      rw [foldl_range_succ]
      by_cases hlt : b < 8 * n
      · exact whiteBody_range V _ n a b ha (Or.inl (ih hlt).1) (Or.inl (ih hlt).2)
      · exact whiteBody_range V _ n a b ha (Or.inr ⟨by omega, by omega⟩)
          (Or.inr ⟨by omega, by omega⟩)
  exact hn 8 (by omega)

/-- C30: after `initalizePSQT`, for each of the six piece types `p`, with the white code
`makePiece(p, WHITE)` and the black code one above it, and for every square `s` below 64, the
entry of the black table at `s` is the negated entry, as an `int`, of the white table at
`InversionTable[s]`, in `PSQTopening` and in `PSQTendgame`; it is the negated entry itself
unless that entry is the least `int`. `InversionTable[s]` is `s XOR 56`, and every row of the
32 that is the code of no piece is zero on all 64 squares. -/
theorem initalizePSQT_mirror (V : PieceValues) (T : PSQTables) :
    (∀ p s, p < 6 → s < 64 →
      (initalizePSQT V T).PSQTopening (makePiece p BLACK) s
        = toInt32 (-((initalizePSQT V T).PSQTopening (makePiece p WHITE)
            (InversionTable.getD s 0)))
      ∧ (initalizePSQT V T).PSQTendgame (makePiece p BLACK) s
        = toInt32 (-((initalizePSQT V T).PSQTendgame (makePiece p WHITE)
            (InversionTable.getD s 0)))
      ∧ ((initalizePSQT V T).PSQTopening (makePiece p WHITE) (InversionTable.getD s 0)
            ≠ -2147483648 →
          (initalizePSQT V T).PSQTopening (makePiece p BLACK) s
            = -((initalizePSQT V T).PSQTopening (makePiece p WHITE) (InversionTable.getD s 0)))
      ∧ ((initalizePSQT V T).PSQTendgame (makePiece p WHITE) (InversionTable.getD s 0)
            ≠ -2147483648 →
          (initalizePSQT V T).PSQTendgame (makePiece p BLACK) s
            = -((initalizePSQT V T).PSQTendgame (makePiece p WHITE) (InversionTable.getD s 0))))
    ∧ (∀ p, makePiece p BLACK = makePiece p WHITE + 1)
    ∧ [WhitePawn, WhiteKnight, WhiteBishop, WhiteRook, WhiteQueen, WhiteKing]
        = (List.range 6).map (fun p => makePiece p WHITE)
    ∧ [BlackPawn, BlackKnight, BlackBishop, BlackRook, BlackQueen, BlackKing]
        = (List.range 6).map (fun p => makePiece p BLACK)
    ∧ (∀ s, s < 64 → InversionTable.getD s 0 = s ^^^ 56)
    ∧ (∀ r s, r < 32 → s < 64 → (∀ p, p < 6 → r ≠ makePiece p WHITE ∧ r ≠ makePiece p BLACK) →
        (initalizePSQT V T).PSQTopening r s = 0 ∧ (initalizePSQT V T).PSQTendgame r s = 0) := by
  have hinv : ∀ s, s < 64 → InversionTable.getD s 0 = s ^^^ 56 := by decide
  have hinvlt : ∀ s, s < 64 → InversionTable.getD s 0 < 64 := by decide
  refine ⟨?_, fun p => rfl, by decide, by decide, hinv, ?_⟩
  · intro p s hp hs
    have hw : makePiece p WHITE = 4 * p := by unfold makePiece WHITE; omega
    have hb : makePiece p BLACK = 4 * p + 1 := by unfold makePiece BLACK; omega
    have hO := (blackLoop_spec (whiteLoop V (zeroLoop T)) (4 * p + 1) s).1
    have hE := (blackLoop_spec (whiteLoop V (zeroLoop T)) (4 * p + 1) s).2
    rw [if_pos ⟨by omega, by omega, hs⟩] at hO hE
    have hOw := (blackLoop_spec (whiteLoop V (zeroLoop T)) (4 * p)
      (InversionTable.getD s 0)).1
    have hEw := (blackLoop_spec (whiteLoop V (zeroLoop T)) (4 * p)
      (InversionTable.getD s 0)).2
    rw [if_neg (by omega)] at hOw hEw
    have hr := whiteLoop_range V (zeroLoop T) (4 * p) (InversionTable.getD s 0)
      ⟨by omega, by omega⟩ (hinvlt s hs)
    have e1 : 4 * p + 1 - 1 = 4 * p := by omega
    rw [e1] at hO hE
    unfold initalizePSQT
    rw [hw, hb, hO, hE, hOw, hEw]
    refine ⟨rfl, rfl, ?_, ?_⟩
    · intro hne
      exact toInt32_of_range _ ⟨by omega, by omega⟩
    · intro hne
      exact toInt32_of_range _ ⟨by omega, by omega⟩
  · intro r s hr hs hno
    have hrow : (r % 4 ≠ 0 ∧ r % 4 ≠ 1) ∨ 24 ≤ r := by
      by_contra hc
      have hlt : r / 4 < 6 := by omega
      have := hno (r / 4) hlt
      unfold makePiece WHITE BLACK at this
      omega
    have hO := (blackLoop_spec (whiteLoop V (zeroLoop T)) r s).1
    have hE := (blackLoop_spec (whiteLoop V (zeroLoop T)) r s).2
    rw [if_neg (by omega)] at hO hE
    have hf := whiteLoop_frame V (zeroLoop T) r s (by omega)
    have hz := zeroLoop_spec T r s hr hs
    unfold initalizePSQT
    rw [hO, hE, hf.1, hf.2]
    exact hz

/-! ## The `setoption` command -/

theorem strStartsWith_excl (s p q : List Char) (h : strStartsWith s p = true)
    (hne : p.take q.length ≠ q.take p.length) : strStartsWith s q = false := by
  unfold strStartsWith at h ⊢
  rw [decide_eq_true_eq] at h
  rw [decide_eq_false_iff_not]
  intro hq
  apply hne
  have e1 : (s.take p.length).take q.length = p.take q.length := by rw [h]
  have e2 : (s.take q.length).take p.length = q.take p.length := by rw [hq]
  rw [← e1, ← e2, List.take_take, List.take_take, Nat.min_comm]

/-- The settings after `uciSetOption` on a command for an option that takes a number. -/
theorem uciSetOption_spin (opt : SpinOption) (str n ptr : List Char) (o : Options) (v : Int)
    (h : strStartsWith str opt.command = true) (hv : numberIn str n = .ok v) :
    uciSetOption str n ptr o = .ok (opt.setTo v o) := by
  have x1 := strStartsWith_excl str opt.command "setoption name Hash value ".toList h
  have x2 := strStartsWith_excl str opt.command "setoption name Threads value ".toList h
  have x3 := strStartsWith_excl str opt.command "setoption name MultiPV value ".toList h
  have x4 := strStartsWith_excl str opt.command "setoption name MoveOverhead value ".toList h
  have x5 := strStartsWith_excl str opt.command "setoption name SyzygyPath value ".toList h
  have x6 := strStartsWith_excl str opt.command
    "setoption name SyzygyProbeDepth value ".toList h
  have x7 := strStartsWith_excl str opt.command "setoption name UCI_Chess960 value ".toList h
  unfold uciSetOption
  cases opt
  · have y2 := x2 (by decide)
    have y3 := x3 (by decide)
    have y4 := x4 (by decide)
    have y5 := x5 (by decide)
    have y6 := x6 (by decide)
    have y7 := x7 (by decide)
    have h1 : strStartsWith str "setoption name Hash value ".toList = true := h
    simp only [h1, y2, y3, y4, y5, y6, y7, hv, if_true, Bool.false_eq_true, if_false]
    rfl
  · have y1 := x1 (by decide)
    have y3 := x3 (by decide)
    have y4 := x4 (by decide)
    have y5 := x5 (by decide)
    have y6 := x6 (by decide)
    have y7 := x7 (by decide)
    have h1 : strStartsWith str "setoption name Threads value ".toList = true := h
    simp only [h1, y1, y3, y4, y5, y6, y7, hv, if_true, Bool.false_eq_true, if_false]
    rfl
  · have y1 := x1 (by decide)
    have y2 := x2 (by decide)
    have y4 := x4 (by decide)
    have y5 := x5 (by decide)
    have y6 := x6 (by decide)
    have y7 := x7 (by decide)
    have h1 : strStartsWith str "setoption name MultiPV value ".toList = true := h
    simp only [h1, y1, y2, y4, y5, y6, y7, hv, if_true, Bool.false_eq_true, if_false]
    rfl
  · have y1 := x1 (by decide)
    have y2 := x2 (by decide)
    have y3 := x3 (by decide)
    have y5 := x5 (by decide)
    have y6 := x6 (by decide)
    have y7 := x7 (by decide)
    have h1 : strStartsWith str "setoption name MoveOverhead value ".toList = true := h
    simp only [h1, y1, y2, y3, y5, y6, y7, hv, if_true, Bool.false_eq_true, if_false]
    rfl
  · have y1 := x1 (by decide)
    have y2 := x2 (by decide)
    have y3 := x3 (by decide)
    have y4 := x4 (by decide)
    have y5 := x5 (by decide)
    have y7 := x7 (by decide)
    have h1 : strStartsWith str "setoption name SyzygyProbeDepth value ".toList = true := h
    simp only [h1, y1, y2, y3, y4, y5, y7, hv, if_true, Bool.false_eq_true, if_false]
    rfl

set_option maxRecDepth 100000 in
/-- C21 fails on the code: `uciSetOption` fills the argument of `tb_init` with `numberIn`,
which copies the first run of digits of the command, not the text behind `value `. For
`setoption name SyzygyPath value /home/user/syzygy`, which holds no digit, the array `ptr` is
not written and `tb_init` gets whatever the array held, here `?/x`; for the path
`/tb/syzygy345` it gets `345`. -/
theorem uciSetOption_syzygyPath (n ptr : List Char) (o : Options) :
    uciSetOption sampleSyzygy n ptr o
      = (match readCString ptr with
        | .ok path => .ok { o with syzygyPath := path }
        | .error e => .error e)
    ∧ syzygyPathOf (uciSetOption sampleSyzygy sampleBuffer sampleBuffer sampleOptions)
        = some ['?', '/', 'x']
    ∧ syzygyPathOf (uciSetOption sampleSyzygyDigits sampleBuffer sampleBuffer sampleOptions)
        = some ['3', '4', '5'] := by
  refine ⟨?_, by decide, by decide⟩
  have y1 : strStartsWith sampleSyzygy "setoption name Hash value ".toList = false := by decide
  have y2 : strStartsWith sampleSyzygy "setoption name Threads value ".toList = false := by
    decide
  have y3 : strStartsWith sampleSyzygy "setoption name MultiPV value ".toList = false := by
    decide
  have y4 : strStartsWith sampleSyzygy "setoption name MoveOverhead value ".toList = false := by
    decide
  have y5 : strStartsWith sampleSyzygy "setoption name SyzygyPath value ".toList = true := by
    decide
  have y6 : strStartsWith sampleSyzygy "setoption name SyzygyProbeDepth value ".toList
      = false := by decide
  have y7 : strStartsWith sampleSyzygy "setoption name UCI_Chess960 value ".toList = false := by
    decide
  have hfd : firstDigit sampleSyzygy = none := by decide
  have hinto : numberInto sampleSyzygy ptr = .ok (false, ptr) := by
    unfold numberInto numberInCopy
    rw [hfd]
  unfold uciSetOption
  simp only [y1, y2, y3, y4, y5, y6, y7, hinto, if_true, Bool.false_eq_true, if_false]
  cases readCString ptr <;> rfl

set_option maxRecDepth 100000 in
/-- C22 fails on the code: `setoption name MultiPV value 0` sets `multiPV` to 0, outside the
declared range from 1 to 256, where it was 1 before; and the malformed value `abc` sets it to
0 as well. -/
theorem uciSetOption_out_of_range :
    sampleOptions.multiPV = 1
    ∧ ¬ SpinOption.declared .MultiPV 0
    ∧ multiPVOf (uciSetOption sampleMultiPV sampleBuffer sampleBuffer sampleOptions) = some 0
    ∧ multiPVOf (uciSetOption sampleMultiPVText sampleBuffer sampleBuffer sampleOptions)
        = some 0 := by
  refine ⟨rfl, ?_, by decide, by decide⟩
  unfold SpinOption.declared
  decide

/-- C22 (amended): `uciSetOption` makes no test of the value. For a command that begins with
`setoption name X value ` for `X` one of `Hash`, `Threads`, `MultiPV`, `MoveOverhead` and
`SyzygyProbeDepth`, the option is set to the number `numberIn` returns for the command,
whatever it is, and no other setting changes; `TB_PROBE_DEPTH`, which is `unsigned`, holds
that number modulo `2^32`. -/
theorem uciSetOption_stores (opt : SpinOption) (str n ptr : List Char) (o : Options) (v : Int)
    (h : strStartsWith str opt.command = true) (hv : numberIn str n = .ok v) :
    uciSetOption str n ptr o = .ok (opt.setTo v o)
    ∧ (opt ≠ .SyzygyProbeDepth → opt.read (opt.setTo v o) = v)
    ∧ (opt = .SyzygyProbeDepth → opt.read (opt.setTo v o) = v % 4294967296)
    ∧ (∀ other : SpinOption, other ≠ opt → other.read (opt.setTo v o) = other.read o)
    ∧ (opt.setTo v o).syzygyPath = o.syzygyPath
    ∧ (opt.setTo v o).chess960 = o.chess960 := by
  refine ⟨uciSetOption_spin opt str n ptr o v h hv, ?_, ?_, ?_, ?_, ?_⟩
  · intro hne
    cases opt
    · rfl
    · rfl
    · rfl
    · rfl
    · exact absurd rfl hne
  · intro he
    rw [he]
    show (((v % 4294967296).toNat : Nat) : Int) = v % 4294967296
    omega
  · intro other hne
    cases opt <;> cases other <;> first | rfl | exact absurd rfl hne
  · cases opt <;> rfl
  · cases opt <;> rfl

set_option maxRecDepth 100000 in
/-- Witness of C22 (amended) at `setoption name MultiPV value 0`: `numberIn` returns 0 and
`multiPV` is set to 0. -/
theorem uciSetOption_stores_witness :
    strStartsWith sampleMultiPV SpinOption.MultiPV.command = true
    ∧ numberIn sampleMultiPV sampleBuffer = .ok 0
    ∧ uciSetOption sampleMultiPV sampleBuffer sampleBuffer sampleOptions
        = .ok { sampleOptions with multiPV := 0 } := by
  have h1 : strStartsWith sampleMultiPV SpinOption.MultiPV.command = true := by decide
  have h2 : numberIn sampleMultiPV sampleBuffer = .ok 0 := by rfl
  exact ⟨h1, h2, (uciSetOption_stores .MultiPV sampleMultiPV sampleBuffer sampleBuffer
    sampleOptions 0 h1 h2).1⟩

/-! ## The promotion piece and the two sentinels -/

theorem shiftRight_or_flag (lo k : Nat) (h : lo < 16384) :
    (lo ||| (k <<< 14)) >>> 14 = k := by
  apply Nat.eq_of_testBit_eq
  intro i
  have hlo : lo < 2 ^ 14 := h
  rw [Nat.testBit_shiftRight, Nat.testBit_or, Nat.testBit_shiftLeft,
    testBit_false_of_lt hlo (by omega), Bool.false_or,
    decide_eq_true (show 14 + i ≥ 14 by omega), Bool.true_and, Nat.add_sub_cancel_left]

/-- C31: for every 16-bit move, `MovePromoPiece` lies between 1 and 4, so it is neither `PAWN`
nor `KING`; on a move with the flag `PROMOTE_TO_KNIGHT`, `PROMOTE_TO_BISHOP`,
`PROMOTE_TO_ROOK`, `PROMOTE_TO_QUEEN` it is `KNIGHT` (1), `BISHOP` (2), `ROOK` (3), `QUEEN`
(4), whatever the 14 bits of source square, target square and type are. -/
theorem movePromoPiece_range (move : Nat) (h : move < 65536) :
    1 ≤ MovePromoPiece move ∧ MovePromoPiece move ≤ 4
    ∧ MovePromoPiece move ≠ PAWN ∧ MovePromoPiece move ≠ KING
    ∧ (MovePromoPiece move = KNIGHT ∨ MovePromoPiece move = BISHOP
        ∨ MovePromoPiece move = ROOK ∨ MovePromoPiece move = QUEEN)
    ∧ (∀ lo, lo < 16384 →
        MovePromoPiece (lo ||| PROMOTE_TO_KNIGHT) = KNIGHT
        ∧ MovePromoPiece (lo ||| PROMOTE_TO_BISHOP) = BISHOP
        ∧ MovePromoPiece (lo ||| PROMOTE_TO_ROOK) = ROOK
        ∧ MovePromoPiece (lo ||| PROMOTE_TO_QUEEN) = QUEEN)
    ∧ (∀ src dst flag, src < 64 → dst < 64 → flag < 4 →
        MoveMake src dst (flag <<< 12) < 16384)
    ∧ KNIGHT = 1 ∧ BISHOP = 2 ∧ ROOK = 3 ∧ QUEEN = 4 := by
  have hm : MovePromoPiece move = 1 + move / 16384 := by
    unfold MovePromoPiece
    rw [Nat.shiftRight_eq_div_pow]
  have hq : move / 16384 < 4 := by omega
  refine ⟨by omega, by omega, ?_, ?_, ?_, ?_, ?_, rfl, rfl, rfl, rfl⟩
  · unfold PAWN; omega
  · unfold KING; omega
  · unfold KNIGHT BISHOP ROOK QUEEN; omega
  · intro lo hlo
    unfold MovePromoPiece PROMOTE_TO_KNIGHT PROMOTE_TO_BISHOP PROMOTE_TO_ROOK PROMOTE_TO_QUEEN
    rw [shiftRight_or_flag lo 0 hlo, shiftRight_or_flag lo 1 hlo, shiftRight_or_flag lo 2 hlo,
      shiftRight_or_flag lo 3 hlo]
    exact ⟨rfl, rfl, rfl, rfl⟩
  · intro src dst flag h1 h2 h3
    unfold MoveMake
    have e : (16384 : Nat) = 2 ^ 14 := by decide
    rw [e]
    apply Nat.or_lt_two_pow
    · apply Nat.or_lt_two_pow
      · omega
      · rw [Nat.shiftLeft_eq]; omega
    · rw [Nat.shiftLeft_eq]; omega

/-- Witness of C31 at the promotion to a queen of the pawn on e7 taking on d8. -/
theorem movePromoPiece_range_witness :
    MoveMake 52 59 (PROMOTION_MOVE ||| PROMOTE_TO_QUEEN) < 65536
    ∧ MovePromoPiece (MoveMake 52 59 (PROMOTION_MOVE ||| PROMOTE_TO_QUEEN)) ≠ PAWN :=
  ⟨by decide,
    (movePromoPiece_range (MoveMake 52 59 (PROMOTION_MOVE ||| PROMOTE_TO_QUEEN))
      (by decide)).2.2.1⟩

/-- C36: the two sentinels are distinct. `NONE_MOVE` decodes to the source square 0, the target
square 0 and the normal type, a displacement by nothing; `NULL_MOVE`, which is 11, decodes to
the source square 11 (d2), the target square 0 (a1) and the normal type, a displacement by 3
files and 1 rank. Neither displacement is a step of a king, knight, rook, bishop, queen or
pawn. -/
theorem sentinels_no_move :
    NONE_MOVE ≠ NULL_MOVE
    ∧ MoveFrom NONE_MOVE = 0 ∧ MoveTo NONE_MOVE = 0 ∧ MoveType NONE_MOVE = NORMAL_MOVE
    ∧ NULL_MOVE = 11
    ∧ MoveFrom NULL_MOVE = 11 ∧ MoveTo NULL_MOVE = 0 ∧ MoveType NULL_MOVE = NORMAL_MOVE
    ∧ (11 : Nat) = 1 * 8 + 3
    ∧ fileDistance (MoveFrom NULL_MOVE) (MoveTo NULL_MOVE) = 3
    ∧ rankDistance (MoveFrom NULL_MOVE) (MoveTo NULL_MOVE) = 1
    ∧ ¬ pieceStep (fileDistance (MoveFrom NULL_MOVE) (MoveTo NULL_MOVE))
        (rankDistance (MoveFrom NULL_MOVE) (MoveTo NULL_MOVE))
    ∧ ¬ pieceStep (fileDistance (MoveFrom NONE_MOVE) (MoveTo NONE_MOVE))
        (rankDistance (MoveFrom NONE_MOVE) (MoveTo NONE_MOVE)) := by
  refine ⟨by decide, by decide, by decide, by decide, rfl, by decide, by decide, by decide,
    by decide, by decide, by decide, by decide, by decide⟩

/-! ## The frame of `revertNullMove` -/

/-- C37: `revertNullMove` leaves squares, every piece and colour bitboard, `castleRooks`,
`castleMasks`, `pkhash`, `psqtmat`, `fullMoveCounter`, `chess960` and the history as they
were; the turn is negated, `numMoves` is one less and `kingAttackers` is 0, the hash, the
en-passant square and the half-move clock are those of the undo record. So the result is a
given board only if that board has no king attackers, in particular the board before
`applyNullMove`. -/
theorem revertNullMove_frame (board : Board) (undo : Undo) :
    (revertNullMove board undo).squares = board.squares
    ∧ (revertNullMove board undo).pieces = board.pieces
    ∧ (revertNullMove board undo).colours = board.colours
    ∧ (revertNullMove board undo).castleRooks = board.castleRooks
    ∧ (revertNullMove board undo).castleMasks = board.castleMasks
    ∧ (revertNullMove board undo).pkhash = board.pkhash
    ∧ (revertNullMove board undo).psqtmat = board.psqtmat
    ∧ (revertNullMove board undo).fullMoveCounter = board.fullMoveCounter
    ∧ (revertNullMove board undo).chess960 = board.chess960
    ∧ (revertNullMove board undo).history = board.history
    ∧ (revertNullMove board undo).turn = (if board.turn = 0 then 1 else 0)
    ∧ (revertNullMove board undo).numMoves = board.numMoves - 1
    ∧ (revertNullMove board undo).kingAttackers = 0
    ∧ (revertNullMove board undo).hash = undo.hash
    ∧ (revertNullMove board undo).epSquare = undo.epSquare
    ∧ (revertNullMove board undo).halfMoveCounter = undo.halfMoveCounter
    ∧ (∀ before : Board, revertNullMove board undo = before → before.kingAttackers = 0)
    ∧ (∀ (T : Tables) (before : Board) (u : Undo),
        revertNullMove (applyNullMove T before u).1 (applyNullMove T before u).2 = before →
        before.kingAttackers = 0) := by
  refine ⟨rfl, rfl, rfl, rfl, rfl, rfl, rfl, rfl, rfl, rfl, rfl, rfl, rfl, rfl, rfl, rfl, ?_, ?_⟩
  · intro before h
    rw [← h]
    rfl
  · intro T before u h
    have := congrArg Board.kingAttackers h
    rw [← this]
    rfl

/-! ## Repetitions and the height -/

/-- C34: `boardDrawnByRepetition` is monotone in the height: for heights `h ≤ k`, a non-zero
result at `h` gives a non-zero result at `k`. At height 0 the result is non-zero exactly when
two different scanned indices hold the current hash, so one earlier occurrence is never
enough. -/
theorem boardDrawnByRepetition_mono (board : Board) (h k : Int) (hle : h ≤ k) :
    (boardDrawnByRepetition board h ≠ 0 → boardDrawnByRepetition board k ≠ 0)
    ∧ (boardDrawnByRepetition board 0 ≠ 0
        ↔ ∃ i j : Int, i ≠ j ∧ repetitionAt board i ∧ repetitionAt board j)
    ∧ ((∀ i j : Int, repetitionAt board i → repetitionAt board j → i = j) →
        boardDrawnByRepetition board 0 = 0) := by
  have h0 : boardDrawnByRepetition board 0 ≠ 0
      ↔ ∃ i j : Int, i ≠ j ∧ repetitionAt board i ∧ repetitionAt board j := by
    rw [repetition_drawn_iff]
    constructor
    · rintro (⟨i, hi, hgt⟩ | h2)
      · exfalso
        have := hi.1.2.1
        omega
      · exact h2
    · exact Or.inr
  refine ⟨?_, h0, ?_⟩
  · rw [repetition_drawn_iff, repetition_drawn_iff]
    rintro (⟨i, hi, hgt⟩ | h2)
    · exact Or.inl ⟨i, hi, by omega⟩
    · exact Or.inr h2
  · intro hone
    by_contra hne
    obtain ⟨i, j, hij, hi, hj⟩ := h0.mp hne
    exact hij (hone i j hi hj)

/-- Witness of C34 on a board whose hash stands at the history indices 0 and 4: the draw at
height 0 is a draw at height 3. -/
theorem boardDrawnByRepetition_mono_witness :
    (0 : Int) ≤ 3 ∧ boardDrawnByRepetition sampleRepeated 0 ≠ 0
    ∧ boardDrawnByRepetition sampleRepeated 3 ≠ 0 := by
  have h0 : boardDrawnByRepetition sampleRepeated 0 ≠ 0 := by decide
  exact ⟨by decide, h0, (boardDrawnByRepetition_mono sampleRepeated 0 3 (by decide)).1 h0⟩

/-! ## The reads of the history -/

theorem repetitionReads_mem (board : Board) (height : Int) :
    ∀ (fuel : Nat) (i reps j : Int), j ∈ repetitionReads board height fuel i reps →
      0 ≤ j ∧ j ≤ i ∧ board.numMoves - board.halfMoveCounter ≤ j ∧ (i - j) % 2 = 0
  | 0, i, reps, j, h => by
    rw [repetitionReads] at h
    cases h
  | fuel + 1, i, reps, j, h => by
    rw [repetitionReads] at h
    by_cases h1 : ¬ (i ≥ 0)
    · rw [if_pos h1] at h
      cases h
    · rw [if_neg h1] at h
      by_cases h2 : i < board.numMoves - board.halfMoveCounter
      · rw [if_pos h2] at h
        cases h
      · rw [if_neg h2] at h
        rcases List.mem_cons.mp h with e | hin
        · rw [e]
          omega
        · have hrec : ∀ r, j ∈ repetitionReads board height fuel (i - 2) r →
              0 ≤ j ∧ j ≤ i ∧ board.numMoves - board.halfMoveCounter ≤ j
                ∧ (i - j) % 2 = 0 := by
            intro r hr
            have := repetitionReads_mem board height fuel (i - 2) r j hr
            omega
          by_cases h3 : board.history i.toNat = board.hash
          · rw [if_pos h3] at hin
            by_cases h4 : i > board.numMoves - height
            · rw [if_pos h4] at hin
              cases hin
            · rw [if_neg h4] at hin
              by_cases h5 : reps + 1 = 2
              · rw [if_pos h5] at hin
                cases hin
              · rw [if_neg h5] at hin
                exact hrec _ hin
          · rw [if_neg h3] at hin
            exact hrec _ hin

theorem repetitionReads_fuel (board : Board) (height : Int) (k : Nat) :
    ∀ (fuel : Nat) (i reps : Int), i < 2 * (fuel : Int) →
      repetitionReads board height (fuel + k) i reps = repetitionReads board height fuel i reps
  | 0, i, reps, h => by
    have hneg : ¬ (i ≥ 0) := by omega
    cases k with
    | zero => rfl
    | succ k =>
      rw [Nat.zero_add, repetitionReads, repetitionReads, if_pos hneg]
  | fuel + 1, i, reps, h => by
    have e : fuel + 1 + k = (fuel + k) + 1 := by omega
    have hi : i - 2 < 2 * (fuel : Int) := by omega
    rw [e, repetitionReads, repetitionReads,
      repetitionReads_fuel board height k fuel (i - 2) (reps + 1) hi,
      repetitionReads_fuel board height k fuel (i - 2) reps hi]

/-- C35: every index at which `boardDrawnByRepetition` reads `board.history` is at least 0 and
at most `numMoves - 2`, so with `0 ≤ numMoves < 512` it is below 512 and below `numMoves`;
with `numMoves < 2` or `halfMoveCounter < 2` the function reads nothing and returns 0. The
reads are the same however many more passes the loop is allowed. -/
theorem boardDrawnByRepetition_reads (board : Board) (height : Int) :
    (∀ j, j ∈ repetitionReads board height board.numMoves.toNat (board.numMoves - 2) 0 →
        0 ≤ j ∧ j ≤ board.numMoves - 2 ∧ board.numMoves - board.halfMoveCounter ≤ j)
    ∧ (0 ≤ board.numMoves → board.numMoves < 512 →
        ∀ j, j ∈ repetitionReads board height board.numMoves.toNat (board.numMoves - 2) 0 →
          j.toNat < 512 ∧ j < board.numMoves)
    ∧ (board.numMoves < 2 ∨ board.halfMoveCounter < 2 →
        repetitionReads board height board.numMoves.toNat (board.numMoves - 2) 0 = []
        ∧ boardDrawnByRepetition board height = 0)
    ∧ (∀ k, repetitionReads board height (board.numMoves.toNat + k) (board.numMoves - 2) 0
        = repetitionReads board height board.numMoves.toNat (board.numMoves - 2) 0) := by
  have hmem := repetitionReads_mem board height board.numMoves.toNat (board.numMoves - 2) 0
  refine ⟨?_, ?_, ?_, ?_⟩
  · intro j hj
    have := hmem j hj
    omega
  · intro h0 h512 j hj
    have := hmem j hj
    omega
  · intro hsmall
    unfold boardDrawnByRepetition
    cases hf : board.numMoves.toNat with
    | zero => exact ⟨rfl, rfl⟩
    | succ f =>
      rw [repetitionReads, repetitionLoop]
      by_cases h1 : ¬ (board.numMoves - 2 ≥ 0)
      · rw [if_pos h1, if_pos h1]
        exact ⟨rfl, rfl⟩
      · have h2 : board.numMoves - 2 < board.numMoves - board.halfMoveCounter := by omega
        rw [if_neg h1, if_pos h2, if_neg h1, if_pos h2]
        exact ⟨rfl, rfl⟩
  · intro k
    exact repetitionReads_fuel board height k _ _ _ (by omega)

/-! ## The cursor of the `position` command -/

set_option maxRecDepth 100000 in
/-- C32 fails on the code: on `position startpos moves e2e4`, whose terminator stands at offset
28, the pass over the token copies the five characters from offset 24 on, the terminator
among them, and leaves the cursor at offset 29; the read `*ptr` of the loop that skips the
blanks is then a read behind the terminator. -/
theorem uciPosition_reads_past_end (ops : MoveOps) (G : MoveGen) (L : Locals) (undo : Undo)
    (board : Board) :
    samplePosition.length = 28
    ∧ readMove samplePosition 24 = .ok ['e', '2', 'e', '4', Char.ofNat 0]
    ∧ charAt samplePosition (24 + 5) = .error .undefinedCall
    ∧ skipBlanks samplePosition (24 + 5) = .error .undefinedCall
    ∧ positionStep ops G L undo samplePosition 24 board = .error .undefinedCall
    ∧ uciPosition ops G sampleTables L undo samplePosition board 0
        = .error .undefinedCall := by
  have hlen : samplePosition.length = 28 := by decide
  have hs : ∀ b1, positionStep ops G L undo samplePosition 24 b1 = .error .undefinedCall := by
    intro b1
    unfold positionStep readMove skipBlanks
    rw [if_pos (by rw [hlen]), if_neg (by rw [hlen]; decide)]
  refine ⟨hlen, by rfl, by rfl, by rfl, hs board, ?_⟩
  have hsq : squareOf (boardFromFEN sampleTables StartPosition 0) 12
      = some (makePiece PAWN WHITE) := by decide
  have h1 : strContains samplePosition "fen ".toList = none := by decide
  have h2 : strContains samplePosition "startpos".toList = some 9 := by decide
  have h3 : strContains samplePosition "moves ".toList = some 18 := by decide
  unfold uciPosition uciPositionReset
  rw [h1, h2, h3]
  dsimp only
  cases hb : boardFromFEN sampleTables StartPosition 0 with
  | error e =>
    rw [hb] at hsq
    cases hsq
  | ok b1 =>
    dsimp only
    have hc : charAt samplePosition 24 = .ok 'e' := by rfl
    rw [hlen]
    show (match positionLoop ops G L undo samplePosition (28 + 1) (18 + 6) b1 with
      | some r => r
      | none => .error .undefinedCall) = _
    rw [positionLoop, hc]
    dsimp only
    rw [if_neg (by decide), hs b1]

/-! ## The number in a command -/

theorem firstDigit_none (s : List Char) (h : ∀ x ∈ s, isdigit x = false) :
    firstDigit s = none := by
  induction s with
  | nil => rfl
  | cons a t ih =>
    have ha := h a (List.mem_cons_self a t)
    rw [firstDigit, ha, ih (fun x hx => h x (List.mem_cons_of_mem a hx))]
    rfl

theorem firstDigit_append (pre t : List Char) (d : Char)
    (h : ∀ x ∈ pre, isdigit x = false) (hd : isdigit d = true) :
    firstDigit (pre ++ d :: t) = some pre.length := by
  induction pre with
  | nil =>
    rw [List.nil_append, firstDigit, if_pos hd]
    rfl
  | cons a p ih =>
    have ha := h a (List.mem_cons_self a p)
    rw [List.cons_append, firstDigit, ha, ih (fun x hx => h x (List.mem_cons_of_mem a hx))]
    rfl

theorem takeWhile_run (p : Char → Bool) : ∀ (run rest : List Char),
    (∀ x ∈ run, p x = true) → (∀ x, rest.head? = some x → p x = false) →
    (run ++ rest).takeWhile p = run
  | [], rest, _, hr => by
    cases rest with
    | nil => rfl
    | cons x r =>
      have hx : ¬ (p x = true) := by
        rw [hr x rfl]
        exact Bool.false_ne_true
      rw [List.nil_append, List.takeWhile_cons, if_neg hx]
  | a :: run, rest, hd, hr => by
    rw [List.cons_append, List.takeWhile_cons, if_pos (hd a (List.mem_cons_self a run)),
      takeWhile_run p run rest (fun x hx => hd x (List.mem_cons_of_mem a hx)) hr]

/-- Writing a text over a stretch of the buffer of the same length. -/
theorem putAll_splice : ∀ (text old pre post : List Char), old.length = text.length →
    putAll (pre ++ old ++ post) pre.length text = .ok (pre ++ text ++ post)
  | [], old, pre, post, h => by
    have e : old = [] := List.length_eq_zero.mp h
    rw [e, putAll]
  | ch :: rest, old, pre, post, h => by
    cases old with
    | nil => cases h
    | cons o old1 =>
      have hlen : old1.length = rest.length := by simpa using h
      have hput : put (pre ++ (o :: old1) ++ post) pre.length ch
          = .ok ((pre ++ [ch]) ++ old1 ++ post) := by
        unfold put
        rw [if_pos (by simp)]
        congr 1
        simp
      have ih := putAll_splice rest old1 (pre ++ [ch]) post hlen
      rw [List.length_append, List.length_singleton] at ih
      rw [putAll, hput]
      dsimp only
      rw [ih]
      simp

/-- The value that `atoi` reads from an optional `-`, a run of at most 9 digits and a text that
does not go on with a digit. -/
theorem atoi_signed (run tail : List Char) (neg : Bool) (hne : run ≠ [])
    (hdig : ∀ x ∈ run, isdigit x = true)
    (htail : ∀ x, tail.head? = some x → isdigit x = false) (hlen : run.length ≤ 9) :
    atoi ((if neg = true then ['-'] else []) ++ run ++ tail)
      = .ok (if neg = true then -(digitsValue run 0 : Int) else (digitsValue run 0 : Int)) := by
  have htake : List.takeWhile isdigit (run ++ tail) = run := takeWhile_run isdigit run tail hdig htail
  have hbound := digitsValue_lt run 0 hdig
  have hpow : 10 ^ run.length ≤ 10 ^ 9 := Nat.pow_le_pow_right (by decide) hlen
  have hv : digitsValue run 0 < 1000000000 := by
    have : (0 + 1) * 10 ^ run.length ≤ 10 ^ 9 := by simpa using hpow
    exact Nat.lt_of_lt_of_le hbound (by simpa using this)
  cases run with
  | nil => exact absurd rfl hne
  | cons c cs =>
    have hc : isdigit c = true := hdig c (List.mem_cons_self c cs)
    have hc1 : 48 ≤ c.toNat ∧ c.toNat ≤ 57 := by
      simpa only [isdigit, decide_eq_true_eq] using hc
    have hsp : ¬ (decide (c = ' ' ∨ (9 ≤ c.toNat ∧ c.toNat ≤ 13)) = true) := by
      rw [decide_eq_true_eq]
      rintro (rfl | h)
      · exact absurd hc (by decide)
      · omega
    have hminus : c ≠ '-' := by rintro rfl; exact absurd hc (by decide)
    have hplus : c ≠ '+' := by rintro rfl; exact absurd hc (by decide)
    have htake1 : List.takeWhile isdigit (c :: (cs ++ tail)) = c :: cs := htake
    cases neg with
    | false =>
      have hdrop : List.dropWhile
          (fun c : Char => decide (c = ' ' ∨ (9 ≤ c.toNat ∧ c.toNat ≤ 13)))
          (c :: (cs ++ tail)) = c :: (cs ++ tail) :=
        List.dropWhile_cons_of_neg hsp
      unfold atoi
      simp only [Bool.false_eq_true, if_false, List.nil_append, List.cons_append]
      simp only [hdrop, List.head?_cons, Option.some.injEq, hminus, hplus, or_self, if_false,
        htake1]
      rw [if_neg (by omega)]
    | true =>
      have hsp2 : ¬ (decide ('-' = ' ' ∨ (9 ≤ '-'.toNat ∧ '-'.toNat ≤ 13)) = true) := by
        decide
      have hdrop : List.dropWhile
          (fun c : Char => decide (c = ' ' ∨ (9 ≤ c.toNat ∧ c.toNat ≤ 13)))
          ('-' :: c :: (cs ++ tail)) = '-' :: c :: (cs ++ tail) :=
        List.dropWhile_cons_of_neg hsp2
      rw [if_pos rfl, if_pos rfl]
      unfold atoi
      simp only [List.singleton_append, List.cons_append, List.append_assoc, List.nil_append]
      simp only [hdrop, List.head?_cons, true_or, if_true, List.drop_succ_cons, List.drop_zero,
        htake1]
      rw [if_neg (by omega)]

/-- The value of `numberIn` on a text whose first run of digits stands behind the character
`c`: the run is read as a decimal number and negated when `c` is `-`, as long as the sign, the
run and the character behind it fit the buffer of 9 characters. -/
theorem numberIn_run (pre run rest n : List Char) (c : Char)
    (hpre : ∀ x ∈ pre, isdigit x = false) (hc : isdigit c = false)
    (hne : run ≠ []) (hdig : ∀ x ∈ run, isdigit x = true)
    (hrest : ∀ x, rest.head? = some x → isdigit x = false)
    (hn : n.length = 9) (hlen : (if c = '-' then 1 else 0) + run.length ≤ 8) :
    numberIn (pre ++ c :: (run ++ rest)) n
      = .ok (if c = '-' then -(digitsValue run 0 : Int) else (digitsValue run 0 : Int)) := by
  cases hrun : run with
  | nil => exact absurd hrun hne
  | cons d run1 =>
    have hd : isdigit d = true := hdig d (by rw [hrun]; exact List.mem_cons_self d run1)
    have hpre1 : ∀ x ∈ pre ++ [c], isdigit x = false := by
      intro x hx
      rcases List.mem_append.mp hx with h | h
      · exact hpre x h
      · rw [List.mem_singleton.mp h]
        exact hc
    have hs : pre ++ c :: (d :: run1 ++ rest) = (pre ++ [c]) ++ d :: (run1 ++ rest) := by simp
    have hfirst : firstDigit (pre ++ c :: (d :: run1 ++ rest)) = some (pre.length + 1) := by
      rw [hs, firstDigit_append _ _ d hpre1 hd, List.length_append, List.length_singleton]
    have hprev : (pre ++ c :: (d :: run1 ++ rest)).getD (pre.length + 1 - 1) (Char.ofNat 0)
        = c := by
      rw [Nat.add_sub_cancel, List.getD_eq_getElem?_getD,
        List.getElem?_append_right (Nat.le_refl _), Nat.sub_self]
      rfl
    have hdrop : (pre ++ c :: (d :: run1 ++ rest)).drop (pre.length + 1)
        = d :: run1 ++ rest := by
      rw [hs]
      exact List.drop_left' (by simp)
    have htake : ((pre ++ c :: (d :: run1 ++ rest)).drop (pre.length + 1)).takeWhile isdigit
        = d :: run1 := by
      rw [hdrop]
      exact takeWhile_run isdigit (d :: run1) rest (by rw [← hrun]; exact hdig) hrest
    have hbehind : (pre ++ c :: (d :: run1 ++ rest)).getD
        (pre.length + 1 + (d :: run1).length) (Char.ofNat 0)
        = rest.getD 0 (Char.ofNat 0) := by
      have e : pre ++ c :: (d :: run1 ++ rest) = (pre ++ c :: d :: run1) ++ rest := by simp
      have el : pre.length + 1 + (d :: run1).length = (pre ++ c :: d :: run1).length := by
        simp
        omega
      rw [e, el, List.getD_eq_getElem?_getD, List.getD_eq_getElem?_getD,
        List.getElem?_append_right (Nat.le_refl _), Nat.sub_self]
    have ht : isdigit (rest.getD 0 (Char.ofNat 0)) = false := by
      cases rest with
      | nil => decide
      | cons x r => exact hrest x rfl
    have hl : run.length = run1.length + 1 := by rw [hrun]; rfl
    rw [hl] at hlen
    unfold numberIn numberInCopy
    rw [hfirst]
    dsimp only
    rw [if_neg (Nat.succ_ne_zero _), hprev, htake, hbehind]
    by_cases hm : c = '-'
    · rw [if_pos hm, if_pos hm] at *
      have hsplit : n = [] ++ n.take (1 + (run1.length + 1) + 1)
          ++ n.drop (1 + (run1.length + 1) + 1) := by simp
      have hput := putAll_splice (['-'] ++ d :: run1 ++ [rest.getD 0 (Char.ofNat 0)])
        (n.take (1 + (run1.length + 1) + 1)) [] (n.drop (1 + (run1.length + 1) + 1))
        (by simp; omega)
      rw [← hsplit] at hput
      rw [show ([] : List Char).length = 0 from rfl] at hput
      rw [hput]
      dsimp only
      have hat := atoi_signed (d :: run1)
        (rest.getD 0 (Char.ofNat 0) :: n.drop (1 + (run1.length + 1) + 1)) true
        (List.cons_ne_nil _ _) (by rw [← hrun]; exact hdig)
        (by intro x hx; rw [List.head?_cons, Option.some.injEq] at hx; rw [← hx]; exact ht)
        (by simp; omega)
      rw [if_pos rfl, if_pos rfl] at hat
      rw [← hat]
      congr 1
      simp
    · rw [if_neg hm, if_neg hm] at *
      have hsplit : n = [] ++ n.take (0 + (run1.length + 1) + 1)
          ++ n.drop (0 + (run1.length + 1) + 1) := by simp
      have hput := putAll_splice ([] ++ d :: run1 ++ [rest.getD 0 (Char.ofNat 0)])
        (n.take (0 + (run1.length + 1) + 1)) [] (n.drop (0 + (run1.length + 1) + 1))
        (by simp; omega)
      rw [← hsplit] at hput
      rw [show ([] : List Char).length = 0 from rfl] at hput
      rw [hput]
      dsimp only
      have hat := atoi_signed (d :: run1)
        (rest.getD 0 (Char.ofNat 0) :: n.drop (0 + (run1.length + 1) + 1)) false
        (List.cons_ne_nil _ _) (by rw [← hrun]; exact hdig)
        (by intro x hx; rw [List.head?_cons, Option.some.injEq] at hx; rw [← hx]; exact ht)
        (by simp; omega)
      rw [if_neg Bool.false_ne_true, if_neg Bool.false_ne_true] at hat
      rw [← hat]
      congr 1
      simp

/-- A text that is longer than what is left of the buffer is written behind its end. -/
theorem putAll_overflow : ∀ (text fen : List Char) (i : Nat), i ≤ fen.length →
    fen.length < i + text.length → putAll fen i text = .error .undefinedCall
  | [], fen, i, hi, h => by
    rw [List.length_nil] at h
    omega
  | ch :: rest, fen, i, _, h => by
    rw [putAll]
    unfold put
    by_cases hi : i < fen.length
    · rw [if_pos hi]
      dsimp only
      exact putAll_overflow rest (fen.set i ch) (i + 1)
        (by rw [List.length_set]; omega)
        (by rw [List.length_set]; rw [List.length_cons] at h; omega)
    · rw [if_neg hi]

/-- C39, amended: on a text whose first run of digits stands behind a character `c`, the
function `numberIn` returns the number that the run denotes, negated when `c` is `-`, as long
as the run has at most 8 digits and at most 7 behind a `-` (the sign, the run and the
character behind it are copied into a buffer of 9 characters); on a text without a digit it
returns 0. -/
theorem numberIn_value (pre run rest n : List Char) (c : Char)
    (hpre : ∀ x ∈ pre, isdigit x = false) (hc : isdigit c = false)
    (hne : run ≠ []) (hdig : ∀ x ∈ run, isdigit x = true)
    (hrest : ∀ x, rest.head? = some x → isdigit x = false)
    (hn : n.length = 9) (hlen : (if c = '-' then 1 else 0) + run.length ≤ 8) :
    numberIn (pre ++ c :: (run ++ rest)) n
        = .ok (if c = '-' then -(digitsValue run 0 : Int) else (digitsValue run 0 : Int))
    ∧ digitsValue run 0 < 10 ^ run.length
    ∧ (∀ s m : List Char, (∀ x ∈ s, isdigit x = false) → numberIn s m = .ok 0) := by
  refine ⟨numberIn_run pre run rest n c hpre hc hne hdig hrest hn hlen, ?_, ?_⟩
  · have := digitsValue_lt run 0 hdig
    simpa using this
  · intro s m hs
    unfold numberIn numberInCopy
    rw [firstDigit_none s hs]

/-- Witness of C39 at `setoption name Hash value 128`, which yields 128. -/
theorem numberIn_value_witness :
    numberIn "setoption name Hash value 128".toList sampleBuffer = .ok 128 :=
  (numberIn_value "setoption name Hash value".toList "128".toList [] sampleBuffer ' '
    (by decide) (by decide) (by decide) (by decide) (by decide) (by decide) (by decide)).1

/-- C39 fails as stated: in `setoption name Hash value -12345678` the first run of digits has
8 digits, does not start at index 0 and stands behind a `-`; the sign, the 8 digits and the
terminator are 10 characters, and the last of them is written behind the end of the buffer of
9 characters, whatever the buffer held. -/
theorem numberIn_overflows :
    firstDigit "setoption name Hash value -12345678".toList = some 27
    ∧ (("setoption name Hash value -12345678".toList.drop 27).takeWhile isdigit).length = 8
    ∧ sampleBuffer.length = 9
    ∧ numberIn "setoption name Hash value -12345678".toList sampleBuffer
        = .error .undefinedCall
    ∧ (∀ n : List Char, n.length = 9 →
        numberIn "setoption name Hash value -12345678".toList n = .error .undefinedCall) := by
  have hall : ∀ n : List Char, n.length = 9 →
      numberIn "setoption name Hash value -12345678".toList n = .error .undefinedCall := by
    intro n hn
    have hfirst : firstDigit "setoption name Hash value -12345678".toList = some 27 := by
      decide
    unfold numberIn numberInCopy
    rw [hfirst]
    dsimp only
    rw [if_neg (by decide), putAll_overflow _ n 0 (Nat.zero_le _) (by rw [hn]; decide)]
  exact ⟨by decide, by decide, by decide, hall sampleBuffer (by decide), hall⟩

/-! ## The squares of the castle rooks -/

/-- The square that `K`, `Q`, `k` or `q` stands for holds a rook of the letter's colour on the
letter's rank; the square of any other letter lies on rank 1 or on rank 8. -/
theorem castleSquare_cases (b : Board) (ch : Char) (s : Nat) (h : castleSquare b ch s) :
    (s < 8 ∧ rookOn b WHITE s = true) ∨ (56 ≤ s ∧ s < 64 ∧ rookOn b BLACK s = true)
      ∨ (65 ≤ ch.toNat ∧ ch.toNat ≤ 72 ∧ s = ch.toNat - 65)
      ∨ (97 ≤ ch.toNat ∧ ch.toNat ≤ 104 ∧ s = 56 + (ch.toNat - 97)) := by
  unfold castleSquare highestRook lowestRook at h
  rcases h with h | h | h | h | h | h
  · exact Or.inl ⟨by omega, h.2.2.2.1⟩
  · exact Or.inl ⟨by omega, h.2.2.2.1⟩
  · exact Or.inr (Or.inl ⟨h.2.1, by omega, h.2.2.2.1⟩)
  · exact Or.inr (Or.inl ⟨h.2.1, by omega, h.2.2.2.1⟩)
  · exact Or.inr (Or.inr (Or.inl h))
  · exact Or.inr (Or.inr (Or.inr h))

/-- A rook by the bitboards is a rook by the mailbox, on a board whose mailbox agrees with
the bitboards. -/
theorem rookOn_mailbox (b : Board) (c s : Nat) (hc : c < 2) (hag : mailboxAgrees b s)
    (h : rookOn b c s = true) : b.squares s = makePiece ROOK c := by
  unfold rookOn at h
  rw [Bool.and_eq_true] at h
  exact (hag.1 ROOK c (by decide) hc).mpr ⟨h.2, h.1⟩

set_option maxRecDepth 100000 in
/-- C33 fails as stated: the FEN `4k3/8/8/8/8/8/8/4K3 w A - 0 1` is well-formed, its castling
field is the Shredder letter `A`, and `boardFromFEN` returns a board whose castle rooks are
the single square a1, which is empty: no rook of either colour stands there. -/
theorem boardFromFEN_castle_without_rook :
    fenWF sampleShredder = true
    ∧ cString (fenField sampleShredder 2) = ['A']
    ∧ castleRooksOf (boardFromFEN sampleTables sampleShredder 0) = some 1
    ∧ testBit 1 0 = true
    ∧ squareOf (boardFromFEN sampleTables sampleShredder 0) 0 = some EMPTY
    ∧ rookOnOf (boardFromFEN sampleTables sampleShredder 0) WHITE 0 = some false
    ∧ rookOnOf (boardFromFEN sampleTables sampleShredder 0) BLACK 0 = some false := by
  refine ⟨by decide, by decide, by decide, by decide, by decide, by decide, by decide⟩

/-- C33, amended: after `boardFromFEN` on a well-formed FEN every bit of `castleRooks` is a
square of rank 1 or of rank 8; it is a rank-1 square that holds a white rook, or a rank-8
square that holds a black rook, or the square that a Shredder letter of the castling field
names (`A`..`H` on rank 1, `a`..`h` on rank 8), whether or not a rook stands there. When every
Shredder letter of the field names a square that holds a rook of its colour, as in a field of
`K`, `Q`, `k`, `q` alone, every bit of `castleRooks` is a rank-1 square with a white rook or
a rank-8 square with a black rook, by the bitboards and by the mailbox. -/
theorem boardFromFEN_castle_squares (T : Tables) (fens : List Char) (chess960 : Int)
    (hwf : fenWF fens = true) :
    ∃ b, boardFromFEN T fens chess960 = .ok b
      ∧ (∀ s, testBit b.castleRooks s = true → s < 8 ∨ (56 ≤ s ∧ s < 64))
      ∧ (∀ s, testBit b.castleRooks s = true →
          (s < 8 ∧ rookOn b WHITE s = true) ∨ (56 ≤ s ∧ s < 64 ∧ rookOn b BLACK s = true)
          ∨ (∃ ch, ch ∈ cString (fenField fens 2)
              ∧ 65 ≤ ch.toNat ∧ ch.toNat ≤ 72 ∧ s = ch.toNat - 65)
          ∨ (∃ ch, ch ∈ cString (fenField fens 2)
              ∧ 97 ≤ ch.toNat ∧ ch.toNat ≤ 104 ∧ s = 56 + (ch.toNat - 97)))
      ∧ ((∀ ch, ch ∈ cString (fenField fens 2) →
            (65 ≤ ch.toNat → ch.toNat ≤ 72 → rookOn b WHITE (ch.toNat - 65) = true)
            ∧ (97 ≤ ch.toNat → ch.toNat ≤ 104 → rookOn b BLACK (56 + (ch.toNat - 97)) = true)) →
          ∀ s, testBit b.castleRooks s = true →
            (s < 8 ∧ rookOn b WHITE s = true ∧ b.squares s = makePiece ROOK WHITE)
            ∨ (56 ≤ s ∧ s < 64 ∧ rookOn b BLACK s = true
                ∧ b.squares s = makePiece ROOK BLACK))
      ∧ ((∀ ch, ch ∈ cString (fenField fens 2) →
            ch = 'K' ∨ ch = 'Q' ∨ ch = 'k' ∨ ch = 'q' ∨ ch = '-') →
          ∀ s, testBit b.castleRooks s = true →
            (s < 8 ∧ rookOn b WHITE s = true) ∨ (56 ≤ s ∧ s < 64 ∧ rookOn b BLACK s = true)) := by
  obtain ⟨b, hb⟩ := boardFromFEN_wf T fens chess960 hwf
  have hbits := boardFromFEN_castle_bits T fens chess960 b hb
  have hpl : placementWF (fenField fens 0) 0 0 = true := by
    unfold fenWF at hwf
    simp only [Bool.and_eq_true] at hwf
    exact hwf.1.1.1.1
  obtain ⟨b0, hinv, e1, e2, e3, -, -⟩ := boardFromFEN_placement T fens chess960 b hpl hb
  have hag : ∀ s, mailboxAgrees b s := fun s => hinv.agrees b e1 e2 e3 s
  have hgen : ∀ s, testBit b.castleRooks s = true →
      (s < 8 ∧ rookOn b WHITE s = true) ∨ (56 ≤ s ∧ s < 64 ∧ rookOn b BLACK s = true)
      ∨ (∃ ch, ch ∈ cString (fenField fens 2)
          ∧ 65 ≤ ch.toNat ∧ ch.toNat ≤ 72 ∧ s = ch.toNat - 65)
      ∨ (∃ ch, ch ∈ cString (fenField fens 2)
          ∧ 97 ≤ ch.toNat ∧ ch.toNat ≤ 104 ∧ s = 56 + (ch.toNat - 97)) := by
    intro s hs
    obtain ⟨ch, hm, hsq⟩ := (hbits s).mp hs
    rcases castleSquare_cases b ch s hsq with h | h | h | h
    · exact Or.inl h
    · exact Or.inr (Or.inl h)
    · exact Or.inr (Or.inr (Or.inl ⟨ch, hm, h⟩))
    · exact Or.inr (Or.inr (Or.inr ⟨ch, hm, h⟩))
  refine ⟨b, hb, ?_, hgen, ?_, ?_⟩
  · intro s hs
    rcases hgen s hs with h | h | ⟨ch, -, h⟩ | ⟨ch, -, h⟩
    · exact Or.inl h.1
    · exact Or.inr ⟨h.1, h.2.1⟩
    · exact Or.inl (by omega)
    · exact Or.inr (by omega)
  · intro hrook s hs
    rcases hgen s hs with h | h | ⟨ch, hm, h⟩ | ⟨ch, hm, h⟩
    · exact Or.inl ⟨h.1, h.2, rookOn_mailbox b WHITE s (by decide) (hag s) h.2⟩
    · exact Or.inr ⟨h.1, h.2.1, h.2.2, rookOn_mailbox b BLACK s (by decide) (hag s) h.2.2⟩
    · have hr := (hrook ch hm).1 h.1 h.2.1
      rw [← h.2.2] at hr
      exact Or.inl ⟨by omega, hr, rookOn_mailbox b WHITE s (by decide) (hag s) hr⟩
    · have hr := (hrook ch hm).2 h.1 h.2.1
      rw [← h.2.2] at hr
      exact Or.inr ⟨by omega, by omega, hr, rookOn_mailbox b BLACK s (by decide) (hag s) hr⟩
  · intro hletters s hs
    rcases hgen s hs with h | h | ⟨ch, hm, h⟩ | ⟨ch, hm, h⟩
    · exact Or.inl h
    · exact Or.inr h
    · exfalso
      have h1 := h.1
      have h2 := h.2.1
      rcases hletters ch hm with e | e | e | e | e <;> subst e <;> revert h1 h2 <;> decide
    · exfalso
      have h1 := h.1
      have h2 := h.2.1
      rcases hletters ch hm with e | e | e | e | e <;> subst e <;> revert h1 h2 <;> decide

set_option maxRecDepth 100000 in
/-- Witness of C33 at the start position, whose castling field is `KQkq`. -/
theorem boardFromFEN_castle_squares_witness :
    fenWF StartPosition = true
    ∧ ∃ b, boardFromFEN sampleTables StartPosition 0 = .ok b
        ∧ ∀ s, testBit b.castleRooks s = true → s < 8 ∨ (56 ≤ s ∧ s < 64) := by
  have hwf : fenWF StartPosition = true := by decide
  obtain ⟨b, hb, h1, _⟩ := boardFromFEN_castle_squares sampleTables StartPosition 0 hwf
  exact ⟨hwf, b, hb, h1⟩

/-! ## The castling field written by `boardToFEN` -/

theorem writeText_nil (fen : List Char) (i : Nat) : writeText fen i [] = .ok (fen, i) := rfl

theorem writeText_cons (fen : List Char) (i : Nat) (c : Char) (t : List Char) :
    writeText fen i (c :: t)
      = match put fen i c with
        | .ok fen1 => writeText fen1 (i + 1) t
        | .error e => .error e := by
  unfold writeText
  rw [putAll]
  cases put fen i c with
  | error e => rfl
  | ok fen1 =>
    dsimp only
    cases putAll fen1 (i + 1) t with
    | error e => rfl
    | ok fen2 =>
      dsimp only
      rw [List.length_cons, Nat.add_assoc, Nat.add_comm 1]

theorem writeText_append : ∀ (a b fen : List Char) (i : Nat),
    writeText fen i (a ++ b)
      = match writeText fen i a with
        | .ok st => writeText st.1 st.2 b
        | .error e => .error e
  | [], b, fen, i => by
    rw [List.nil_append, writeText_nil]
  | c :: a, b, fen, i => by
    rw [List.cons_append, writeText_cons, writeText_cons]
    cases put fen i c with
    | error e => rfl
    | ok fen1 =>
      dsimp only
      exact writeText_append a b fen1 (i + 1)

theorem bitsDown_mem (bb : Nat) : ∀ (n s : Nat),
    s ∈ bitsDown bb n ↔ s < n ∧ testBit bb s = true
  | 0, s => by
    rw [bitsDown]
    constructor
    · intro h
      cases h
    · intro h
      omega
  | n + 1, s => by
    rw [bitsDown]
    by_cases hb : testBit bb n = true
    · rw [if_pos hb, List.mem_cons, bitsDown_mem bb n s]
      constructor
      · rintro (h | h)
        · rw [h]
          exact ⟨Nat.lt_succ_self n, hb⟩
        · exact ⟨by omega, h.2⟩
      · intro h
        by_cases e : s = n
        · exact Or.inl e
        · exact Or.inr ⟨by omega, h.2⟩
    · rw [if_neg hb, bitsDown_mem bb n s]
      constructor
      · intro h
        exact ⟨by omega, h.2⟩
      · intro h
        have e : s ≠ n := by
          intro e
          rw [e] at h
          exact hb h.2
        exact ⟨by omega, h.2⟩

theorem bitsDown_length (bb : Nat) : ∀ n : Nat,
    (bitsDown bb n).length = (List.range n).countP (fun i => testBit bb i)
  | 0 => rfl
  | n + 1 => by
    rw [bitsDown, List.range_succ, List.countP_append, ← bitsDown_length bb n]
    by_cases hb : testBit bb n = true
    · rw [if_pos hb, List.length_cons, List.countP_cons_of_pos _ _ hb]
      rfl
    · rw [if_neg hb, List.countP_cons_of_neg _ _ hb]
      rfl

theorem bitsDown_popcount (bb : Nat) : (bitsDown bb 64).length = popcount bb :=
  bitsDown_length bb 64

theorem bitsDown_congr (a b : Nat) : ∀ n : Nat, (∀ s, s < n → testBit a s = testBit b s) →
    bitsDown a n = bitsDown b n
  | 0, _ => rfl
  | n + 1, h => by
    rw [bitsDown, bitsDown, h n (Nat.lt_succ_self n),
      bitsDown_congr a b n (fun s hs => h s (by omega))]

theorem bitsDown_above (bb n : Nat) : ∀ d : Nat,
    (∀ s, n ≤ s → s < n + d → testBit bb s = false) → bitsDown bb (n + d) = bitsDown bb n
  | 0, _ => rfl
  | d + 1, h => by
    have hb : ¬ (testBit bb (n + d) = true) := by
      rw [h (n + d) (by omega) (by omega)]
      exact Bool.false_ne_true
    show bitsDown bb (n + d + 1) = bitsDown bb n
    rw [bitsDown, if_neg hb]
    exact bitsDown_above bb n d (fun s h1 h2 => h s h1 (by omega))

theorem bitsDown_none (bb : Nat) (h : getmsb bb = none) : bitsDown bb 64 = [] := by
  have := bitsDown_above bb 0 64 (fun s _ hs => getmsb_none bb h s (by omega))
  rw [Nat.zero_add] at this
  rw [this]
  rfl

/-- The squares of a bitboard, highest first, are its highest square and then the squares of
the bitboard without it. -/
theorem bitsDown_pop (bb sq : Nat) (h : getmsb bb = some sq) :
    bitsDown bb 64 = sq :: bitsDown (clearBit bb sq) 64 := by
  obtain ⟨hlt, hbit⟩ := getmsb_some bb sq h
  have hmax := getmsb_max bb sq h
  have e1 : bitsDown bb 64 = bitsDown bb (sq + 1) := by
    have := bitsDown_above bb (sq + 1) (63 - sq) (fun s h1 h2 => hmax s (by omega) (by omega))
    rw [show sq + 1 + (63 - sq) = 64 by omega] at this
    exact this
  have e2 : bitsDown bb (sq + 1) = sq :: bitsDown bb sq := by
    rw [bitsDown, if_pos hbit]
  have e3 : bitsDown bb sq = bitsDown (clearBit bb sq) sq := by
    apply bitsDown_congr
    intro s hs
    rw [testBit_clearBit, decide_eq_false (by omega), Bool.not_false, Bool.and_true]
  have e4 : bitsDown (clearBit bb sq) 64 = bitsDown (clearBit bb sq) sq := by
    have := bitsDown_above (clearBit bb sq) sq (64 - sq) (by
      intro s h1 h2
      rw [testBit_clearBit]
      by_cases e : sq = s
      · rw [decide_eq_true e, Bool.not_true, Bool.and_false]
      · rw [hmax s (by omega) (by omega), Bool.false_and])
    rw [show sq + (64 - sq) = 64 by omega] at this
    exact this
  rw [e1, e2, e3, e4]

theorem fileOf_square (sq : Nat) (h : sq < 64) : (fileOf (sq : Int)).toNat = sq % 8 := by
  interval_cases sq <;> rfl

theorem testBit_FILE_H (sq : Nat) (h : sq < 64) : testBit FILE_H sq = decide (sq % 8 = 7) := by
  interval_cases sq <;> rfl

theorem testBit_FILE_A (sq : Nat) (h : sq < 64) : testBit FILE_A sq = decide (sq % 8 = 0) := by
  interval_cases sq <;> rfl

/-- One pass of a castle rights loop of `boardToFEN`: the letter of the highest square is
written, when it has one, and the loop goes on without that square. -/
theorem fenCastles_step (board : Board) (base : Nat) (kingSide queenSide : Char)
    (fuel castles sq : Nat) (fen : List Char) (i : Nat) (h : getmsb castles = some sq) :
    fenCastles board base kingSide queenSide (fuel + 1) castles (fen, i)
      = match castleLetter board base kingSide queenSide sq with
        | some c =>
          (match put fen i c with
           | .ok fen1 =>
             fenCastles board base kingSide queenSide fuel (clearBit castles sq) (fen1, i + 1)
           | .error e => .error e)
        | none => fenCastles board base kingSide queenSide fuel (clearBit castles sq) (fen, i) := by
  have hlt := (getmsb_some castles sq h).1
  rw [fenCastles]
  unfold popmsb castleLetter
  rw [h]
  dsimp only [Option.map]
  by_cases h9 : board.chess960 ≠ 0
  · rw [if_pos h9, if_pos h9, fileOf_square sq hlt]
  · rw [if_neg h9, if_neg h9, testBit_FILE_H sq hlt, testBit_FILE_A sq hlt]
    by_cases hH : sq % 8 = 7
    · rw [if_pos (decide_eq_true hH), if_pos hH]
    · rw [if_neg (by rw [decide_eq_false hH]; exact Bool.false_ne_true), if_neg hH]
      by_cases hA : sq % 8 = 0
      · rw [if_pos (decide_eq_true hA), if_pos hA]
      · rw [if_neg (by rw [decide_eq_false hA]; exact Bool.false_ne_true), if_neg hA]

/-- A castle rights loop of `boardToFEN` writes the letters of the squares of `castles`,
highest square first; 64 passes are enough for any bitboard. -/
theorem fenCastles_eq (board : Board) (base : Nat) (kingSide queenSide : Char) :
    ∀ (fuel castles : Nat) (fen : List Char) (i : Nat),
      (bitsDown castles 64).length ≤ fuel →
      fenCastles board base kingSide queenSide fuel castles (fen, i)
        = writeText fen i
            ((bitsDown castles 64).filterMap (castleLetter board base kingSide queenSide))
  | 0, castles, fen, i, hlen => by
    have e : bitsDown castles 64 = [] := List.length_eq_zero.mp (Nat.le_zero.mp hlen)
    rw [e, fenCastles]
    rfl
  | fuel + 1, castles, fen, i, hlen => by
    cases hg : getmsb castles with
    | none =>
      rw [bitsDown_none castles hg, fenCastles]
      unfold popmsb
      rw [hg]
      rfl
    | some sq =>
      rw [fenCastles_step board base kingSide queenSide fuel castles sq fen i hg]
      rw [bitsDown_pop castles sq hg] at hlen ⊢
      have hlen1 : (bitsDown (clearBit castles sq) 64).length ≤ fuel := by
        rw [List.length_cons] at hlen
        omega
      cases hL : castleLetter board base kingSide queenSide sq with
      | none =>
        rw [List.filterMap_cons_none hL]
        exact fenCastles_eq board base kingSide queenSide fuel _ fen i hlen1
      | some c =>
        rw [List.filterMap_cons_some hL, writeText_cons]
        dsimp only
        cases put fen i c with
        | error e => rfl
        | ok fen1 =>
          dsimp only
          exact fenCastles_eq board base kingSide queenSide fuel _ fen1 (i + 1) hlen1

theorem bitsDown_le (bb : Nat) : ∀ n : Nat, (bitsDown bb n).length ≤ n
  | 0 => Nat.le_refl _
  | n + 1 => by
    rw [bitsDown]
    have := bitsDown_le bb n
    by_cases hb : testBit bb n = true
    · rw [if_pos hb, List.length_cons]
      omega
    · rw [if_neg hb]
      omega

/-- The castling statements of `boardToFEN` write the castling field of the board at the
index they find, on any board and any buffer. -/
theorem fenCastleField_eq (board : Board) (fen : List Char) (i : Nat) :
    fenCastleField board (fen, i) = writeText fen i (castleFieldText board) := by
  unfold fenCastleField castleFieldText
  rw [fenCastles_eq board 65 'K' 'Q' 64 _ fen i (bitsDown_le _ 64), writeText_append,
    writeText_append]
  cases writeText fen i ((bitsDown (board.colours WHITE &&& board.castleRooks) 64).filterMap
      (castleLetter board 65 'K' 'Q')) with
  | error e => rfl
  | ok st3 =>
    dsimp only
    rw [show st3 = (st3.1, st3.2) from rfl,
      fenCastles_eq board 97 'k' 'q' 64 _ st3.1 st3.2 (bitsDown_le _ 64)]
    cases writeText st3.1 st3.2
        ((bitsDown (board.colours BLACK &&& board.castleRooks) 64).filterMap
          (castleLetter board 97 'k' 'q')) with
    | error e => rfl
    | ok st4 =>
      dsimp only
      by_cases hz : board.castleRooks = 0
      · rw [if_pos hz, if_pos hz, writeText_cons]
        cases put st4.1 st4.2 (Char.ofNat 45) with
        | error e => rfl
        | ok fen5 => rfl
      · rw [if_neg hz, if_neg hz, writeText_nil]

/-- The function `boardToFEN` runs the castling statements between the turn of play and the
final `sprintf`. -/
theorem boardToFEN_castleField (board : Board) (fen : List Char) :
    boardToFEN board fen
      = match fenRanks board [7, 6, 5, 4, 3, 2, 1, 0] (fen, 0) with
        | .error e => .error e
        | .ok st1 =>
          match putAll st1.1 st1.2 [if board.turn = 0 then 'w' else 'b', ' '] with
          | .error e => .error e
          | .ok fen2 =>
            match fenCastleField board (fen2, st1.2 + 2) with
            | .error e => .error e
            | .ok st5 =>
              match squareToString board.epSquare with
              | .error e => .error e
              | .ok str =>
                putAll st5.1 0
                  ([' '] ++ str ++ [' '] ++ formatInt board.halfMoveCounter ++ [' ']
                    ++ formatInt board.fullMoveCounter ++ [Char.ofNat 0]) := by
  unfold boardToFEN fenCastleField
  cases fenRanks board [7, 6, 5, 4, 3, 2, 1, 0] (fen, 0) with
  | error e => rfl
  | ok st1 =>
    dsimp only
    cases putAll st1.1 st1.2 [if board.turn = 0 then 'w' else 'b', ' '] with
    | error e => rfl
    | ok fen2 =>
      dsimp only
      cases fenCastles board 65 'K' 'Q' 64 (board.colours WHITE &&& board.castleRooks)
          (fen2, st1.2 + 2) with
      | error e => rfl
      | ok st3 =>
        dsimp only
        cases fenCastles board 97 'k' 'q' 64 (board.colours BLACK &&& board.castleRooks)
            st3 with
        | error e => rfl
        | ok st4 =>
          dsimp only
          by_cases hz : board.castleRooks = 0
          · rw [if_pos hz, if_pos hz]
            cases put st4.1 st4.2 (Char.ofNat 45) with
            | error e => rfl
            | ok fen5 => rfl
          · rw [if_neg hz, if_neg hz]

/-- On a board that `boardFromFEN` returned with `chess960` 0, every castle rook stands on
a1, h1, a8 or h8. -/
theorem boardFromFEN_standard (T : Tables) (fens : List Char) (chess960 : Int) (b : Board)
    (hb : boardFromFEN T fens chess960 = .ok b) (h0 : b.chess960 = 0) :
    ∀ s, testBit b.castleRooks s = true → s = 0 ∨ s = 7 ∨ s = 56 ∨ s = 63 := by
  obtain ⟨b0, cr, hm, fm, -, -, -, -, -, -, -, -, -, -, -, e8, -, -, -, -, -, -, e15, -⟩ :=
    boardFromFEN_ok_elim T fens chess960 b hb
  intro s hs
  by_contra hn
  have hlt := boardFromFEN_castle_lt T fens chess960 b hb s hs
  have hmask : (cr &&& (allON ^^^ StandardCastles)) ≠ 0 := by
    rw [and_ne_zero_iff]
    refine ⟨s, ?_, ?_⟩
    · rw [← e8]
      exact hs
    · rw [testBit_not_standard, decide_eq_true_eq]
      exact ⟨hlt, by omega, by omega, by omega, by omega⟩
  have h1 : b.chess960 ≠ 0 := by
    rw [e15]
    exact (flag_ne_zero _).mpr (Or.inr hmask)
  exact h1 h0

theorem castleLetter_corner (board : Board) (base : Nat) (kingSide queenSide : Char) (s : Nat)
    (h : board.chess960 ≠ 0 ∨ s = 0 ∨ s = 7 ∨ s = 56 ∨ s = 63) :
    ∃ c, castleLetter board base kingSide queenSide s = some c := by
  unfold castleLetter
  by_cases h9 : board.chess960 ≠ 0
  · rw [if_pos h9]
    exact ⟨_, rfl⟩
  · rw [if_neg h9]
    rcases h with h | h | h | h | h
    · exact absurd h h9
    · subst h
      exact ⟨queenSide, rfl⟩
    · subst h
      exact ⟨kingSide, rfl⟩
    · subst h
      exact ⟨queenSide, rfl⟩
    · subst h
      exact ⟨kingSide, rfl⟩

theorem castleLetter_ne_dash (board : Board) (base : Nat) (kingSide queenSide : Char) (s : Nat)
    (c : Char) (hbase : base = 65 ∨ base = 97) (hk : kingSide ≠ '-') (hq : queenSide ≠ '-')
    (h : castleLetter board base kingSide queenSide s = some c) : c ≠ '-' := by
  unfold castleLetter at h
  by_cases h9 : board.chess960 ≠ 0
  · rw [if_pos h9] at h
    have e : Char.ofNat (base + s % 8) = c := Option.some.inj h
    have hm : s % 8 < 8 := Nat.mod_lt _ (by decide)
    rw [← e]
    generalize s % 8 = m at hm
    rcases hbase with hb | hb <;> subst hb <;> interval_cases m <;> decide
  · rw [if_neg h9] at h
    by_cases hH : s % 8 = 7
    · rw [if_pos hH] at h
      rw [← Option.some.inj h]
      exact hk
    · rw [if_neg hH] at h
      by_cases hA : s % 8 = 0
      · rw [if_pos hA] at h
        rw [← Option.some.inj h]
        exact hq
      · rw [if_neg hA] at h
        cases h

theorem filterMap_length_some {α β : Type} (f : α → Option β) : ∀ l : List α,
    (∀ x ∈ l, ∃ y, f x = some y) → (l.filterMap f).length = l.length
  | [], _ => rfl
  | a :: l, h => by
    obtain ⟨y, hy⟩ := h a (List.mem_cons_self a l)
    rw [List.filterMap_cons_some hy, List.length_cons, List.length_cons,
      filterMap_length_some f l (fun x hx => h x (List.mem_cons_of_mem a hx))]

/-- In the final placement state every square is empty, or holds a white piece, or holds a
black piece, and the colour bitboards say which. -/
theorem PlacementInv.one_of {T : Tables} {b0 : Board} (hinv : PlacementInv T b0 64) (s : Nat) :
    (decide (b0.squares s = EMPTY) = true ∧ testBit (b0.colours WHITE) s = false
        ∧ testBit (b0.colours BLACK) s = false)
    ∨ (decide (b0.squares s = EMPTY) = false ∧ testBit (b0.colours WHITE) s = true
        ∧ testBit (b0.colours BLACK) s = false)
    ∨ (decide (b0.squares s = EMPTY) = false ∧ testBit (b0.colours WHITE) s = false
        ∧ testBit (b0.colours BLACK) s = true) := by
  have hc0 := hinv.colours WHITE s (by decide)
  have hc1 := hinv.colours BLACK s (by decide)
  have hfalse : ∀ c, (testBit (b0.colours c) s = true ↔ pieceColour (b0.squares s) = c) →
      pieceColour (b0.squares s) ≠ c → testBit (b0.colours c) s = false := by
    intro c hiff hne
    cases hx : testBit (b0.colours c) s with
    | false => rfl
    | true => exact absurd (hiff.mp hx) hne
  rcases hinv.valid s with he | ⟨_, p, c, _, hc, hsq⟩
  · have h2 : pieceColour (b0.squares s) = 2 := by rw [he]; rfl
    refine Or.inl ⟨decide_eq_true he, hfalse WHITE hc0 ?_, hfalse BLACK hc1 ?_⟩
    · rw [h2]; decide
    · rw [h2]; decide
  · have hcol : pieceColour (b0.squares s) = c := by
      rw [hsq]
      exact makePiece_colour p c (by omega)
    have hne : b0.squares s ≠ EMPTY := by
      rw [hsq]
      exact makePiece_ne_empty p c hc
    have hc01 : c = 0 ∨ c = 1 := by omega
    rcases hc01 with e | e
    · refine Or.inr (Or.inl ⟨decide_eq_false hne, hc0.mpr ?_, hfalse BLACK hc1 ?_⟩)
      · rw [hcol, e]; rfl
      · rw [hcol, e]; decide
    · refine Or.inr (Or.inr ⟨decide_eq_false hne, hfalse WHITE hc0 ?_, hc1.mpr ?_⟩)
      · rw [hcol, e]; decide
      · rw [hcol, e]; rfl

/-- The castle rooks are those on a white piece, those on a black piece and those on an empty
square. -/
theorem popcount_castleRooks {T : Tables} {b0 : Board} (hinv : PlacementInv T b0 64)
    (b : Board) (e1 : b.squares = b0.squares) (e3 : b.colours = b0.colours) :
    popcount b.castleRooks
      = popcount (b.colours WHITE &&& b.castleRooks)
        + popcount (b.colours BLACK &&& b.castleRooks) + strandedRooks b := by
  rw [popcount_and, popcount_and]
  unfold popcount strandedRooks
  apply countP_split3
  intro s _
  rw [e1, e3]
  rcases hinv.one_of s with ⟨h1, h2, h3⟩ | ⟨h1, h2, h3⟩ | ⟨h1, h2, h3⟩
    <;> rw [h1, h2, h3] <;> cases testBit b.castleRooks s <;> rfl

/-- C38, amended: on a board that `boardFromFEN` returned for a well-formed FEN, with either
value of the `chess960` argument, the castling statements of `boardToFEN` write the castling
field of the board: one letter for every castle rook that stands on a piece, none for a
castle rook on an empty square, and `-` exactly when `castleRooks` is empty. Every castle rook
has a letter to be written by (off the a- and h-files the board is a Chess960 board); so the
number of letters written and the number of castle rooks on empty squares add up to the number
of bits of `castleRooks`, and the field has exactly one letter per bit when every castle rook
stands on a piece. -/
theorem boardToFEN_castle_letters (T : Tables) (fens : List Char) (chess960 : Int)
    (hwf : fenWF fens = true) :
    ∃ b, boardFromFEN T fens chess960 = .ok b
      ∧ (∀ fen i, fenCastleField b (fen, i) = writeText fen i (castleFieldText b))
      ∧ (∀ s, testBit b.castleRooks s = true →
          (∃ c, castleLetter b 65 'K' 'Q' s = some c)
          ∧ (∃ c, castleLetter b 97 'k' 'q' s = some c))
      ∧ (castleFieldText b).length + strandedRooks b
          = popcount b.castleRooks + (if b.castleRooks = 0 then 1 else 0)
      ∧ ('-' ∈ castleFieldText b ↔ b.castleRooks = 0)
      ∧ ((∀ s, testBit b.castleRooks s = true → b.squares s ≠ EMPTY) →
          (castleFieldText b).length
            = popcount b.castleRooks + (if b.castleRooks = 0 then 1 else 0)) := by
  obtain ⟨b, hb⟩ := boardFromFEN_wf T fens chess960 hwf
  have hpl : placementWF (fenField fens 0) 0 0 = true := by
    unfold fenWF at hwf
    simp only [Bool.and_eq_true] at hwf
    exact hwf.1.1.1.1
  obtain ⟨b0, hinv, e1, -, e3, -, -⟩ := boardFromFEN_placement T fens chess960 b hpl hb
  have hcorner : ∀ s, testBit b.castleRooks s = true →
      b.chess960 ≠ 0 ∨ s = 0 ∨ s = 7 ∨ s = 56 ∨ s = 63 := by
    intro s hs
    by_cases h0 : b.chess960 = 0
    · exact Or.inr (boardFromFEN_standard T fens chess960 b hb h0 s hs)
    · exact Or.inl h0
  have hbit : ∀ (w s : Nat), s ∈ bitsDown (w &&& b.castleRooks) 64 →
      testBit b.castleRooks s = true := by
    intro w s hs
    have h1 := ((bitsDown_mem _ 64 s).mp hs).2
    unfold testBit at h1 ⊢
    rw [Nat.testBit_and, Bool.and_eq_true] at h1
    exact h1.2
  have hlenW : ((bitsDown (b.colours WHITE &&& b.castleRooks) 64).filterMap
      (castleLetter b 65 'K' 'Q')).length = popcount (b.colours WHITE &&& b.castleRooks) := by
    rw [filterMap_length_some _ _
      (fun s hs => castleLetter_corner b 65 'K' 'Q' s (hcorner s (hbit _ s hs))),
      bitsDown_popcount]
  have hlenB : ((bitsDown (b.colours BLACK &&& b.castleRooks) 64).filterMap
      (castleLetter b 97 'k' 'q')).length = popcount (b.colours BLACK &&& b.castleRooks) := by
    rw [filterMap_length_some _ _
      (fun s hs => castleLetter_corner b 97 'k' 'q' s (hcorner s (hbit _ s hs))),
      bitsDown_popcount]
  have hdash : (if b.castleRooks = 0 then ['-'] else ([] : List Char)).length
      = (if b.castleRooks = 0 then 1 else 0) := by
    by_cases hz : b.castleRooks = 0
    · rw [if_pos hz, if_pos hz]
      rfl
    · rw [if_neg hz, if_neg hz]
      rfl
  have hlen : (castleFieldText b).length
      = popcount (b.colours WHITE &&& b.castleRooks)
        + popcount (b.colours BLACK &&& b.castleRooks)
        + (if b.castleRooks = 0 then 1 else 0) := by
    unfold castleFieldText
    rw [List.length_append, List.length_append, hlenW, hlenB, hdash]
  have hsplit := popcount_castleRooks hinv b e1 e3
  refine ⟨b, hb, fun fen i => fenCastleField_eq b fen i,
    fun s hs => ⟨castleLetter_corner b 65 'K' 'Q' s (hcorner s hs),
      castleLetter_corner b 97 'k' 'q' s (hcorner s hs)⟩, ?_, ?_, ?_⟩
  · rw [hlen, hsplit]
    omega
  · constructor
    · intro hmem
      unfold castleFieldText at hmem
      rcases List.mem_append.mp hmem with hm | hm
      · rcases List.mem_append.mp hm with hm1 | hm1
        · obtain ⟨s, _, hs⟩ := List.mem_filterMap.mp hm1
          exact absurd rfl (castleLetter_ne_dash b 65 'K' 'Q' s '-' (Or.inl rfl) (by decide)
            (by decide) hs)
        · obtain ⟨s, _, hs⟩ := List.mem_filterMap.mp hm1
          exact absurd rfl (castleLetter_ne_dash b 97 'k' 'q' s '-' (Or.inr rfl) (by decide)
            (by decide) hs)
      · by_cases hz : b.castleRooks = 0
        · exact hz
        · rw [if_neg hz] at hm
          cases hm
    · intro hz
      unfold castleFieldText
      rw [if_pos hz]
      exact List.mem_append_right _ (List.mem_singleton.mpr rfl)
  · intro hocc
    have hzero : strandedRooks b = 0 := by
      unfold strandedRooks
      rw [List.countP_eq_zero]
      intro s _ hs
      rw [Bool.and_eq_true, decide_eq_true_eq] at hs
      exact hocc s hs.1 hs.2
    rw [hlen, hsplit, hzero]
    omega

set_option maxRecDepth 100000 in
/-- Witness of C38 at the start position, whose castling field is `KQkq`. -/
theorem boardToFEN_castle_letters_witness :
    fenWF StartPosition = true
    ∧ ∃ b, boardFromFEN sampleTables StartPosition 0 = .ok b
        ∧ (∀ fen i, fenCastleField b (fen, i) = writeText fen i (castleFieldText b))
        ∧ (castleFieldText b).length + strandedRooks b
            = popcount b.castleRooks + (if b.castleRooks = 0 then 1 else 0) := by
  have hwf : fenWF StartPosition = true := by decide
  obtain ⟨b, hb, h1, _, h3, _⟩ := boardToFEN_castle_letters sampleTables StartPosition 0 hwf
  exact ⟨hwf, b, hb, h1, h3⟩

set_option maxRecDepth 100000 in
/-- C38 fails as stated: for the well-formed FEN `4k3/8/8/8/8/8/8/4K3 w A - 0 1`,
`boardFromFEN` returns a board whose castle rooks are the one square a1, which is empty. With
either value of the `chess960` argument the castling statements of `boardToFEN` write nothing
for it and leave the index where it was: the bit is on no white and on no black piece, and
`castleRooks` is not 0, so no `-` is written either. The buffer after `boardToFEN` shows the
placement and the turn, cut by the final `sprintf`, and no castling field behind them. -/
theorem boardToFEN_drops_castle_rook :
    fenWF sampleShredder = true
    ∧ castleRooksOf (boardFromFEN sampleTables sampleShredder 0) = some 1
    ∧ castleRooksOf (boardFromFEN sampleTables sampleShredder 1) = some 1
    ∧ popcount 1 = 1
    ∧ castleWrittenOf (boardFromFEN sampleTables sampleShredder 0) ['?', '?', '?'] 0
        = some (['?', '?', '?'], 0)
    ∧ castleWrittenOf (boardFromFEN sampleTables sampleShredder 1) ['?', '?', '?'] 0
        = some (['?', '?', '?'], 0)
    ∧ boardToFENOf (boardFromFEN sampleTables sampleShredder 0) (List.replicate 24 '?')
        = some (" - 0 1".toList ++ Char.ofNat 0 :: "/8/8/8/8/4K3 w ??".toList) := by
  refine ⟨by decide, by decide, by decide, by decide, by decide, by decide, by decide⟩

end Ethereal
